import Mathlib


/-!
# qskeleton: double description method and Fourier–Motzkin elimination

A shallow embedding of the qskeleton sources (`src/utils`, `src/ddm`,
`src/elimination`) in integer mode, followed by theorems about the embedded
functions.

Conventions of the embedding.

* The templates are generic in the coefficient type `T`; the embedding takes
  it as a parameter `Utils.Coeff`. A value of `T` is an `Int`, and every
  operation of `T` (`+`, `-`, `*`, unary `-`, `/`) yields the value of type `T`
  that the exact result is stored as: for `Coeff.int`, the 32-bit `int` that
  `ddmUI` and `eliminationUI` instantiate in integer mode, the result is
  reduced modulo `2 ^ 32` into `[-2 ^ 31, 2 ^ 31)` (two's complement, also for
  the quotient of `-2 ^ 31` by `-1`); for `Coeff.exact`, an integer type in
  which no operation overflows, it is the exact result. C++ integer division
  is `Int.tdiv` (truncation toward zero). The tolerance `zerotol` is 0 in
  integer mode, so its negation `-zerotol` is written exactly.
* A C++ array or `Utils::Vector` is a `List`; `Vector::erase(idx)` overwrites
  position `idx` with the last element and drops the last element.
* Pointers to rays are indices into a heap list that only grows; a deleted
  ray stays in the heap but leaves `extremeRays`.
* `size_t` and `unsigned long` are 64 bits wide (`Utils.sizeBits`); the index
  type `Set::value_type` of a set implementation has `idxBits` bits, and the
  counter `numProcessedInequalities`, which has that type, wraps accordingly.
* `rand()` is a parameter `rnd : Nat → Nat`, the value of the `k`-th call.
* `while` loops whose trip count is bounded by a quantity of the state take
  that bound as structural fuel; the main loop of `Algorithm::run` takes an
  explicit fuel argument and reports `none` when it is exhausted or when the
  C++ code would read outside an array.
-/

namespace Utils

/-! ## The coefficient type `T` -/

/-- The coefficient type `T` of the templates: `int` is the 32-bit
two's-complement `int` (`processTask<int>` in both mains), `exact` an integer
type in which no operation overflows. -/
inductive Coeff where
  | int
  | exact
deriving DecidableEq, Repr

namespace Coeff

/-- The value of type `T` that an exact result `x` is stored as. -/
def wrap : Coeff → Int → Int
  | int, x => (x + 2147483648) % 4294967296 - 2147483648
  | exact, x => x

/-- `a + b` in `T`. -/
def add (t : Coeff) (a b : Int) : Int := t.wrap (a + b)

/-- `a - b` in `T`. -/
def sub (t : Coeff) (a b : Int) : Int := t.wrap (a - b)

/-- `a * b` in `T`. -/
def mul (t : Coeff) (a b : Int) : Int := t.wrap (a * b)

/-- `-a` in `T`. -/
def neg (t : Coeff) (a : Int) : Int := t.wrap (-a)

/-- `a / b` in `T`. -/
def div (t : Coeff) (a b : Int) : Int := t.wrap (Int.tdiv a b)

/-- A value of the type whose negation is a value of the type as well; for
`int` this excludes the least value `-2147483648` only. -/
@[reducible] def Fits (t : Coeff) (x : Int) : Prop := t.wrap x = x ∧ t.wrap (-x) = -x

end Coeff

/-! ## Gcd.hpp -/

/-- The `while (r != 0)` loop of `gcd(T a, T b)`: the state is `(b, r)` and one
iteration performs `a = b; b = r; r = a - (a / b) * b`. -/
def gcdLoop (t : Coeff) : Nat → Int → Int → Int
  | 0, b, _ => b
  | fuel + 1, b, r =>
    if r ≠ 0 then gcdLoop t fuel r (t.sub b (t.mul (t.div b r) r)) else b

/-- `template <typename T> T gcd(T a, T b)`; the absolute value of the
remainder decreases in every iteration of the loop, so `|b| + 1` bounds the
trip count. -/
def gcd (t : Coeff) (a b : Int) : Int :=
  let a1 := if a < 0 then t.neg a else a
  let b1 := if b < 0 then t.neg b else b
  if a1 = 0 ∧ b1 = 0 then 1
  else if a1 = 0 then b1
  else if b1 = 0 then a1
  else gcdLoop t (b1.natAbs + 1) b1 (t.sub a1 (t.mul (t.div a1 b1) b1))

/-- Second loop of `gcd(const T* vector, size_t size)`: fold the remaining
entries into `delta`, skipping zeros and stopping as soon as `delta == 1`. -/
def gcdVecTail (t : Coeff) : Int → List Int → Int
  | delta, [] => delta
  | delta, x :: xs =>
    if x ≠ 0 then
      (if gcd t delta x = 1 then gcd t delta x else gcdVecTail t (gcd t delta x) xs)
    else gcdVecTail t delta xs

/-- `template <typename T> T gcd(const T* vector, size_t size)`: the first loop
looks for the first non-zero entry and takes its absolute value. -/
def gcdVec (t : Coeff) : List Int → Int
  | [] => 1
  | x :: xs =>
    if x ≠ 0 then gcdVecTail t (if x < 0 then t.neg x else x) xs else gcdVec t xs

/-- `normalizeIntVector`: divide every entry by the gcd of the vector. -/
def normalizeIntVector (t : Coeff) (v : List Int) : List Int :=
  v.map (fun x => t.div x (gcdVec t v))

/-! ## Vector.hpp -/

/-- `Vector::erase(idx)`: `--numElements; elements[idx] = elements[numElements]`. -/
def Vector.erase {α : Type} (v : List α) (idx : Nat) : List α :=
  match v.getLast? with
  | none => v
  | some last => (v.set idx last).dropLast

/-- `Vector::remove(element)`: the loop erases every occurrence, re-examining
the position after each erase. -/
def Vector.removeLoop {α : Type} [DecidableEq α] (element : α) :
    Nat → Nat → List α → List α
  | 0, _, v => v
  | fuel + 1, i, v =>
    if i < v.length then
      (if v.get? i = some element then Vector.removeLoop element fuel i (Vector.erase v i)
       else Vector.removeLoop element fuel (i + 1) v)
    else v

/-- `Vector::remove(element)`. -/
def Vector.remove {α : Type} [DecidableEq α] (v : List α) (element : α) : List α :=
  Vector.removeLoop element v.length 0 v

/-! ## Set.hpp -/

/-- Operations that the algorithms require of their template parameter `Set`,
together with the width in bits of `Set::value_type`. -/
structure SetOps (S : Type) where
  /-- Constructor `Set(size_t)`: the empty set. -/
  create : Nat → S
  /-- Constructor `Set(const Set& a, const Set& b)`: the intersection. -/
  inter : S → S → S
  /-- Member `add(element)`. -/
  add : S → Nat → S
  /-- Member `size()`. -/
  size : S → Nat
  /-- Member `isSubsetOf(s)`. -/
  isSubsetOf : S → S → Bool
  /-- Friend `intersectionSize(a, b)`. -/
  intersectionSize : S → S → Nat
  /-- Member `toVector()`. -/
  toVector : S → List Nat
  /-- Width of `value_type`. -/
  idxBits : Nat

/-- Width of `size_t` and of `unsigned long`. -/
def sizeBits : Nat := 64

/-- Subtraction of `size_t` values, which wraps modulo `2 ^ 64`. -/
def subSizeT (a b : Nat) : Nat :=
  (a % 2 ^ sizeBits + (2 ^ sizeBits - b % 2 ^ sizeBits)) % 2 ^ sizeBits

namespace VectorSet

/-- Merge loop of the constructor `VectorSet(a, b)`. -/
def interLoop : Nat → List Nat → List Nat → List Nat
  | fuel + 1, a :: as, b :: bs =>
    if a < b then interLoop fuel as (b :: bs)
    else if a > b then interLoop fuel (a :: as) bs
    else a :: interLoop fuel as bs
  | _, _, _ => []

/-- Constructor `VectorSet(a, b)`. -/
def inter (a b : List Nat) : List Nat := interLoop (a.length + b.length) a b

/-- `VectorSet::add(element)`: scanning from the end, the elements greater
than `element` move one place to the right and `element` is stored in front
of them. -/
def add (w : Nat) (s : List Nat) (element : Nat) : List Nat :=
  (s.reverse.dropWhile (fun x => decide (x > element % 2 ^ w))).reverse
    ++ [element % 2 ^ w]
    ++ (s.reverse.takeWhile (fun x => decide (x > element % 2 ^ w))).reverse

/-- The `while` loop of `VectorSet::isSubsetOf`, on the remaining parts of the
two arrays. -/
def subsetLoop : List Nat → List Nat → Bool
  | [], _ => true
  | _ :: _, [] => false
  | a :: as, b :: bs =>
    if a = b then subsetLoop as bs
    else if a < b then false
    else subsetLoop (a :: as) bs

/-- `VectorSet::isSubsetOf(s)`. -/
def isSubsetOf (a s : List Nat) : Bool :=
  if a.length > s.length then false else subsetLoop a s

/-- Merge loop of `intersectionSize(a, b)`. -/
def sizeLoop : Nat → List Nat → List Nat → Nat
  | fuel + 1, a :: as, b :: bs =>
    if a < b then sizeLoop fuel as (b :: bs)
    else if a > b then sizeLoop fuel (a :: as) bs
    else sizeLoop fuel as bs + 1
  | _, _, _ => 0

/-- Friend `intersectionSize(a, b)`. -/
def intersectionSize (a b : List Nat) : Nat := sizeLoop (a.length + b.length) a b

/-- `VectorSet<T>` for an unsigned element type of `w` bits. -/
def ops (w : Nat) : SetOps (List Nat) where
  create := fun _ => []
  inter := inter
  add := add w
  size := List.length
  isSubsetOf := isSubsetOf
  intersectionSize := intersectionSize
  toVector := id
  idxBits := w

end VectorSet

namespace BitFieldSet

/-- `cellSizeBits = 8 * sizeof(size_t)`. -/
def cellSizeBits : Nat := sizeBits

/-- `numCells = (maxPower + cellSizeBits - 1) / cellSizeBits`. -/
def numCells (maxPower : Nat) : Nat := (maxPower + cellSizeBits - 1) / cellSizeBits

/-- The bit-twiddling count applied to one cell in `size()` and in
`intersectionSize`. -/
def cellCount (b0 : Nat) : Nat :=
  let b1 := b0 - ((b0 >>> 1) &&& 0x55555555)
  let b2 := (b1 &&& 0x33333333) + ((b1 >>> 2) &&& 0x33333333)
  let b3 := (b2 + (b2 >>> 4)) &&& 0x0F0F0F0F
  let b4 := b3 + (b3 >>> 8)
  let b5 := b4 + (b4 >>> 16)
  b5 &&& 0x0000003F

/-- Constructor `BitFieldSet(size_t)`. -/
def mk (maxPower : Nat) : List Nat := List.replicate (numCells maxPower) 0

/-- Constructor `BitFieldSet(a, b)`. -/
def inter (a b : List Nat) : List Nat := List.zipWith (fun x y => x &&& y) a b

/-- `BitFieldSet::add(element)`. -/
def add (s : List Nat) (element : Nat) : List Nat :=
  s.set (element / cellSizeBits)
    (s.getD (element / cellSizeBits) 0 ||| (1 <<< (element % cellSizeBits)))

/-- `BitFieldSet::size()`. -/
def size (s : List Nat) : Nat := (s.map cellCount).foldl (fun x y => x + y) 0

/-- `BitFieldSet::isSubsetOf(s)`: no cell has a bit outside the
corresponding cell of `s`. -/
def isSubsetOf (a s : List Nat) : Bool :=
  (List.zipWith (fun x y => decide (x &&& (2 ^ cellSizeBits - 1 - y) = 0)) a s).all id

/-- Friend `intersectionSize(a, b)`. -/
def intersectionSize (a b : List Nat) : Nat :=
  ((List.zipWith (fun x y => x &&& y) a b).map cellCount).foldl (fun x y => x + y) 0

/-- `BitFieldSet::toVector()`. -/
def toVector (maxPower : Nat) (s : List Nat) : List Nat :=
  (List.range maxPower).filter
    (fun i => decide (s.getD (i / cellSizeBits) 0 &&& (1 <<< (i % cellSizeBits)) ≠ 0))

/-- `BitFieldSet<maxPower>`; its `value_type` is `size_t`. -/
def ops (maxPower : Nat) : SetOps (List Nat) where
  create := fun _ => mk maxPower
  inter := inter
  add := add
  size := size
  isSubsetOf := isSubsetOf
  intersectionSize := intersectionSize
  toVector := toVector maxPower
  idxBits := sizeBits

end BitFieldSet

/-! ## Matrix.hpp -/

/-- `Utils::Matrix<T>`: `numCols` and the array of rows (`numRows` is the
length of `rows`). -/
structure Matrix where
  numCols : Nat
  rows : List (List Int)
deriving DecidableEq, Repr

namespace Matrix

/-- `nrows()`. -/
def nrows (m : Matrix) : Nat := m.rows.length

/-- `ncols()`. -/
def ncols (m : Matrix) : Nat := m.numCols

/-- `row(i)`. -/
def row (m : Matrix) (i : Nat) : List Int := m.rows.getD i []

/-- `operator()(i, j)`. -/
def get (m : Matrix) (i j : Nat) : Int := (m.row i).getD j 0

/-- `resize(nrows, ncols)`: a fresh matrix of the given size (the entries, which
the source leaves uninitialized, are 0 here; every caller in the embedded code
either passes `nrows = 0` or overwrites all entries). -/
def resize (nrows ncols : Nat) : Matrix :=
  ⟨ncols, List.replicate nrows (List.replicate ncols 0)⟩

/-- `assign_eye(n)`. -/
def assign_eye (n : Nat) : Matrix :=
  ⟨n, (List.range n).map (fun i =>
    (List.range n).map (fun j => if i = j then (1 : Int) else 0))⟩

/-- `erase_row(i)`: the rows after `i` move up by one. -/
def erase_row (m : Matrix) (i : Nat) : Matrix := ⟨m.numCols, m.rows.eraseIdx i⟩

/-- `insert_row(i, row)`: a copy of the first `numCols` entries of `row` becomes
row `i`; the rows from `i` on move down by one. -/
def insert_row (m : Matrix) (i : Nat) (r : List Int) : Matrix :=
  ⟨m.numCols, m.rows.take i ++ [r.take m.numCols] ++ m.rows.drop i⟩

/-- Exchange the entries at positions `i` and `j` of a list (`std::swap`). -/
def swapList {α : Type} (l : List α) (i j : Nat) : List α :=
  match l.get? i, l.get? j with
  | some x, some y => (l.set i y).set j x
  | _, _ => l

/-- `swap_cols(i, j)`. -/
def swap_cols (m : Matrix) (i j : Nat) : Matrix :=
  ⟨m.numCols, m.rows.map (fun r => swapList r i j)⟩

/-- `swap_rows(i, j)`. -/
def swap_rows (m : Matrix) (i j : Nat) : Matrix := ⟨m.numCols, swapList m.rows i j⟩

/-- `mult_row(i, a)`. -/
def mult_row (t : Coeff) (m : Matrix) (i : Nat) (a : Int) : Matrix :=
  ⟨m.numCols, m.rows.set i ((m.row i).map (fun x => t.mul x a))⟩

/-- `div_row(i, a)`, which the source implements as `mult_row(i, (T)1 / a)`. -/
def div_row (t : Coeff) (m : Matrix) (i : Nat) (a : Int) : Matrix :=
  m.mult_row t i (t.div 1 a)

/-- `addmult_rows(i, j, a)`: `row[i] += row[j] * a`. -/
def addmult_rows (t : Coeff) (m : Matrix) (i j : Nat) (a : Int) : Matrix :=
  ⟨m.numCols,
    m.rows.set i (List.zipWith (fun x y => t.add x (t.mul y a)) (m.row i) (m.row j))⟩

/-- `transpose(m)`. -/
def transpose (m : Matrix) : Matrix :=
  ⟨m.nrows, (List.range m.numCols).map (fun j => (List.range m.nrows).map (fun i => m.get i j))⟩

end Matrix

/-! ## GaussianElimination.hpp -/

/-- Working state of `gauss`: the matrices `q`, `f`, `bas`, the permutation
and the loop variable `i`. -/
structure GaussState where
  q : Matrix
  f : Matrix
  bas : Matrix
  perm : List Nat
  i : Nat
deriving DecidableEq, Repr

/-- Absolute value `std::abs` on the coefficient type. -/
def absT (t : Coeff) (x : Int) : Int := if x < 0 then t.neg x else x

/-- Pivot search in row `i`: the pair `(j_pivot, q_pivot)` after the loop over
`j = i + 1 .. maxBas - 1`. -/
def findPivot (t : Coeff) (q : Matrix) (i maxBas : Nat) : Nat × Int :=
  (List.range' (i + 1) (maxBas - (i + 1))).foldl
    (fun (acc : Nat × Int) j =>
      if absT t (q.get i j) > acc.2 then (j, absT t (q.get i j)) else acc)
    (i, absT t (q.get i i))

/-- Body of the integer elimination loop for one row `ii ≠ i`. -/
def elimRowInt (t : Coeff) (b : Int) (i : Nat) (qf : Matrix × Matrix) (ii : Nat) :
    Matrix × Matrix :=
  if ii ≠ i then
    let q := qf.1
    let f := qf.2
    let b_ii0 := q.get ii i
    let alpha := gcd t b b_ii0
    let b_i := t.div b alpha
    let b_ii := t.div (t.neg b_ii0) alpha
    let q1 := (q.mult_row t ii b_i).addmult_rows t ii i b_ii
    let f1 := (f.mult_row t ii b_i).addmult_rows t ii i b_ii
    let alpha2 := gcd t (gcdVec t ((q1.row ii).take q1.ncols))
      (gcdVec t ((f1.row ii).take f1.ncols))
    (q1.div_row t ii alpha2, f1.div_row t ii alpha2)
  else qf

/-- Body of the non-integer elimination loop for one row `ii ≠ i`. -/
def elimRowFrac (t : Coeff) (i : Nat) (qf : Matrix × Matrix) (ii : Nat) : Matrix × Matrix :=
  if ii ≠ i then
    let b_ii := t.neg (qf.1.get ii i)
    (qf.1.addmult_rows t ii i b_ii, qf.2.addmult_rows t ii i b_ii)
  else qf

/-- One iteration of the main loop of `gauss` (the loop condition has already
been checked). -/
def gaussStep (t : Coeff) (maxBas : Nat) (intarith : Bool) (eps : Int) (s : GaussState) :
    GaussState :=
  let i := s.i
  let piv := findPivot t s.q i maxBas
  if piv.2 ≤ eps then
    { s with
      q := s.q.erase_row i,
      bas := s.bas.insert_row s.bas.nrows (s.f.row i),
      f := s.f.erase_row i }
  else
    let q1 := if i ≠ piv.1 then s.q.swap_cols i piv.1 else s.q
    let perm1 := if i ≠ piv.1 then Matrix.swapList s.perm i piv.1 else s.perm
    let q2 := if q1.get i i < 0 then q1.mult_row t i (-1) else q1
    let f2 := if q1.get i i < 0 then s.f.mult_row t i (-1) else s.f
    if intarith then
      let qf := (List.range q2.nrows).foldl (elimRowInt t (q2.get i i) i) (q2, f2)
      { s with q := qf.1, f := qf.2, perm := perm1, i := i + 1 }
    else
      let b := q2.get i i
      let q3 := q2.div_row t i b
      let f3 := f2.div_row t i b
      let qf := (List.range q3.nrows).foldl (elimRowFrac t i) (q3, f3)
      { s with q := qf.1, f := qf.2, perm := perm1, i := i + 1 }

/-- Main loop of `gauss`; every iteration either erases a row of `q` or
advances `i`, so the number of rows of `q` at entry bounds the trip count. -/
def gaussLoop (t : Coeff) (maxBas : Nat) (intarith : Bool) (eps : Int) :
    Nat → GaussState → GaussState
  | 0, s => s
  | fuel + 1, s =>
    if s.i < min s.q.ncols s.q.nrows then
      gaussLoop t maxBas intarith eps fuel (gaussStep t maxBas intarith eps s)
    else s

/-- Output of `gauss`. -/
structure GaussResult where
  f : Matrix
  bas : Matrix
  rank : Nat
  perm : List Nat
deriving DecidableEq, Repr

/-- The final loop of `gauss`: move the rows of `f` from position `rank` on
into `bas`, once for every `i` with `rank ≤ i < q.nrows()`. -/
def moveRows : Nat → Nat → Matrix → Matrix → Matrix × Matrix
  | 0, _, f, bas => (f, bas)
  | k + 1, rank, f, bas =>
    moveRows k rank (f.erase_row rank) (bas.insert_row bas.nrows (f.row rank))

/-- `gauss(a, maxBas, f, bas, rank, perm, intarith, eps)`. -/
def gauss (t : Coeff) (a : Matrix) (maxBas : Nat) (intarith : Bool) (eps : Int) :
    GaussResult :=
  let s0 : GaussState :=
    { q := a.transpose, f := Matrix.assign_eye a.ncols, bas := Matrix.resize 0 a.ncols,
      perm := List.range a.nrows, i := 0 }
  let s := gaussLoop t maxBas intarith eps a.ncols s0
  let rank := min s.q.ncols s.q.nrows
  let fb := moveRows (s.q.nrows - rank) rank s.f s.bas
  { f := fb.1, bas := fb.2, rank := rank, perm := s.perm }

end Utils

namespace DDM

open Utils

/-! ## ddm/Parameters.hpp -/

/-- `AdjacencyTest::Test`. -/
inductive AdjacencyTest where
  | Graph
  | Algebraic
  | Combinatoric
deriving DecidableEq, Repr

/-- `PivotingOrder::Order`. -/
inductive PivotingOrder where
  | Quickhull
  | MinIndex
  | MaxIndex
  | LexMin
  | LexMax
  | Random
deriving DecidableEq, Repr

/-- `SetRepresentation::Representation`. -/
inductive SetRepresentation where
  | SortedVector
  | BitField
deriving DecidableEq, Repr

/-- `struct Parameters` without the output streams; the defaults are the
first enumerators and `usePlusPlus = false`. -/
structure Parameters where
  adjacencyTest : AdjacencyTest
  pivotingOrder : PivotingOrder
  setRepresentation : SetRepresentation
  usePlusPlus : Bool
deriving DecidableEq, Repr

/-- The default-constructed `Parameters`. -/
def Parameters.default : Parameters :=
  ⟨AdjacencyTest.Graph, PivotingOrder.Quickhull, SetRepresentation.SortedVector, false⟩

/-! ## ddm/Ray.hpp -/

/-- `struct Ray`; `coordinates` holds the `extendedDim` entries of the block
whose suffix from position `dim` on is `discrepancies`; `adjacentRays` holds
heap indices. -/
structure Ray (S : Type) where
  coordinates : List Int
  cobasis : S
  adjacentRays : List Nat
  assignedInequalities : List Nat
  pivotDiscrepancy : Int
  visitingStep : Nat

/-- Data fixed during a run of `Algorithm<T, Set>`: the coefficient type, the
set implementation, the parameters, the (reordered) inequality matrix and the
rank. -/
structure Context (S : Type) where
  arith : Coeff
  ops : SetOps S
  order : PivotingOrder
  adjacencyTest : AdjacencyTest
  usePlusPlus : Bool
  intArith : Bool
  zerotol : Int
  inequalityMatrix : Matrix
  rank : Nat

/-- `RayFactory::dim`. -/
def Context.dim {S : Type} (c : Context S) : Nat := c.inequalityMatrix.ncols

/-- `RayFactory::extendedDim = dim + numDiscrepancies`. -/
def Context.extendedDim {S : Type} (c : Context S) : Nat :=
  c.dim + (if c.usePlusPlus then c.inequalityMatrix.nrows else 0)

/-- `normalizeFPVector` instantiated at the integer coefficient type. -/
def normalizeFPVector (t : Coeff) (v : List Int) : List Int :=
  let maxAbs := (v.drop 1).foldl (fun m x => if absT t x > m then absT t x else m)
    (absT t (v.getD 0 0))
  if maxAbs ≠ 0 then v.map (fun x => t.div x maxAbs) else v

/-- The normalization applied by both `newRay` overloads. -/
def normalizeRay {S : Type} (c : Context S) (v : List Int) : List Int :=
  if c.intArith then normalizeIntVector c.arith v else normalizeFPVector c.arith v

/-- The ray a dangling or null pointer would be read as; never used on
well-formed states. -/
def nullRay {S : Type} (c : Context S) : Ray S :=
  ⟨[], c.ops.create 0, [], [], 0, 0⟩

/-- Dereference a ray pointer. -/
def getRay {S : Type} (c : Context S) (heap : List (Ray S)) (p : Nat) : Ray S :=
  heap.getD p (nullRay c)

/-- Constructor `Ray(numInc)` followed by the body of
`RayFactory::newRay(coords, disc, numInc)`. -/
def newRay {S : Type} (c : Context S) (coords disc : List Int) (numInc : Nat) : Ray S :=
  ⟨normalizeRay c (coords.take c.dim ++ disc.take (c.extendedDim - c.dim)),
    c.ops.create numInc, [], [], 0, 0⟩

/-- Replace the first occurrence of `old` by `new` (the loop with `break` in
the constructor `Ray(plus, minus, pivotIneIdx)`). -/
def replaceFirst (old new : Nat) : List Nat → List Nat
  | [] => []
  | x :: xs => if x = old then new :: xs else x :: replaceFirst old new xs

/-- Constructor `Ray(plus, minus, pivotIneIdx)` followed by the body of
`RayFactory::newRay(plus, minus, pivotIneIdx)`: returns the heap with the new
ray appended and `plus` rewired, and the pointer to the new ray. -/
def newRayFromEdge {S : Type} (c : Context S) (heap : List (Ray S))
    (plus minus pivotIneIdx : Nat) : List (Ray S) × Nat :=
  let p := getRay c heap plus
  let m := getRay c heap minus
  let ray : Ray S :=
    ⟨normalizeRay c ((List.zipWith
        (fun mc pc =>
          c.arith.sub (c.arith.mul p.pivotDiscrepancy mc) (c.arith.mul m.pivotDiscrepancy pc))
        m.coordinates p.coordinates).take c.extendedDim),
      c.ops.add (c.ops.inter p.cobasis m.cobasis) pivotIneIdx,
      [plus], [], 0, p.visitingStep⟩
  ((heap.set plus
      { p with adjacentRays := replaceFirst minus heap.length p.adjacentRays }) ++ [ray],
    heap.length)

/-! ## ddm/Pivoting.hpp -/

/-- State of `Algorithm` and of its `Pivoting` member that changes during a
run. -/
structure State (S : Type) where
  heap : List (Ray S)
  extremeRays : List Nat
  step : Nat
  pivotRay : Nat
  pivotInequalityIdx : Nat
  numProcessedInequalities : Nat
  notProcessedInequalities : List Nat
  assigneeRays : List (Option Nat)

/-- Inner product of the first `n` entries of two arrays, accumulated from 0
by `product += x[i] * y[i]`. -/
def dot (t : Coeff) (n : Nat) (x y : List Int) : Int :=
  ((List.zipWith (fun a b => t.mul a b) x y).take n).foldl (fun acc p => t.add acc p) 0

/-- `Pivoting::computeDiscrepancies(coords, disc)`. -/
def computeDiscrepancies {S : Type} (c : Context S) (coords : List Int) : List Int :=
  c.inequalityMatrix.rows.map (fun ine => dot c.arith c.inequalityMatrix.ncols coords ine)

/-- `Pivoting::computeDiscrepancy(ray, inequalityIdx)`. -/
def computeDiscrepancy {S : Type} (c : Context S) (ray : Ray S) (inequalityIdx : Nat) : Int :=
  dot c.arith c.inequalityMatrix.ncols ray.coordinates (c.inequalityMatrix.row inequalityIdx)

/-- The search of `assignIne` for the first ray of `rays` that strictly
violates the inequality. -/
def findViolator {S : Type} (c : Context S) (heap : List (Ray S)) (ineIdx : Nat) :
    List Nat → Option Nat
  | [] => none
  | r :: rs =>
    if computeDiscrepancy c (getRay c heap r) ineIdx < -c.zerotol then some r
    else findViolator c heap ineIdx rs

/-- `Pivoting::assignIne(ineIdx, rays)`; the counter has the index type of
the set and wraps at `2 ^ idxBits`. -/
def assignIne {S : Type} (c : Context S) (s : State S) (ineIdx : Nat) (rays : List Nat) :
    State S :=
  match findViolator c s.heap ineIdx rays with
  | some r =>
    { s with
      heap := s.heap.set r
        { getRay c s.heap r with
          assignedInequalities := (getRay c s.heap r).assignedInequalities ++ [ineIdx] },
      assigneeRays := s.assigneeRays.set ineIdx (some r) }
  | none =>
    { s with
      assigneeRays := s.assigneeRays.set ineIdx none,
      numProcessedInequalities := (s.numProcessedInequalities + 1) % 2 ^ c.ops.idxBits,
      notProcessedInequalities := Vector.remove s.notProcessedInequalities ineIdx }

/-- `Pivoting::isEnded()`. -/
def isEnded {S : Type} (c : Context S) (s : State S) : Bool :=
  decide (s.numProcessedInequalities ≥ c.inequalityMatrix.nrows)

/-- The `while (assigneeRays[pivotInequalityIdx] == 0) ++pivotInequalityIdx`
loop of `next` for the static orders; `none` when the index leaves the array
or the loop does not stop. -/
def scanPivot (w : Nat) (assigneeRays : List (Option Nat)) : Nat → Nat → Option (Nat × Nat)
  | 0, _ => none
  | fuel + 1, idx =>
    match assigneeRays.get? idx with
    | none => none
    | some none => scanPivot w assigneeRays fuel ((idx + 1) % 2 ^ w)
    | some (some r) => some (idx, r)

/-- `Pivoting::next(rays)`; `none` when the code reads `rays[rays.size()]` or
runs off `assigneeRays`. -/
def next {S : Type} (c : Context S) (s : State S) : Option (State S) :=
  if c.order = PivotingOrder.Quickhull then
    match s.extremeRays.find? (fun r => (getRay c s.heap r).assignedInequalities.length ≠ 0) with
    | none => none
    | some pr =>
      match (getRay c s.heap pr).assignedInequalities with
      | [] => none
      | i0 :: rest =>
        let best := rest.foldl
          (fun (acc : Nat × Int) j =>
            if computeDiscrepancy c (getRay c s.heap pr) j < acc.2
            then (j, computeDiscrepancy c (getRay c s.heap pr) j) else acc)
          (i0, computeDiscrepancy c (getRay c s.heap pr) i0)
        some { s with
          step := s.step + 1, pivotRay := pr, pivotInequalityIdx := best.1,
          heap := s.heap.set pr { getRay c s.heap pr with pivotDiscrepancy := best.2 } }
  else
    match scanPivot c.ops.idxBits s.assigneeRays (s.assigneeRays.length + 1)
        s.pivotInequalityIdx with
    | none => none
    | some (idx, pr) =>
      some { s with
        step := s.step + 1, pivotRay := pr, pivotInequalityIdx := idx,
        heap := s.heap.set pr
          { getRay c s.heap pr with
            pivotDiscrepancy := computeDiscrepancy c (getRay c s.heap pr) idx } }

/-- The three work lists of `classifyRays`. -/
structure WorkLists where
  minusRays : List Nat
  zeroRays : List Nat
  newRays : List Nat
deriving DecidableEq, Repr

/-- First part of the body of the loop of `searchAdj`: visit `adjRay` if it
has not been visited on the current step. -/
def visitAdj {S : Type} (c : Context S) (sw : State S × WorkLists) (adjRay : Nat) :
    State S × WorkLists :=
  let s := sw.1
  let w := sw.2
  let adj := getRay c s.heap adjRay
  if adj.visitingStep ≠ s.step then
    let d := computeDiscrepancy c adj s.pivotInequalityIdx
    let visited : Ray S := { adj with visitingStep := s.step, pivotDiscrepancy := d }
    if d < -c.zerotol then
      ({ s with heap := s.heap.set adjRay visited },
        { w with minusRays := w.minusRays ++ [adjRay] })
    else if d ≤ c.zerotol then
      ({ s with heap := s.heap.set adjRay
                  { visited with cobasis := c.ops.add adj.cobasis s.pivotInequalityIdx } },
        { w with zeroRays := w.zeroRays ++ [adjRay] })
    else ({ s with heap := s.heap.set adjRay visited }, w)
  else sw

/-- Remove entry `i` of the adjacency list of `ray` (`adjacentRays.erase(i)`). -/
def eraseAdj {S : Type} (c : Context S) (s : State S) (ray i : Nat) : State S :=
  { s with
    heap := s.heap.set ray
      { getRay c s.heap ray with
        adjacentRays := Vector.erase (getRay c s.heap ray).adjacentRays i } }

/-- The loop of `Pivoting::searchAdj(ray, minusRays, zeroRays, newRays)` from
position `i` on; every iteration advances `i` or shortens the list. -/
def searchAdjLoop {S : Type} (c : Context S) (ray : Nat) :
    Nat → Nat → State S × WorkLists → State S × WorkLists
  | 0, _, sw => sw
  | fuel + 1, i, sw =>
    match (getRay c sw.1.heap ray).adjacentRays.get? i with
    | none => sw
    | some adjRay =>
      let sw1 := visitAdj c sw adjRay
      let s1 := sw1.1
      if (getRay c s1.heap ray).pivotDiscrepancy < -c.zerotol then
        if (getRay c s1.heap adjRay).pivotDiscrepancy > c.zerotol then
          let hn := newRayFromEdge c s1.heap adjRay ray s1.pivotInequalityIdx
          searchAdjLoop c ray fuel (i + 1)
            ({ s1 with heap := hn.1 }, { sw1.2 with newRays := sw1.2.newRays ++ [hn.2] })
        else searchAdjLoop c ray fuel i (eraseAdj c s1 ray i, sw1.2)
      else
        if (getRay c s1.heap adjRay).pivotDiscrepancy > c.zerotol then
          searchAdjLoop c ray fuel (i + 1) sw1
        else searchAdjLoop c ray fuel i (eraseAdj c s1 ray i, sw1.2)

/-- `Pivoting::searchAdj`. -/
def searchAdj {S : Type} (c : Context S) (ray : Nat) (sw : State S × WorkLists) :
    State S × WorkLists :=
  searchAdjLoop c ray (getRay c sw.1.heap ray).adjacentRays.length 0 sw

/-- The traversal loop of `classifyRays`: minus rays first, then zero rays;
`none` when the fuel is exhausted before both lists are. -/
def classifyLoop {S : Type} (c : Context S) :
    Nat → Nat → Nat → State S × WorkLists → Option (State S × WorkLists)
  | 0, minusRayIdx, zeroRayIdx, sw =>
    if minusRayIdx < sw.2.minusRays.length ∨ zeroRayIdx < sw.2.zeroRays.length then none
    else some sw
  | fuel + 1, minusRayIdx, zeroRayIdx, sw =>
    if minusRayIdx < sw.2.minusRays.length then
      classifyLoop c fuel (minusRayIdx + 1) zeroRayIdx
        (searchAdj c (sw.2.minusRays.getD minusRayIdx 0) sw)
    else if zeroRayIdx < sw.2.zeroRays.length then
      classifyLoop c fuel minusRayIdx (zeroRayIdx + 1)
        (searchAdj c (sw.2.zeroRays.getD zeroRayIdx 0) sw)
    else some sw

/-- `Pivoting::partitionInes(minusRays, zeroRays)`. -/
def partitionInes {S : Type} (c : Context S) (s : State S) (minusRays zeroRays : List Nat) :
    State S :=
  minusRays.foldl
    (fun s1 mr =>
      (getRay c s1.heap mr).assignedInequalities.foldl
        (fun s2 ine => assignIne c s2 ine zeroRays) s1)
    s

/-- The loop of `classifyRays` that erases from `extremeRays` every ray whose
`pivotDiscrepancy` is below `-zerotol`. -/
def deleteMinusLoop {S : Type} (c : Context S) (heap : List (Ray S)) :
    Nat → Nat → List Nat → List Nat
  | 0, _, ex => ex
  | fuel + 1, i, ex =>
    match ex.get? i with
    | none => ex
    | some r =>
      if (getRay c heap r).pivotDiscrepancy < -c.zerotol then
        deleteMinusLoop c heap fuel i (Vector.erase ex i)
      else deleteMinusLoop c heap fuel (i + 1) ex

/-- `Pivoting::classifyRays(extremeRays, zeroRays)` with `zeroRays` empty on
entry; returns the new state and the final `zeroRays`. -/
def classifyRays {S : Type} (c : Context S) (s : State S) : Option (State S × List Nat) :=
  match next c s with
  | none => none
  | some s1 =>
    let s2 : State S :=
      { s1 with
        heap := s1.heap.set s1.pivotRay
          { getRay c s1.heap s1.pivotRay with visitingStep := s1.step } }
    match classifyLoop c (s2.heap.length + 1) 0 0 (s2, WorkLists.mk [s2.pivotRay] [] []) with
    | none => none
    | some (s3, w) =>
      let zeroRays := w.zeroRays ++ w.newRays
      let s4 := partitionInes c s3 w.minusRays zeroRays
      some ({ s4 with
          extremeRays :=
            deleteMinusLoop c s4.heap s4.extremeRays.length 0 s4.extremeRays ++ w.newRays },
        zeroRays)

/-- Lexicographic "row `a` comes before row `b`" as decided by the inner loop
over `k` of `reorderInequalities`. -/
def lexLess : List Int → List Int → Bool
  | x :: xs, y :: ys => if x < y then true else if x > y then false else lexLess xs ys
  | _, _ => false

/-- One pass of the selection sort in `reorderInequalities`: find the index of
the lexicographically least row among `i .. n - 1` and swap it into place. -/
def lexSelect (m : Matrix) (i : Nat) : Matrix :=
  m.swap_rows i
    ((List.range' (i + 1) (m.nrows - (i + 1))).foldl
      (fun lexMinRowIdx j => if lexLess (m.row j) (m.row lexMinRowIdx) then j else lexMinRowIdx) i)

/-- `Pivoting::reorderInequalities`; `rnd k` is the value returned by the
`k`-th call of `rand()`. -/
def reorderInequalities (order : PivotingOrder) (rnd : Nat → Nat) (m : Matrix) : Matrix :=
  let m1 :=
    if order = PivotingOrder.LexMin ∨ order = PivotingOrder.LexMax then
      (List.range (m.nrows - 1)).foldl lexSelect m
    else m
  let m2 :=
    if order = PivotingOrder.MaxIndex ∨ order = PivotingOrder.LexMax then
      (List.range (m1.nrows / 2)).foldl (fun x i => x.swap_rows i (x.nrows - 1 - i)) m1
    else m1
  if order = PivotingOrder.Random then
    (List.range m2.nrows).foldl (fun x i => x.swap_rows i (rnd i % x.nrows)) m2
  else m2

/-! ## ddm/AdjacencyChecker.hpp -/

/-- `struct AdjacencyCandidate`: the candidate ray and the common cobasis of
the edge. -/
structure AdjacencyCandidate (S : Type) where
  ray : Nat
  cobasis : S

/-- The test of the plusplus loops: every stored discrepancy of the ray on a
not yet processed inequality is strictly positive. -/
def allDiscrepanciesPositive {S : Type} (c : Context S) (ray : Ray S)
    (notProcessedInequalities : List Nat) : Bool :=
  notProcessedInequalities.all (fun k => decide (¬ (ray.coordinates.getD (c.dim + k) 0 ≤ 0)))

/-- `AdjacencyChecker::findAdjacencyCandidates(rayIdx, rays, candidates,
notProcessedInequalities)` with `candidates` empty on entry. -/
def findAdjacencyCandidates {S : Type} (c : Context S) (heap : List (Ray S)) (rayIdx : Nat)
    (rays : List Nat) (notProcessedInequalities : List Nat) : List (AdjacencyCandidate S) :=
  let ray := getRay c heap (rays.getD rayIdx 0)
  if !c.usePlusPlus ∧ c.ops.size ray.cobasis = subSizeT c.rank 1
      ∧ ray.adjacentRays.length = c.rank + 1 then []
  else
    let plusPlusApplicable :=
      c.usePlusPlus && allDiscrepanciesPositive c ray notProcessedInequalities
    (rays.drop (rayIdx + 1)).filterMap (fun r =>
      if c.ops.intersectionSize ray.cobasis (getRay c heap r).cobasis + 2 ≥ c.rank then
        (if plusPlusApplicable
            && allDiscrepanciesPositive c (getRay c heap r) notProcessedInequalities then none
         else some ⟨r, c.ops.inter ray.cobasis (getRay c heap r).cobasis⟩)
      else none)

/-- The loop of `AdjacencyChecker::removeDominatedEdges(ray, rays, candidates)`
from position `i` on. -/
def removeDominatedLoop {S : Type} (c : Context S) (heap : List (Ray S)) (ray : Nat)
    (rays : List Nat) : Nat → Nat → List (AdjacencyCandidate S) → List (AdjacencyCandidate S)
  | 0, _, candidates => candidates
  | fuel + 1, i, candidates =>
    match candidates.get? i with
    | none => candidates
    | some cand =>
      if rays.any (fun rj => decide (rj ≠ ray) && decide (rj ≠ cand.ray)
            && c.ops.isSubsetOf cand.cobasis (getRay c heap rj).cobasis) then
        removeDominatedLoop c heap ray rays fuel i (Vector.erase candidates i)
      else removeDominatedLoop c heap ray rays fuel (i + 1) candidates

/-- `AdjacencyChecker::removeDominatedEdges`. -/
def removeDominatedEdges {S : Type} (c : Context S) (heap : List (Ray S)) (ray : Nat)
    (rays : List Nat) (candidates : List (AdjacencyCandidate S)) : List (AdjacencyCandidate S) :=
  removeDominatedLoop c heap ray rays candidates.length 0 candidates

/-- `AdjacencyChecker::testAdjacency(rayIdx, rays, candidates)`, with
`graphTest` and `combinatoricTest` inlined. -/
def testAdjacency {S : Type} (c : Context S) (heap : List (Ray S)) (rayIdx : Nat)
    (rays : List Nat) (candidates : List (AdjacencyCandidate S)) : List (AdjacencyCandidate S) :=
  let ray := rays.getD rayIdx 0
  if c.ops.size (getRay c heap ray).cobasis = subSizeT c.rank 1 ∨ c.rank ≤ 3 then candidates
  else if c.adjacencyTest = AdjacencyTest.Graph then
    removeDominatedEdges c heap ray
      (candidates.map (fun cand => cand.ray) ++ (getRay c heap ray).adjacentRays) candidates
  else if c.adjacencyTest = AdjacencyTest.Combinatoric then
    removeDominatedEdges c heap ray rays candidates
  else candidates

/-- Commit one edge: both endpoints push each other onto their adjacency
lists. -/
def addEdge {S : Type} (c : Context S) (heap : List (Ray S)) (a b : Nat) : List (Ray S) :=
  let heap1 := heap.set a
    { getRay c heap a with adjacentRays := (getRay c heap a).adjacentRays ++ [b] }
  heap1.set b { getRay c heap1 b with adjacentRays := (getRay c heap1 b).adjacentRays ++ [a] }

/-- `AdjacencyChecker::computeAdjacency(rays, notProcessedInequalities)`. -/
def computeAdjacency {S : Type} (c : Context S) (heap : List (Ray S)) (rays : List Nat)
    (notProcessedInequalities : List Nat) : List (Ray S) :=
  (List.range rays.length).foldl
    (fun h i =>
      (testAdjacency c h i rays (findAdjacencyCandidates c h i rays notProcessedInequalities)).foldl
        (fun h1 cand => addEdge c h1 (rays.getD i 0) cand.ray) h)
    heap

/-! ## ddm/Algorithm.hpp -/

/-- Build the cobasis of the `rayIdx`-th initial ray: `perm[j]` for `j <
rayIdx`, then for `rayIdx < j < rank`. -/
def initialCobasis {S : Type} (c : Context S) (perm : List Nat) (rayIdx : Nat) (cob : S) : S :=
  (List.range' (rayIdx + 1) (c.rank - (rayIdx + 1))).foldl
    (fun x j => c.ops.add x (perm.getD j 0))
    ((List.range rayIdx).foldl (fun x j => c.ops.add x (perm.getD j 0)) cob)

/-- The state set up by the constructors and by
`Pivoting::setInequalityMatrix`. -/
def initialState {S : Type} (c : Context S) : State S :=
  { heap := [], extremeRays := [], step := 0, pivotRay := 0, pivotInequalityIdx := 0,
    numProcessedInequalities := 0,
    notProcessedInequalities :=
      (List.range c.inequalityMatrix.nrows).map (fun i => i % 2 ^ c.ops.idxBits),
    assigneeRays := List.replicate c.inequalityMatrix.nrows none }

/-- `Algorithm::makeInitialStep()` after the call of `gauss`, whose outputs
`f` and `perm` are passed in (`rank` is part of the context). -/
def makeInitialStep {S : Type} (c : Context S) (f : Matrix) (perm : List Nat) : State S :=
  let s0 := initialState c
  let rays : List (Ray S) := (List.range c.rank).map (fun rayIdx =>
    let r := newRay c (f.row rayIdx)
      (if c.usePlusPlus then computeDiscrepancies c (f.row rayIdx) else [])
      c.inequalityMatrix.nrows
    { r with cobasis := initialCobasis c perm rayIdx r.cobasis })
  let ext := List.range c.rank
  let heap1 := computeAdjacency c rays ext s0.notProcessedInequalities
  (List.range c.inequalityMatrix.nrows).foldl
    (fun s i => assignIne c s i s.extremeRays)
    { s0 with heap := heap1, extremeRays := ext }

/-- What `Algorithm::finalize` writes: the ray matrix, the facet list and the
values handed to the summary. -/
structure Output where
  rays : Matrix
  facets : List Nat
  numEdges : Nat
  numIterations : Nat
deriving DecidableEq, Repr

/-- The facet loop of `finalize`: append every cobasis element that is not in
the list yet. -/
def collectFacets (facets : List Nat) (rayInc : List Nat) : List Nat :=
  rayInc.foldl (fun fs k => if fs.contains k then fs else fs ++ [k]) facets

/-- `Algorithm::finalize(rayMatrix, facets)` with `facets` empty on entry. -/
def finalize {S : Type} (c : Context S) (bas : Matrix) (s : State S) : Output :=
  let m0 := bas.rows.foldl
    (fun (m : Matrix) b =>
      ((m.insert_row m.nrows b).insert_row (m.insert_row m.nrows b).nrows b).mult_row c.arith
        (((m.insert_row m.nrows b).insert_row (m.insert_row m.nrows b).nrows b).nrows - 1) (-1))
    (Matrix.resize 0 c.inequalityMatrix.ncols)
  let m1 := s.extremeRays.foldl
    (fun (m : Matrix) r => m.insert_row m.nrows (getRay c s.heap r).coordinates) m0
  { rays := m1,
    facets := s.extremeRays.foldl
      (fun fs r => collectFacets fs (c.ops.toVector (getRay c s.heap r).cobasis)) [],
    numEdges :=
      if c.rank > 2 then
        (s.extremeRays.foldl (fun n r => n + (getRay c s.heap r).adjacentRays.length) 0) / 2
      else 2,
    numIterations := s.step }

/-- The main loop of `Algorithm::run`: `while (!pivoting.isEnded())` classify
and recompute adjacency; `none` when the fuel is exhausted or a step fails. -/
def mainLoop {S : Type} (c : Context S) : Nat → State S → Option (State S)
  | 0, s => if isEnded c s then some s else none
  | fuel + 1, s =>
    if isEnded c s then some s
    else
      match classifyRays c s with
      | none => none
      | some (s1, zeroRays) =>
        mainLoop c fuel
          { s1 with heap := computeAdjacency c s1.heap zeroRays s1.notProcessedInequalities }

/-- `Algorithm<T, Set>::run(ines, intArith, zerotol, rays, ext)`. -/
def run {S : Type} (t : Coeff) (ops : SetOps S) (params : Parameters) (rnd : Nat → Nat)
    (fuel : Nat) (ines : Matrix) (intArith : Bool) (zerotol : Int) : Option Output :=
  let inequalityMatrix := reorderInequalities params.pivotingOrder rnd ines
  let g := gauss t inequalityMatrix inequalityMatrix.nrows intArith zerotol
  let c : Context S :=
    { arith := t, ops := ops, order := params.pivotingOrder,
      adjacencyTest := params.adjacencyTest,
      usePlusPlus := params.usePlusPlus, intArith := intArith, zerotol := zerotol,
      inequalityMatrix := inequalityMatrix, rank := g.rank }
  (mainLoop c fuel (makeInitialStep c g.f g.perm)).map (finalize c g.bas)

/-- `ddm<T>(rays, params, intArith, zerotol, ine, ext)`: the dispatch on the
set representation and on the number of rows. -/
def ddm (t : Coeff) (params : Parameters) (rnd : Nat → Nat) (fuel : Nat) (rays : Matrix)
    (intArith : Bool) (zerotol : Int) : Option Output :=
  if params.setRepresentation = SetRepresentation.BitField ∧ rays.nrows ≤ 32 then
    run t (BitFieldSet.ops 32) params rnd fuel rays intArith zerotol
  else if params.setRepresentation = SetRepresentation.BitField ∧ rays.nrows ≤ 64 then
    run t (BitFieldSet.ops 64) params rnd fuel rays intArith zerotol
  else if params.setRepresentation = SetRepresentation.BitField ∧ rays.nrows ≤ 96 then
    run t (BitFieldSet.ops 96) params rnd fuel rays intArith zerotol
  else if params.setRepresentation = SetRepresentation.BitField ∧ rays.nrows ≤ 128 then
    run t (BitFieldSet.ops 128) params rnd fuel rays intArith zerotol
  else if rays.nrows ≤ 2 ^ 8 then
    run t (VectorSet.ops 8) params rnd fuel rays intArith zerotol
  else if rays.nrows ≤ 2 ^ 16 then
    run t (VectorSet.ops 16) params rnd fuel rays intArith zerotol
  else if rays.nrows ≤ 2 ^ 32 then
    run t (VectorSet.ops 32) params rnd fuel rays intArith zerotol
  else run t (VectorSet.ops 64) params rnd fuel rays intArith zerotol

end DDM

namespace Elimination

open Utils

/-! ## elimination/Parameters.hpp -/

/-- `ChernikovTest::Test`. -/
inductive ChernikovTest where
  | Graph
  | Enumeration
deriving DecidableEq, Repr

/-- `EliminationOrdering::Ordering`. -/
inductive EliminationOrdering where
  | MinPairs
  | MaxPairs
  | MinIndex
  | MaxIndex
  | Random
  | Fixed
deriving DecidableEq, Repr

/-- `struct Parameters` without the output streams. -/
structure Parameters where
  chernikovTest : ChernikovTest
  eliminationOrdering : EliminationOrdering
  intArithmetic : Bool
deriving DecidableEq, Repr

/-! ## elimination/Inequality.hpp -/

/-- `struct Inequality`. -/
structure Inequality (S : Type) where
  normal : List Int
  complementaryIndex : S

/-- The normalization applied by both `newInequality` overloads. -/
def normalize (t : Coeff) (intArith : Bool) (v : List Int) : List Int :=
  if intArith then normalizeIntVector t v else DDM.normalizeFPVector t v

/-- `InequalityFactory::newInequality(normal)`. -/
def newInequality {S : Type} (t : Coeff) (ops : SetOps S) (dim : Nat) (intArith : Bool)
    (normal : List Int) : Inequality S :=
  ⟨normalize t intArith (normal.take dim), ops.create 0⟩

/-- `InequalityFactory::newInequality(plus, minus, eliminated)`. -/
def newInequalityFromPair {S : Type} (t : Coeff) (ops : SetOps S) (dim : Nat)
    (intArith : Bool) (plus minus : Inequality S) (eliminated : Nat) : Inequality S :=
  ⟨normalize t intArith ((List.zipWith
      (fun mi pl =>
        t.sub (t.mul (plus.normal.getD eliminated 0) mi)
          (t.mul (minus.normal.getD eliminated 0) pl))
      minus.normal plus.normal).take dim),
    ops.inter plus.complementaryIndex minus.complementaryIndex⟩

/-! ## elimination/Order.hpp -/

/-- Constructor of `EliminationOrder`: the list of variables after the
sorting or shuffling the ordering asks for; `rnd k` is the value of the
`k`-th call of `rand()`. -/
def orderInit (ordering : EliminationOrdering) (rnd : Nat → Nat) (vars : List Nat) : List Nat :=
  if ordering = EliminationOrdering.MinIndex then vars.insertionSort (fun a b => a ≤ b)
  else if ordering = EliminationOrdering.MaxIndex then vars.insertionSort (fun a b => a ≥ b)
  else if ordering = EliminationOrdering.Random then
    (List.range vars.length).foldl (fun v i => Matrix.swapList v i (rnd i % vars.length)) vars
  else vars

/-- The entries `numPairs[j]` for `j = step .. size - 1`: the number of
positive times the number of negative coefficients of the variable. -/
def numPairs {S : Type} (inequalities : List (Inequality S)) (vars : List Nat) (step : Nat) :
    List Nat :=
  (vars.drop step).map (fun idx =>
    (inequalities.filter (fun q => decide (q.normal.getD idx 0 > 0))).length
      * (inequalities.filter (fun q => decide (q.normal.getD idx 0 < 0))).length)

/-- `std::max_element(first, last, comp)` as an offset from `first`: the
running best is replaced whenever `comp(best, current)` holds. -/
def maxElementIdx (comp : Nat → Nat → Bool) : List Nat → Nat
  | [] => 0
  | x :: xs =>
    ((xs.foldl
      (fun (acc : (Nat × Nat) × Nat) y =>
        if comp acc.1.2 y then ((acc.2, y), acc.2 + 1) else (acc.1, acc.2 + 1))
      ((0, x), 1)).1).1

/-- `EliminationOrder::selectNext(inequalities, step)`: the variable list
after the swap and the selected variable. -/
def selectNext {S : Type} (ordering : EliminationOrdering) (vars : List Nat)
    (inequalities : List (Inequality S)) (step : Nat) : List Nat × Nat :=
  if ordering = EliminationOrdering.MinPairs then
    let v := Matrix.swapList vars step
      (step + maxElementIdx (fun a b => decide (a > b)) (numPairs inequalities vars step))
    (v, v.getD step 0)
  else if ordering = EliminationOrdering.MaxPairs then
    let v := Matrix.swapList vars step
      (step + maxElementIdx (fun a b => decide (a < b)) (numPairs inequalities vars step))
    (v, v.getD step 0)
  else (vars, vars.getD step 0)

/-! ## elimination/Elimination.hpp -/

/-- The classification loop of `run`: inequalities with a non-zero
coefficient move to `plus` or `minus` and are erased from the working list. -/
def classifyLoop {S : Type} (eliminated : Nat) :
    Nat → Nat → List (Inequality S) × List (Inequality S) × List (Inequality S) →
      List (Inequality S) × List (Inequality S) × List (Inequality S)
  | 0, _, x => x
  | fuel + 1, i, (ineqs, plus, minus) =>
    match ineqs.get? i with
    | none => (ineqs, plus, minus)
    | some q =>
      if q.normal.getD eliminated 0 = 0 then
        classifyLoop eliminated fuel (i + 1) (ineqs, plus, minus)
      else if q.normal.getD eliminated 0 > 0 then
        classifyLoop eliminated fuel i (Vector.erase ineqs i, plus ++ [q], minus)
      else classifyLoop eliminated fuel i (Vector.erase ineqs i, plus, minus ++ [q])

/-- The complementary index of the inequality at position `i` of the working
list. -/
def indexAt {S : Type} (ops : SetOps S) (ineqs : List (Inequality S)) (i : Nat) : S :=
  match ineqs.get? i with
  | some q => q.complementaryIndex
  | none => ops.create 0

/-- First inner loop of `checkSecondChernikovRule`: is the complementary index
at position `i` a subset of that of one of the first `numZeroInequalities`
inequalities? -/
def redundantVsZero {S : Type} (ops : SetOps S) (ineqs : List (Inequality S))
    (i numZeroInequalities : Nat) : Bool :=
  (List.range numZeroInequalities).any (fun j =>
    ops.isSubsetOf (indexAt ops ineqs i) (indexAt ops ineqs j))

/-- Second inner loop of `checkSecondChernikovRule`: is the complementary
index at position `i` a subset of that of another inequality at a position
from `startIdx` on? -/
def redundantVsOthers {S : Type} (ops : SetOps S) (ineqs : List (Inequality S))
    (i startIdx : Nat) : Bool :=
  (List.range' startIdx (ineqs.length - startIdx)).any (fun j =>
    decide (j ≠ i) && ops.isSubsetOf (indexAt ops ineqs i) (indexAt ops ineqs j))

/-- The loop of `checkSecondChernikovRule(startIdx, numZeroInequalities)` from
position `i` on; every iteration erases an entry or advances `i`. -/
def secondRuleLoop {S : Type} (ops : SetOps S) (startIdx numZeroInequalities : Nat) :
    Nat → Nat → List (Inequality S) → List (Inequality S)
  | 0, _, ineqs => ineqs
  | fuel + 1, i, ineqs =>
    if i < ineqs.length then
      if redundantVsZero ops ineqs i numZeroInequalities then
        secondRuleLoop ops startIdx numZeroInequalities fuel i (Vector.erase ineqs i)
      else if redundantVsOthers ops ineqs i startIdx then
        secondRuleLoop ops startIdx numZeroInequalities fuel i (Vector.erase ineqs i)
      else secondRuleLoop ops startIdx numZeroInequalities fuel (i + 1) ineqs
    else ineqs

/-- `EliminationAlgorithm::checkSecondChernikovRule`. -/
def checkSecondChernikovRule {S : Type} (ops : SetOps S) (startIdx numZeroInequalities : Nat)
    (ineqs : List (Inequality S)) : List (Inequality S) :=
  secondRuleLoop ops startIdx numZeroInequalities (ineqs.length - startIdx) startIdx ineqs

/-- The inner loop over `minus` of the creation of new inequalities, for one
`plus`. -/
def combineWithMinus {S : Type} (t : Coeff) (ops : SetOps S) (dim : Nat) (intArith : Bool)
    (n step : Nat)
    (eliminated : Nat) (plus : Inequality S) (minusInequalities : List (Inequality S))
    (ineqs : List (Inequality S)) : List (Inequality S) :=
  minusInequalities.foldl
    (fun acc minus =>
      if ops.intersectionSize plus.complementaryIndex minus.complementaryIndex
          ≥ subSizeT n (step + 2) then
        acc ++ [newInequalityFromPair t ops dim intArith plus minus eliminated]
      else acc)
    ineqs

/-- The loop over `plus` that creates the new inequalities; in graph mode the
second Chernikov rule is applied after each `plus`. -/
def createInequalities {S : Type} (t : Coeff) (ops : SetOps S) (params : Parameters)
    (dim n step : Nat)
    (eliminated numZeroInequalities : Nat)
    (plusInequalities minusInequalities : List (Inequality S))
    (ineqs : List (Inequality S)) : List (Inequality S) :=
  plusInequalities.foldl
    (fun acc plus =>
      if params.chernikovTest = ChernikovTest.Graph then
        checkSecondChernikovRule ops acc.length numZeroInequalities
          (combineWithMinus t ops dim params.intArithmetic n step eliminated plus
            minusInequalities acc)
      else
        combineWithMinus t ops dim params.intArithmetic n step eliminated plus
          minusInequalities acc)
    ineqs

/-- One iteration of the loop over `step` of `run`: returns the working list
and the variable list of the order object. -/
def eliminationStep {S : Type} (t : Coeff) (ops : SetOps S) (params : Parameters)
    (dim n : Nat)
    (st : List (Inequality S) × List Nat) (step : Nat) : List (Inequality S) × List Nat :=
  let sel := selectNext params.eliminationOrdering st.2 st.1 step
  let eliminated := sel.2
  let cl := classifyLoop eliminated st.1.length 0 (st.1, [], [])
  let numZeroInequalities := cl.1.length
  let created := createInequalities t ops params dim n step eliminated numZeroInequalities
    cl.2.1 cl.2.2 cl.1
  let pruned :=
    if params.chernikovTest ≠ ChernikovTest.Graph then
      checkSecondChernikovRule ops numZeroInequalities numZeroInequalities created
    else created
  (pruned, sel.1)

/-- The initial inequality for row `i`: its complementary index receives
every `j ≠ i`. -/
def initialInequality {S : Type} (t : Coeff) (ops : SetOps S) (dim n : Nat)
    (intArith : Bool) (i : Nat) (row : List Int) : Inequality S :=
  let q := newInequality t ops dim intArith row
  { q with
    complementaryIndex :=
      (List.range n).foldl (fun x j => if j ≠ i then ops.add x j else x) q.complementaryIndex }

/-- `EliminationAlgorithm<T, Set>::run`. -/
def run {S : Type} (t : Coeff) (ops : SetOps S) (params : Parameters) (rnd : Nat → Nat)
    (inequalityMatrix : Matrix) (eliminationVariables : List Nat) : Matrix :=
  let n := inequalityMatrix.nrows
  let dim := inequalityMatrix.ncols
  let init : List (Inequality S) :=
    (List.range n).map (fun i => initialInequality t ops dim n params.intArithmetic i
      (inequalityMatrix.row i))
  let fin := (List.range eliminationVariables.length).foldl
    (eliminationStep t ops params dim n)
    (init, orderInit params.eliminationOrdering rnd eliminationVariables)
  ⟨dim, fin.1.map (fun q => q.normal.take dim)⟩

/-- `elimination<T>(inequalities, eliminationVariables, parameters, result)`:
the dispatch on the number of rows. -/
def elimination (t : Coeff) (params : Parameters) (rnd : Nat → Nat) (inequalities : Matrix)
    (eliminationVariables : List Nat) : Matrix :=
  if inequalities.nrows ≤ 32 then
    run t (BitFieldSet.ops 32) params rnd inequalities eliminationVariables
  else if inequalities.nrows ≤ 64 then
    run t (BitFieldSet.ops 64) params rnd inequalities eliminationVariables
  else if inequalities.nrows ≤ 96 then
    run t (BitFieldSet.ops 96) params rnd inequalities eliminationVariables
  else if inequalities.nrows ≤ 128 then
    run t (BitFieldSet.ops 128) params rnd inequalities eliminationVariables
  else run t (VectorSet.ops 64) params rnd inequalities eliminationVariables

/-! ## Predicates used in the statements -/

/-- Every entry of the list has coefficient 0 at position `v`. -/
def ZeroCol {S : Type} (v : Nat) (l : List (Inequality S)) : Prop :=
  ∀ q ∈ l, q.normal.getD v 0 = 0

end Elimination

namespace DDM

/-- A ray whose coordinates are zeros and ones and whose outside set is
empty. -/
def Good {S : Type} (r : Ray S) : Prop :=
  (∀ x ∈ r.coordinates, x = 0 ∨ x = 1) ∧ r.assignedInequalities = []

end DDM

namespace Utils

/-- The greatest common divisor of all entries of a list, as a natural
number (0 for the empty and for the all-zero list). -/
def listGcd (v : List Int) : Nat := v.foldr (fun x g => Int.gcd x g) 0

end Utils

namespace DDM

/-- The block written by `RayFactory::newRay(coords, disc, numInc)` before it
is normalized: `dim` coordinates followed by the discrepancies. -/
def newRayBlock {S : Type} (c : Context S) (coords disc : List Int) : List Int :=
  coords.take c.dim ++ disc.take (c.extendedDim - c.dim)

/-- The block written by `RayFactory::newRay(plus, minus, pivotIneIdx)` before
it is normalized. -/
def newRayFromEdgeBlock {S : Type} (c : Context S) (heap : List (Ray S))
    (plus minus : Nat) : List Int :=
  (List.zipWith
    (fun mc pc => c.arith.sub (c.arith.mul (getRay c heap plus).pivotDiscrepancy mc)
      (c.arith.mul (getRay c heap minus).pivotDiscrepancy pc))
    (getRay c heap minus).coordinates (getRay c heap plus).coordinates).take c.extendedDim

/-- The ray made by `RayFactory::newRay(plus, minus, pivotIneIdx)`, read back
from the heap. -/
def edgeRay {S : Type} (c : Context S) (heap : List (Ray S))
    (plus minus pivotIneIdx : Nat) : Ray S :=
  getRay c (newRayFromEdge c heap plus minus pivotIneIdx).1
    (newRayFromEdge c heap plus minus pivotIneIdx).2

end DDM

namespace Elimination

/-- The pair count of a variable: the number of inequalities with a positive
coefficient times the number with a negative coefficient. -/
def pairCount {S : Type} (inequalities : List (Inequality S)) (v : Nat) : Nat :=
  (inequalities.filter (fun q => decide (q.normal.getD v 0 > 0))).length
    * (inequalities.filter (fun q => decide (q.normal.getD v 0 < 0))).length

end Elimination

namespace Utils

/-- A well-formed `BitFieldSet<maxPower>`: `numCells` cells, each of them a
machine word, and no bit set at a position from `maxPower` on. The empty set
is well formed, and `add(x)` with `x < maxPower` and the intersection
constructor keep a set well formed. -/
@[reducible] def BitFieldSet.Valid (maxPower : Nat) (s : List Nat) : Prop :=
  s.length = BitFieldSet.numCells maxPower
  ∧ (∀ c ∈ s, c < 2 ^ BitFieldSet.cellSizeBits)
  ∧ ∀ x < BitFieldSet.cellSizeBits * BitFieldSet.numCells maxPower, maxPower ≤ x →
      Nat.testBit (s.getD (x / BitFieldSet.cellSizeBits) 0) (x % BitFieldSet.cellSizeBits)
        = false

end Utils

namespace DDM

open Utils

/-- `Algorithm::makeInitialStep()` stopped after the first `k` iterations of
its final loop `for (i = 0; i < numInes; ++i) pivoting.assignIne(i,
extremeRays)`. -/
def makeInitialStepUpTo {S : Type} (c : Context S) (f : Matrix) (perm : List Nat) (k : Nat) :
    State S :=
  let s0 := initialState c
  let rays : List (Ray S) := (List.range c.rank).map (fun rayIdx =>
    let r := newRay c (f.row rayIdx)
      (if c.usePlusPlus then computeDiscrepancies c (f.row rayIdx) else [])
      c.inequalityMatrix.nrows
    { r with cobasis := initialCobasis c perm rayIdx r.cobasis })
  let ext := List.range c.rank
  let heap1 := computeAdjacency c rays ext s0.notProcessedInequalities
  (List.range k).foldl
    (fun s i => assignIne c s i s.extremeRays)
    { s0 with heap := heap1, extremeRays := ext }

end DDM

namespace Elimination

/-- The Chernikov index of an inequality among `n` initial rows: the row
numbers that are not in its complementary index. -/
def chernikovIndex {S : Type} (ops : Utils.SetOps S) (n : Nat) (q : Inequality S) : List Nat :=
  (List.range n).filter (fun j => !(ops.toVector q.complementaryIndex).contains j)

/-- The test of the 1st Chernikov rule as evaluated in `run`, on `size_t`
values. -/
def firstRuleTest {S : Type} (ops : Utils.SetOps S) (n step : Nat) (p m : Inequality S) : Bool :=
  decide (ops.intersectionSize p.complementaryIndex m.complementaryIndex
    ≥ Utils.subSizeT n (step + 2))

end Elimination

namespace Elimination

/-- One deletion of the 2nd Chernikov rule: the entry at a position `i` from
`startIdx` on whose complementary index is a subset of that of one of the first
`numZero` entries, or of another entry at a position from `startIdx` on, is
erased from the list. -/
inductive PruneStep {S : Type} (ops : Utils.SetOps S) (startIdx numZero : Nat) :
    List (Inequality S) → List (Inequality S) → Prop
  | erase (l : List (Inequality S)) (i : Nat) :
      startIdx ≤ i → i < l.length →
      (redundantVsZero ops l i numZero = true ∨ redundantVsOthers ops l i startIdx = true) →
      PruneStep ops startIdx numZero l (Utils.Vector.erase l i)

end Elimination

namespace Utils

/-! ## MemoryManager.hpp -/

/-- A cell pointer handed out by `MemoryManager`: the pool it was carved from
(the pools returned by `new char[...]` are numbered in the order of their
allocation) and the number of the cell in the pool; its address is
`pool + m_size * index`. -/
structure Cell where
  pool : Nat
  index : Nat
deriving DecidableEq, Repr

/-- `class MemoryManager`: `m_numNewCells`, the free list `m_unusedCells` and
the list `m_allocatedMemory` of pools. Allocation is assumed to succeed. -/
structure MemoryManager where
  numNewCells : Nat
  unusedCells : List Cell
  allocatedMemory : List Nat
deriving DecidableEq, Repr

namespace MemoryManager

/-- Constructor `MemoryManager(size, numNewCells)`; every use in the
repository takes the default `numNewCells = 100`. -/
def create (numNewCells : Nat) : MemoryManager := ⟨numNewCells, [], []⟩

/-- `newCell()`: the returned pointer and the new state. With an empty free
list a pool is allocated, its cells `numNewCells - 1, ..., 1` are pushed onto
the free list in this order and cell 0 is returned. -/
def newCell (m : MemoryManager) : Cell × MemoryManager :=
  match m.unusedCells.getLast? with
  | some result => (result, { m with unusedCells := m.unusedCells.dropLast })
  | none =>
    (⟨m.allocatedMemory.length, 0⟩,
      { m with
        allocatedMemory := m.allocatedMemory ++ [m.allocatedMemory.length],
        unusedCells := m.unusedCells
          ++ (List.range' 1 (m.numNewCells - 1)).reverse.map
              (fun i => Cell.mk m.allocatedMemory.length i) })

/-- `deleteCell(pointer)`; `none` is the null pointer. -/
def deleteCell (m : MemoryManager) (pointer : Option Cell) : MemoryManager :=
  match pointer with
  | some p => { m with unusedCells := m.unusedCells ++ [p] }
  | none => m

/-- The condition under which the destructor prints its leak warning. -/
def leakWarning (m : MemoryManager) : Bool :=
  decide (m.allocatedMemory.length * m.numNewCells ≠ m.unusedCells.length)

end MemoryManager

/-- An operation of a client of `MemoryManager`. -/
inductive MemOp where
  | alloc
  | free (c : Cell)
  | freeNull
deriving DecidableEq, Repr

/-- A client that keeps the list of the cells it holds (handed out and not yet
returned) and deletes only cells it holds: the manager and the held cells
after the operations, `none` when an operation deletes a cell that is not
held. -/
def MemoryManager.client :
    List MemOp → MemoryManager × List Cell → Option (MemoryManager × List Cell)
  | [], s => some s
  | MemOp.alloc :: ops, (m, held) => client ops (m.newCell.2, held ++ [m.newCell.1])
  | MemOp.free c :: ops, (m, held) =>
    if c ∈ held then client ops (m.deleteCell (some c), held.erase c) else none
  | MemOp.freeNull :: ops, (m, held) => client ops (m.deleteCell none, held)

end Utils

namespace Elimination

open Utils

/-- The normal of `q` is a combination of the rows of `a` with non-negative
rational coefficients in which only rows whose number is not in the
complementary index of `q` take part. -/
def IsCombination {S : Type} (ops : SetOps S) (a : Matrix) (q : Inequality S) : Prop :=
  ∃ coef : Nat → ℚ, (∀ j, 0 ≤ coef j)
    ∧ (∀ j ∈ ops.toVector q.complementaryIndex, coef j = 0)
    ∧ ∀ k < a.ncols,
        (q.normal.getD k 0 : ℚ)
          = (Finset.range a.nrows).sum (fun j => coef j * ((a.row j).getD k 0 : ℚ))

/-- The set representation that `elimination` selects for a system of `nrows`
rows. -/
def selectedOps (nrows : Nat) : SetOps (List Nat) :=
  if nrows ≤ 32 then BitFieldSet.ops 32
  else if nrows ≤ 64 then BitFieldSet.ops 64
  else if nrows ≤ 96 then BitFieldSet.ops 96
  else if nrows ≤ 128 then BitFieldSet.ops 128
  else VectorSet.ops 64

/-- The working list `inequalities` of `EliminationAlgorithm::run` after the
first `k` iterations of the loop over `step` (`k = 0`: the initial
inequalities). -/
def workingList {S : Type} (t : Coeff) (ops : SetOps S) (params : Parameters)
    (rnd : Nat → Nat)
    (inequalityMatrix : Matrix) (eliminationVariables : List Nat) (k : Nat) :
    List (Inequality S) :=
  ((List.range k).foldl
    (eliminationStep t ops params inequalityMatrix.ncols inequalityMatrix.nrows)
    ((List.range inequalityMatrix.nrows).map (fun i =>
        initialInequality t ops inequalityMatrix.ncols inequalityMatrix.nrows
          params.intArithmetic i (inequalityMatrix.row i)),
      orderInit params.eliminationOrdering rnd eliminationVariables)).1

end Elimination

namespace DDM

open Utils

/-- The number of common elements of two cobases held as sorted vectors,
counted with multiplicity. -/
def common (a b : List Nat) : Nat := Multiset.card ((a : Multiset Nat) ∩ (b : Multiset Nat))

/-- The heap invariant behind the bounds on cobasis sizes: every cobasis is
sorted and has at least `rank - 1` elements, and every entry of an adjacency
list points into the heap, to a ray that has at least `rank - 2` cobasis
elements in common with the owner of the list. -/
def HeapInv (rank : Nat) (heap : List (Ray (List Nat))) : Prop :=
  ∀ (i : Nat) (r : Ray (List Nat)), heap[i]? = some r →
    r.cobasis.Sorted (fun x y => x ≤ y)
    ∧ rank ≤ r.cobasis.length + 1
    ∧ ∀ a ∈ r.adjacentRays, ∃ ra, heap[a]? = some ra ∧ rank ≤ common r.cobasis ra.cobasis + 2

/-- The body of the main loop of `Algorithm::run`: `classifyRays` followed by
`computeAdjacency` on the zero rays; `none` when `classifyRays` fails. -/
def loopBody {S : Type} (c : Context S) (s : State S) : Option (State S) :=
  match classifyRays c s with
  | none => none
  | some (s1, zeroRays) =>
    some { s1 with heap := computeAdjacency c s1.heap zeroRays s1.notProcessedInequalities }

/-- The state after `k` executions of the body of the main loop. -/
def iterations {S : Type} (c : Context S) : Nat → State S → Option (State S)
  | 0, s => some s
  | k + 1, s =>
    match loopBody c s with
    | none => none
    | some s1 => iterations c k s1

end DDM

namespace DDM

open Utils

/-- Closure conditions on a property `Q` of rays under which `Q` holds for
every ray that a run creates: `Q` depends on the coordinates and the cobasis
only and fixes the number of entries of the coordinate array; it survives
the addition of the pivot index to the cobasis of a ray whose discrepancy on
the pivot inequality is within the tolerance; and it holds for the ray built
for an edge between two rays with `Q` whose `pivotDiscrepancy` fields hold
their discrepancies on the pivot inequality. -/
structure RayClosed {S : Type} (c : Context S) (Q : Ray S → Prop) : Prop where
  frame : ∀ r r1 : Ray S, Q r → r1.coordinates = r.coordinates → r1.cobasis = r.cobasis → Q r1
  length : ∀ r : Ray S, Q r → r.coordinates.length = c.extendedDim
  zero : ∀ (r r1 : Ray S) (piv : Nat), Q r → piv < c.inequalityMatrix.nrows →
    -c.zerotol ≤ computeDiscrepancy c r piv → computeDiscrepancy c r piv ≤ c.zerotol →
    r1.coordinates = r.coordinates → r1.cobasis = c.ops.add r.cobasis piv → Q r1
  edge : ∀ (p m r1 : Ray S) (piv : Nat), Q p → Q m → piv < c.inequalityMatrix.nrows →
    p.pivotDiscrepancy = computeDiscrepancy c p piv →
    m.pivotDiscrepancy = computeDiscrepancy c m piv →
    c.zerotol < p.pivotDiscrepancy → m.pivotDiscrepancy < -c.zerotol →
    r1.coordinates = normalizeRay c ((List.zipWith
        (fun mc pc =>
          c.arith.sub (c.arith.mul p.pivotDiscrepancy mc) (c.arith.mul m.pivotDiscrepancy pc))
        m.coordinates p.coordinates).take c.extendedDim) →
    r1.cobasis = c.ops.add (c.ops.inter p.cobasis m.cobasis) piv → Q r1

/-- Every ray of the heap has the property `Q`, its adjacency list points into
the heap, its assigned inequalities are row indices, and it has not been
visited after step `step`. -/
def HeapOk {S : Type} (c : Context S) (Q : Ray S → Prop) (step : Nat) (heap : List (Ray S)) :
    Prop :=
  ∀ (i : Nat) (r : Ray S), heap[i]? = some r →
    Q r ∧ (∀ a ∈ r.adjacentRays, a < heap.length)
    ∧ (∀ j ∈ r.assignedInequalities, j < c.inequalityMatrix.nrows)
    ∧ r.visitingStep ≤ step

/-- Every ray of the heap that has been visited at step `step` holds in
`pivotDiscrepancy` its discrepancy on the inequality `piv`. -/
def PivotOk {S : Type} (c : Context S) (step piv : Nat) (heap : List (Ray S)) : Prop :=
  ∀ (i : Nat) (r : Ray S), heap[i]? = some r → r.visitingStep = step →
    r.pivotDiscrepancy = computeDiscrepancy c r piv

/-- The invariant at the iteration boundaries: `HeapOk`, the rays of
`extremeRays` are in the heap, and `assigneeRays` has at most one entry for
each row. -/
def StateOk {S : Type} (c : Context S) (Q : Ray S → Prop) (s : State S) : Prop :=
  HeapOk c Q s.step s.heap
  ∧ (∀ r ∈ s.extremeRays, r < s.heap.length)
  ∧ s.assigneeRays.length ≤ c.inequalityMatrix.nrows

end DDM

namespace DDM

open Utils

/-- The invariant inside `classifyRays`: `HeapOk` and `PivotOk` for the
current step and pivot inequality, the pivot inequality is a row index, the
zero rays and new rays collected so far are in the heap, and every collected
minus or zero ray of the heap has been visited at the current step. -/
def StepOk {S : Type} (c : Context S) (Q : Ray S → Prop) (sw : State S × WorkLists) : Prop :=
  HeapOk c Q sw.1.step sw.1.heap
  ∧ PivotOk c sw.1.step sw.1.pivotInequalityIdx sw.1.heap
  ∧ sw.1.pivotInequalityIdx < c.inequalityMatrix.nrows
  ∧ (∀ r ∈ sw.2.zeroRays ++ sw.2.newRays, r < sw.1.heap.length)
  ∧ (∀ r ∈ sw.2.minusRays ++ sw.2.zeroRays, r < sw.1.heap.length →
      (getRay c sw.1.heap r).visitingStep = sw.1.step)

/-- What the traversal of `classifyRays` leaves unchanged or only lets grow:
the step, the pivot inequality, `extremeRays`, `assigneeRays`; the heap does
not shrink, and a ray visited at the current step stays so. -/
def StepFrame {S : Type} (c : Context S) (s s1 : State S) : Prop :=
  s1.step = s.step ∧ s1.pivotInequalityIdx = s.pivotInequalityIdx
  ∧ s1.extremeRays = s.extremeRays ∧ s1.assigneeRays = s.assigneeRays
  ∧ s.heap.length ≤ s1.heap.length
  ∧ (∀ j, j < s.heap.length → (getRay c s.heap j).visitingStep = s.step →
      (getRay c s1.heap j).visitingStep = s.step)

end DDM

namespace DDM

open Utils

/-- The ray that `makeInitialStep` creates for the row `rayIdx` of `f`. -/
def initialRay {S : Type} (c : Context S) (f : Matrix) (perm : List Nat) (rayIdx : Nat) :
    Ray S :=
  { newRay c (f.row rayIdx)
      (if c.usePlusPlus then computeDiscrepancies c (f.row rayIdx) else [])
      c.inequalityMatrix.nrows with
    cobasis := initialCobasis c perm rayIdx
      (newRay c (f.row rayIdx)
        (if c.usePlusPlus then computeDiscrepancies c (f.row rayIdx) else [])
        c.inequalityMatrix.nrows).cobasis }

end DDM

namespace DDM

open Utils

/-- An extended coordinate array is consistent with its cache: it has
`extendedDim` entries, and the entry at position `dim + i` is the inner
product of the coordinates with the row `i` of the inequality matrix. -/
def CacheConsistent {S : Type} (c : Context S) (v : List Int) : Prop :=
  v.length = c.extendedDim
  ∧ ∀ i, i < c.inequalityMatrix.nrows →
      v.getD (c.dim + i) 0
        = dot c.arith c.inequalityMatrix.ncols v (c.inequalityMatrix.row i)

end DDM

namespace DDM

open Utils

/-- A ray is sound for its cobasis: its coordinate array has `extendedDim`
entries and its discrepancy on every row whose index is in the cobasis is
zero. -/
def CobasisSound {S : Type} (c : Context S) (r : Ray S) : Prop :=
  r.coordinates.length = c.extendedDim
  ∧ ∀ k ∈ c.ops.toVector r.cobasis, computeDiscrepancy c r k = 0

end DDM

namespace DDM

open Utils

/-- The value that `adjRay->pivotDiscrepancy` has after the first part of the
body of the loop of `searchAdj`: the discrepancy on the pivot inequality,
computed there when the ray has not been visited on the current step and
read from the ray otherwise. -/
def seenDiscrepancy {S : Type} (c : Context S) (s : State S) (a : Nat) : Int :=
  if (getRay c s.heap a).visitingStep ≠ s.step then
    computeDiscrepancy c (getRay c s.heap a) s.pivotInequalityIdx
  else (getRay c s.heap a).pivotDiscrepancy

/-- The number of rays that `searchAdj` creates for the entries `T` of the
adjacency list of `ray`: one for each entry on the plus side when `ray` is on
the minus side, none otherwise. -/
def numNewRays {S : Type} (c : Context S) (ray : Nat) (s : State S) (T : List Nat) : Nat :=
  if (getRay c s.heap ray).pivotDiscrepancy < -c.zerotol then
    (T.filter (fun a => decide (c.zerotol < seenDiscrepancy c s a))).length
  else 0

/-- How the rays of the heap of `s` are found in the heap of `s2` after the
entry `adjRay` of the adjacency list of `ray` has been handled: only `adjRay`
is marked as visited, it gains the pivot index if it is visited for the first
time and lies on the pivot hyperplane, and only the adjacency lists of `ray`
and `adjRay` may differ. -/
def RayStep {S : Type} (c : Context S) (s s2 : State S) (ray adjRay : Nat) : Prop :=
  ∀ j, j < s.heap.length →
    (getRay c s2.heap j).coordinates = (getRay c s.heap j).coordinates
    ∧ (getRay c s2.heap j).assignedInequalities = (getRay c s.heap j).assignedInequalities
    ∧ (j = adjRay → (getRay c s2.heap j).visitingStep = s.step
        ∧ (getRay c s2.heap j).pivotDiscrepancy = seenDiscrepancy c s j)
    ∧ (j ≠ adjRay → (getRay c s2.heap j).visitingStep = (getRay c s.heap j).visitingStep
        ∧ (getRay c s2.heap j).pivotDiscrepancy = (getRay c s.heap j).pivotDiscrepancy)
    ∧ (j = adjRay ∧ (getRay c s.heap j).visitingStep ≠ s.step
        ∧ -c.zerotol ≤ seenDiscrepancy c s j ∧ seenDiscrepancy c s j ≤ c.zerotol →
        (getRay c s2.heap j).cobasis = c.ops.add (getRay c s.heap j).cobasis s.pivotInequalityIdx)
    ∧ (¬ (j = adjRay ∧ (getRay c s.heap j).visitingStep ≠ s.step
        ∧ -c.zerotol ≤ seenDiscrepancy c s j ∧ seenDiscrepancy c s j ≤ c.zerotol) →
        (getRay c s2.heap j).cobasis = (getRay c s.heap j).cobasis)
    ∧ (j ≠ ray → j ≠ adjRay →
        (getRay c s2.heap j).adjacentRays = (getRay c s.heap j).adjacentRays)

/-- The effect of the part of the loop of `searchAdj(ray, ...)` that starts
in the state `s` with the work lists `w`, keeps the entries `pre` of the
adjacency list of `ray` and handles the entries `T`, and ends in `sw1`. -/
def SearchEffect {S : Type} (c : Context S) (ray : Nat) (s : State S) (w : WorkLists)
    (pre T : List Nat) (sw1 : State S × WorkLists) : Prop :=
  sw1.1 = { s with heap := sw1.1.heap }
  ∧ List.Perm (getRay c sw1.1.heap ray).adjacentRays
      (pre ++ T.filter (fun a => decide (c.zerotol < seenDiscrepancy c s a)))
  ∧ sw1.1.heap.length = s.heap.length + numNewRays c ray s T
  ∧ sw1.2.newRays = w.newRays ++ List.range' s.heap.length (numNewRays c ray s T)
  ∧ (∃ M Z : List Nat,
      sw1.2.minusRays = w.minusRays ++ M ∧ sw1.2.zeroRays = w.zeroRays ++ Z
      ∧ M.Nodup ∧ Z.Nodup
      ∧ (∀ a, a ∈ M ↔ a ∈ T ∧ (getRay c s.heap a).visitingStep ≠ s.step
          ∧ seenDiscrepancy c s a < -c.zerotol)
      ∧ (∀ a, a ∈ Z ↔ a ∈ T ∧ (getRay c s.heap a).visitingStep ≠ s.step
          ∧ -c.zerotol ≤ seenDiscrepancy c s a ∧ seenDiscrepancy c s a ≤ c.zerotol))
  ∧ ∀ j, j < s.heap.length →
      (getRay c sw1.1.heap j).coordinates = (getRay c s.heap j).coordinates
      ∧ (getRay c sw1.1.heap j).assignedInequalities = (getRay c s.heap j).assignedInequalities
      ∧ (j ∈ T → (getRay c sw1.1.heap j).visitingStep = s.step
          ∧ (getRay c sw1.1.heap j).pivotDiscrepancy = seenDiscrepancy c s j)
      ∧ (j ∉ T → (getRay c sw1.1.heap j).visitingStep = (getRay c s.heap j).visitingStep
          ∧ (getRay c sw1.1.heap j).pivotDiscrepancy = (getRay c s.heap j).pivotDiscrepancy)
      ∧ (j ∈ T ∧ (getRay c s.heap j).visitingStep ≠ s.step
          ∧ -c.zerotol ≤ seenDiscrepancy c s j ∧ seenDiscrepancy c s j ≤ c.zerotol →
          (getRay c sw1.1.heap j).cobasis
            = c.ops.add (getRay c s.heap j).cobasis s.pivotInequalityIdx)
      ∧ (¬ (j ∈ T ∧ (getRay c s.heap j).visitingStep ≠ s.step
          ∧ -c.zerotol ≤ seenDiscrepancy c s j ∧ seenDiscrepancy c s j ≤ c.zerotol) →
          (getRay c sw1.1.heap j).cobasis = (getRay c s.heap j).cobasis)
      ∧ (j ≠ ray → j ∉ T →
          (getRay c sw1.1.heap j).adjacentRays = (getRay c s.heap j).adjacentRays)

end DDM

namespace DDM

open Utils

/-- The state and the work lists with which the traversal loop of
`classifyRays` starts: `next` has chosen the pivot, the pivot ray is marked
as visited and is the only entry of `minusRays`. -/
def classifyStart {S : Type} (c : Context S) (s : State S) : Option (State S × WorkLists) :=
  match next c s with
  | none => none
  | some s1 =>
    some ({ s1 with
        heap := s1.heap.set s1.pivotRay
          { getRay c s1.heap s1.pivotRay with visitingStep := s1.step } },
      WorkLists.mk [s1.pivotRay] [] [])

end DDM

namespace DDM

open Utils

/-- What `searchAdj(ray, ...)` does to the adjacency lists of the entries `T`
of the adjacency list of `ray` and to the rays it creates, between the state
`s` and the result `sw1`: when `ray` is on the minus side, every entry on the
plus side gets `ray` replaced by a ray created in this call, every ray
created in this call is the replacement in exactly such an entry and has
that entry as its only neighbour; the adjacency lists of all other entries
are unchanged. -/
def SearchAdjacency {S : Type} (c : Context S) (ray : Nat) (s : State S) (T : List Nat)
    (sw1 : State S × WorkLists) : Prop :=
  (∀ j ∈ T, (getRay c s.heap ray).pivotDiscrepancy < -c.zerotol →
      c.zerotol < seenDiscrepancy c s j →
      ∃ n, s.heap.length ≤ n ∧ n < sw1.1.heap.length
        ∧ (getRay c sw1.1.heap j).adjacentRays
            = replaceFirst ray n (getRay c s.heap j).adjacentRays
        ∧ (getRay c sw1.1.heap n).adjacentRays = [j]
        ∧ (getRay c sw1.1.heap n).pivotDiscrepancy = 0
        ∧ (getRay c sw1.1.heap n).visitingStep = s.step
        ∧ (getRay c sw1.1.heap n).assignedInequalities = [])
  ∧ (∀ n, s.heap.length ≤ n → n < sw1.1.heap.length →
      ∃ j ∈ T, (getRay c s.heap ray).pivotDiscrepancy < -c.zerotol
        ∧ c.zerotol < seenDiscrepancy c s j
        ∧ (getRay c sw1.1.heap j).adjacentRays
            = replaceFirst ray n (getRay c s.heap j).adjacentRays
        ∧ (getRay c sw1.1.heap n).adjacentRays = [j]
        ∧ (getRay c sw1.1.heap n).pivotDiscrepancy = 0
        ∧ (getRay c sw1.1.heap n).visitingStep = s.step
        ∧ (getRay c sw1.1.heap n).assignedInequalities = [])
  ∧ (∀ j ∈ T, ¬ ((getRay c s.heap ray).pivotDiscrepancy < -c.zerotol
        ∧ c.zerotol < seenDiscrepancy c s j) →
      (getRay c sw1.1.heap j).adjacentRays = (getRay c s.heap j).adjacentRays)

end DDM

namespace DDM

open Utils

/-- The ray `a` has been visited on the current step and lies strictly on the
plus side of the pivot inequality. -/
def isPlus {S : Type} (c : Context S) (s : State S) (a : Nat) : Prop :=
  (getRay c s.heap a).visitingStep = s.step
  ∧ c.zerotol < (getRay c s.heap a).pivotDiscrepancy

/-- The invariant of the main loop behind the symmetry of the adjacency
lists: `extremeRays` has no repetition and names rays of the heap; the
adjacency list of every extreme ray has no repetition, names extreme rays
other than the ray itself, and every entry names the ray back; no extreme
ray has a stored discrepancy below `-zerotol` or has been visited after the
current step; every assigned inequality is strictly violated by the ray it is
assigned to; every entry of `assigneeRays` names an extreme ray that has the
inequality in its list. -/
structure SymInv {S : Type} (c : Context S) (s : State S) : Prop where
  nodup : s.extremeRays.Nodup
  valid : ∀ r ∈ s.extremeRays, r < s.heap.length
  adjNodup : ∀ r ∈ s.extremeRays, (getRay c s.heap r).adjacentRays.Nodup
  adj : ∀ r ∈ s.extremeRays, ∀ a ∈ (getRay c s.heap r).adjacentRays,
    a ∈ s.extremeRays ∧ a ≠ r ∧ r ∈ (getRay c s.heap a).adjacentRays
  pd : ∀ r ∈ s.extremeRays, -c.zerotol ≤ (getRay c s.heap r).pivotDiscrepancy
  vs : ∀ r ∈ s.extremeRays, (getRay c s.heap r).visitingStep ≤ s.step
  assigned : ∀ r, r < s.heap.length → ∀ j ∈ (getRay c s.heap r).assignedInequalities,
    computeDiscrepancy c (getRay c s.heap r) j < -c.zerotol
  assignee : ∀ idx r, s.assigneeRays[idx]? = some (some r) →
    r ∈ s.extremeRays ∧ idx ∈ (getRay c s.heap r).assignedInequalities

/-- The invariant of the traversal loop of `classifyRays`. `E` is the list
`extremeRays` and `h0` the size of the heap at the start of the step; `M`,
`Z`, `N` are the work lists `minusRays`, `zeroRays`, `newRays`; `done` holds
for the rays of `M` and `Z` that `searchAdj` has been called for. The rays of
`M` and `Z` are the visited extreme rays that are not on the plus side; a new
ray has a single neighbour, on the plus side, which names it back; the
neighbours of a ray that is done are on the plus side and name it back if and
only if it is in `Z`; an entry `a` of the list of a ray `r` that is not done
names `r` back unless `a` is done and `r` is still waiting in `M` or `Z`;
the assigned inequalities are as in `SymInv`. -/
structure TravInv {S : Type} (c : Context S) (E : List Nat) (h0 : Nat) (s : State S)
    (M Z N : List Nat) (done : Nat → Prop) : Prop where
  heapLen : s.heap.length = h0 + N.length
  newRays : N = List.range' h0 N.length
  validE : ∀ r ∈ E, r < h0
  nodupM : M.Nodup
  nodupZ : Z.Nodup
  classM : ∀ r ∈ M, r ∈ E ∧ (getRay c s.heap r).visitingStep = s.step
    ∧ (getRay c s.heap r).pivotDiscrepancy < -c.zerotol
  classZ : ∀ r ∈ Z, r ∈ E ∧ (getRay c s.heap r).visitingStep = s.step
    ∧ -c.zerotol ≤ (getRay c s.heap r).pivotDiscrepancy
    ∧ (getRay c s.heap r).pivotDiscrepancy ≤ c.zerotol
  queued : ∀ r ∈ E, (getRay c s.heap r).visitingStep = s.step →
    ¬ c.zerotol < (getRay c s.heap r).pivotDiscrepancy → r ∈ M ∨ r ∈ Z
  unvisited : ∀ r ∈ E, (getRay c s.heap r).visitingStep ≠ s.step →
    -c.zerotol ≤ (getRay c s.heap r).pivotDiscrepancy
    ∧ (getRay c s.heap r).visitingStep < s.step
  doneQ : ∀ r, done r → r ∈ M ∨ r ∈ Z
  adjNodup : ∀ r, r ∈ E ∨ r ∈ N → (getRay c s.heap r).adjacentRays.Nodup
  newAdj : ∀ n ∈ N, ∃ a, (getRay c s.heap n).adjacentRays = [a] ∧ a ∈ E ∧ isPlus c s a
    ∧ n ∈ (getRay c s.heap a).adjacentRays
  newRay : ∀ n ∈ N, (getRay c s.heap n).pivotDiscrepancy = 0
    ∧ (getRay c s.heap n).visitingStep = s.step
  doneM : ∀ r ∈ M, done r → ∀ a ∈ (getRay c s.heap r).adjacentRays,
    a ∈ E ∧ isPlus c s a ∧ r ∉ (getRay c s.heap a).adjacentRays
  doneZ : ∀ r ∈ Z, done r → ∀ a ∈ (getRay c s.heap r).adjacentRays,
    a ∈ E ∧ isPlus c s a ∧ r ∈ (getRay c s.heap a).adjacentRays
  openAdj : ∀ r ∈ E, ¬ done r → ∀ a ∈ (getRay c s.heap r).adjacentRays,
    a ≠ r ∧ (a ∈ E ∨ a ∈ N)
    ∧ (r ∈ (getRay c s.heap a).adjacentRays ∨ (done a ∧ (r ∈ M ∨ r ∈ Z)))
  assigned : ∀ r, r < s.heap.length → ∀ j ∈ (getRay c s.heap r).assignedInequalities,
    computeDiscrepancy c (getRay c s.heap r) j < -c.zerotol
  assignee : ∀ idx r, s.assigneeRays[idx]? = some (some r) →
    r ∈ E ∧ idx ∈ (getRay c s.heap r).assignedInequalities

end DDM

namespace DDM

open Utils

/-- What `partitionInes` keeps of the state `s3` it starts from, as seen in a
state `t` on the way: the size of the heap, `extremeRays`, the step counter,
and of every ray everything but the list of assigned inequalities, which is
unchanged for the rays outside `rays` and can only grow; every assigned
inequality is strictly violated. -/
def PartitionFrame {S : Type} (c : Context S) (rays : List Nat) (s3 t : State S) : Prop :=
  t.heap.length = s3.heap.length ∧ t.extremeRays = s3.extremeRays ∧ t.step = s3.step
  ∧ (∀ j, (getRay c t.heap j).coordinates = (getRay c s3.heap j).coordinates
      ∧ (getRay c t.heap j).adjacentRays = (getRay c s3.heap j).adjacentRays
      ∧ (getRay c t.heap j).pivotDiscrepancy = (getRay c s3.heap j).pivotDiscrepancy
      ∧ (getRay c t.heap j).visitingStep = (getRay c s3.heap j).visitingStep)
  ∧ (∀ j, j ∉ rays →
      (getRay c t.heap j).assignedInequalities = (getRay c s3.heap j).assignedInequalities)
  ∧ (∀ j x, x ∈ (getRay c s3.heap j).assignedInequalities →
      x ∈ (getRay c t.heap j).assignedInequalities)
  ∧ (∀ r, r < t.heap.length → ∀ j ∈ (getRay c t.heap r).assignedInequalities,
      computeDiscrepancy c (getRay c t.heap r) j < -c.zerotol)

/-- The entries of `assigneeRays` on the way through `partitionInes`: an
entry names a ray that has the inequality in its list, and it names a ray of
`rays` unless the inequality has not been handled yet (is not in `touched`)
and the entry is the one of the state `s3` at the start. -/
def AssigneeTrack {S : Type} (c : Context S) (rays : List Nat) (s3 t : State S)
    (touched : List Nat) : Prop :=
  ∀ idx r, t.assigneeRays[idx]? = some (some r) →
    idx ∈ (getRay c t.heap r).assignedInequalities
    ∧ (r ∈ rays ∨ (idx ∉ touched ∧ s3.assigneeRays[idx]? = some (some r)))

end DDM

namespace DDM

open Utils

/-- The adjacency lists of the rays of `E` in `heap` describe a graph on
`E`: no list has a repetition, every entry is a ray of `E` other than the
owner of the list, and every entry names the owner back. -/
def SymAdj {S : Type} (c : Context S) (E : List Nat) (heap : List (Ray S)) : Prop :=
  ∀ r ∈ E, (getRay c heap r).adjacentRays.Nodup
    ∧ ∀ a ∈ (getRay c heap r).adjacentRays,
        a ∈ E ∧ a ≠ r ∧ r ∈ (getRay c heap a).adjacentRays

/-- No ray of `T` has a ray of `T` in its adjacency list. -/
def NoEdges {S : Type} (c : Context S) (T : List Nat) (heap : List (Ray S)) : Prop :=
  ∀ a ∈ T, ∀ b ∈ T, a ∉ (getRay c heap b).adjacentRays

/-- Two heaps hold the same rays up to the adjacency lists. -/
def SameRays {S : Type} (c : Context S) (heap heap1 : List (Ray S)) : Prop :=
  heap1.length = heap.length
  ∧ ∀ j, (getRay c heap1 j).coordinates = (getRay c heap j).coordinates
      ∧ (getRay c heap1 j).assignedInequalities = (getRay c heap j).assignedInequalities
      ∧ (getRay c heap1 j).pivotDiscrepancy = (getRay c heap j).pivotDiscrepancy
      ∧ (getRay c heap1 j).visitingStep = (getRay c heap j).visitingStep

end DDM

/-! ## Inputs used in the statements below -/

/-- The cone over the square `|x| ≤ 1, |y| ≤ 1` with the extra row `z ≥ 0`. -/
def squareCone : Utils.Matrix :=
  ⟨3, [[1, 0, 1], [-1, 0, 1], [0, 1, 1], [0, -1, 1], [0, 0, 1]]⟩

/-- The system `x + y ≥ 0, x - y ≥ 0, -x ≥ 0`. -/
def fmeSystem : Utils.Matrix := ⟨2, [[1, 1], [1, -1], [-1, 0]]⟩

/-- The positive orthant of dimension 3 with the additional row
`(2, 1, 0) = 2 * (1, 0, 0) + (0, 1, 0)` at index 3. -/
def orthantWithRedundantRow : Utils.Matrix :=
  ⟨3, [[1, 0, 0], [0, 1, 0], [0, 0, 1], [2, 1, 0]]⟩

/-- The quadrant `x ≥ 0, y ≥ 0` with the additional row `x + y ≥ 0`. -/
def quadrantWithSum : Utils.Matrix := ⟨2, [[1, 0], [0, 1], [1, 1]]⟩

/-- The cone `2x - y ≥ 0, x ≥ 0`; the matrix has determinant 1. -/
def skewQuadrant : Utils.Matrix := ⟨2, [[2, -1], [1, 0]]⟩

/-- A 3 × 3 matrix of determinant 1. -/
def unimodular3 : Utils.Matrix := ⟨3, [[0, 0, 1], [1, 0, 0], [2, 1, 1]]⟩

/-- A system of 35 inequalities in dimension 3: `y ≥ x`, `z ≥ x + y`, thirty
copies of `z ≥ 0`, and the three rows `2x ≥ 0`, `2y ≥ 0`, `2z ≥ 0` at the
indices 32, 33, 34. -/
def wideSystem : Utils.Matrix :=
  ⟨3, [[-1, 1, 0], [-1, -1, 1]] ++ List.replicate 30 [0, 0, 1]
        ++ [[2, 0, 0], [0, 2, 0], [0, 0, 2]]⟩

/-- A context for rays of dimension 2 in integer mode without cached
discrepancies, over the matrix `skewQuadrant`. -/
def planeContext : DDM.Context (List Nat) :=
  ⟨Utils.Coeff.int, Utils.VectorSet.ops 8, DDM.PivotingOrder.Quickhull, DDM.AdjacencyTest.Graph,
    false, true, 0,
    skewQuadrant, 2⟩

/-- A heap of two rays of dimension 2: the ray `(1, 2)` with pivot discrepancy
1 and the ray `(-3, 0)` with pivot discrepancy -1. -/
def planeHeap : List (DDM.Ray (List Nat)) :=
  [⟨[1, 2], [1], [1], [], 1, 0⟩, ⟨[-3, 0], [0], [0], [], -1, 0⟩]

/-- Four inequalities in three variables with pair counts 3, 2 and 4. -/
def pairsSystem : List (Elimination.Inequality (List Nat)) :=
  [⟨[1, 1, 1], []⟩, ⟨[-1, 1, 1], []⟩, ⟨[1, -1, -1], []⟩, ⟨[1, 0, -1], []⟩]

/-- The context that `Algorithm::run` sets up for the matrix `a` with the
default parameters (quickhull, graph test, no plusplus), sorted-vector sets
with 8-bit indices, integer arithmetic on `int` and zero tolerance 0. -/
def defaultContext (a : Utils.Matrix) : DDM.Context (List Nat) :=
  { arith := Utils.Coeff.int, ops := Utils.VectorSet.ops 8,
    order := DDM.PivotingOrder.Quickhull,
    adjacencyTest := DDM.AdjacencyTest.Graph, usePlusPlus := false, intArith := true,
    zerotol := 0, inequalityMatrix := a,
    rank := (Utils.gauss Utils.Coeff.int a a.nrows true 0).rank }

/-- The state after `makeInitialStep` in the context `defaultContext a`. -/
def defaultInitialState (a : Utils.Matrix) : DDM.State (List Nat) :=
  DDM.makeInitialStep (defaultContext a) (Utils.gauss Utils.Coeff.int a a.nrows true 0).f
    (Utils.gauss Utils.Coeff.int a a.nrows true 0).perm

/-- The context that `Algorithm::run` sets up for the matrix `a` with the
default parameters, the set operations `ops`, integer mode with a coefficient
type without overflow and zero tolerance 0. -/
def exactContext (ops : Utils.SetOps (List Nat)) (a : Utils.Matrix) : DDM.Context (List Nat) :=
  { arith := Utils.Coeff.exact, ops := ops,
    order := DDM.PivotingOrder.Quickhull,
    adjacencyTest := DDM.AdjacencyTest.Graph, usePlusPlus := false, intArith := true,
    zerotol := 0, inequalityMatrix := a,
    rank := (Utils.gauss Utils.Coeff.exact a a.nrows true 0).rank }

/-- The state after `makeInitialStep` in the context `exactContext ops a`. -/
def exactInitialState (ops : Utils.SetOps (List Nat)) (a : Utils.Matrix) :
    DDM.State (List Nat) :=
  DDM.makeInitialStep (exactContext ops a) (Utils.gauss Utils.Coeff.exact a a.nrows true 0).f
    (Utils.gauss Utils.Coeff.exact a a.nrows true 0).perm

/-- The context of `defaultContext a` with the cache of discrepancies enabled
(plusplus). -/
def plusContext (a : Utils.Matrix) : DDM.Context (List Nat) :=
  { arith := Utils.Coeff.int, ops := Utils.VectorSet.ops 8,
    order := DDM.PivotingOrder.Quickhull,
    adjacencyTest := DDM.AdjacencyTest.Graph, usePlusPlus := true, intArith := true,
    zerotol := 0, inequalityMatrix := a,
    rank := (Utils.gauss Utils.Coeff.int a a.nrows true 0).rank }

/-- The state after `makeInitialStep` in the context `plusContext a`. -/
def plusInitialState (a : Utils.Matrix) : DDM.State (List Nat) :=
  DDM.makeInitialStep (plusContext a) (Utils.gauss Utils.Coeff.int a a.nrows true 0).f
    (Utils.gauss Utils.Coeff.int a a.nrows true 0).perm

/-- The heap after the first execution of the loop body in the run on
`squareCone` with plusplus: the three initial rays and the two rays made for
the pivot inequality 3. -/
def squarePlusHeap : List (DDM.Ray (List Nat)) :=
  ((DDM.iterations (plusContext squareCone) 1 (plusInitialState squareCone)).map
    (fun s => s.heap)).getD []

/-- The cone `(2^30 + 2) x - (2^29 + 1) y ≥ 0, y ≥ 0,
2^30 x - (2^29 + 1) y ≥ 0`, whose extreme rays are `(1, 0)` and
`(2^29 + 1, 2^30)`. -/
def steepCone : Utils.Matrix :=
  ⟨2, [[1073741826, -536870913], [0, 1], [1073741824, -536870913]]⟩

/-- A system of three inequalities in the plane with entries below `2^11`. -/
def cacheSystem : Utils.Matrix := ⟨2, [[-899, 1835], [830, 1758], [1173, 1609]]⟩

/-- For every ray of `extremeRays`: the size of its cobasis and the length of
its list of adjacent rays. -/
def cobasisAndDegree (a : Utils.Matrix) (s : DDM.State (List Nat)) : List (Nat × Nat) :=
  s.extremeRays.map (fun r =>
    ((defaultContext a).ops.size (DDM.getRay (defaultContext a) s.heap r).cobasis,
      (DDM.getRay (defaultContext a) s.heap r).adjacentRays.length))

/-- The system `y + z ≥ 0, -y + z ≥ 0` in the variables `x, y, z`. -/
def wedgeSystem : Utils.Matrix := ⟨3, [[0, 1, 1], [0, -1, 1]]⟩

/-- A working list of the elimination with one zero inequality (complementary
index `{0, 1}`) followed by three new inequalities with the complementary
indices `{1}`, `{2}` and `{2, 3}`. -/
def prunedSystem : List (Elimination.Inequality (List Nat)) :=
  [⟨[1, 0], [0, 1]⟩, ⟨[0, 1], [1]⟩, ⟨[1, 1], [2]⟩, ⟨[1, 2], [2, 3]⟩]

/-- A client run: two cells are taken, the first is returned, one more is
taken. -/
def poolOps : List Utils.MemOp :=
  [Utils.MemOp.alloc, Utils.MemOp.alloc, Utils.MemOp.free ⟨0, 0⟩, Utils.MemOp.alloc]

/-- The system `x ≥ 0, y ≥ 0, x - y ≥ 0`. -/
def sectorSystem : Utils.Matrix := ⟨2, [[1, 0], [0, 1], [1, -1]]⟩

/-- The context of a run on `sectorSystem` with sorted-vector sets of 8-bit
indices, quickhull order, integer arithmetic on `int`, zero tolerance 0 and
no cached discrepancies. -/
def sectorContext : DDM.Context (List Nat) :=
  ⟨Utils.Coeff.int, Utils.VectorSet.ops 8, DDM.PivotingOrder.Quickhull, DDM.AdjacencyTest.Graph,
    false, true, 0,
    sectorSystem, 2⟩

/-- The two rays of the quadrant, visited at step 1 for the pivot inequality
2: the ray `(1, 0)` with discrepancy 1 and the ray `(0, 1)`, to which the
inequality 2 is assigned, with discrepancy -1; each is the only neighbour of
the other. -/
def sectorHeap : List (DDM.Ray (List Nat)) :=
  [⟨[1, 0], [1], [1], [], 1, 1⟩, ⟨[0, 1], [0], [0], [2], -1, 1⟩]

/-- The system `x ≥ 0, y ≥ 0, y - x ≥ 0, y - 2x ≥ 0, 3y - x ≥ 0`. -/
def fanSystem : Utils.Matrix := ⟨2, [[1, 0], [0, 1], [-1, 1], [-2, 1], [-1, 3]]⟩

/-- The context of a run on `fanSystem` with sorted-vector sets of 8-bit
indices, quickhull order, integer arithmetic on `int`, zero tolerance 0 and
no cached discrepancies. -/
def fanContext : DDM.Context (List Nat) :=
  ⟨Utils.Coeff.int, Utils.VectorSet.ops 8, DDM.PivotingOrder.Quickhull, DDM.AdjacencyTest.Graph,
    false, true, 0,
    fanSystem, 2⟩

/-- The state after `makeInitialStep` on `fanSystem` when the initial basis
consists of the rows 0 and 1: the rays `(1, 0)` and `(0, 1)`, the first with
the assigned inequalities 2, 3, 4. -/
def fanState : DDM.State (List Nat) :=
  DDM.makeInitialStep fanContext (Utils.Matrix.assign_eye 2) [0, 1, 2, 3, 4]

/-- The context of `fanSystem` with the cache of discrepancies enabled for a
coefficient type without overflow. -/
def fanPlusExactContext : DDM.Context (List Nat) :=
  ⟨Utils.Coeff.exact, Utils.VectorSet.ops 8, DDM.PivotingOrder.Quickhull,
    DDM.AdjacencyTest.Graph, true, true, 0,
    fanSystem, 2⟩

/-- The orthant of dimension 4 with the extra row `-x0 + x1 - x3 ≥ 0`: of the
four rays of the orthant the first and the last violate the extra row, the
second satisfies it strictly and the third lies on its hyperplane. -/
def orthantSystem : Utils.Matrix :=
  ⟨4, [[1, 0, 0, 0], [0, 1, 0, 0], [0, 0, 1, 0], [0, 0, 0, 1], [-1, 1, 0, -1]]⟩

/-- The context of a run on `orthantSystem` with sorted-vector sets of 8-bit
indices, quickhull order, integer arithmetic on `int`, zero tolerance 0 and
no cached discrepancies. -/
def orthantContext : DDM.Context (List Nat) :=
  ⟨Utils.Coeff.int, Utils.VectorSet.ops 8, DDM.PivotingOrder.Quickhull, DDM.AdjacencyTest.Graph,
    false, true, 0,
    orthantSystem, 4⟩

/-- The state after `makeInitialStep` on `orthantSystem` when the initial
basis consists of the rows 0 to 3: the four rays of the orthant, each
adjacent to the three others, the extra row assigned to the first. -/
def orthantState : DDM.State (List Nat) :=
  DDM.makeInitialStep orthantContext (Utils.Matrix.assign_eye 4) [0, 1, 2, 3, 4]

/-- The state and the work lists at the first call of `searchAdj` in the run
on `orthantSystem` (the second component of `getD` is not used: `next`
succeeds on `orthantState`). -/
def orthantSearchStart : DDM.State (List Nat) × DDM.WorkLists :=
  (DDM.classifyStart orthantContext orthantState).getD (orthantState, ⟨[], [], []⟩)

/-! ## The arithmetic of the coefficient type -/

namespace Utils

namespace Coeff

theorem wrap_exact (x : Int) : exact.wrap x = x := rfl

/-- A value in the range of `int` is stored unchanged. -/
theorem wrap_of_bounds (t : Coeff) (x : Int) (h1 : -2147483648 ≤ x) (h2 : x < 2147483648) :
    t.wrap x = x := by
  cases t
  · show (x + 2147483648) % 4294967296 - 2147483648 = x
    rw [Int.emod_eq_of_lt (by omega) (by omega)]
    omega
  · rfl

theorem wrap_zero (t : Coeff) : t.wrap 0 = 0 := wrap_of_bounds t 0 (by decide) (by decide)

theorem wrap_one (t : Coeff) : t.wrap 1 = 1 := wrap_of_bounds t 1 (by decide) (by decide)

theorem wrap_neg_one (t : Coeff) : t.wrap (-1) = -1 :=
  wrap_of_bounds t (-1) (by decide) (by decide)

/-- Every stored value of `int` lies in `[-2 ^ 31, 2 ^ 31)`. -/
theorem wrap_int_bounds (x : Int) : -2147483648 ≤ int.wrap x ∧ int.wrap x < 2147483648 := by
  show -2147483648 ≤ (x + 2147483648) % 4294967296 - 2147483648
    ∧ (x + 2147483648) % 4294967296 - 2147483648 < 2147483648
  have h1 := Int.emod_nonneg (x + 2147483648) (by decide : (4294967296 : Int) ≠ 0)
  have h2 := Int.emod_lt_of_pos (x + 2147483648) (by decide : (0 : Int) < 4294967296)
  omega

theorem wrap_wrap (t : Coeff) (x : Int) : t.wrap (t.wrap x) = t.wrap x := by
  cases t
  · exact wrap_of_bounds int _ (wrap_int_bounds x).1 (wrap_int_bounds x).2
  · rfl

theorem mul_swap (t : Coeff) (a b : Int) : t.mul a b = t.mul b a := by
  unfold mul
  rw [Int.mul_comm]

theorem sub_same (t : Coeff) (a : Int) : t.sub a a = 0 := by
  unfold sub
  rw [Int.sub_self]
  exact wrap_zero t

theorem mul_zero_right (t : Coeff) (a : Int) : t.mul a 0 = 0 := by
  unfold mul
  rw [Int.mul_zero]
  exact wrap_zero t

theorem mul_zero_left (t : Coeff) (a : Int) : t.mul 0 a = 0 := by
  unfold mul
  rw [Int.zero_mul]
  exact wrap_zero t

theorem div_zero_left (t : Coeff) (a : Int) : t.div 0 a = 0 := by
  unfold div
  rw [Int.zero_tdiv]
  exact wrap_zero t

theorem neg_zero_eq (t : Coeff) : t.neg 0 = 0 := by
  unfold neg
  exact wrap_zero t

theorem add_exact (a b : Int) : exact.add a b = a + b := rfl

theorem sub_exact (a b : Int) : exact.sub a b = a - b := rfl

theorem mul_exact (a b : Int) : exact.mul a b = a * b := rfl

theorem neg_exact (a : Int) : exact.neg a = -a := rfl

theorem div_exact (a b : Int) : exact.div a b = Int.tdiv a b := rfl

end Coeff

end Utils

/-! ## Fuel and the random stream -/

namespace DDM

open Utils

theorem mainLoop_isEnded {S : Type} (c : Context S) (fuel : Nat) (s : State S)
    (h : isEnded c s = true) : mainLoop c fuel s = some s := by
  cases fuel <;> simp [mainLoop, h]

theorem mainLoop_fuel_succ {S : Type} (c : Context S) (fuel : Nat) :
    ∀ (s s' : State S), mainLoop c fuel s = some s' → mainLoop c (fuel + 1) s = some s' := by
  induction fuel with
  | zero =>
    intro s s' h
    by_cases he : isEnded c s = true
    · simp [mainLoop, he] at h ⊢
      exact h
    · simp [mainLoop, he] at h
  | succ n ih =>
    intro s s' h
    by_cases he : isEnded c s = true
    · rw [mainLoop_isEnded c _ s he] at h ⊢
      exact h
    · rw [mainLoop] at h ⊢
      simp only [he] at h ⊢
      cases hc : classifyRays c s with
      | none => simp [hc] at h
      | some p =>
        simp only [hc] at h ⊢
        exact ih _ _ h

theorem mainLoop_fuel_add {S : Type} (c : Context S) (fuel k : Nat) (s s' : State S)
    (h : mainLoop c fuel s = some s') : mainLoop c (fuel + k) s = some s' := by
  induction k with
  | zero => exact h
  | succ k ih => exact mainLoop_fuel_succ c (fuel + k) s s' ih

theorem run_fuel_add {t : Utils.Coeff} {S : Type} (ops : SetOps S) (params : Parameters) (rnd : Nat → Nat)
    (fuel k : Nat) (ines : Matrix) (intArith : Bool) (zerotol : Int) (o : Output)
    (h : run t ops params rnd fuel ines intArith zerotol = some o) :
    run t ops params rnd (fuel + k) ines intArith zerotol = some o := by
  unfold run at h ⊢
  simp only [Option.map_eq_some'] at h ⊢
  obtain ⟨s, hs, ho⟩ := h
  exact ⟨s, mainLoop_fuel_add _ fuel k _ s hs, ho⟩

/-- A run that returns with some fuel returns the same output with any larger
fuel. -/
theorem ddm_fuel_add {t : Utils.Coeff} (params : Parameters) (rnd : Nat → Nat) (fuel k : Nat) (rays : Matrix)
    (intArith : Bool) (zerotol : Int) (o : Output)
    (h : ddm t params rnd fuel rays intArith zerotol = some o) :
    ddm t params rnd (fuel + k) rays intArith zerotol = some o := by
  unfold ddm at h ⊢
  split_ifs at h ⊢ <;> exact run_fuel_add _ _ _ _ _ _ _ _ _ h

theorem reorderInequalities_rnd (order : PivotingOrder) (rnd rnd' : Nat → Nat) (m : Matrix)
    (h : order ≠ PivotingOrder.Random) :
    reorderInequalities order rnd m = reorderInequalities order rnd' m := by
  simp [reorderInequalities, h]

/-- Unless the pivoting order is `random`, the stream of `rand()` values does
not influence the run. -/
theorem ddm_rnd {t : Utils.Coeff} (params : Parameters) (rnd rnd' : Nat → Nat) (fuel : Nat) (rays : Matrix)
    (intArith : Bool) (zerotol : Int) (h : params.pivotingOrder ≠ PivotingOrder.Random) :
    ddm t params rnd fuel rays intArith zerotol = ddm t params rnd' fuel rays intArith zerotol := by
  unfold ddm run
  rw [reorderInequalities_rnd params.pivotingOrder rnd rnd' rays h]

end DDM

namespace DDM

open Utils

theorem ddm_map_fuel_add {t : Utils.Coeff} {α : Type} (g : Output → α) (x : α) (params : Parameters)
    (rnd : Nat → Nat) (fuel k : Nat) (rays : Matrix) (intArith : Bool) (zerotol : Int)
    (h : (ddm t params rnd fuel rays intArith zerotol).map g = some x) :
    (ddm t params rnd (fuel + k) rays intArith zerotol).map g = some x := by
  simp only [Option.map_eq_some'] at h ⊢
  obtain ⟨o, ho, hx⟩ := h
  exact ⟨o, ddm_fuel_add _ _ _ _ _ _ _ _ ho, hx⟩

end DDM

namespace Elimination

open Utils

theorem orderInit_singleton (ordering : EliminationOrdering) (rnd : Nat → Nat) (v : Nat) :
    orderInit ordering rnd [v] = [v] := by
  cases ordering <;> simp [orderInit, Matrix.swapList, Nat.mod_one, List.range_succ]

theorem elimination_rnd_singleton {t : Utils.Coeff} (params : Parameters) (rnd rnd' : Nat → Nat) (m : Matrix)
    (v : Nat) : elimination t params rnd m [v] = elimination t params rnd' m [v] := by
  simp only [elimination, run, orderInit_singleton]

end Elimination

/-! ## Feasibility of the output (C1) -/

set_option maxRecDepth 100000 in
/-- C1, evaluated at a failing input: with the bit-field set representation
(64-bit cells) and the 35 inequalities of `wideSystem`, `ddm` returns after one
pivot step with the two rays `(0,0,1)` and `(0,1,0)`; the second one violates
input row 1, `z ≥ x + y`, since their inner product is `-1`. -/
theorem ddm_bitfield_infeasible (rnd : Nat → Nat) (fuel : Nat) :
    DDM.ddm Utils.Coeff.int ⟨DDM.AdjacencyTest.Graph, DDM.PivotingOrder.Quickhull,
        DDM.SetRepresentation.BitField, false⟩ rnd (fuel + 1) wideSystem true 0
      = some ⟨⟨3, [[0, 0, 1], [0, 1, 0]]⟩, [32, 33, 34], 0, 1⟩
    ∧ DDM.dot Utils.Coeff.int 3 [0, 1, 0] (wideSystem.row 1) = -1 := by
  constructor
  · rw [DDM.ddm_rnd _ rnd (fun _ => 0) _ _ _ _ (by decide), Nat.add_comm]
    exact DDM.ddm_fuel_add _ _ 1 fuel _ _ _ _ (by decide)
  · decide

/-! ## Duality round trip (C2) -/

/-- C2, evaluated at a failing input: on the cone `2x - y ≥ 0, x ≥ 0` the first
run returns the ray matrix with rows `(0,0)` and `(1,2)` and the facet list
`[1, 0]` of length 2; the run on that ray matrix returns three rows, among them
`(-2, 1)`, which is no positive multiple of an input row. -/
theorem ddm_round_trip_skewQuadrant (rnd : Nat → Nat) (fuel : Nat) :
    DDM.ddm Utils.Coeff.int DDM.Parameters.default rnd fuel skewQuadrant true 0
      = some ⟨⟨2, [[0, 0], [1, 2]]⟩, [1, 0], 2, 0⟩
    ∧ DDM.ddm Utils.Coeff.int DDM.Parameters.default rnd fuel ⟨2, [[0, 0], [1, 2]]⟩ true 0
      = some ⟨⟨2, [[-2, 1], [2, -1], [1, 0]]⟩, [], 2, 0⟩ := by
  constructor
  · rw [DDM.ddm_rnd _ rnd (fun _ => 0) _ _ _ _ (by decide)]
    have h := DDM.ddm_fuel_add (t := Utils.Coeff.int) DDM.Parameters.default (fun _ => 0) 0 fuel skewQuadrant true 0
      ⟨⟨2, [[0, 0], [1, 2]]⟩, [1, 0], 2, 0⟩ (by decide)
    simpa using h
  · rw [DDM.ddm_rnd _ rnd (fun _ => 0) _ _ _ _ (by decide)]
    have h := DDM.ddm_fuel_add (t := Utils.Coeff.int) DDM.Parameters.default (fun _ => 0) 0 fuel
      ⟨2, [[0, 0], [1, 2]]⟩ true 0 ⟨⟨2, [[-2, 1], [2, -1], [1, 0]]⟩, [], 2, 0⟩ (by decide)
    simpa using h

/-! ## Concrete scenarios (C5 and the square) -/

/-- C5: eliminating variable 0 from `x + y ≥ 0, x - y ≥ 0, -x ≥ 0` returns
exactly the two rows `(0, 1)` and `(0, -1)`, in the graph and in the
enumeration Chernikov mode, for every elimination ordering. -/
theorem fme_scenario (test : Elimination.ChernikovTest)
    (ordering : Elimination.EliminationOrdering) (rnd : Nat → Nat) :
    Elimination.elimination Utils.Coeff.int ⟨test, ordering, true⟩ rnd fmeSystem [0]
      = ⟨2, [[0, 1], [0, -1]]⟩ := by
  rw [Elimination.elimination_rnd_singleton _ rnd (fun _ => 0)]
  cases test <;> cases ordering <;> decide

set_option maxRecDepth 100000 in
/-- The square scenario for the orders that leave the rows in place: on the
cone over the square, with the pivoting order quickhull or minindex and every adjacency test, set representation and plusplus setting,
`ddm` returns (for every fuel of at least one step) exactly the four rays
`(1,-1,1), (-1,-1,1), (1,1,1), (-1,1,1)` and the facet list `[1, 2, 0, 3]`,
which has the four entries `0, 1, 2, 3`. -/
theorem square_cone_dual (t : DDM.AdjacencyTest) (sr : DDM.SetRepresentation) (pp : Bool)
    (rnd : Nat → Nat) (fuel : Nat) :
    (DDM.ddm Utils.Coeff.int ⟨t, DDM.PivotingOrder.Quickhull, sr, pp⟩ rnd (fuel + 1) squareCone true 0).map
        (fun o => (o.rays, o.facets))
      = some (⟨3, [[1, -1, 1], [-1, -1, 1], [1, 1, 1], [-1, 1, 1]]⟩, [1, 2, 0, 3])
    ∧ (DDM.ddm Utils.Coeff.int ⟨t, DDM.PivotingOrder.MinIndex, sr, pp⟩ rnd (fuel + 1) squareCone true 0).map
        (fun o => (o.rays, o.facets))
      = some (⟨3, [[1, -1, 1], [-1, -1, 1], [1, 1, 1], [-1, 1, 1]]⟩, [1, 2, 0, 3]) := by
  constructor
  · rw [DDM.ddm_rnd _ rnd (fun _ => 0) _ _ _ _ (by simp), Nat.add_comm]
    apply DDM.ddm_map_fuel_add
    cases t <;> cases sr <;> cases pp <;> decide
  · rw [DDM.ddm_rnd _ rnd (fun _ => 0) _ _ _ _ (by simp), Nat.add_comm]
    apply DDM.ddm_map_fuel_add
    cases t <;> cases sr <;> cases pp <;> decide

/-! ## The facet list (C7, C8) -/

/-- C7, evaluated at a failing input: row 3 of `orthantWithRedundantRow` is
`2 * row 0 + row 1`, yet the facet list returned by `ddm` with the default
parameters is `[1, 2, 0, 3]` and contains the index 3. -/
theorem ddm_redundant_row_in_facets (rnd : Nat → Nat) (fuel : Nat) :
    DDM.ddm Utils.Coeff.int DDM.Parameters.default rnd (fuel + 1) orthantWithRedundantRow true 0
      = some ⟨⟨3, [[1, 0, 0], [0, 0, 1], [0, 1, 0]]⟩, [1, 2, 0, 3], 3, 1⟩
    ∧ orthantWithRedundantRow.row 3
        = List.zipWith (fun a b => 2 * a + 1 * b)
            (orthantWithRedundantRow.row 0) (orthantWithRedundantRow.row 1) := by
  constructor
  · rw [DDM.ddm_rnd _ rnd (fun _ => 0) _ _ _ _ (by decide), Nat.add_comm]
    exact DDM.ddm_fuel_add _ _ 1 fuel _ _ _ _ (by decide)
  · decide

/-- C8, evaluated at a failing input: with the pivoting order maxindex, `ddm`
on the rows `(1,0), (0,1), (1,1)` returns the rays `(1,0), (0,1)` and the facet
list `[1, 2]`; row 2 of the matrix as passed in is `(1,1)`, whose inner product
with either returned ray is 1, not 0. -/
theorem ddm_maxindex_facets_renumbered (rnd : Nat → Nat) (fuel : Nat) :
    DDM.ddm Utils.Coeff.int ⟨DDM.AdjacencyTest.Graph, DDM.PivotingOrder.MaxIndex,
        DDM.SetRepresentation.SortedVector, false⟩ rnd (fuel + 1) quadrantWithSum true 0
      = some ⟨⟨2, [[1, 0], [0, 1]]⟩, [1, 2], 2, 1⟩
    ∧ DDM.dot Utils.Coeff.int 2 [1, 0] (quadrantWithSum.row 2) = 1
    ∧ DDM.dot Utils.Coeff.int 2 [0, 1] (quadrantWithSum.row 2) = 1 := by
  refine ⟨?_, by decide, by decide⟩
  rw [DDM.ddm_rnd _ rnd (fun _ => 0) _ _ _ _ (by decide), Nat.add_comm]
  exact DDM.ddm_fuel_add _ _ 1 fuel _ _ _ _ (by decide)

/-! ## Gaussian elimination in integer mode (C9, C10) -/

/-- C9, evaluated at a failing input: the matrix `unimodular3` has determinant
1, so its rows span a space of dimension 3, but `gauss` in integer mode with
tolerance 0 reports rank 2. -/
theorem gauss_rank_unimodular3 :
    (Utils.gauss Utils.Coeff.int unimodular3 3 true 0).rank = 2
    ∧ Matrix.det (Matrix.of (fun (i j : Fin 3) => unimodular3.get i j)) = 1 := by
  constructor
  · decide
  · rw [Matrix.det_fin_three]
    decide

/-- C10, evaluated at a failing input: on the matrix with rows `(2,-1), (1,0)`
`gauss` in integer mode returns rank 2, the identity permutation and an `F`
whose row 0 is `(0, 0)`, so the inner product of `F_0` with `a_perm[0]` is 0 and
not positive. -/
theorem gauss_zero_row_skewQuadrant :
    Utils.gauss Utils.Coeff.int skewQuadrant 2 true 0 = ⟨⟨2, [[0, 0], [1, 2]]⟩, ⟨2, []⟩, 2, [0, 1]⟩
    ∧ DDM.dot Utils.Coeff.int 2 [0, 0] (skewQuadrant.row 0) = 0 := by
  decide

/-! ## Elimination removes the chosen variables (C4) -/

namespace Utils

theorem Vector.mem_of_mem_erase {α : Type} {v : List α} {i : Nat} {x : α}
    (h : x ∈ Vector.erase v i) : x ∈ v := by
  unfold Vector.erase at h
  cases hl : v.getLast? with
  | none => simpa [hl] using h
  | some last =>
    simp only [hl] at h
    rcases List.mem_or_eq_of_mem_set (List.mem_of_mem_dropLast h) with h1 | h1
    · exact h1
    · exact h1 ▸ List.mem_of_getLast?_eq_some hl

theorem Vector.length_erase {α : Type} (v : List α) (i : Nat) (h : i < v.length) :
    (Vector.erase v i).length = v.length - 1 := by
  unfold Vector.erase
  cases hl : v.getLast? with
  | none =>
    have : v = [] := by simpa using hl
    subst this
    simp at h
  | some last => simp

theorem Vector.getElem?_erase_lt {α : Type} (v : List α) (i k : Nat) (hk : k < i)
    (hi : i < v.length) : (Vector.erase v i)[k]? = v[k]? := by
  unfold Vector.erase
  cases hl : v.getLast? with
  | none => rfl
  | some last =>
    simp only [List.getElem?_dropLast, List.length_set, List.getElem?_set]
    have h1 : k < v.length - 1 := by omega
    have h2 : ¬ i = k := by omega
    simp [h1, h2]

end Utils

namespace Elimination
open Utils

theorem classifyLoop_spec {S : Type} (e : Nat) (P : Inequality S → Prop) :
    ∀ (fuel i : Nat) (ineqs plus minus : List (Inequality S)),
      ineqs.length - i ≤ fuel →
      (∀ k < i, ∀ q, ineqs[k]? = some q → q.normal.getD e 0 = 0) →
      (∀ q ∈ ineqs, P q) → (∀ q ∈ plus, P q) → (∀ q ∈ minus, P q) →
      ZeroCol e (classifyLoop e fuel i (ineqs, plus, minus)).1
      ∧ (∀ q ∈ (classifyLoop e fuel i (ineqs, plus, minus)).1, P q)
      ∧ (∀ q ∈ (classifyLoop e fuel i (ineqs, plus, minus)).2.1, P q)
      ∧ (∀ q ∈ (classifyLoop e fuel i (ineqs, plus, minus)).2.2, P q) := by
  intro fuel
  induction fuel with
  | zero =>
    intro i ineqs plus minus hf hz hi hp hm
    simp only [classifyLoop]
    refine ⟨?_, hi, hp, hm⟩
    intro q hq
    obtain ⟨k, hk⟩ := List.mem_iff_getElem?.mp hq
    have hlt : k < ineqs.length := by
      by_contra hc
      rw [List.getElem?_eq_none (by omega)] at hk
      cases hk
    exact hz k (by omega) q hk
  | succ n ih =>
    intro i ineqs plus minus hf hz hi hp hm
    simp only [classifyLoop, List.get?_eq_getElem?]
    cases hg : ineqs[i]? with
    | none =>
      simp only
      refine ⟨?_, hi, hp, hm⟩
      intro q hq
      obtain ⟨k, hk⟩ := List.mem_iff_getElem?.mp hq
      have hlen : ineqs.length ≤ i := by
        by_contra hc
        have : i < ineqs.length := by omega
        rw [List.getElem?_eq_getElem this] at hg
        cases hg
      have hlt : k < ineqs.length := by
        by_contra hc
        rw [List.getElem?_eq_none (by omega)] at hk
        cases hk
      exact hz k (by omega) q hk
    | some q0 =>
      simp only
      have hilt : i < ineqs.length := by
        by_contra hc
        rw [List.getElem?_eq_none (by omega)] at hg
        cases hg
      have hq0 : q0 ∈ ineqs := List.mem_iff_getElem?.mpr ⟨i, hg⟩
      have herase : ∀ q ∈ Vector.erase ineqs i, P q :=
        fun q hq => hi q (Vector.mem_of_mem_erase hq)
      have hzerase : ∀ k < i, ∀ q, (Vector.erase ineqs i)[k]? = some q → q.normal.getD e 0 = 0 := by
        intro k hk q hq
        rw [Vector.getElem?_erase_lt ineqs i k hk hilt] at hq
        exact hz k hk q hq
      have hlerase : (Vector.erase ineqs i).length - i ≤ n := by
        rw [Vector.length_erase ineqs i hilt]
        omega
      by_cases h0 : q0.normal.getD e 0 = 0
      · simp only [h0, if_true]
        apply ih (i + 1) ineqs plus minus (by omega) _ hi hp hm
        intro k hk q hq
        by_cases hki : k = i
        · subst hki
          rw [hg] at hq
          cases hq
          exact h0
        · exact hz k (by omega) q hq
      · simp only [h0, if_false]
        by_cases hpos : q0.normal.getD e 0 > 0
        · simp only [hpos, if_true]
          apply ih i (Vector.erase ineqs i) (plus ++ [q0]) minus hlerase hzerase herase _ hm
          intro q hq
          rcases List.mem_append.mp hq with h1 | h1
          · exact hp q h1
          · simp at h1
            exact h1 ▸ hi q0 hq0
        · simp only [hpos, if_false]
          apply ih i (Vector.erase ineqs i) plus (minus ++ [q0]) hlerase hzerase herase hp
          intro q hq
          rcases List.mem_append.mp hq with h1 | h1
          · exact hm q h1
          · simp at h1
            exact h1 ▸ hi q0 hq0

theorem secondRuleLoop_subset {S : Type} (ops : SetOps S) (startIdx numZero : Nat) :
    ∀ (fuel i : Nat) (ineqs : List (Inequality S)),
      ∀ q ∈ secondRuleLoop ops startIdx numZero fuel i ineqs, q ∈ ineqs := by
  intro fuel
  induction fuel with
  | zero => intro i ineqs q hq; simpa [secondRuleLoop] using hq
  | succ n ih =>
    intro i ineqs q hq
    simp only [secondRuleLoop] at hq
    split_ifs at hq
    · exact Vector.mem_of_mem_erase (ih _ _ q hq)
    · exact Vector.mem_of_mem_erase (ih _ _ q hq)
    · exact ih _ _ q hq
    · exact hq

theorem checkSecondChernikovRule_subset {S : Type} (ops : SetOps S) (startIdx numZero : Nat)
    (ineqs : List (Inequality S)) :
    ∀ q ∈ checkSecondChernikovRule ops startIdx numZero ineqs, q ∈ ineqs :=
  secondRuleLoop_subset ops startIdx numZero _ _ ineqs

end Elimination

namespace Elimination
open Utils

theorem getD_map_tdiv_zero {t : Utils.Coeff} (v : List Int) (g : Int) (k : Nat)
    (h : v.getD k 0 = 0) : (v.map (fun x => t.div x g)).getD k 0 = 0 := by
  rw [List.getD_eq_getElem?_getD] at h ⊢
  rw [List.getElem?_map]
  cases hk : v[k]? with
  | none => simp
  | some a =>
    rw [hk] at h
    simp only [Option.getD_some] at h
    subst h
    simp [Coeff.div_zero_left]

theorem getD_normalize_zero {t : Utils.Coeff} (intArith : Bool) (v : List Int) (k : Nat) (h : v.getD k 0 = 0) :
    (normalize t intArith v).getD k 0 = 0 := by
  unfold normalize normalizeIntVector DDM.normalizeFPVector
  dsimp only
  split_ifs
  · exact getD_map_tdiv_zero v _ k h
  · exact getD_map_tdiv_zero v _ k h
  · exact h

theorem getD_take_zero (v : List Int) (n k : Nat) (h : v.getD k 0 = 0) :
    (v.take n).getD k 0 = 0 := by
  rw [List.getD_eq_getElem?_getD] at h ⊢
  rw [List.getElem?_take]
  split_ifs
  · exact h
  · rfl

theorem getD_zipWith_zero (f : Int → Int → Int) (a b : List Int) (k : Nat)
    (h : f (a.getD k 0) (b.getD k 0) = 0) : (List.zipWith f a b).getD k 0 = 0 := by
  rw [List.getD_eq_getElem?_getD] at h ⊢
  rw [List.getD_eq_getElem?_getD] at h
  rw [List.getElem?_zipWith]
  cases ha : a[k]? <;> cases hb : b[k]? <;> simp_all

theorem newInequalityFromPair_eliminated_zero {t : Utils.Coeff} {S : Type} (ops : SetOps S) (dim : Nat) (intArith : Bool)
    (plus minus : Inequality S) (e : Nat) :
    (newInequalityFromPair t ops dim intArith plus minus e).normal.getD e 0 = 0 := by
  unfold newInequalityFromPair
  apply getD_normalize_zero
  apply getD_take_zero
  apply getD_zipWith_zero
  rw [Coeff.mul_swap]
  exact Coeff.sub_same t _

theorem newInequalityFromPair_keeps_zero {t : Utils.Coeff} {S : Type} (ops : SetOps S) (dim : Nat) (intArith : Bool)
    (plus minus : Inequality S) (e v : Nat) (hp : plus.normal.getD v 0 = 0)
    (hm : minus.normal.getD v 0 = 0) :
    (newInequalityFromPair t ops dim intArith plus minus e).normal.getD v 0 = 0 := by
  unfold newInequalityFromPair
  apply getD_normalize_zero
  apply getD_take_zero
  apply getD_zipWith_zero
  rw [hp, hm, Coeff.mul_zero_right, Coeff.mul_zero_right]
  exact Coeff.sub_same t 0

theorem combineWithMinus_spec {t : Utils.Coeff} {S : Type} (ops : SetOps S) (dim : Nat) (intArith : Bool)
    (n step e : Nat) (plus : Inequality S) (P : Inequality S → Prop) :
    ∀ (minus acc : List (Inequality S)),
      (∀ m ∈ minus, P (newInequalityFromPair t ops dim intArith plus m e)) → (∀ q ∈ acc, P q) →
      ∀ q ∈ combineWithMinus t ops dim intArith n step e plus minus acc, P q := by
  intro minus
  induction minus with
  | nil => intro acc _ hacc; simpa [combineWithMinus] using hacc
  | cons m ms ih =>
    intro acc hc hacc
    simp only [combineWithMinus, List.foldl_cons]
    have hrec := ih (if ops.intersectionSize plus.complementaryIndex m.complementaryIndex
          ≥ subSizeT n (step + 2) then acc ++ [newInequalityFromPair t ops dim intArith plus m e] else acc)
      (fun m' hm' => hc m' (List.mem_cons_of_mem _ hm'))
    simp only [combineWithMinus] at hrec
    apply hrec
    intro q hq
    split_ifs at hq
    · rcases List.mem_append.mp hq with h1 | h1
      · exact hacc q h1
      · simp at h1
        exact h1 ▸ hc m (List.mem_cons_self _ _)
    · exact hacc q hq

/-- The list of new inequalities built in one step (before the final pruning
of the enumeration mode) satisfies every property that holds for the zero
inequalities and for all combinations of a plus with a minus inequality. -/
theorem createInequalities_spec {t : Utils.Coeff} {S : Type} (ops : SetOps S) (params : Parameters)
    (dim n step e : Nat) (numZero : Nat) (P : Inequality S → Prop) (minus : List (Inequality S)) :
    ∀ (plus zero : List (Inequality S)),
      (∀ p ∈ plus, ∀ m ∈ minus, P (newInequalityFromPair t ops dim params.intArithmetic p m e)) →
      (∀ q ∈ zero, P q) →
      ∀ q ∈ createInequalities t ops params dim n step e numZero plus minus zero, P q := by
  intro plus
  induction plus with
  | nil => intro zero _ hz; simpa [createInequalities] using hz
  | cons p ps ih =>
    intro zero hc hz
    simp only [createInequalities, List.foldl_cons]
    have hcomb := combineWithMinus_spec (t := t) ops dim params.intArithmetic n step e p P minus zero
      (hc p (List.mem_cons_self _ _)) hz
    have hrec := fun z hz' => ih z (fun p' hp' => hc p' (List.mem_cons_of_mem _ hp')) hz'
    simp only [createInequalities] at hrec
    apply hrec
    intro q hq
    split_ifs at hq
    · exact hcomb q (checkSecondChernikovRule_subset _ _ _ _ q hq)
    · exact hcomb q hq

theorem eliminationStep_spec {t : Utils.Coeff} {S : Type} (ops : SetOps S) (params : Parameters) (dim n : Nat)
    (st : List (Inequality S) × List Nat) (step : Nat) :
    ZeroCol (selectNext params.eliminationOrdering st.2 st.1 step).2
        (eliminationStep t ops params dim n st step).1
    ∧ ∀ v, ZeroCol v st.1 → ZeroCol v (eliminationStep t ops params dim n st step).1 := by
  have hcl := fun (P : Inequality S → Prop) (hP : ∀ q ∈ st.1, P q) =>
    classifyLoop_spec (selectNext params.eliminationOrdering st.2 st.1 step).2 P st.1.length 0
      st.1 [] [] (by omega) (by intro k hk; omega) hP (by simp) (by simp)
  constructor
  · unfold eliminationStep
    simp only
    have h0 := (hcl (fun _ => True) (by simp)).1
    have hcr := createInequalities_spec (t := t) ops params dim n step
      (selectNext params.eliminationOrdering st.2 st.1 step).2
      (classifyLoop (selectNext params.eliminationOrdering st.2 st.1 step).2 st.1.length 0
        (st.1, [], [])).1.length
      (fun q => q.normal.getD (selectNext params.eliminationOrdering st.2 st.1 step).2 0 = 0)
      (classifyLoop (selectNext params.eliminationOrdering st.2 st.1 step).2 st.1.length 0
        (st.1, [], [])).2.2
      (classifyLoop (selectNext params.eliminationOrdering st.2 st.1 step).2 st.1.length 0
        (st.1, [], [])).2.1
      (classifyLoop (selectNext params.eliminationOrdering st.2 st.1 step).2 st.1.length 0
        (st.1, [], [])).1
      (fun p _ m _ => newInequalityFromPair_eliminated_zero ops dim _ p m _) h0
    intro q hq
    split_ifs at hq
    · exact hcr q (checkSecondChernikovRule_subset _ _ _ _ q hq)
    · exact hcr q hq
  · intro v hv
    unfold eliminationStep
    simp only
    obtain ⟨_, hz, hp, hm⟩ := hcl (fun q => q.normal.getD v 0 = 0) hv
    have hcr := createInequalities_spec (t := t) ops params dim n step
      (selectNext params.eliminationOrdering st.2 st.1 step).2
      (classifyLoop (selectNext params.eliminationOrdering st.2 st.1 step).2 st.1.length 0
        (st.1, [], [])).1.length
      (fun q => q.normal.getD v 0 = 0)
      (classifyLoop (selectNext params.eliminationOrdering st.2 st.1 step).2 st.1.length 0
        (st.1, [], [])).2.2
      (classifyLoop (selectNext params.eliminationOrdering st.2 st.1 step).2 st.1.length 0
        (st.1, [], [])).2.1
      (classifyLoop (selectNext params.eliminationOrdering st.2 st.1 step).2 st.1.length 0
        (st.1, [], [])).1
      (fun p hp' m hm' => newInequalityFromPair_keeps_zero ops dim _ p m _ v (hp p hp') (hm m hm')) hz
    intro q hq
    split_ifs at hq
    · exact hcr q (checkSecondChernikovRule_subset _ _ _ _ q hq)
    · exact hcr q hq

end Elimination

namespace Utils

theorem Matrix.length_swapList {α : Type} (l : List α) (a b : Nat) :
    (Matrix.swapList l a b).length = l.length := by
  unfold Matrix.swapList
  split <;> simp

theorem Matrix.getElem?_swapList_ne {α : Type} (l : List α) (a b k : Nat) (ha : a ≠ k)
    (hb : b ≠ k) : (Matrix.swapList l a b)[k]? = l[k]? := by
  unfold Matrix.swapList
  split
  · rw [List.getElem?_set_ne hb, List.getElem?_set_ne ha]
  · rfl

theorem Matrix.mem_swapList {α : Type} (l : List α) (a b : Nat) (v : α) (h : v ∈ l) :
    v ∈ Matrix.swapList l a b := by
  unfold Matrix.swapList
  split
  · rename_i x y hx hy
    rw [List.get?_eq_getElem?] at hx hy
    have hal : a < l.length := by
      by_contra hc
      rw [List.getElem?_eq_none (by omega)] at hx
      cases hx
    have hbl : b < l.length := by
      by_contra hc
      rw [List.getElem?_eq_none (by omega)] at hy
      cases hy
    obtain ⟨k, hk⟩ := List.mem_iff_getElem?.mp h
    apply List.mem_iff_getElem?.mpr
    by_cases hka : k = a
    · subst hka
      refine ⟨b, ?_⟩
      rw [hx] at hk
      rw [List.getElem?_set_self (by simpa using hbl)]
      exact hk
    · by_cases hkb : k = b
      · subst hkb
        refine ⟨a, ?_⟩
        rw [hy] at hk
        rw [List.getElem?_set_ne hka, List.getElem?_set_self hal]
        exact hk
      · refine ⟨k, ?_⟩
        rw [List.getElem?_set_ne (Ne.symm hkb), List.getElem?_set_ne (Ne.symm hka)]
        exact hk
  · exact h

end Utils

namespace Elimination
open Utils

theorem selectNext_spec {S : Type} (ordering : EliminationOrdering) (vars : List Nat)
    (ineqs : List (Inequality S)) (step : Nat) :
    (selectNext ordering vars ineqs step).2 = (selectNext ordering vars ineqs step).1.getD step 0
    ∧ (selectNext ordering vars ineqs step).1.length = vars.length
    ∧ (∀ j < step, (selectNext ordering vars ineqs step).1.getD j 0 = vars.getD j 0)
    ∧ (∀ v ∈ vars, v ∈ (selectNext ordering vars ineqs step).1) := by
  unfold selectNext
  split_ifs
  · refine ⟨rfl, Matrix.length_swapList _ _ _, ?_, fun v hv => Matrix.mem_swapList _ _ _ v hv⟩
    intro j hj
    simp only [List.getD_eq_getElem?_getD]
    rw [Matrix.getElem?_swapList_ne _ _ _ _ (by omega) (by omega)]
  · refine ⟨rfl, Matrix.length_swapList _ _ _, ?_, fun v hv => Matrix.mem_swapList _ _ _ v hv⟩
    intro j hj
    simp only [List.getD_eq_getElem?_getD]
    rw [Matrix.getElem?_swapList_ne _ _ _ _ (by omega) (by omega)]
  · exact ⟨rfl, rfl, fun _ _ => rfl, fun _ hv => hv⟩

theorem foldl_swapList_spec (g : Nat → Nat) (idxs : List Nat) :
    ∀ (l : List Nat),
      (idxs.foldl (fun v i => Matrix.swapList v i (g i)) l).length = l.length
      ∧ ∀ x ∈ l, x ∈ idxs.foldl (fun v i => Matrix.swapList v i (g i)) l := by
  induction idxs with
  | nil => intro l; exact ⟨rfl, fun _ h => h⟩
  | cons i is ih =>
    intro l
    simp only [List.foldl_cons]
    obtain ⟨h1, h2⟩ := ih (Matrix.swapList l i (g i))
    refine ⟨h1.trans (Matrix.length_swapList _ _ _), ?_⟩
    intro x hx
    exact h2 x (Matrix.mem_swapList _ _ _ x hx)

theorem orderInit_spec (ordering : EliminationOrdering) (rnd : Nat → Nat) (vars : List Nat) :
    (orderInit ordering rnd vars).length = vars.length
    ∧ ∀ v ∈ vars, v ∈ orderInit ordering rnd vars := by
  unfold orderInit
  split_ifs
  · exact ⟨List.length_insertionSort _ _,
      fun v hv => (List.perm_insertionSort _ _).symm.subset hv⟩
  · exact ⟨List.length_insertionSort _ _,
      fun v hv => (List.perm_insertionSort _ _).symm.subset hv⟩
  · exact foldl_swapList_spec (fun i => rnd i % vars.length) _ vars
  · exact ⟨rfl, fun _ h => h⟩

/-- After `k` steps the order list still holds every variable of the input
list, and every inequality of the working list has coefficient 0 at the
variables stored at the positions below `k`. -/
theorem steps_spec {t : Utils.Coeff} {S : Type} (ops : SetOps S) (params : Parameters) (dim n : Nat)
    (init : List (Inequality S)) (vars0 vars : List Nat)
    (hlen : vars.length = vars0.length) (hmem : ∀ v ∈ vars0, v ∈ vars) (k : Nat) :
    ((List.range k).foldl (eliminationStep t ops params dim n) (init, vars)).2.length = vars0.length
    ∧ (∀ v ∈ vars0, v ∈ ((List.range k).foldl (eliminationStep t ops params dim n) (init, vars)).2)
    ∧ ∀ j < k,
        ZeroCol (((List.range k).foldl (eliminationStep t ops params dim n) (init, vars)).2.getD j 0)
          ((List.range k).foldl (eliminationStep t ops params dim n) (init, vars)).1 := by
  induction k with
  | zero => exact ⟨hlen, hmem, fun j hj => absurd hj (Nat.not_lt_zero j)⟩
  | succ k ih =>
    rw [List.range_succ, List.foldl_append]
    simp only [List.foldl_cons, List.foldl_nil]
    obtain ⟨h1, h2, h3⟩ := ih
    have hs := selectNext_spec params.eliminationOrdering
      ((List.range k).foldl (eliminationStep t ops params dim n) (init, vars)).2
      ((List.range k).foldl (eliminationStep t ops params dim n) (init, vars)).1 k
    have he := eliminationStep_spec (t := t) ops params dim n
      ((List.range k).foldl (eliminationStep t ops params dim n) (init, vars)) k
    have h2nd : (eliminationStep t ops params dim n
        ((List.range k).foldl (eliminationStep t ops params dim n) (init, vars)) k).2
        = (selectNext params.eliminationOrdering
            ((List.range k).foldl (eliminationStep t ops params dim n) (init, vars)).2
            ((List.range k).foldl (eliminationStep t ops params dim n) (init, vars)).1 k).1 := rfl
    rw [h2nd]
    refine ⟨hs.2.1.trans h1, fun v hv => hs.2.2.2 v (h2 v hv), ?_⟩
    intro j hj
    by_cases hjk : j = k
    · subst hjk
      rw [← hs.1]
      exact he.1
    · have hlt : j < k := by omega
      rw [hs.2.2.1 j hlt]
      exact he.2 _ (h3 j hlt)

theorem run_zero_columns {t : Utils.Coeff} {S : Type} (ops : SetOps S) (params : Parameters) (rnd : Nat → Nat)
    (a : Matrix) (vars : List Nat) :
    ∀ row ∈ (run t ops params rnd a vars).rows, ∀ v ∈ vars, row.getD v 0 = 0 := by
  intro row hrow v hv
  unfold run at hrow
  simp only [List.mem_map] at hrow
  obtain ⟨q, hq, rfl⟩ := hrow
  obtain ⟨ho1, ho2⟩ := orderInit_spec params.eliminationOrdering rnd vars
  obtain ⟨h1, h2, h3⟩ := steps_spec (t := t) ops params a.ncols a.nrows
    ((List.range a.nrows).map (fun i => initialInequality t ops a.ncols a.nrows params.intArithmetic i
      (a.row i)))
    vars (orderInit params.eliminationOrdering rnd vars) ho1 ho2 vars.length
  obtain ⟨j, hj⟩ := List.mem_iff_getElem?.mp (h2 v hv)
  have hjlt : j < vars.length := by
    rw [← h1]
    by_contra hc
    rw [List.getElem?_eq_none (Nat.le_of_not_lt hc)] at hj
    cases hj
  have hz := h3 j hjlt q hq
  have hvj : ∀ (l : List Nat), l[j]? = some v → l.getD j 0 = v := by
    intro l hl
    rw [List.getD_eq_getElem?_getD, hl]
    rfl
  rw [hvj _ hj] at hz
  exact getD_take_zero _ _ _ hz

end Elimination

/-- C4: for every coefficient type (the 32-bit `int` included), every integer
inequality matrix, every parameter setting and every list of distinct valid
variable indices, each row of the matrix returned by `elimination` has
coefficient 0 in every column named in the list. -/
theorem elimination_zero_columns (t : Utils.Coeff) (params : Elimination.Parameters)
    (rnd : Nat → Nat) (a : Utils.Matrix) (vars : List Nat) (_hd : vars.Nodup)
    (_hv : ∀ v ∈ vars, v < a.ncols) :
    ∀ row ∈ (Elimination.elimination t params rnd a vars).rows, ∀ v ∈ vars,
      row.getD v 0 = 0 := by
  unfold Elimination.elimination
  split_ifs <;> exact Elimination.run_zero_columns (t := t) _ params rnd a vars

/-- Witness for C4: the system `x + y ≥ 0, x - y ≥ 0, -x ≥ 0` with the list
`[0]`; the returned row `(0, 1)` has coefficient 0 in column 0. -/
theorem elimination_zero_columns_witness :
    [0].Nodup ∧ (∀ v ∈ [0], v < fmeSystem.ncols)
    ∧ [0, 1] ∈ (Elimination.elimination Utils.Coeff.int
        ⟨Elimination.ChernikovTest.Graph, Elimination.EliminationOrdering.MinPairs, true⟩
        (fun _ => 0) fmeSystem [0]).rows
    ∧ 0 ∈ [0] ∧ ([0, 1] : List Int).getD 0 0 = 0 :=
  ⟨by decide, by decide, by decide, by decide,
    elimination_zero_columns Utils.Coeff.int
      ⟨Elimination.ChernikovTest.Graph, Elimination.EliminationOrdering.MinPairs, true⟩
      (fun _ => 0) fmeSystem [0] (by decide) (by decide) [0, 1] (by decide) 0 (by decide)⟩

/-! ## The identity matrix (C3) -/

namespace Utils

theorem gcdVecTail_one {t : Utils.Coeff} (xs : List Int) (h : ∀ x ∈ xs, x = 0 ∨ x = 1) : gcdVecTail t 1 xs = 1 := by
  induction xs with
  | nil => rfl
  | cons x xs ih =>
    rcases h x (List.mem_cons_self _ _) with hx | hx
    · subst hx
      simp only [gcdVecTail]
      exact ih (fun y hy => h y (List.mem_cons_of_mem _ hy))
    · subst hx
      have h11 : gcd t 1 1 = 1 := by cases t <;> decide
      simp [gcdVecTail, h11]

theorem gcdVec_zero_one {t : Utils.Coeff} (v : List Int) (h : ∀ x ∈ v, x = 0 ∨ x = 1) : gcdVec t v = 1 := by
  induction v with
  | nil => rfl
  | cons x xs ih =>
    rcases h x (List.mem_cons_self _ _) with hx | hx
    · subst hx
      simp only [gcdVec]
      exact ih (fun y hy => h y (List.mem_cons_of_mem _ hy))
    · subst hx
      simp only [gcdVec]
      rw [if_pos (by decide), if_neg (by decide)]
      exact gcdVecTail_one xs (fun y hy => h y (List.mem_cons_of_mem _ hy))

theorem normalizeIntVector_zero_one {t : Utils.Coeff} (v : List Int) (h : ∀ x ∈ v, x = 0 ∨ x = 1) :
    normalizeIntVector t v = v := by
  unfold normalizeIntVector
  rw [gcdVec_zero_one v h]
  conv_rhs => rw [← List.map_id v]
  apply List.map_congr_left
  intro x hx
  rcases h x hx with h0 | h0
  · rw [h0]
    exact Coeff.div_zero_left t 1
  · rw [h0]
    exact Coeff.wrap_one t

theorem set_getD_self {α : Type} (l : List α) (i : Nat) (d : α) : l.set i (l.getD i d) = l := by
  induction l generalizing i with
  | nil => rfl
  | cons x xs ih =>
    cases i with
    | zero => rfl
    | succ i => simpa [List.set, List.getD_eq_getElem?_getD] using ih i

/-- Multiplying a row of stored values by 1 changes nothing. -/
theorem Matrix.mult_row_one {t : Utils.Coeff} (m : Matrix) (i : Nat)
    (hw : ∀ x ∈ m.row i, t.wrap x = x) : m.mult_row t i 1 = m := by
  unfold Matrix.mult_row
  have hmap : (m.row i).map (fun x => t.mul x 1) = m.row i := by
    conv_rhs => rw [← List.map_id (m.row i)]
    apply List.map_congr_left
    intro x hx
    show t.wrap (x * 1) = x
    rw [Int.mul_one]
    exact hw x hx
  rw [hmap]
  unfold Matrix.row
  rw [set_getD_self]

theorem zipWith_add_mul_zero {t : Utils.Coeff} (a b : List Int) (h : a.length ≤ b.length)
    (hw : ∀ x ∈ a, t.wrap x = x) :
    List.zipWith (fun x y => t.add x (t.mul y 0)) a b = a := by
  induction a generalizing b with
  | nil => simp
  | cons x xs ih =>
    cases b with
    | nil => simp at h
    | cons y ys =>
      simp only [List.zipWith_cons_cons, List.cons.injEq]
      constructor
      · rw [Coeff.mul_zero_right]
        show t.wrap (x + 0) = x
        rw [Int.add_zero]
        exact hw x (List.mem_cons_self _ _)
      · exact ih ys (by simpa using h) (fun z hz => hw z (List.mem_cons_of_mem _ hz))

theorem Matrix.addmult_rows_zero {t : Utils.Coeff} (m : Matrix) (i j : Nat)
    (h : (m.row i).length ≤ (m.row j).length) (hw : ∀ x ∈ m.row i, t.wrap x = x) :
    m.addmult_rows t i j 0 = m := by
  unfold Matrix.addmult_rows
  rw [zipWith_add_mul_zero _ _ h hw]
  unfold Matrix.row
  rw [set_getD_self]

theorem Matrix.div_row_one {t : Utils.Coeff} (m : Matrix) (i : Nat)
    (hw : ∀ x ∈ m.row i, t.wrap x = x) : m.div_row t i 1 = m := by
  unfold Matrix.div_row
  rw [show t.div 1 1 = 1 from Coeff.wrap_one t, Matrix.mult_row_one m i hw]

/-! ### The identity matrix -/

theorem eye_nrows (n : Nat) : (Matrix.assign_eye n).nrows = n := by
  simp [Matrix.assign_eye, Matrix.nrows]

theorem eye_ncols (n : Nat) : (Matrix.assign_eye n).ncols = n := rfl

theorem eye_row (n i : Nat) (h : i < n) :
    (Matrix.assign_eye n).row i = (List.range n).map (fun j => if i = j then (1 : Int) else 0) := by
  simp [Matrix.assign_eye, Matrix.row, List.getD_eq_getElem?_getD, List.getElem?_map,
    List.getElem?_range h]

theorem eye_row_zero_one (n i : Nat) : ∀ x ∈ (Matrix.assign_eye n).row i, x = 0 ∨ x = 1 := by
  intro x hx
  by_cases h : i < n
  · rw [eye_row n i h] at hx
    simp only [List.mem_map, List.mem_range] at hx
    obtain ⟨j, _, rfl⟩ := hx
    split_ifs <;> simp
  · have : (Matrix.assign_eye n).row i = [] := by
      simp [Matrix.assign_eye, Matrix.row, List.getD_eq_getElem?_getD, List.getElem?_map,
        List.getElem?_eq_none (show (List.range n).length ≤ i by simp; omega)]
    rw [this] at hx
    cases hx

theorem eye_row_stored (t : Utils.Coeff) (n i : Nat) :
    ∀ x ∈ (Matrix.assign_eye n).row i, t.wrap x = x := by
  intro x hx
  rcases eye_row_zero_one n i x hx with h | h
  · rw [h]
    exact Coeff.wrap_zero t
  · rw [h]
    exact Coeff.wrap_one t

theorem eye_row_length (n i : Nat) (h : i < n) : ((Matrix.assign_eye n).row i).length = n := by
  rw [eye_row n i h]
  simp

theorem eye_get (n i j : Nat) (hi : i < n) (hj : j < n) :
    (Matrix.assign_eye n).get i j = if i = j then 1 else 0 := by
  unfold Matrix.get
  rw [eye_row n i hi]
  simp [List.getD_eq_getElem?_getD, List.getElem?_map, List.getElem?_range hj]

theorem eye_get_le_one {t : Utils.Coeff} (n i j : Nat) : absT t ((Matrix.assign_eye n).get i j) ≤ 1 := by
  unfold Matrix.get absT
  have h := eye_row_zero_one n i
  rw [List.getD_eq_getElem?_getD]
  cases hx : ((Matrix.assign_eye n).row i)[j]? with
  | none => simp
  | some x =>
    rcases h x (List.mem_iff_getElem?.mpr ⟨j, hx⟩) with h0 | h1
    · subst h0; simp
    · subst h1
      simp only [Option.getD_some]
      rw [if_neg (by decide)]

theorem eye_transpose (n : Nat) : (Matrix.assign_eye n).transpose = Matrix.assign_eye n := by
  unfold Matrix.transpose
  rw [eye_nrows]
  show Matrix.mk n _ = Matrix.mk n _
  congr 1
  apply List.map_congr_left
  intro j hj
  apply List.map_congr_left
  intro i hi
  rw [List.mem_range] at hi hj
  rw [eye_get n i j hi hj]
  by_cases h : i = j
  · simp [h]
  · have : ¬ j = i := fun h' => h h'.symm
    simp [h, this]

end Utils

namespace Utils

theorem foldl_fixed {α β : Type} (f : β → α → β) (b : β) (l : List α)
    (h : ∀ x ∈ l, f b x = b) : l.foldl f b = b := by
  induction l with
  | nil => rfl
  | cons x xs ih =>
    rw [List.foldl_cons, h x (List.mem_cons_self _ _)]
    exact ih (fun y hy => h y (List.mem_cons_of_mem _ hy))

theorem findPivot_eye {t : Utils.Coeff} (n i : Nat) (hi : i < n) :
    findPivot t (Matrix.assign_eye n) i n = (i, 1) := by
  unfold findPivot
  have h1 : absT t ((Matrix.assign_eye n).get i i) = 1 := by
    rw [eye_get n i i hi hi]
    simp [absT]
  rw [h1]
  apply foldl_fixed
  intro j _
  have := eye_get_le_one (t := t) n i j
  simp only [gt_iff_lt]
  rw [if_neg (by omega)]

theorem elimRowInt_eye {t : Utils.Coeff} (n i ii : Nat) (hi : i < n) (hii : ii < n) :
    elimRowInt t 1 i (Matrix.assign_eye n, Matrix.assign_eye n) ii
      = (Matrix.assign_eye n, Matrix.assign_eye n) := by
  unfold elimRowInt
  split_ifs with h
  · have hg : (Matrix.assign_eye n).get ii i = 0 := by
      rw [eye_get n ii i hii hi]
      simp [h]
    have h10 : gcd t 1 0 = 1 := by cases t <;> decide
    have h11 : gcd t 1 1 = 1 := by cases t <;> decide
    have ht1 : t.div 1 1 = 1 := Coeff.wrap_one t
    have ht0 : t.div (t.neg 0) 1 = 0 := by
      rw [Coeff.neg_zero_eq]
      exact Coeff.div_zero_left t 1
    have hlen : ((Matrix.assign_eye n).row ii).length ≤ ((Matrix.assign_eye n).row i).length := by
      rw [eye_row_length n ii hii, eye_row_length n i hi]
    have hm := Matrix.mult_row_one (Matrix.assign_eye n) ii (eye_row_stored t n ii)
    have ha := Matrix.addmult_rows_zero (Matrix.assign_eye n) ii i hlen (eye_row_stored t n ii)
    have hd := Matrix.div_row_one (Matrix.assign_eye n) ii (eye_row_stored t n ii)
    simp only [hg, h10, ht1, ht0, hm, ha]
    have hv : gcdVec t (((Matrix.assign_eye n).row ii).take (Matrix.assign_eye n).ncols) = 1 :=
      gcdVec_zero_one _ (fun x hx => eye_row_zero_one n ii x (List.mem_of_mem_take hx))
    rw [hv, h11, hd]
  · rfl

theorem gaussStep_eye {t : Utils.Coeff} (n i : Nat) (hi : i < n) (bas : Matrix) (perm : List Nat) :
    gaussStep t n true 0 ⟨Matrix.assign_eye n, Matrix.assign_eye n, bas, perm, i⟩
      = ⟨Matrix.assign_eye n, Matrix.assign_eye n, bas, perm, i + 1⟩ := by
  unfold gaussStep
  simp only [findPivot_eye n i hi]
  have hg : (Matrix.assign_eye n).get i i = 1 := by
    rw [eye_get n i i hi hi]
    simp
  have hfold : (List.range (Matrix.assign_eye n).nrows).foldl (elimRowInt t 1 i)
      (Matrix.assign_eye n, Matrix.assign_eye n) = (Matrix.assign_eye n, Matrix.assign_eye n) := by
    apply foldl_fixed
    intro ii hii
    rw [eye_nrows, List.mem_range] at hii
    exact elimRowInt_eye n i ii hi hii
  simp [hg, hfold]

theorem gaussLoop_eye {t : Utils.Coeff} (n : Nat) (bas : Matrix) (perm : List Nat) :
    ∀ (fuel i : Nat), i + fuel = n →
      gaussLoop t n true 0 fuel ⟨Matrix.assign_eye n, Matrix.assign_eye n, bas, perm, i⟩
        = ⟨Matrix.assign_eye n, Matrix.assign_eye n, bas, perm, n⟩ := by
  intro fuel
  induction fuel with
  | zero =>
    intro i h
    simp only [gaussLoop]
    have : i = n := by omega
    rw [this]
  | succ k ih =>
    intro i h
    simp only [gaussLoop]
    have hi : i < n := by omega
    rw [eye_ncols, eye_nrows, if_pos (by simpa using hi), gaussStep_eye n i hi]
    exact ih (i + 1) (by omega)

theorem gauss_eye {t : Utils.Coeff} (n : Nat) :
    gauss t (Matrix.assign_eye n) n true 0
      = ⟨Matrix.assign_eye n, Matrix.resize 0 n, n, List.range n⟩ := by
  unfold gauss
  simp only [eye_transpose, eye_ncols, eye_nrows]
  rw [gaussLoop_eye n (Matrix.resize 0 n) (List.range n) n 0 (by omega)]
  simp [eye_ncols, eye_nrows, moveRows]

end Utils

namespace DDM
open Utils

theorem foldl_invariant {α β : Type} (P : β → Prop) (f : β → α → β) (l : List α) :
    ∀ (b : β), P b → (∀ acc x, P acc → P (f acc x)) → P (l.foldl f b) := by
  induction l with
  | nil => intro b hb _; exact hb
  | cons x xs ih => intro b hb hf; exact ih (f b x) (hf b x hb) hf

theorem getRay_good {S : Type} (c : Context S) (heap : List (Ray S)) (p : Nat)
    (h : ∀ r ∈ heap, Good r) : Good (getRay c heap p) := by
  unfold getRay
  rw [List.getD_eq_getElem?_getD]
  cases hp : heap[p]? with
  | none => exact ⟨fun x hx => (by simp [nullRay] at hx), rfl⟩
  | some r => exact h r (List.mem_iff_getElem?.mpr ⟨p, hp⟩)

theorem addEdge_good {S : Type} (c : Context S) (heap : List (Ray S)) (a b : Nat)
    (h : ∀ r ∈ heap, Good r) : ∀ r ∈ addEdge c heap a b, Good r := by
  have step : ∀ (hp : List (Ray S)) (p : Nat) (l : List Nat), (∀ r ∈ hp, Good r) →
      ∀ r ∈ hp.set p { getRay c hp p with adjacentRays := l }, Good r := by
    intro hp p l hgood r hr
    rcases List.mem_or_eq_of_mem_set hr with h1 | h1
    · exact hgood r h1
    · subst h1
      exact getRay_good c hp p hgood
  unfold addEdge
  exact step _ b _ (step heap a _ h)

theorem computeAdjacency_good {S : Type} (c : Context S) (heap : List (Ray S))
    (rays notProcessed : List Nat) (h : ∀ r ∈ heap, Good r) :
    ∀ r ∈ computeAdjacency c heap rays notProcessed, Good r := by
  unfold computeAdjacency
  apply foldl_invariant (fun hp : List (Ray S) => ∀ r ∈ hp, Good r) _ _ heap h
  intro acc i hacc
  apply foldl_invariant (fun hp : List (Ray S) => ∀ r ∈ hp, Good r) _ _ acc hacc
  intro acc1 cand hacc1
  exact addEdge_good c acc1 _ _ hacc1

/-- The accumulation loop of an inner product of two arrays of zeros and
ones: the sum grows by at most one per entry, so it does not overflow when
the number of entries is in the range of `int`. -/
theorem dot_loop_zero_one {t : Utils.Coeff} (a : List Int) :
    ∀ (b : List Int) (n : Nat) (acc : Int),
      (∀ x ∈ a, x = 0 ∨ x = 1) → (∀ y ∈ b, y = 0 ∨ y = 1) → 0 ≤ acc →
      acc + n < 2147483648 →
      0 ≤ ((List.zipWith (fun x y => t.mul x y) a b).take n).foldl (fun s p => t.add s p) acc := by
  induction a with
  | nil => intro b n acc _ _ h _; simpa using h
  | cons x xs ih =>
    intro b n acc ha hb hacc hn
    cases b with
    | nil => simpa using hacc
    | cons y ys =>
      cases n with
      | zero => simpa using hacc
      | succ m =>
        simp only [List.zipWith_cons_cons, List.take_succ_cons, List.foldl_cons]
        have hxy : t.mul x y = 0 ∨ t.mul x y = 1 := by
          rcases ha x (List.mem_cons_self _ _) with hx | hx
          · left; rw [hx]; exact Coeff.mul_zero_left t y
          · rcases hb y (List.mem_cons_self _ _) with hy | hy
            · left; rw [hy]; exact Coeff.mul_zero_right t x
            · right; rw [hx, hy]; exact Coeff.wrap_one t
        have hsum : t.add acc (t.mul x y) = acc + t.mul x y := by
          apply Coeff.wrap_of_bounds
          · rcases hxy with h | h <;> omega
          · rcases hxy with h | h <;> · push_cast at hn; omega
        rw [hsum]
        apply ih ys m _ (fun z hz => ha z (List.mem_cons_of_mem _ hz))
          (fun z hz => hb z (List.mem_cons_of_mem _ hz))
        · rcases hxy with h | h <;> omega
        · rcases hxy with h | h <;> · push_cast at hn; omega

theorem dot_nonneg {t : Utils.Coeff} (a b : List Int) (n : Nat) (hn : n < 2147483648)
    (ha : ∀ x ∈ a, x = 0 ∨ x = 1) (hb : ∀ y ∈ b, y = 0 ∨ y = 1) : 0 ≤ dot t n a b := by
  unfold dot
  exact dot_loop_zero_one a b n 0 ha hb (le_refl 0) (by omega)

theorem findViolator_none {S : Type} (c : Context S) (heap : List (Ray S)) (ineIdx : Nat)
    (hz : c.zerotol = 0) (rays : List Nat)
    (h : ∀ r ∈ rays, 0 ≤ computeDiscrepancy c (getRay c heap r) ineIdx) :
    findViolator c heap ineIdx rays = none := by
  induction rays with
  | nil => rfl
  | cons r rs ih =>
    simp only [findViolator]
    have := h r (List.mem_cons_self _ _)
    rw [if_neg (by rw [hz]; omega)]
    exact ih (fun r' hr' => h r' (List.mem_cons_of_mem _ hr'))

theorem assignIne_of_none {S : Type} (c : Context S) (s : State S) (ineIdx : Nat)
    (rays : List Nat) (h : findViolator c s.heap ineIdx rays = none) :
    assignIne c s ineIdx rays =
      { s with
        assigneeRays := s.assigneeRays.set ineIdx none,
        numProcessedInequalities := (s.numProcessedInequalities + 1) % 2 ^ c.ops.idxBits,
        notProcessedInequalities := Vector.remove s.notProcessedInequalities ineIdx } := by
  unfold assignIne
  rw [h]

theorem assignIne_fold_eye {S : Type} (c : Context S) (n : Nat) (hn : n < 2147483648)
    (hm : c.inequalityMatrix = Matrix.assign_eye n) (hz : c.zerotol = 0) (s : State S)
    (hgood : ∀ r ∈ s.heap, Good r) (hnp : s.numProcessedInequalities = 0) (k : Nat) :
    ((List.range k).foldl (fun s i => assignIne c s i s.extremeRays) s).heap = s.heap
    ∧ ((List.range k).foldl (fun s i => assignIne c s i s.extremeRays) s).extremeRays
        = s.extremeRays
    ∧ ((List.range k).foldl (fun s i => assignIne c s i s.extremeRays) s).numProcessedInequalities
        = k % 2 ^ c.ops.idxBits := by
  induction k with
  | zero => simp [hnp]
  | succ k ih =>
    rw [List.range_succ, List.foldl_append]
    simp only [List.foldl_cons, List.foldl_nil]
    obtain ⟨h1, h2, h3⟩ := ih
    have hnone : findViolator c
        ((List.range k).foldl (fun s i => assignIne c s i s.extremeRays) s).heap k
        ((List.range k).foldl (fun s i => assignIne c s i s.extremeRays) s).extremeRays = none := by
      apply findViolator_none c _ k hz
      intro r _
      unfold computeDiscrepancy
      apply dot_nonneg
      · rw [hm]
        exact hn
      · rw [h1]
        exact (getRay_good c s.heap r hgood).1
      · rw [hm]
        exact eye_row_zero_one n k
    rw [assignIne_of_none c _ k _ hnone]
    refine ⟨h1, h2, ?_⟩
    simp only
    rw [h3, Nat.mod_add_mod]

theorem makeInitialStep_eye {S : Type} (c : Context S) (n : Nat) (hn : n < 2147483648)
    (perm : List Nat)
    (hm : c.inequalityMatrix = Matrix.assign_eye n) (hi : c.intArith = true)
    (hp : c.usePlusPlus = false) (hz : c.zerotol = 0) :
    (makeInitialStep c (Matrix.assign_eye n) perm).numProcessedInequalities
        = n % 2 ^ c.ops.idxBits
    ∧ (makeInitialStep c (Matrix.assign_eye n) perm).extremeRays = List.range c.rank
    ∧ ∀ r ∈ (makeInitialStep c (Matrix.assign_eye n) perm).heap, Good r := by
  have hrays : ∀ r ∈ (List.range c.rank).map (fun rayIdx =>
      ({ newRay c ((Matrix.assign_eye n).row rayIdx)
            (if c.usePlusPlus then computeDiscrepancies c ((Matrix.assign_eye n).row rayIdx)
              else [])
            c.inequalityMatrix.nrows with
          cobasis := initialCobasis c perm rayIdx
            (newRay c ((Matrix.assign_eye n).row rayIdx)
              (if c.usePlusPlus then computeDiscrepancies c ((Matrix.assign_eye n).row rayIdx)
                else [])
              c.inequalityMatrix.nrows).cobasis } : Ray S)), Good r := by
    intro r hr
    simp only [List.mem_map] at hr
    obtain ⟨i, _, rfl⟩ := hr
    refine ⟨?_, rfl⟩
    simp only [newRay, normalizeRay, hi, hp, if_true, Bool.false_eq_true, if_false,
      List.take_nil, List.append_nil]
    have h01 : ∀ x ∈ ((Matrix.assign_eye n).row i).take c.dim, x = 0 ∨ x = 1 :=
      fun x hx => eye_row_zero_one n i x (List.mem_of_mem_take hx)
    rw [normalizeIntVector_zero_one _ h01]
    exact h01
  have hheap := computeAdjacency_good c _ (List.range c.rank)
    (initialState c).notProcessedInequalities hrays
  have hfold := assignIne_fold_eye c n hn hm hz
    { initialState c with
      heap := computeAdjacency c _ (List.range c.rank) (initialState c).notProcessedInequalities,
      extremeRays := List.range c.rank }
    hheap rfl c.inequalityMatrix.nrows
  unfold makeInitialStep
  simp only
  obtain ⟨h1, h2, h3⟩ := hfold
  refine ⟨?_, h2, ?_⟩
  · rw [h3, hm, eye_nrows]
  · rw [h1]
    exact hheap

theorem next_none_of_good {S : Type} (c : Context S) (s : State S)
    (ho : c.order = PivotingOrder.Quickhull) (hgood : ∀ r ∈ s.heap, Good r) :
    next c s = none := by
  unfold next
  rw [if_pos ho]
  have : s.extremeRays.find?
      (fun r => decide ((getRay c s.heap r).assignedInequalities.length ≠ 0)) = none := by
    rw [List.find?_eq_none]
    intro r _
    simp [(getRay_good c s.heap r hgood).2]
  rw [this]

theorem mainLoop_none {S : Type} (c : Context S) (s : State S) (fuel : Nat)
    (he : isEnded c s = false) (hn : next c s = none) : mainLoop c fuel s = none := by
  cases fuel with
  | zero => simp [mainLoop, he]
  | succ k => simp [mainLoop, he, classifyRays, hn]

end DDM

/-- C3, evaluated at a failing input: on the 256 × 256 identity matrix with the
default parameters (quickhull, sorted-vector sets with 8-bit indices) the
counter of processed inequalities wraps to 0, the main loop is entered and
`next` reads past the end of the ray list, so `ddm` does not return a result,
whatever the fuel. -/
theorem ddm_identity_256 (rnd : Nat → Nat) (fuel : Nat) :
    DDM.ddm Utils.Coeff.int DDM.Parameters.default rnd fuel (Utils.Matrix.assign_eye 256) true 0 = none := by
  have hn : (Utils.Matrix.assign_eye 256).nrows = 256 := Utils.eye_nrows 256
  unfold DDM.ddm
  simp only [hn, DDM.Parameters.default]
  norm_num
  unfold DDM.run
  have hre : DDM.reorderInequalities DDM.PivotingOrder.Quickhull rnd (Utils.Matrix.assign_eye 256)
      = Utils.Matrix.assign_eye 256 := by
    simp [DDM.reorderInequalities]
  simp only [hre, hn, Utils.gauss_eye, Option.map_eq_none']
  obtain ⟨h1, _, h3⟩ := DDM.makeInitialStep_eye
    (S := List Nat)
    { arith := Utils.Coeff.int, ops := Utils.VectorSet.ops 8,
      order := DDM.PivotingOrder.Quickhull,
      adjacencyTest := DDM.AdjacencyTest.Graph, usePlusPlus := false, intArith := true,
      zerotol := 0, inequalityMatrix := Utils.Matrix.assign_eye 256, rank := 256 }
    256 (by decide) (List.range 256) rfl rfl rfl rfl
  apply DDM.mainLoop_none
  · unfold DDM.isEnded
    rw [h1]
    simp only [hn]
    decide
  · exact DDM.next_none_of_good _ _ rfl h3

/-- The scenarios `n = 2` and `n = 3` of C3: on the identity matrix `ddm` with
the default parameters performs no pivot step and returns the identity as ray
matrix, the facet lists `[1, 0]` and `[1, 2, 0]`, and 3 edges for `n = 3`. -/
theorem ddm_identity_small (rnd : Nat → Nat) (fuel : Nat) :
    DDM.ddm Utils.Coeff.int DDM.Parameters.default rnd fuel (Utils.Matrix.assign_eye 2) true 0
      = some ⟨Utils.Matrix.assign_eye 2, [1, 0], 2, 0⟩
    ∧ DDM.ddm Utils.Coeff.int DDM.Parameters.default rnd fuel (Utils.Matrix.assign_eye 3) true 0
      = some ⟨Utils.Matrix.assign_eye 3, [1, 2, 0], 3, 0⟩ := by
  constructor
  · rw [DDM.ddm_rnd _ rnd (fun _ => 0) _ _ _ _ (by decide)]
    have h := DDM.ddm_fuel_add (t := Utils.Coeff.int) DDM.Parameters.default (fun _ => 0) 0 fuel
      (Utils.Matrix.assign_eye 2) true 0 ⟨Utils.Matrix.assign_eye 2, [1, 0], 2, 0⟩ (by decide)
    simpa using h
  · rw [DDM.ddm_rnd _ rnd (fun _ => 0) _ _ _ _ (by decide)]
    have h := DDM.ddm_fuel_add (t := Utils.Coeff.int) DDM.Parameters.default (fun _ => 0) 0 fuel
      (Utils.Matrix.assign_eye 3) true 0 ⟨Utils.Matrix.assign_eye 3, [1, 2, 0], 3, 0⟩ (by decide)
    simpa using h

/-! ## The fuel of the main loop of `gauss` -/

namespace Utils

theorem Matrix.nrows_erase_row (m : Matrix) (i : Nat) (h : i < m.nrows) :
    (m.erase_row i).nrows = m.nrows - 1 := by
  simp [Matrix.erase_row, Matrix.nrows, List.length_eraseIdx, h] at h ⊢
  simp [h]

theorem Matrix.nrows_swap_cols (m : Matrix) (i j : Nat) : (m.swap_cols i j).nrows = m.nrows := by
  simp [Matrix.swap_cols, Matrix.nrows]

theorem Matrix.nrows_mult_row {t : Utils.Coeff} (m : Matrix) (i : Nat) (a : Int) :
    (m.mult_row t i a).nrows = m.nrows := by
  simp [Matrix.mult_row, Matrix.nrows]

theorem Matrix.nrows_div_row {t : Utils.Coeff} (m : Matrix) (i : Nat) (a : Int) :
    (m.div_row t i a).nrows = m.nrows := by
  simp [Matrix.div_row, Matrix.nrows_mult_row]

theorem Matrix.nrows_addmult_rows {t : Utils.Coeff} (m : Matrix) (i j : Nat) (a : Int) :
    (m.addmult_rows t i j a).nrows = m.nrows := by
  simp [Matrix.addmult_rows, Matrix.nrows]

theorem nrows_elimRowInt {t : Utils.Coeff} (b : Int) (i : Nat) (qf : Matrix × Matrix) (ii : Nat) :
    (elimRowInt t b i qf ii).1.nrows = qf.1.nrows := by
  unfold elimRowInt
  split_ifs
  · simp [Matrix.nrows_div_row, Matrix.nrows_addmult_rows, Matrix.nrows_mult_row]
  · rfl

theorem nrows_elimRowFrac {t : Utils.Coeff} (i : Nat) (qf : Matrix × Matrix) (ii : Nat) :
    (elimRowFrac t i qf ii).1.nrows = qf.1.nrows := by
  unfold elimRowFrac
  split_ifs
  · simp [Matrix.nrows_addmult_rows]
  · rfl

theorem nrows_foldl {α : Type} (f : Matrix × Matrix → α → Matrix × Matrix)
    (hf : ∀ qf x, (f qf x).1.nrows = qf.1.nrows) (l : List α) :
    ∀ qf, (l.foldl f qf).1.nrows = qf.1.nrows := by
  induction l with
  | nil => intro qf; rfl
  | cons x xs ih => intro qf; rw [List.foldl_cons, ih, hf]

/-- One iteration of the main loop of `gauss` lowers `q.nrows() - i` by one. -/
theorem gaussStep_measure {t : Utils.Coeff} (maxBas : Nat) (intarith : Bool) (eps : Int) (s : GaussState)
    (h : s.i < s.q.nrows) :
    (gaussStep t maxBas intarith eps s).q.nrows - (gaussStep t maxBas intarith eps s).i + 1
      = s.q.nrows - s.i := by
  unfold gaussStep
  simp only
  split_ifs
  · simp only [Matrix.nrows_erase_row _ _ h]
    omega
  all_goals
    simp only [nrows_foldl _ (nrows_elimRowInt _ _), nrows_foldl _ (nrows_elimRowFrac _),
      Matrix.nrows_div_row, Matrix.nrows_mult_row, Matrix.nrows_swap_cols]
    omega

/-- The fuel passed by `gauss` suffices: when the fuel is at least
`q.nrows() - i`, the state returned by `gaussLoop` fails the loop condition. -/
theorem gaussLoop_exit {t : Utils.Coeff} (maxBas : Nat) (intarith : Bool) (eps : Int) :
    ∀ (fuel : Nat) (s : GaussState), s.q.nrows - s.i ≤ fuel →
      ¬ ((gaussLoop t maxBas intarith eps fuel s).i
          < min (gaussLoop t maxBas intarith eps fuel s).q.ncols
              (gaussLoop t maxBas intarith eps fuel s).q.nrows) := by
  intro fuel
  induction fuel with
  | zero =>
    intro s h
    simp only [gaussLoop]
    omega
  | succ k ih =>
    intro s h
    simp only [gaussLoop]
    split_ifs with hc
    · apply ih
      have := gaussStep_measure (t := t) maxBas intarith eps s (by omega)
      omega
    · exact hc

theorem Matrix.nrows_transpose (a : Matrix) : a.transpose.nrows = a.ncols := by
  simp [Matrix.transpose, Matrix.nrows, Matrix.ncols]

/-- The main loop inside `gauss` runs to completion: the state it returns
fails the loop condition `i < min(q.ncols(), q.nrows())`. -/
theorem gauss_loop_complete {t : Utils.Coeff} (a : Matrix) (maxBas : Nat) (intarith : Bool) (eps : Int) :
    ¬ ((gaussLoop t maxBas intarith eps a.ncols
          ⟨a.transpose, Matrix.assign_eye a.ncols, Matrix.resize 0 a.ncols,
            List.range a.nrows, 0⟩).i
        < min (gaussLoop t maxBas intarith eps a.ncols
              ⟨a.transpose, Matrix.assign_eye a.ncols, Matrix.resize 0 a.ncols,
                List.range a.nrows, 0⟩).q.ncols
            (gaussLoop t maxBas intarith eps a.ncols
              ⟨a.transpose, Matrix.assign_eye a.ncols, Matrix.resize 0 a.ncols,
                List.range a.nrows, 0⟩).q.nrows) := by
  apply gaussLoop_exit
  simp [Matrix.nrows_transpose]

end Utils

/-! ## The greatest common divisor and integer normalization -/

namespace Utils

theorem gcdLoop_nat : ∀ (fuel m n : Nat), n < fuel →
    gcdLoop Utils.Coeff.exact fuel (m : Int) (n : Int) = (Nat.gcd m n : Int) := by
  intro fuel
  induction fuel with
  | zero => intro m n h; omega
  | succ k ih =>
    intro m n h
    simp only [gcdLoop, Coeff.sub_exact, Coeff.mul_exact, Coeff.div_exact]
    by_cases hn : n = 0
    · subst hn
      simp
    · have hn' : (n : Int) ≠ 0 := by exact_mod_cast hn
      rw [if_pos hn']
      have hmod : (m : Int) - Int.tdiv (m : Int) (n : Int) * (n : Int) = ((m % n : Nat) : Int) := by
        have h1 : Int.tdiv (m : Int) (n : Int) = (m : Int) / (n : Int) :=
          Int.tdiv_eq_ediv (Int.ofNat_nonneg m) (Int.ofNat_nonneg n)
        rw [h1, Int.natCast_mod]
        have := Int.emod_add_ediv (m : Int) (n : Int)
        linarith [mul_comm ((m : Int) / (n : Int)) (n : Int)]
      rw [hmod, ih n (m % n) (by have := Nat.mod_lt m (Nat.pos_of_ne_zero hn); omega)]
      rw [Nat.gcd_comm n (m % n), ← Nat.gcd_rec, Nat.gcd_comm]

/-- The Euclid loop with the fuel `b + 1` or more computes the gcd: further
fuel does not change the result. -/
theorem gcd_eq (a b : Int) :
    gcd Utils.Coeff.exact a b = if a = 0 ∧ b = 0 then 1 else (Int.gcd a b : Int) := by
  unfold gcd
  simp only [Coeff.sub_exact, Coeff.mul_exact, Coeff.div_exact, Coeff.neg_exact]
  have ha : (if a < 0 then -a else a) = (a.natAbs : Int) := by
    split_ifs with h <;> omega
  have hb : (if b < 0 then -b else b) = (b.natAbs : Int) := by
    split_ifs with h <;> omega
  simp only [ha, hb]
  by_cases ha0 : a = 0
  · by_cases hb0 : b = 0
    · simp [ha0, hb0]
    · have : ¬ ((b.natAbs : Int) = 0) := by omega
      simp [ha0, hb0]
  · have hna : ¬ ((a.natAbs : Int) = 0) := by omega
    by_cases hb0 : b = 0
    · simp [ha0, hb0]
    · have hnb : ¬ ((b.natAbs : Int) = 0) := by omega
      simp only [hna, hnb, ha0, hb0, false_and, and_false, if_false]
      have hmod : (a.natAbs : Int) - Int.tdiv (a.natAbs : Int) (b.natAbs : Int) * (b.natAbs : Int)
          = ((a.natAbs % b.natAbs : Nat) : Int) := by
        have h1 : Int.tdiv (a.natAbs : Int) (b.natAbs : Int) = (a.natAbs : Int) / (b.natAbs : Int) :=
          Int.tdiv_eq_ediv (Int.ofNat_nonneg _) (Int.ofNat_nonneg _)
        rw [h1, Int.natCast_mod]
        have := Int.emod_add_ediv (a.natAbs : Int) (b.natAbs : Int)
        linarith [mul_comm ((a.natAbs : Int) / (b.natAbs : Int)) (b.natAbs : Int)]
      rw [hmod, gcdLoop_nat _ _ _ (by
        have : a.natAbs % b.natAbs < b.natAbs := Nat.mod_lt _ (by omega)
        simp only [Int.natAbs_ofNat]
        omega)]
      rw [Nat.gcd_comm b.natAbs, ← Nat.gcd_rec, Nat.gcd_comm]
      rfl

end Utils

namespace Utils

theorem gcd_pos (a b : Int) : 0 < gcd Utils.Coeff.exact a b := by
  rw [gcd_eq]
  split_ifs with h
  · exact Int.one_pos
  · have : Int.gcd a b ≠ 0 := by
      intro h0
      rw [Int.gcd_eq_zero_iff] at h0
      exact h h0
    exact_mod_cast Nat.pos_of_ne_zero this

theorem listGcd_cons (x : Int) (xs : List Int) :
    listGcd (x :: xs) = Int.gcd x (listGcd xs) := rfl

theorem listGcd_eq_zero_iff (v : List Int) : listGcd v = 0 ↔ ∀ x ∈ v, x = 0 := by
  induction v with
  | nil => simp [listGcd]
  | cons x xs ih =>
    rw [listGcd_cons, Int.gcd_eq_zero_iff]
    simp only [List.mem_cons, forall_eq_or_imp]
    constructor
    · rintro ⟨h1, h2⟩
      exact ⟨h1, ih.mp (by exact_mod_cast h2)⟩
    · rintro ⟨h1, h2⟩
      exact ⟨h1, by exact_mod_cast ih.mpr h2⟩

theorem listGcd_dvd (v : List Int) : ∀ x ∈ v, (listGcd v : Int) ∣ x := by
  induction v with
  | nil => intro x hx; cases hx
  | cons y ys ih =>
    intro x hx
    rw [listGcd_cons]
    rcases List.mem_cons.mp hx with h | h
    · subst h
      exact Int.gcd_dvd_left
    · exact dvd_trans Int.gcd_dvd_right (ih x h)

theorem gcdVecTail_eq (xs : List Int) : ∀ (d : Nat), 0 < d →
    gcdVecTail Utils.Coeff.exact (d : Int) xs = (Nat.gcd d (listGcd xs) : Int) := by
  induction xs with
  | nil => intro d _; simp [gcdVecTail, listGcd]
  | cons x xs ih =>
    intro d hd
    simp only [gcdVecTail, listGcd_cons]
    by_cases hx : x = 0
    · subst hx
      simp only [ne_eq, not_true_eq_false, if_false]
      rw [ih d hd]
      simp
    · rw [if_pos hx]
      have hg : gcd Utils.Coeff.exact (d : Int) x = (Nat.gcd d x.natAbs : Int) := by
        rw [gcd_eq]
        rw [if_neg (by intro h; exact hx h.2)]
        simp [Int.gcd]
      have hassoc : Nat.gcd d (Int.gcd x (listGcd xs))
          = Nat.gcd (Nat.gcd d x.natAbs) (listGcd xs) := by
        simp [Int.gcd, Nat.gcd_assoc]
      rw [hg, hassoc]
      split_ifs with h1
      · have h1' : Nat.gcd d x.natAbs = 1 := by exact_mod_cast h1
        rw [h1']
        simp
      · exact ih _ (Nat.gcd_pos_of_pos_left _ hd)

/-- The vector form returns the gcd of all entries, and 1 when there is no
non-zero entry. -/
theorem gcdVec_eq (v : List Int) :
    gcdVec Utils.Coeff.exact v = if ∀ x ∈ v, x = 0 then 1 else (listGcd v : Int) := by
  induction v with
  | nil => simp [gcdVec]
  | cons x xs ih =>
    simp only [gcdVec, listGcd_cons, Coeff.neg_exact]
    by_cases hx : x = 0
    · subst hx
      simp only [ne_eq, not_true_eq_false, if_false, ih, List.mem_cons, forall_eq_or_imp,
        true_and]
      simp
    · rw [if_pos hx]
      have habs : (if x < 0 then -x else x) = (x.natAbs : Int) := by
        split_ifs <;> omega
      rw [habs, gcdVecTail_eq xs _ (by omega)]
      rw [if_neg (by intro h; exact hx (h x (List.mem_cons_self _ _)))]
      simp [Int.gcd]

end Utils

/-- The function `gcd` for a coefficient type without overflow: `gcd(a, b)`
is 1 for `a = b = 0` and otherwise the positive greatest
common divisor of `|a|` and `|b|` (so `gcd(x, 0) = gcd(0, x) = |x|` for
`x ≠ 0`); it does not depend on the signs of its arguments; the Euclid loop
returns that value for every fuel above its second argument, that is, it
terminates; and `gcd(v, size)` is the gcd of all entries, or 1 when no entry is
non-zero (in particular for the empty vector). -/
theorem gcd_correct :
    (∀ a b : Int,
        Utils.gcd Utils.Coeff.exact a b = if a = 0 ∧ b = 0 then 1 else (Int.gcd a b : Int))
    ∧ Utils.gcd Utils.Coeff.exact 0 0 = 1
    ∧ (∀ x : Int, Utils.gcd Utils.Coeff.exact x 0 = if x = 0 then 1 else |x|)
    ∧ (∀ x : Int, Utils.gcd Utils.Coeff.exact 0 x = if x = 0 then 1 else |x|)
    ∧ (∀ a b : Int, 0 < Utils.gcd Utils.Coeff.exact a b)
    ∧ (∀ a b : Int, Utils.gcd Utils.Coeff.exact a b = Utils.gcd Utils.Coeff.exact |a| |b|
        ∧ Utils.gcd Utils.Coeff.exact a b = Utils.gcd Utils.Coeff.exact (-a) b
        ∧ Utils.gcd Utils.Coeff.exact a b = Utils.gcd Utils.Coeff.exact a (-b))
    ∧ (∀ m n k : Nat,
        Utils.gcdLoop Utils.Coeff.exact (n + 1 + k) (m : Int) (n : Int) = (Nat.gcd m n : Int))
    ∧ (∀ v : List Int,
        Utils.gcdVec Utils.Coeff.exact v = if ∀ x ∈ v, x = 0 then 1 else (Utils.listGcd v : Int))
    ∧ Utils.gcdVec Utils.Coeff.exact [] = 1 := by
  refine ⟨Utils.gcd_eq, by decide, ?_, ?_, Utils.gcd_pos, ?_, ?_, Utils.gcdVec_eq, rfl⟩
  · intro x
    rw [Utils.gcd_eq]
    by_cases hx : x = 0
    · simp [hx]
    · rw [if_neg (fun h => hx h.1), if_neg hx, Int.gcd_zero_right, Int.natCast_natAbs]
  · intro x
    rw [Utils.gcd_eq]
    by_cases hx : x = 0
    · simp [hx]
    · rw [if_neg (fun h => hx h.2), if_neg hx, Int.gcd_zero_left, Int.natCast_natAbs]
  · intro a b
    simp only [Utils.gcd_eq, abs_eq_zero, neg_eq_zero, Int.gcd_neg, Int.neg_gcd]
    refine ⟨?_, trivial, trivial⟩
    simp [Int.gcd, Int.natAbs_abs]
  · intro m n k
    exact Utils.gcdLoop_nat _ m n (by omega)

namespace Utils

theorem gcdVec_pos (v : List Int) : 0 < gcdVec Utils.Coeff.exact v := by
  rw [gcdVec_eq]
  split_ifs with h
  · exact Int.one_pos
  · have : listGcd v ≠ 0 := fun h0 => h ((listGcd_eq_zero_iff v).mp h0)
    exact_mod_cast Nat.pos_of_ne_zero this

theorem gcdVec_dvd (v : List Int) : ∀ x ∈ v, gcdVec Utils.Coeff.exact v ∣ x := by
  intro x hx
  rw [gcdVec_eq]
  split_ifs with h
  · exact one_dvd x
  · exact listGcd_dvd v x hx

theorem tdiv_mul_cancel_of_dvd (x g : Int) (h : g ∣ x) : Int.tdiv x g * g = x := by
  obtain ⟨k, rfl⟩ := h
  by_cases hg : g = 0
  · subst hg
    simp
  · rw [Int.mul_tdiv_cancel_left _ hg, mul_comm]

theorem normalizeIntVector_mul (v : List Int) :
    (normalizeIntVector Utils.Coeff.exact v).map (fun y => y * gcdVec Utils.Coeff.exact v) = v := by
  unfold normalizeIntVector
  rw [List.map_map]
  conv_rhs => rw [← List.map_id v]
  apply List.map_congr_left
  intro x hx
  exact tdiv_mul_cancel_of_dvd x _ (gcdVec_dvd v x hx)

theorem listGcd_map_mul (w : List Int) (g : Int) :
    listGcd (w.map (fun y => y * g)) = listGcd w * g.natAbs := by
  induction w with
  | nil => simp [listGcd]
  | cons y ys ih =>
    simp only [List.map_cons, listGcd_cons, ih]
    simp only [Int.gcd, Int.natAbs_mul, Nat.cast_mul, Int.natAbs_ofNat, Int.natCast_natAbs,
      Int.natAbs_abs]
    rw [Nat.gcd_mul_right]

theorem listGcd_normalizeIntVector (v : List Int) :
    listGcd (normalizeIntVector Utils.Coeff.exact v) = if ∀ x ∈ v, x = 0 then 0 else 1 := by
  have h1 := listGcd_map_mul (normalizeIntVector Utils.Coeff.exact v) (gcdVec Utils.Coeff.exact v)
  rw [normalizeIntVector_mul] at h1
  split_ifs with h
  · rw [listGcd_eq_zero_iff]
    intro y hy
    unfold normalizeIntVector at hy
    simp only [List.mem_map] at hy
    obtain ⟨x, hx, rfl⟩ := hy
    rw [h x hx]
    exact Int.zero_tdiv _
  · have hg : gcdVec Utils.Coeff.exact v = (listGcd v : Int) := by rw [gcdVec_eq, if_neg h]
    rw [hg, Int.natAbs_ofNat] at h1
    have hpos : 0 < listGcd v :=
      Nat.pos_of_ne_zero (fun h0 => h ((listGcd_eq_zero_iff v).mp h0))
    have h2 : 1 * listGcd v = listGcd (normalizeIntVector Utils.Coeff.exact v) * listGcd v := by
      rw [one_mul]
      exact h1
    exact (Nat.eq_of_mul_eq_mul_right hpos h2).symm

theorem normalizeIntVector_of_gcdVec_one (w : List Int)
    (h : gcdVec Utils.Coeff.exact w = 1) : normalizeIntVector Utils.Coeff.exact w = w := by
  unfold normalizeIntVector
  rw [h]
  simp [Coeff.div_exact, Int.tdiv_one]

theorem normalizeIntVector_idem (v : List Int) :
    normalizeIntVector Utils.Coeff.exact (normalizeIntVector Utils.Coeff.exact v)
      = normalizeIntVector Utils.Coeff.exact v := by
  apply normalizeIntVector_of_gcdVec_one
  rw [gcdVec_eq]
  split_ifs with h
  · rfl
  · have := listGcd_normalizeIntVector v
    split_ifs at this with h2
    · exact absurd ((listGcd_eq_zero_iff _).mp this) h
    · exact_mod_cast this

theorem sign_normalizeIntVector (v : List Int) :
    (normalizeIntVector Utils.Coeff.exact v).map Int.sign = v.map Int.sign := by
  conv_rhs => rw [← normalizeIntVector_mul v]
  rw [List.map_map]
  apply List.map_congr_left
  intro y _
  have hg := gcdVec_pos v
  simp only [Function.comp, Int.sign_mul, Int.sign_eq_one_of_pos hg, mul_one]

end Utils

/-- Normalization for a coefficient type without overflow:
`normalizeIntVector` divides exactly by `g`, the gcd of the entries,
which is positive: every entry of `v` is the corresponding entry of the result
times `g`, so the signs are kept; the entries of the result have gcd 1 unless
`v` is all zero; a zero vector is unchanged; and normalizing twice is the same
as normalizing once. -/
theorem normalizeIntVector_canonical (v : List Int) (n : Nat) :
    Utils.normalizeIntVector Utils.Coeff.exact v
      = v.map (fun x => Int.tdiv x (Utils.gcdVec Utils.Coeff.exact v))
    ∧ 0 < Utils.gcdVec Utils.Coeff.exact v
    ∧ Utils.gcdVec Utils.Coeff.exact v
      = (if ∀ x ∈ v, x = 0 then 1 else (Utils.listGcd v : Int))
    ∧ (Utils.normalizeIntVector Utils.Coeff.exact v).map
        (fun y => y * Utils.gcdVec Utils.Coeff.exact v) = v
    ∧ (Utils.normalizeIntVector Utils.Coeff.exact v).map Int.sign = v.map Int.sign
    ∧ Utils.listGcd (Utils.normalizeIntVector Utils.Coeff.exact v)
      = (if ∀ x ∈ v, x = 0 then 0 else 1)
    ∧ Utils.normalizeIntVector Utils.Coeff.exact (List.replicate n 0) = List.replicate n 0
    ∧ Utils.normalizeIntVector Utils.Coeff.exact (Utils.normalizeIntVector Utils.Coeff.exact v)
      = Utils.normalizeIntVector Utils.Coeff.exact v := by
  refine ⟨rfl, Utils.gcdVec_pos v, Utils.gcdVec_eq v, Utils.normalizeIntVector_mul v,
    Utils.sign_normalizeIntVector v, Utils.listGcd_normalizeIntVector v, ?_,
    Utils.normalizeIntVector_idem v⟩
  apply Utils.normalizeIntVector_of_gcdVec_one
  rw [Utils.gcdVec_eq, if_pos]
  intro x hx
  exact List.eq_of_mem_replicate hx

/-! ## Evaluations at failing inputs (C11, C15, C19) -/

/-- C11, evaluated at a failing input: the matrix `unimodular3` has determinant
1, so its null space is trivial and a basis of it has no rows; `gauss` in
integer mode with tolerance 0 and `maxBas = 3` returns rank 2 and a `Bas` of
one row, the zero row, which is not linearly independent: every multiple of it
is zero. -/
theorem gauss_bas_unimodular3 :
    Utils.gauss Utils.Coeff.int unimodular3 3 true 0
      = ⟨⟨3, [[0, 0, 0], [1, -2, 0]]⟩, ⟨3, [[0, 0, 0]]⟩, 2, [2, 1, 0]⟩
    ∧ (Utils.gauss Utils.Coeff.int unimodular3 3 true 0).bas.nrows = 1
    ∧ (Utils.gauss Utils.Coeff.int unimodular3 3 true 0).bas.row 0 = [0, 0, 0]
    ∧ (∀ c : Int, ((Utils.gauss Utils.Coeff.int unimodular3 3 true 0).bas.row 0).map (fun x => c * x)
        = [0, 0, 0]) := by
  refine ⟨by decide, by decide, by decide, ?_⟩
  intro c
  have h : (Utils.gauss Utils.Coeff.int unimodular3 3 true 0).bas.row 0 = [0, 0, 0] := by decide
  rw [h]
  simp

/-- C15, evaluated at a failing input: the `BitFieldSet<64>` built from the
empty set by `add(32)` contains the element 32 (`toVector()` is `[32]`), but
`size()` is 0, and `intersectionSize` of the set with itself is 0; the same
holds for the set built by `add(5)`, `add(40)`, whose `size()` is 1. -/
theorem bitfield_size_misses_high_bits :
    Utils.BitFieldSet.toVector 64 (Utils.BitFieldSet.add (Utils.BitFieldSet.mk 64) 32) = [32]
    ∧ Utils.BitFieldSet.size (Utils.BitFieldSet.add (Utils.BitFieldSet.mk 64) 32) = 0
    ∧ Utils.BitFieldSet.intersectionSize
        (Utils.BitFieldSet.add (Utils.BitFieldSet.mk 64) 32)
        (Utils.BitFieldSet.add (Utils.BitFieldSet.mk 64) 32) = 0
    ∧ Utils.BitFieldSet.toVector 64
        (Utils.BitFieldSet.add (Utils.BitFieldSet.add (Utils.BitFieldSet.mk 64) 5) 40) = [5, 40]
    ∧ Utils.BitFieldSet.size
        (Utils.BitFieldSet.add (Utils.BitFieldSet.add (Utils.BitFieldSet.mk 64) 5) 40) = 1 := by
  decide

/-- C19, evaluated at a failing input: 2 divides every entry of row 0 of the
matrix with rows `(2, 4), (1, 1)`, and `div_row(0, 2)` turns that row into
`(0, 0)` instead of `(1, 2)`, because it multiplies the row by the integer
quotient `1 / 2 = 0`. -/
theorem div_row_zeroes_row :
    Utils.Matrix.div_row Utils.Coeff.int ⟨2, [[2, 4], [1, 1]]⟩ 0 2 = ⟨2, [[0, 0], [1, 1]]⟩
    ∧ Int.tdiv 1 2 = 0
    ∧ [(2 : Int), 4].map (fun x => Int.tdiv x 2) = [1, 2] := by
  decide

/-! ## Normalization of new rays -/

namespace DDM

open Utils

theorem newRay_coordinates {S : Type} (c : Context S) (coords disc : List Int)
    (numInc : Nat) :
    (newRay c coords disc numInc).coordinates = normalizeRay c (newRayBlock c coords disc) :=
  rfl

theorem edgeRay_coordinates {S : Type} (c : Context S) (heap : List (Ray S))
    (plus minus pivotIneIdx : Nat) :
    (edgeRay c heap plus minus pivotIneIdx).coordinates
      = normalizeRay c (newRayFromEdgeBlock c heap plus minus) := by
  simp only [edgeRay, newRayFromEdge, getRay, newRayFromEdgeBlock]
  rw [List.getD_eq_getElem?_getD, List.getElem?_append_right (by simp)]
  simp

theorem normalizeRay_int {S : Type} (c : Context S) (h : c.intArith = true) (v : List Int) :
    normalizeRay c v = normalizeIntVector c.arith v := by
  simp [normalizeRay, h]

end DDM

/-! ## Sorted-vector sets: intersection (C16) -/

namespace Utils

theorem VectorSet.interLoop_spec : ∀ (fuel : Nat) (a b : List Nat),
    a.length + b.length ≤ fuel → a.Sorted (fun x y => x < y) → b.Sorted (fun x y => x < y) →
    (VectorSet.interLoop fuel a b).Sorted (fun x y => x < y)
    ∧ (∀ x, x ∈ VectorSet.interLoop fuel a b ↔ x ∈ a ∧ x ∈ b)
    ∧ VectorSet.sizeLoop fuel a b = (VectorSet.interLoop fuel a b).length := by
  intro fuel
  induction fuel with
  | zero =>
    intro a b hlen _ _
    have ha : a = [] := List.length_eq_zero.mp (by omega)
    subst ha
    simp [VectorSet.interLoop, VectorSet.sizeLoop]
  | succ fuel ih =>
    intro a b hlen ha hb
    cases a with
    | nil => simp [VectorSet.interLoop, VectorSet.sizeLoop]
    | cons a0 as =>
      cases b with
      | nil => simp [VectorSet.interLoop, VectorSet.sizeLoop]
      | cons b0 bs =>
        have ha2 := List.sorted_cons.mp ha
        have hb2 := List.sorted_cons.mp hb
        simp only [List.length_cons] at hlen
        simp only [VectorSet.interLoop, VectorSet.sizeLoop]
        by_cases h1 : a0 < b0
        · simp only [h1, if_true]
          obtain ⟨i1, i2, i3⟩ := ih as (b0 :: bs) (by simp only [List.length_cons]; omega)
            ha2.2 hb
          refine ⟨i1, ?_, i3⟩
          intro x
          rw [i2 x]
          constructor
          · rintro ⟨hx1, hx2⟩
            exact ⟨List.mem_cons_of_mem _ hx1, hx2⟩
          · rintro ⟨hx1, hx2⟩
            refine ⟨?_, hx2⟩
            rcases List.mem_cons.mp hx1 with h | h
            · subst h
              rcases List.mem_cons.mp hx2 with h | h
              · omega
              · have := hb2.1 _ h
                omega
            · exact h
        · by_cases h2 : a0 > b0
          · simp only [h1, h2, if_true, if_false]
            obtain ⟨i1, i2, i3⟩ := ih (a0 :: as) bs (by simp only [List.length_cons]; omega)
              ha hb2.2
            refine ⟨i1, ?_, i3⟩
            intro x
            rw [i2 x]
            constructor
            · rintro ⟨hx1, hx2⟩
              exact ⟨hx1, List.mem_cons_of_mem _ hx2⟩
            · rintro ⟨hx1, hx2⟩
              refine ⟨hx1, ?_⟩
              rcases List.mem_cons.mp hx2 with h | h
              · subst h
                rcases List.mem_cons.mp hx1 with h | h
                · omega
                · have := ha2.1 _ h
                  omega
              · exact h
          · simp only [h1, h2, if_false]
            have e : a0 = b0 := by omega
            subst e
            obtain ⟨i1, i2, i3⟩ := ih as bs (by omega) ha2.2 hb2.2
            refine ⟨?_, ?_, ?_⟩
            · refine List.sorted_cons.mpr ⟨?_, i1⟩
              intro y hy
              exact ha2.1 y ((i2 y).mp hy).1
            · intro x
              rw [List.mem_cons, i2 x, List.mem_cons, List.mem_cons]
              constructor
              · rintro (h | ⟨hx1, hx2⟩)
                · exact ⟨Or.inl h, Or.inl h⟩
                · exact ⟨Or.inr hx1, Or.inr hx2⟩
              · rintro ⟨h | h, h3 | h3⟩
                · exact Or.inl h
                · exact Or.inl h
                · exact Or.inl h3
                · exact Or.inr ⟨h, h3⟩
            · rw [i3, List.length_cons]

theorem VectorSet.loops_fuel_add : ∀ (fuel k : Nat) (a b : List Nat),
    a.length + b.length ≤ fuel →
    VectorSet.interLoop (fuel + k) a b = VectorSet.interLoop fuel a b
    ∧ VectorSet.sizeLoop (fuel + k) a b = VectorSet.sizeLoop fuel a b := by
  intro fuel
  induction fuel with
  | zero =>
    intro k a b hlen
    have ha : a = [] := List.length_eq_zero.mp (by omega)
    subst ha
    cases k <;> simp [VectorSet.interLoop, VectorSet.sizeLoop]
  | succ fuel ih =>
    intro k a b hlen
    rw [Nat.add_right_comm]
    cases a with
    | nil => simp [VectorSet.interLoop, VectorSet.sizeLoop]
    | cons a0 as =>
      cases b with
      | nil => simp [VectorSet.interLoop, VectorSet.sizeLoop]
      | cons b0 bs =>
        simp only [List.length_cons] at hlen
        simp only [VectorSet.interLoop, VectorSet.sizeLoop]
        rw [(ih k as (b0 :: bs) (by simp only [List.length_cons]; omega)).1,
          (ih k as (b0 :: bs) (by simp only [List.length_cons]; omega)).2,
          (ih k (a0 :: as) bs (by simp only [List.length_cons]; omega)).1,
          (ih k (a0 :: as) bs (by simp only [List.length_cons]; omega)).2,
          (ih k as bs (by omega)).1, (ih k as bs (by omega)).2]
        exact ⟨rfl, rfl⟩

end Utils

/-- C16: for strictly increasing arrays `a` and `b` the loop of the
intersection constructor runs to completion within its fuel and
`VectorSet(a, b)` is strictly increasing and contains exactly the elements
that are in both `a` and `b`; `intersectionSize(a, b)` is its length, the
number of common elements. -/
theorem vectorSet_inter_correct (a b : List Nat) (ha : a.Sorted (fun x y => x < y))
    (hb : b.Sorted (fun x y => x < y)) :
    (Utils.VectorSet.inter a b).Sorted (fun x y => x < y)
    ∧ (∀ x, x ∈ Utils.VectorSet.inter a b ↔ x ∈ a ∧ x ∈ b)
    ∧ Utils.VectorSet.intersectionSize a b = (Utils.VectorSet.inter a b).length
    ∧ Utils.VectorSet.intersectionSize a b = (a.toFinset ∩ b.toFinset).card
    ∧ (∀ k : Nat, Utils.VectorSet.interLoop (a.length + b.length + k) a b
        = Utils.VectorSet.inter a b
      ∧ Utils.VectorSet.sizeLoop (a.length + b.length + k) a b
        = Utils.VectorSet.intersectionSize a b) := by
  obtain ⟨h1, h2, h3⟩ := Utils.VectorSet.interLoop_spec (a.length + b.length) a b
    (Nat.le_refl _) ha hb
  have hcard : (Utils.VectorSet.inter a b).length = (a.toFinset ∩ b.toFinset).card := by
    have hn : (Utils.VectorSet.inter a b).Nodup := h1.nodup
    rw [← List.toFinset_card_of_nodup hn]
    congr 1
    ext x
    simp only [List.mem_toFinset, Finset.mem_inter]
    exact h2 x
  refine ⟨h1, h2, h3, ?_, ?_⟩
  · unfold Utils.VectorSet.intersectionSize
    rw [h3]
    exact hcard
  · intro k
    exact Utils.VectorSet.loops_fuel_add _ k a b (Nat.le_refl _)

theorem vectorSet_inter_correct_witness :
    [1, 3, 5, 7].Sorted (fun x y => x < y) ∧ [2, 3, 4, 7, 9].Sorted (fun x y => x < y)
    ∧ Utils.VectorSet.inter [1, 3, 5, 7] [2, 3, 4, 7, 9] = [3, 7]
    ∧ Utils.VectorSet.intersectionSize [1, 3, 5, 7] [2, 3, 4, 7, 9]
        = (Utils.VectorSet.inter [1, 3, 5, 7] [2, 3, 4, 7, 9]).length :=
  ⟨by decide, by decide, by decide,
    (vectorSet_inter_correct [1, 3, 5, 7] [2, 3, 4, 7, 9] (by decide) (by decide)).2.2.1⟩

/-! ## Sorted-vector sets: insertion (C18) -/

namespace Utils

theorem VectorSet.add_parts (s : List Nat) (x : Nat) (hs : s.Sorted (fun a b => a < b))
    (hx : x ∉ s) :
    (s.reverse.dropWhile (fun y => decide (y > x))).reverse
        ++ (s.reverse.takeWhile (fun y => decide (y > x))).reverse = s
    ∧ (∀ y ∈ (s.reverse.dropWhile (fun y => decide (y > x))).reverse, y < x)
    ∧ (∀ y ∈ (s.reverse.takeWhile (fun y => decide (y > x))).reverse, x < y) := by
  have hsplit : (s.reverse.dropWhile (fun y => decide (y > x))).reverse
      ++ (s.reverse.takeWhile (fun y => decide (y > x))).reverse = s := by
    rw [← List.reverse_append, List.takeWhile_append_dropWhile, List.reverse_reverse]
  refine ⟨hsplit, ?_, ?_⟩
  · intro y hy
    rw [List.mem_reverse] at hy
    cases hd : s.reverse.dropWhile (fun y => decide (y > x)) with
    | nil => rw [hd] at hy; cases hy
    | cons h t =>
      have hnot : ¬ (h > x) := by
        have := List.head_dropWhile_not (fun y => decide (y > x)) s.reverse
          (by rw [hd]; simp)
        simpa [hd] using this
      have hmem : h ∈ s := by
        have : h ∈ s.reverse.dropWhile (fun y => decide (y > x)) := by rw [hd]; simp
        exact List.mem_reverse.mp ((List.dropWhile_sublist _).subset this)
      have hlt : h < x := by
        rcases Nat.lt_or_ge h x with h1 | h1
        · exact h1
        · exfalso
          have : h = x := by omega
          exact hx (this ▸ hmem)
      rw [hd] at hy
      rcases List.mem_cons.mp hy with h1 | h1
      · rw [h1]; exact hlt
      · have hsorted : ((h :: t).reverse ++
            (s.reverse.takeWhile (fun y => decide (y > x))).reverse).Sorted
            (fun a b => a < b) := by
          rw [← hd, hsplit]; exact hs
        have h2 := (List.pairwise_append.mp hsorted).1
        rw [List.reverse_cons] at h2
        have h3 := (List.pairwise_append.mp h2).2.2 y (List.mem_reverse.mpr h1) h (by simp)
        omega
  · intro y hy
    rw [List.mem_reverse] at hy
    simpa using List.mem_takeWhile_imp hy

theorem VectorSet.add_spec (w : Nat) (s : List Nat) (x : Nat) (hx : x < 2 ^ w)
    (hs : s.Sorted (fun a b => a < b)) (hmem : x ∉ s) :
    (VectorSet.add w s x).Sorted (fun a b => a < b)
    ∧ (VectorSet.add w s x).length = s.length + 1
    ∧ (∀ y, y ∈ VectorSet.add w s x ↔ y ∈ s ∨ y = x) := by
  obtain ⟨h1, h2, h3⟩ := VectorSet.add_parts s x hs hmem
  have hsorted : ((s.reverse.dropWhile (fun y => decide (y > x))).reverse
      ++ (s.reverse.takeWhile (fun y => decide (y > x))).reverse).Sorted
      (fun a b => a < b) := by rw [h1]; exact hs
  obtain ⟨p1, p2, p3⟩ := List.pairwise_append.mp hsorted
  unfold VectorSet.add
  rw [Nat.mod_eq_of_lt hx]
  refine ⟨?_, ?_, ?_⟩
  · rw [List.append_assoc]
    refine List.pairwise_append.mpr ⟨p1, ?_, ?_⟩
    · exact List.pairwise_cons.mpr ⟨h3, p2⟩
    · intro a ha b hb
      rcases List.mem_cons.mp hb with h | h
      · rw [h]; exact h2 a ha
      · exact p3 a ha b h
  · have := congrArg List.length h1
    simp only [List.length_append, List.length_cons, List.length_nil] at this ⊢
    omega
  · intro y
    conv_rhs => rw [← h1]
    simp only [List.mem_append, List.mem_cons, List.mem_singleton, List.not_mem_nil, or_false]
    tauto

end Utils

/-- C18: for a strictly increasing array `s`, an element `x` of the element
type (`x < 2 ^ w`) that is not in `s`: after `add(x)` the array is strictly
increasing, its length is one more, its elements are those of `s` together
with `x`, and `toVector()` is that strictly increasing array. -/
theorem vectorSet_add_sorted (w : Nat) (s : List Nat) (x : Nat) (hx : x < 2 ^ w)
    (hs : s.Sorted (fun a b => a < b)) (hmem : x ∉ s) :
    (Utils.VectorSet.add w s x).Sorted (fun a b => a < b)
    ∧ (Utils.VectorSet.add w s x).length = s.length + 1
    ∧ (∀ y, y ∈ Utils.VectorSet.add w s x ↔ y ∈ s ∨ y = x)
    ∧ (Utils.VectorSet.ops w).toVector ((Utils.VectorSet.ops w).add s x)
        = Utils.VectorSet.add w s x
    ∧ ((Utils.VectorSet.ops w).toVector ((Utils.VectorSet.ops w).add s x)).Sorted
        (fun a b => a < b) := by
  obtain ⟨h1, h2, h3⟩ := Utils.VectorSet.add_spec w s x hx hs hmem
  exact ⟨h1, h2, h3, rfl, h1⟩

theorem vectorSet_add_sorted_witness :
    (4 : Nat) < 2 ^ 8 ∧ [1, 3, 5, 7].Sorted (fun a b => a < b) ∧ 4 ∉ [1, 3, 5, 7]
    ∧ Utils.VectorSet.add 8 [1, 3, 5, 7] 4 = [1, 3, 4, 5, 7]
    ∧ (Utils.VectorSet.add 8 [1, 3, 5, 7] 4).Sorted (fun a b => a < b) :=
  ⟨by decide, by decide, by decide, by decide,
    (vectorSet_add_sorted 8 [1, 3, 5, 7] 4 (by decide) (by decide) (by decide)).1⟩

/-! ## Dynamic elimination orderings (C20) -/

namespace Utils

theorem Matrix.getD_swapList_left (l : List Nat) (i j : Nat) (hi : i < l.length)
    (hj : j < l.length) : (Matrix.swapList l i j).getD i 0 = l.getD j 0 := by
  unfold Matrix.swapList
  rw [List.get?_eq_getElem?, List.get?_eq_getElem?, List.getElem?_eq_getElem hi,
    List.getElem?_eq_getElem hj]
  show ((l.set i l[j]).set j l[i]).getD i 0 = l.getD j 0
  rw [List.getD_eq_getElem?_getD, List.getD_eq_getElem?_getD, List.getElem?_eq_getElem hj]
  by_cases h : j = i
  · subst h
    rw [List.getElem?_set_self (by simpa using hj)]
  · rw [List.getElem?_set_ne h, List.getElem?_set_self hi]

end Utils

namespace Elimination

open Utils

theorem maxElementIdx_fold (comp : Nat → Nat → Bool) (hrefl : ∀ a, comp a a = false)
    (htrans : ∀ a b c, comp a b = true → comp a c = false → comp b c = false) :
    ∀ (ys pre : List Nat) (bi bv : Nat),
      pre[bi]? = some bv → (∀ z ∈ pre, comp bv z = false) →
      ∃ bi2 bv2, ((ys.foldl
          (fun (acc : (Nat × Nat) × Nat) y =>
            if comp acc.1.2 y then ((acc.2, y), acc.2 + 1) else (acc.1, acc.2 + 1))
          ((bi, bv), pre.length)).1) = (bi2, bv2)
        ∧ (pre ++ ys)[bi2]? = some bv2 ∧ (∀ z ∈ pre ++ ys, comp bv2 z = false) := by
  intro ys
  induction ys with
  | nil =>
    intro pre bi bv h1 h2
    exact ⟨bi, bv, rfl, by simpa using h1, by simpa using h2⟩
  | cons y ys ih =>
    intro pre bi bv h1 h2
    simp only [List.foldl_cons]
    by_cases hc : comp bv y = true
    · simp only [hc, if_true]
      have := ih (pre ++ [y]) pre.length y (by simp) (by
        intro z hz
        rcases List.mem_append.mp hz with h | h
        · exact htrans bv y z hc (h2 z h)
        · rw [List.mem_singleton.mp h]; exact hrefl y)
      simpa using this
    · simp only [hc]
      have hb : bi < pre.length := by
        by_contra hcon
        rw [List.getElem?_eq_none (by omega)] at h1
        cases h1
      have := ih (pre ++ [y]) bi bv (by rw [List.getElem?_append_left hb]; exact h1) (by
        intro z hz
        rcases List.mem_append.mp hz with h | h
        · exact h2 z h
        · rw [List.mem_singleton.mp h]; simpa using hc)
      simpa using this

theorem maxElementIdx_spec (comp : Nat → Nat → Bool) (hrefl : ∀ a, comp a a = false)
    (htrans : ∀ a b c, comp a b = true → comp a c = false → comp b c = false)
    (l : List Nat) (hl : l ≠ []) :
    ∃ bv, l[maxElementIdx comp l]? = some bv ∧ ∀ z ∈ l, comp bv z = false := by
  cases l with
  | nil => exact absurd rfl hl
  | cons x xs =>
    obtain ⟨bi2, bv2, e, h1, h2⟩ := maxElementIdx_fold comp hrefl htrans xs [x] 0 x rfl (by
      intro z hz
      rw [List.mem_singleton.mp hz]; exact hrefl x)
    refine ⟨bv2, ?_, by simpa using h2⟩
    simp only [List.length_singleton] at e
    have e2 : maxElementIdx comp (x :: xs) = bi2 := by
      simp only [maxElementIdx]
      rw [e]
    rw [e2]
    simpa using h1

theorem numPairs_eq {S : Type} (ineqs : List (Inequality S)) (vars : List Nat) (step : Nat) :
    numPairs ineqs vars step = (vars.drop step).map (pairCount ineqs) := rfl

theorem selectNext_extremal {S : Type} (comp : Nat → Nat → Bool)
    (hrefl : ∀ a, comp a a = false)
    (htrans : ∀ a b c, comp a b = true → comp a c = false → comp b c = false)
    (vars : List Nat) (ineqs : List (Inequality S)) (step : Nat) (h : step < vars.length) :
    step + maxElementIdx comp (numPairs ineqs vars step) < vars.length
    ∧ ∀ k, step ≤ k → k < vars.length →
        comp (pairCount ineqs (vars.getD
          (step + maxElementIdx comp (numPairs ineqs vars step)) 0))
          (pairCount ineqs (vars.getD k 0)) = false := by
  have hne : numPairs ineqs vars step ≠ [] := by
    intro h0
    have := congrArg List.length h0
    rw [numPairs_eq, List.length_map, List.length_drop, List.length_nil] at this
    omega
  have hlen : (numPairs ineqs vars step).length = vars.length - step := by
    rw [numPairs_eq, List.length_map, List.length_drop]
  obtain ⟨bv, h1, h2⟩ := maxElementIdx_spec comp hrefl htrans _ hne
  generalize maxElementIdx comp (numPairs ineqs vars step) = off at h1 ⊢
  have hlt : off < vars.length - step := by
    by_contra hcon
    rw [List.getElem?_eq_none (by omega)] at h1
    cases h1
  have hbv : bv = pairCount ineqs (vars.getD (step + off) 0) := by
    rw [numPairs_eq] at h1
    rw [List.getElem?_map, List.getElem?_drop] at h1
    rw [List.getD_eq_getElem?_getD, List.getElem?_eq_getElem (by omega)]
    rw [List.getElem?_eq_getElem (by omega)] at h1
    simpa using h1.symm
  refine ⟨by omega, ?_⟩
  intro k hk1 hk2
  rw [← hbv]
  apply h2
  rw [numPairs_eq]
  refine List.mem_map.mpr ⟨vars.getD k 0, ?_, rfl⟩
  rw [List.getD_eq_getElem?_getD, List.getElem?_eq_getElem hk2]
  simp only [Option.getD_some]
  exact List.mem_drop_iff_getElem.mpr ⟨k - step, by omega, by congr 1; omega⟩

end Elimination

/-- C20: for a step inside the variable list, `selectNext` with ordering
`minpairs` returns one of the variables at the positions from `step` on whose
pair count is at most the pair count of every variable at those positions,
and with ordering `maxpairs` one whose pair count is at least that of every
such variable; the returned variable is the one stored at position `step`
after the swap. -/
theorem selectNext_pairs_extremal {S : Type} (vars : List Nat)
    (ineqs : List (Elimination.Inequality S)) (step : Nat) (h : step < vars.length) :
    ((Elimination.selectNext Elimination.EliminationOrdering.MinPairs vars ineqs step).2
        ∈ vars.drop step
      ∧ (∀ v ∈ vars.drop step,
          Elimination.pairCount ineqs
            (Elimination.selectNext Elimination.EliminationOrdering.MinPairs vars ineqs step).2
            ≤ Elimination.pairCount ineqs v)
      ∧ (Elimination.selectNext Elimination.EliminationOrdering.MinPairs vars ineqs step).1.getD
          step 0
          = (Elimination.selectNext Elimination.EliminationOrdering.MinPairs vars ineqs step).2)
    ∧ ((Elimination.selectNext Elimination.EliminationOrdering.MaxPairs vars ineqs step).2
        ∈ vars.drop step
      ∧ (∀ v ∈ vars.drop step,
          Elimination.pairCount ineqs v ≤ Elimination.pairCount ineqs
            (Elimination.selectNext Elimination.EliminationOrdering.MaxPairs vars ineqs step).2)
      ∧ (Elimination.selectNext Elimination.EliminationOrdering.MaxPairs vars ineqs step).1.getD
          step 0
          = (Elimination.selectNext Elimination.EliminationOrdering.MaxPairs vars ineqs step).2)
    := by
  have key : ∀ comp : Nat → Nat → Bool, (∀ a, comp a a = false) →
      (∀ a b c, comp a b = true → comp a c = false → comp b c = false) →
      (Utils.Matrix.swapList vars step
          (step + Elimination.maxElementIdx comp (Elimination.numPairs ineqs vars step))).getD
          step 0 ∈ vars.drop step
      ∧ ∀ v ∈ vars.drop step, comp (Elimination.pairCount ineqs
          ((Utils.Matrix.swapList vars step
            (step + Elimination.maxElementIdx comp
              (Elimination.numPairs ineqs vars step))).getD step 0))
          (Elimination.pairCount ineqs v) = false := by
    intro comp hrefl htrans
    obtain ⟨h1, h2⟩ := Elimination.selectNext_extremal comp hrefl htrans vars ineqs step h
    rw [Utils.Matrix.getD_swapList_left vars step _ h h1]
    constructor
    · rw [List.getD_eq_getElem?_getD, List.getElem?_eq_getElem h1]
      exact List.mem_drop_iff_getElem.mpr ⟨_, by omega, rfl⟩
    · intro v hv
      obtain ⟨k, hk, rfl⟩ := List.mem_drop_iff_getElem.mp hv
      have hk2 : step + k < vars.length := by omega
      have := h2 (step + k) (by omega) hk2
      rw [List.getD_eq_getElem?_getD vars (step + k), List.getElem?_eq_getElem hk2] at this
      exact this
  constructor
  · obtain ⟨k1, k2⟩ := key (fun a b => decide (a > b)) (by simp) (by
      intro a b c hab hac
      simp only [decide_eq_true_eq, decide_eq_false_iff_not] at hab hac ⊢
      omega)
    refine ⟨k1, ?_, rfl⟩
    intro v hv
    have := k2 v hv
    simp only [decide_eq_false_iff_not] at this
    exact Nat.le_of_not_lt this
  · obtain ⟨k1, k2⟩ := key (fun a b => decide (a < b)) (by simp) (by
      intro a b c hab hac
      simp only [decide_eq_true_eq, decide_eq_false_iff_not] at hab hac ⊢
      omega)
    refine ⟨k1, ?_, rfl⟩
    intro v hv
    have := k2 v hv
    simp only [decide_eq_false_iff_not] at this
    exact Nat.le_of_not_lt this

theorem selectNext_pairs_extremal_witness :
    0 < [0, 1, 2].length
    ∧ (Elimination.selectNext Elimination.EliminationOrdering.MinPairs [0, 1, 2] pairsSystem 0).2
        = 1
    ∧ (Elimination.selectNext Elimination.EliminationOrdering.MaxPairs [0, 1, 2] pairsSystem 0).2
        = 2
    ∧ [0, 1, 2].map (Elimination.pairCount pairsSystem) = [3, 2, 4]
    ∧ Elimination.pairCount pairsSystem
        (Elimination.selectNext Elimination.EliminationOrdering.MinPairs [0, 1, 2]
          pairsSystem 0).2 ≤ Elimination.pairCount pairsSystem 0 :=
  ⟨by decide, by decide, by decide, by decide,
    (selectNext_pairs_extremal [0, 1, 2] pairsSystem 0 (by decide)).1.2.1 0 (by decide)⟩

/-! ## The subset test (C17) -/

namespace Utils

theorem VectorSet.subsetLoop_spec : ∀ (s a : List Nat),
    a.Sorted (fun x y => x < y) → s.Sorted (fun x y => x < y) →
    (VectorSet.subsetLoop a s = true ↔ ∀ x ∈ a, x ∈ s) := by
  intro s
  induction s with
  | nil =>
    intro a _ _
    cases a with
    | nil => simp [VectorSet.subsetLoop]
    | cons a0 as =>
      simp only [VectorSet.subsetLoop]
      constructor
      · intro h
        cases h
      · intro h
        exact absurd (h a0 (List.mem_cons_self _ _)) (List.not_mem_nil _)
  | cons b bs ih =>
    intro a ha hs
    have hs2 := List.sorted_cons.mp hs
    cases a with
    | nil => simp [VectorSet.subsetLoop]
    | cons a0 as =>
      have ha2 := List.sorted_cons.mp ha
      simp only [VectorSet.subsetLoop]
      by_cases h1 : a0 = b
      · subst h1
        simp only [if_true]
        rw [ih as ha2.2 hs2.2]
        constructor
        · intro h x hx
          rcases List.mem_cons.mp hx with e | e
          · rw [e]; exact List.mem_cons_self _ _
          · exact List.mem_cons_of_mem _ (h x e)
        · intro h x hx
          rcases List.mem_cons.mp (h x (List.mem_cons_of_mem _ hx)) with e | e
          · have := ha2.1 x hx
            omega
          · exact e
      · simp only [h1, if_false]
        by_cases h2 : a0 < b
        · simp only [h2, if_true]
          constructor
          · intro h
            cases h
          · intro h
            exfalso
            rcases List.mem_cons.mp (h a0 (List.mem_cons_self _ _)) with e | e
            · exact h1 e
            · have := hs2.1 a0 e
              omega
        · simp only [h2, if_false]
          rw [ih (a0 :: as) ha hs2.2]
          constructor
          · intro h x hx
            exact List.mem_cons_of_mem _ (h x hx)
          · intro h x hx
            rcases List.mem_cons.mp (h x hx) with e | e
            · exfalso
              rcases List.mem_cons.mp hx with e2 | e2
              · omega
              · have := ha2.1 x e2
                omega
            · exact e

theorem VectorSet.isSubsetOf_iff (a s : List Nat) (ha : a.Sorted (fun x y => x < y))
    (hs : s.Sorted (fun x y => x < y)) :
    VectorSet.isSubsetOf a s = true ↔ ∀ x ∈ a, x ∈ s := by
  unfold VectorSet.isSubsetOf
  split_ifs with h
  · constructor
    · intro h0
      cases h0
    · intro hsub
      have := (List.subperm_of_subset ha.nodup hsub).length_le
      omega
  · exact VectorSet.subsetLoop_spec s a ha hs

theorem VectorSet.eq_of_isSubsetOf (a s : List Nat) (ha : a.Sorted (fun x y => x < y))
    (hs : s.Sorted (fun x y => x < y)) (h1 : VectorSet.isSubsetOf a s = true)
    (h2 : VectorSet.isSubsetOf s a = true) : a = s := by
  rw [VectorSet.isSubsetOf_iff a s ha hs] at h1
  rw [VectorSet.isSubsetOf_iff s a hs ha] at h2
  apply List.eq_of_perm_of_sorted ?_ ha hs
  exact (List.perm_ext_iff_of_nodup ha.nodup hs.nodup).mpr (fun x => ⟨h1 x, h2 x⟩)

end Utils

namespace Utils

theorem BitFieldSet.bit_ne_zero_iff (A i : Nat) :
    A &&& (1 <<< i) ≠ 0 ↔ A.testBit i = true := by
  rw [Nat.one_shiftLeft, Nat.and_two_pow]
  cases A.testBit i <;> simp

theorem BitFieldSet.mem_toVector (maxPower : Nat) (s : List Nat) (x : Nat) :
    x ∈ BitFieldSet.toVector maxPower s
      ↔ x < maxPower ∧ Nat.testBit (s.getD (x / BitFieldSet.cellSizeBits) 0)
          (x % BitFieldSet.cellSizeBits) = true := by
  unfold BitFieldSet.toVector
  rw [List.mem_filter, List.mem_range, decide_eq_true_eq, BitFieldSet.bit_ne_zero_iff]

theorem BitFieldSet.cell_subset (A B n : Nat) (hB : B < 2 ^ n) :
    A &&& (2 ^ n - 1 - B) = 0 ↔ ∀ i < n, A.testBit i = true → B.testBit i = true := by
  have e : 2 ^ n - 1 - B = 2 ^ n - (B + 1) := by omega
  rw [e]
  constructor
  · intro h i hi hA
    have h2 := congrArg (fun z => Nat.testBit z i) h
    simp only [Nat.testBit_and, Nat.testBit_two_pow_sub_succ hB, Nat.zero_testBit, hA, hi,
      decide_True, Bool.true_and] at h2
    simpa using h2
  · intro h
    apply Nat.eq_of_testBit_eq
    intro i
    rw [Nat.testBit_and, Nat.testBit_two_pow_sub_succ hB, Nat.zero_testBit]
    by_cases hi : i < n
    · cases hA : A.testBit i
      · simp
      · simp [h i hi hA]
    · simp [hi]

theorem BitFieldSet.all_zipWith (f : Nat → Nat → Bool) : ∀ (a s : List Nat),
    (List.zipWith f a s).all id = true
      ↔ ∀ k, k < a.length → k < s.length → f (a.getD k 0) (s.getD k 0) = true := by
  intro a
  induction a with
  | nil => intro s; simp
  | cons x xs ih =>
    intro s
    cases s with
    | nil => simp
    | cons y ys =>
      simp only [List.zipWith_cons_cons, List.all_cons, id, Bool.and_eq_true, ih ys,
        List.length_cons]
      constructor
      · rintro ⟨h0, h1⟩ k hk1 hk2
        cases k with
        | zero => simpa using h0
        | succ k => simpa using h1 k (by omega) (by omega)
      · intro h
        refine ⟨by simpa using h 0 (by omega) (by omega), ?_⟩
        intro k hk1 hk2
        simpa using h (k + 1) (by omega) (by omega)

theorem BitFieldSet.le_numCells (maxPower : Nat) :
    maxPower ≤ BitFieldSet.cellSizeBits * BitFieldSet.numCells maxPower := by
  unfold BitFieldSet.numCells BitFieldSet.cellSizeBits sizeBits
  omega

theorem BitFieldSet.isSubsetOf_iff_toVector (maxPower : Nat) (a s : List Nat)
    (ha : BitFieldSet.Valid maxPower a) (hs : BitFieldSet.Valid maxPower s) :
    BitFieldSet.isSubsetOf a s = true
      ↔ ∀ x ∈ BitFieldSet.toVector maxPower a, x ∈ BitFieldSet.toVector maxPower s := by
  obtain ⟨ha1, _, ha3⟩ := ha
  obtain ⟨hs1, hs2, _⟩ := hs
  have hcell : ∀ k, k < s.length → s.getD k 0 < 2 ^ BitFieldSet.cellSizeBits := by
    intro k hk
    apply hs2
    rw [List.getD_eq_getElem?_getD, List.getElem?_eq_getElem hk]
    exact List.getElem_mem hk
  have hpos : 0 < BitFieldSet.cellSizeBits := by decide
  unfold BitFieldSet.isSubsetOf
  rw [BitFieldSet.all_zipWith]
  constructor
  · intro h x hx
    rw [BitFieldSet.mem_toVector] at hx ⊢
    refine ⟨hx.1, ?_⟩
    have hk : x / BitFieldSet.cellSizeBits < BitFieldSet.numCells maxPower := by
      apply Nat.div_lt_of_lt_mul
      exact Nat.lt_of_lt_of_le hx.1 (BitFieldSet.le_numCells maxPower)
    have h1 := h (x / BitFieldSet.cellSizeBits) (by omega) (by omega)
    rw [decide_eq_true_eq, BitFieldSet.cell_subset _ _ _ (hcell _ (by omega))] at h1
    exact h1 _ (Nat.mod_lt _ hpos) hx.2
  · intro h k hk1 hk2
    rw [decide_eq_true_eq, BitFieldSet.cell_subset _ _ _ (hcell _ hk2)]
    intro i hi hA
    have hdiv : (BitFieldSet.cellSizeBits * k + i) / BitFieldSet.cellSizeBits = k := by
      rw [Nat.mul_add_div hpos, Nat.div_eq_of_lt hi, Nat.add_zero]
    have hmod : (BitFieldSet.cellSizeBits * k + i) % BitFieldSet.cellSizeBits = i := by
      rw [Nat.mul_add_mod, Nat.mod_eq_of_lt hi]
    have hlt : BitFieldSet.cellSizeBits * k + i
        < BitFieldSet.cellSizeBits * BitFieldSet.numCells maxPower := by
      have : k + 1 ≤ BitFieldSet.numCells maxPower := by omega
      calc BitFieldSet.cellSizeBits * k + i
          < BitFieldSet.cellSizeBits * k + BitFieldSet.cellSizeBits := by omega
        _ = BitFieldSet.cellSizeBits * (k + 1) := by ring
        _ ≤ BitFieldSet.cellSizeBits * BitFieldSet.numCells maxPower :=
          Nat.mul_le_mul_left _ this
    by_cases hx : BitFieldSet.cellSizeBits * k + i < maxPower
    · have := h (BitFieldSet.cellSizeBits * k + i)
        ((BitFieldSet.mem_toVector _ _ _).mpr ⟨hx, by rw [hdiv, hmod]; exact hA⟩)
      rw [BitFieldSet.mem_toVector, hdiv, hmod] at this
      exact this.2
    · have := ha3 _ hlt (by omega)
      rw [hdiv, hmod, hA] at this
      cases this

theorem BitFieldSet.toVector_eq_of_isSubsetOf (maxPower : Nat) (a s : List Nat)
    (ha : BitFieldSet.Valid maxPower a) (hs : BitFieldSet.Valid maxPower s)
    (h1 : BitFieldSet.isSubsetOf a s = true) (h2 : BitFieldSet.isSubsetOf s a = true) :
    BitFieldSet.toVector maxPower a = BitFieldSet.toVector maxPower s := by
  rw [BitFieldSet.isSubsetOf_iff_toVector maxPower a s ha hs] at h1
  rw [BitFieldSet.isSubsetOf_iff_toVector maxPower s a hs ha] at h2
  unfold BitFieldSet.toVector
  apply List.filter_congr
  intro x hx
  have hx2 := List.mem_range.mp hx
  have e1 := h1 x
  have e2 := h2 x
  simp only [BitFieldSet.toVector, List.mem_filter, hx, true_and] at e1 e2
  cases hp : decide (a.getD (x / BitFieldSet.cellSizeBits) 0
      &&& (1 <<< (x % BitFieldSet.cellSizeBits)) ≠ 0) with
  | true => exact (e1 hp).symm
  | false =>
    cases hq : decide (s.getD (x / BitFieldSet.cellSizeBits) 0
      &&& (1 <<< (x % BitFieldSet.cellSizeBits)) ≠ 0) with
    | true => rw [e2 hq] at hp; cases hp
    | false => rfl

end Utils

namespace Utils

theorem BitFieldSet.valid_mk (maxPower : Nat) :
    BitFieldSet.Valid maxPower (BitFieldSet.mk maxPower) := by
  refine ⟨by simp [BitFieldSet.mk], ?_, ?_⟩
  · intro c hc
    rw [List.eq_of_mem_replicate hc]
    exact Nat.pos_pow_of_pos _ (by decide)
  · intro x _ _
    have : (BitFieldSet.mk maxPower).getD (x / BitFieldSet.cellSizeBits) 0 = 0 := by
      unfold BitFieldSet.mk
      rw [List.getD_eq_getElem?_getD]
      by_cases h : x / BitFieldSet.cellSizeBits < BitFieldSet.numCells maxPower
      · rw [List.getElem?_eq_getElem (by simpa using h)]
        simp
      · rw [List.getElem?_eq_none (by simpa using h)]
        rfl
    rw [this, Nat.zero_testBit]

theorem BitFieldSet.valid_inter (maxPower : Nat) (a s : List Nat)
    (ha : BitFieldSet.Valid maxPower a) (hs : BitFieldSet.Valid maxPower s) :
    BitFieldSet.Valid maxPower (BitFieldSet.inter a s) := by
  obtain ⟨ha1, ha2, ha3⟩ := ha
  obtain ⟨hs1, hs2, hs3⟩ := hs
  have hpos : 0 < BitFieldSet.cellSizeBits := by decide
  refine ⟨by simp [BitFieldSet.inter, ha1, hs1], ?_, ?_⟩
  · intro c hc
    unfold BitFieldSet.inter at hc
    obtain ⟨k, hk, rfl⟩ := List.mem_iff_getElem.mp hc
    rw [List.getElem_zipWith]
    apply Nat.and_lt_two_pow
    exact hs2 _ (List.getElem_mem _)
  · intro x hx1 hx2
    have hk : x / BitFieldSet.cellSizeBits < BitFieldSet.numCells maxPower := by
      apply Nat.div_lt_of_lt_mul
      exact hx1
    have e : (BitFieldSet.inter a s).getD (x / BitFieldSet.cellSizeBits) 0
        = a.getD (x / BitFieldSet.cellSizeBits) 0 &&& s.getD (x / BitFieldSet.cellSizeBits) 0 := by
      unfold BitFieldSet.inter
      simp only [List.getD_eq_getElem?_getD, List.getElem?_zipWith]
      rw [List.getElem?_eq_getElem (by omega : x / BitFieldSet.cellSizeBits < a.length),
        List.getElem?_eq_getElem (by omega : x / BitFieldSet.cellSizeBits < s.length)]
      rfl
    rw [e, Nat.testBit_and, ha3 x hx1 hx2]
    rfl

theorem BitFieldSet.valid_add (maxPower : Nat) (s : List Nat) (x : Nat)
    (hs : BitFieldSet.Valid maxPower s) (hx : x < maxPower) :
    BitFieldSet.Valid maxPower (BitFieldSet.add s x) := by
  obtain ⟨hs1, hs2, hs3⟩ := hs
  have hpos : 0 < BitFieldSet.cellSizeBits := by decide
  have hxk : x / BitFieldSet.cellSizeBits < s.length := by
    rw [hs1]
    apply Nat.div_lt_of_lt_mul
    exact Nat.lt_of_lt_of_le hx (BitFieldSet.le_numCells maxPower)
  have hold : s.getD (x / BitFieldSet.cellSizeBits) 0 < 2 ^ BitFieldSet.cellSizeBits := by
    apply hs2
    rw [List.getD_eq_getElem?_getD, List.getElem?_eq_getElem hxk]
    exact List.getElem_mem hxk
  refine ⟨by simp [BitFieldSet.add, hs1], ?_, ?_⟩
  · intro c hc
    unfold BitFieldSet.add at hc
    rcases List.mem_or_eq_of_mem_set hc with h | h
    · exact hs2 c h
    · rw [h, Nat.one_shiftLeft]
      apply Nat.or_lt_two_pow hold
      exact Nat.pow_lt_pow_right (by decide) (Nat.mod_lt _ hpos)
  · intro y hy1 hy2
    unfold BitFieldSet.add
    rw [List.getD_eq_getElem?_getD]
    by_cases hq : x / BitFieldSet.cellSizeBits = y / BitFieldSet.cellSizeBits
    · rw [← hq, List.getElem?_set_self hxk]
      simp only [Option.getD_some]
      rw [Nat.testBit_or, Nat.one_shiftLeft, Nat.testBit_two_pow]
      have h1 := hs3 y hy1 hy2
      rw [← hq] at h1
      rw [h1]
      have hne : x % BitFieldSet.cellSizeBits ≠ y % BitFieldSet.cellSizeBits := by
        intro hm
        have e1 := Nat.div_add_mod x BitFieldSet.cellSizeBits
        have e2 := Nat.div_add_mod y BitFieldSet.cellSizeBits
        rw [hq, hm] at e1
        omega
      simp [hne]
    · rw [List.getElem?_set_ne hq, ← List.getD_eq_getElem?_getD]
      exact hs3 y hy1 hy2

end Utils

/-- C17: for strictly increasing arrays `a`, `b` the `VectorSet` test
`a.isSubsetOf(b)` is true exactly when every element of `a` is in `b`; for
well-formed `BitFieldSet<maxPower>` values `p`, `q` (the empty set is well
formed, and `add(x)` with `x < maxPower` and intersection keep a set well
formed) `p.isSubsetOf(q)` is true exactly when every element of `p.toVector()`
is in `q.toVector()`. In both representations a set is a subset of itself, and
two sets that are subsets of each other have equal `toVector()`. -/
theorem isSubsetOf_decides_inclusion (a b : List Nat) (ha : a.Sorted (fun x y => x < y))
    (hb : b.Sorted (fun x y => x < y)) (w maxPower : Nat) (p q : List Nat)
    (hp : Utils.BitFieldSet.Valid maxPower p) (hq : Utils.BitFieldSet.Valid maxPower q) :
    (Utils.VectorSet.isSubsetOf a b = true ↔ ∀ x ∈ a, x ∈ b)
    ∧ Utils.VectorSet.isSubsetOf a a = true
    ∧ (Utils.VectorSet.isSubsetOf a b = true → Utils.VectorSet.isSubsetOf b a = true →
        (Utils.VectorSet.ops w).toVector a = (Utils.VectorSet.ops w).toVector b)
    ∧ (Utils.BitFieldSet.isSubsetOf p q = true
        ↔ ∀ x ∈ Utils.BitFieldSet.toVector maxPower p, x ∈ Utils.BitFieldSet.toVector maxPower q)
    ∧ Utils.BitFieldSet.isSubsetOf p p = true
    ∧ (Utils.BitFieldSet.isSubsetOf p q = true → Utils.BitFieldSet.isSubsetOf q p = true →
        Utils.BitFieldSet.toVector maxPower p = Utils.BitFieldSet.toVector maxPower q)
    ∧ Utils.BitFieldSet.Valid maxPower (Utils.BitFieldSet.mk maxPower)
    ∧ (∀ x < maxPower, Utils.BitFieldSet.Valid maxPower (Utils.BitFieldSet.add p x))
    ∧ Utils.BitFieldSet.Valid maxPower (Utils.BitFieldSet.inter p q) :=
  ⟨Utils.VectorSet.isSubsetOf_iff a b ha hb,
    (Utils.VectorSet.isSubsetOf_iff a a ha ha).mpr (fun _ h => h),
    fun h1 h2 => Utils.VectorSet.eq_of_isSubsetOf a b ha hb h1 h2,
    Utils.BitFieldSet.isSubsetOf_iff_toVector maxPower p q hp hq,
    (Utils.BitFieldSet.isSubsetOf_iff_toVector maxPower p p hp hp).mpr (fun _ h => h),
    Utils.BitFieldSet.toVector_eq_of_isSubsetOf maxPower p q hp hq,
    Utils.BitFieldSet.valid_mk maxPower,
    fun x hx => Utils.BitFieldSet.valid_add maxPower p x hp hx,
    Utils.BitFieldSet.valid_inter maxPower p q hp hq⟩

theorem isSubsetOf_decides_inclusion_witness :
    [1, 5].Sorted (fun x y => x < y) ∧ [1, 3, 5].Sorted (fun x y => x < y)
    ∧ Utils.BitFieldSet.Valid 96 [2 ^ 40, 1]
    ∧ Utils.BitFieldSet.Valid 96 [2 ^ 40 + 2, 2 ^ 31 + 1]
    ∧ Utils.BitFieldSet.toVector 96 [2 ^ 40, 1] = [40, 64]
    ∧ Utils.BitFieldSet.toVector 96 [2 ^ 40 + 2, 2 ^ 31 + 1] = [1, 40, 64, 95]
    ∧ (Utils.VectorSet.isSubsetOf [1, 5] [1, 3, 5] = true ↔ ∀ x ∈ [1, 5], x ∈ [1, 3, 5])
    ∧ (Utils.BitFieldSet.isSubsetOf [2 ^ 40, 1] [2 ^ 40 + 2, 2 ^ 31 + 1] = true
        ↔ ∀ x ∈ Utils.BitFieldSet.toVector 96 [2 ^ 40, 1],
            x ∈ Utils.BitFieldSet.toVector 96 [2 ^ 40 + 2, 2 ^ 31 + 1]) :=
  ⟨by decide, by decide, by decide, by decide, by decide, by decide,
    (isSubsetOf_decides_inclusion [1, 5] [1, 3, 5] (by decide) (by decide) 8 96
      [2 ^ 40, 1] [2 ^ 40 + 2, 2 ^ 31 + 1] (by decide) (by decide)).1,
    (isSubsetOf_decides_inclusion [1, 5] [1, 3, 5] (by decide) (by decide) 8 96
      [2 ^ 40, 1] [2 ^ 40 + 2, 2 ^ 31 + 1] (by decide) (by decide)).2.2.2.1⟩

/-! ## The counter of processed inequalities (C21, C22) -/

/-- C21, evaluated at a failing input: on the 256 × 256 identity matrix `ddm`
selects sorted-vector sets with 8-bit indices; after `makeInitialStep` no ray
has an assigned inequality, so all 256 inequalities have been marked
processed, but the 8-bit counter has wrapped to 0 and `isEnded()` is
false. -/
theorem isEnded_false_identity_256 :
    Utils.gauss Utils.Coeff.int (Utils.Matrix.assign_eye 256) (Utils.Matrix.assign_eye 256).nrows true 0
      = ⟨Utils.Matrix.assign_eye 256, Utils.Matrix.resize 0 256, 256, List.range 256⟩
    ∧ (defaultContext (Utils.Matrix.assign_eye 256)).ops.idxBits = 8
    ∧ (∀ r ∈ (defaultInitialState (Utils.Matrix.assign_eye 256)).heap,
        r.assignedInequalities = [])
    ∧ (defaultInitialState (Utils.Matrix.assign_eye 256)).numProcessedInequalities = 0
    ∧ DDM.isEnded (defaultContext (Utils.Matrix.assign_eye 256))
        (defaultInitialState (Utils.Matrix.assign_eye 256)) = false := by
  have hn : (Utils.Matrix.assign_eye 256).nrows = 256 := Utils.eye_nrows 256
  have hg2 : Utils.gauss Utils.Coeff.int (Utils.Matrix.assign_eye 256) (Utils.Matrix.assign_eye 256).nrows true 0
      = ⟨Utils.Matrix.assign_eye 256, Utils.Matrix.resize 0 256, 256, List.range 256⟩ := by
    rw [hn]; exact Utils.gauss_eye 256
  obtain ⟨h1, _, h3⟩ := DDM.makeInitialStep_eye (defaultContext (Utils.Matrix.assign_eye 256))
    256 (by decide) (List.range 256) rfl rfl rfl rfl
  have hs : defaultInitialState (Utils.Matrix.assign_eye 256)
      = DDM.makeInitialStep (defaultContext (Utils.Matrix.assign_eye 256))
          (Utils.Matrix.assign_eye 256) (List.range 256) := by
    unfold defaultInitialState
    rw [hg2]
  refine ⟨hg2, rfl, ?_, ?_, ?_⟩
  · rw [hs]
    exact fun r hr => (h3 r hr).2
  · rw [hs, h1]
    rfl
  · unfold DDM.isEnded
    rw [hs, h1]
    show decide (256 % 2 ^ 8 ≥ (Utils.Matrix.assign_eye 256).nrows) = false
    rw [hn]
    decide

namespace DDM

open Utils

theorem makeInitialStepUpTo_nrows {S : Type} (c : Context S) (f : Matrix) (perm : List Nat) :
    makeInitialStepUpTo c f perm c.inequalityMatrix.nrows = makeInitialStep c f perm := rfl

theorem makeInitialStepUpTo_succ {S : Type} (c : Context S) (f : Matrix) (perm : List Nat)
    (k : Nat) :
    makeInitialStepUpTo c f perm (k + 1)
      = assignIne c (makeInitialStepUpTo c f perm k) k
          (makeInitialStepUpTo c f perm k).extremeRays := by
  unfold makeInitialStepUpTo
  simp only [List.range_succ, List.foldl_append, List.foldl_cons, List.foldl_nil]

theorem makeInitialStepUpTo_eye {S : Type} (c : Context S) (n : Nat) (hn : n < 2147483648)
    (perm : List Nat)
    (hm : c.inequalityMatrix = Matrix.assign_eye n) (hi : c.intArith = true)
    (hp : c.usePlusPlus = false) (hz : c.zerotol = 0) (k : Nat) :
    (makeInitialStepUpTo c (Matrix.assign_eye n) perm k).numProcessedInequalities
        = k % 2 ^ c.ops.idxBits := by
  have hrays : ∀ r ∈ (List.range c.rank).map (fun rayIdx =>
      ({ newRay c ((Matrix.assign_eye n).row rayIdx)
            (if c.usePlusPlus then computeDiscrepancies c ((Matrix.assign_eye n).row rayIdx)
              else [])
            c.inequalityMatrix.nrows with
          cobasis := initialCobasis c perm rayIdx
            (newRay c ((Matrix.assign_eye n).row rayIdx)
              (if c.usePlusPlus then computeDiscrepancies c ((Matrix.assign_eye n).row rayIdx)
                else [])
              c.inequalityMatrix.nrows).cobasis } : Ray S)), Good r := by
    intro r hr
    simp only [List.mem_map] at hr
    obtain ⟨i, _, rfl⟩ := hr
    refine ⟨?_, rfl⟩
    simp only [newRay, normalizeRay, hi, hp, if_true, Bool.false_eq_true, if_false,
      List.take_nil, List.append_nil]
    have h01 : ∀ x ∈ ((Matrix.assign_eye n).row i).take c.dim, x = 0 ∨ x = 1 :=
      fun x hx => eye_row_zero_one n i x (List.mem_of_mem_take hx)
    rw [normalizeIntVector_zero_one _ h01]
    exact h01
  have hheap := computeAdjacency_good c _ (List.range c.rank)
    (initialState c).notProcessedInequalities hrays
  exact (assignIne_fold_eye c n hn hm hz
    { initialState c with
      heap := computeAdjacency c _ (List.range c.rank) (initialState c).notProcessedInequalities,
      extremeRays := List.range c.rank }
    hheap rfl k).2.2

end DDM

/-- C22, evaluated at a failing input: on the 256 × 256 identity matrix (8-bit
index type) the counter `numProcessedInequalities` is 255 after the first 255
calls of `assignIne` in `makeInitialStep` and 0 after the 256th call, so it
decreases under `assignIne`; the state after the 256th call is the state
after `makeInitialStep`. -/
theorem numProcessed_decreases_identity_256 :
    (DDM.makeInitialStepUpTo (defaultContext (Utils.Matrix.assign_eye 256))
        (Utils.Matrix.assign_eye 256) (List.range 256) 255).numProcessedInequalities = 255
    ∧ (DDM.assignIne (defaultContext (Utils.Matrix.assign_eye 256))
        (DDM.makeInitialStepUpTo (defaultContext (Utils.Matrix.assign_eye 256))
          (Utils.Matrix.assign_eye 256) (List.range 256) 255) 255
        (DDM.makeInitialStepUpTo (defaultContext (Utils.Matrix.assign_eye 256))
          (Utils.Matrix.assign_eye 256) (List.range 256) 255).extremeRays).numProcessedInequalities
        = 0
    ∧ DDM.assignIne (defaultContext (Utils.Matrix.assign_eye 256))
        (DDM.makeInitialStepUpTo (defaultContext (Utils.Matrix.assign_eye 256))
          (Utils.Matrix.assign_eye 256) (List.range 256) 255) 255
        (DDM.makeInitialStepUpTo (defaultContext (Utils.Matrix.assign_eye 256))
          (Utils.Matrix.assign_eye 256) (List.range 256) 255).extremeRays
        = DDM.makeInitialStep (defaultContext (Utils.Matrix.assign_eye 256))
            (Utils.Matrix.assign_eye 256) (List.range 256) := by
  have hn : (defaultContext (Utils.Matrix.assign_eye 256)).inequalityMatrix.nrows = 256 :=
    Utils.eye_nrows 256
  have h255 := DDM.makeInitialStepUpTo_eye (defaultContext (Utils.Matrix.assign_eye 256)) 256
    (by decide) (List.range 256) rfl rfl rfl rfl 255
  have h256 := DDM.makeInitialStepUpTo_eye (defaultContext (Utils.Matrix.assign_eye 256)) 256
    (by decide) (List.range 256) rfl rfl rfl rfl 256
  rw [DDM.makeInitialStepUpTo_succ] at h256
  refine ⟨h255, h256, ?_⟩
  rw [← DDM.makeInitialStepUpTo_succ, ← DDM.makeInitialStepUpTo_nrows, hn]

/-! ## The number of neighbours of simple rays (C24) -/

set_option maxRecDepth 100000 in
/-- C24, evaluated at a failing input: for the cone `squareCone` (rank 3,
default parameters) every ray has a cobasis of `rank - 1 = 2` elements and 2
adjacent rays, not `rank + 1 = 4`, both after `makeInitialStep` and at the end
of the main loop, which performs one iteration. -/
theorem simple_rays_degree_squareCone :
    (defaultContext squareCone).rank = 3
    ∧ cobasisAndDegree squareCone (defaultInitialState squareCone) = [(2, 2), (2, 2), (2, 2)]
    ∧ (DDM.mainLoop (defaultContext squareCone) 1 (defaultInitialState squareCone)).map
        (cobasisAndDegree squareCone) = some [(2, 2), (2, 2), (2, 2), (2, 2)]
    ∧ (DDM.mainLoop (defaultContext squareCone) 1 (defaultInitialState squareCone)).map
        (fun s => s.step) = some 1 := by
  decide

/-! ## The 1st Chernikov rule (C26) -/

/-- C26, evaluated at a failing input: for the system `wedgeSystem` (2 rows)
and the variables 0, 1 eliminated in this order, at step 1 the two rows form a
plus/minus pair whose indices `{0}` and `{1}` have a union of size
`2 ≤ step + 2`, but the test of the code is false, because `n - (step + 2)`
is `2 ^ 64 - 1` in `size_t` arithmetic; no inequality is created and the
result is empty, while eliminating variable 1 alone, or 1 before 0, gives the
row `(0, 0, 1)`. -/
theorem first_rule_wraps_wedgeSystem :
    Utils.subSizeT 2 (1 + 2) = 2 ^ 64 - 1
    ∧ Elimination.chernikovIndex (Utils.BitFieldSet.ops 32) 2
        (Elimination.initialInequality Utils.Coeff.int (Utils.BitFieldSet.ops 32) 3 2 true 0 (wedgeSystem.row 0))
        = [0]
    ∧ Elimination.chernikovIndex (Utils.BitFieldSet.ops 32) 2
        (Elimination.initialInequality Utils.Coeff.int (Utils.BitFieldSet.ops 32) 3 2 true 1 (wedgeSystem.row 1))
        = [1]
    ∧ Elimination.firstRuleTest (Utils.BitFieldSet.ops 32) 2 1
        (Elimination.initialInequality Utils.Coeff.int (Utils.BitFieldSet.ops 32) 3 2 true 0 (wedgeSystem.row 0))
        (Elimination.initialInequality Utils.Coeff.int (Utils.BitFieldSet.ops 32) 3 2 true 1 (wedgeSystem.row 1))
        = false
    ∧ Elimination.elimination Utils.Coeff.int
        ⟨Elimination.ChernikovTest.Graph, Elimination.EliminationOrdering.Fixed, true⟩
        (fun _ => 0)
        wedgeSystem [0, 1] = ⟨3, []⟩
    ∧ Elimination.elimination Utils.Coeff.int
        ⟨Elimination.ChernikovTest.Enumeration, Elimination.EliminationOrdering.Fixed, true⟩
        (fun _ => 0)
        wedgeSystem [0, 1] = ⟨3, []⟩
    ∧ Elimination.elimination Utils.Coeff.int
        ⟨Elimination.ChernikovTest.Graph, Elimination.EliminationOrdering.Fixed, true⟩
        (fun _ => 0)
        wedgeSystem [1, 0] = ⟨3, [[0, 0, 1]]⟩
    ∧ Elimination.elimination Utils.Coeff.int
        ⟨Elimination.ChernikovTest.Graph, Elimination.EliminationOrdering.Fixed, true⟩
        (fun _ => 0)
        wedgeSystem [1] = ⟨3, [[0, 0, 1]]⟩ := by
  decide

/-! ## The combination step of the elimination without overflow -/

namespace Utils

theorem BitFieldSet.getD_inter (a b : List Nat) (k : Nat) :
    (BitFieldSet.inter a b).getD k 0 = a.getD k 0 &&& b.getD k 0 := by
  unfold BitFieldSet.inter
  simp only [List.getD_eq_getElem?_getD, List.getElem?_zipWith]
  cases ha : a[k]? with
  | none => simp
  | some x =>
    cases hb : b[k]? with
    | none => simp
    | some y => simp

theorem BitFieldSet.mem_toVector_inter (maxPower : Nat) (a b : List Nat) (x : Nat) :
    x ∈ BitFieldSet.toVector maxPower (BitFieldSet.inter a b)
      ↔ x ∈ BitFieldSet.toVector maxPower a ∧ x ∈ BitFieldSet.toVector maxPower b := by
  simp only [BitFieldSet.mem_toVector, BitFieldSet.getD_inter, Nat.testBit_and,
    Bool.and_eq_true]
  tauto

end Utils

namespace Elimination

open Utils

theorem pairBlock_getD (a b : Int) (m p : List Int) (k : Nat) (hm : k < m.length)
    (hp : k < p.length) :
    (List.zipWith (fun mi pl => a * mi - b * pl) m p).getD k 0
      = a * m.getD k 0 - b * p.getD k 0 := by
  simp only [List.getD_eq_getElem?_getD]
  rw [List.getElem?_zipWith, List.getElem?_eq_getElem hp, List.getElem?_eq_getElem hm]
  rfl

theorem getD_map_mul (w : List Int) (g : Int) (k : Nat) :
    (w.map (fun y => y * g)).getD k 0 = w.getD k 0 * g := by
  simp only [List.getD_eq_getElem?_getD, List.getElem?_map]
  cases w[k]? with
  | none => simp
  | some x => simp

theorem getD_normalizeIntVector_mul (v : List Int) (k : Nat) :
    (normalizeIntVector Utils.Coeff.exact v).getD k 0 * gcdVec Utils.Coeff.exact v = v.getD k 0 := by
  rw [← getD_map_mul, normalizeIntVector_mul]

end Elimination

/-- The combination step for a coefficient type without overflow: in integer
mode, for `p` with a positive and `m` with a negative
coefficient of the variable `v` (both normals of length `dim`),
`newInequality(p, m, v)` has as normal the gcd-normalization of the vector with
entries `p.normal[v] * m.normal[k] - m.normal[v] * p.normal[k]`, that is
`p.normal[v] * m + (-m.normal[v]) * p` with both multipliers positive: the
entries of the result times the positive gcd `g` are the entries of that
vector, and the coefficient of `v` is 0. The complementary index is the
intersection constructor applied to the parents' complementary indices, which
for strictly increasing sorted vectors and for bit fields contains exactly the
common elements. -/
theorem newInequality_combination {S : Type} (ops : Utils.SetOps S) (dim : Nat)
    (p m : Elimination.Inequality S) (v : Nat)
    (hp : 0 < p.normal.getD v 0) (hm : m.normal.getD v 0 < 0)
    (hlp : p.normal.length = dim) (hlm : m.normal.length = dim) :
    (Elimination.newInequalityFromPair Utils.Coeff.exact ops dim true p m v).normal
      = Utils.normalizeIntVector Utils.Coeff.exact (List.zipWith
          (fun mi pl => p.normal.getD v 0 * mi - m.normal.getD v 0 * pl) m.normal p.normal)
    ∧ (0 < p.normal.getD v 0 ∧ 0 < -m.normal.getD v 0)
    ∧ 0 < Utils.gcdVec Utils.Coeff.exact (List.zipWith
          (fun mi pl => p.normal.getD v 0 * mi - m.normal.getD v 0 * pl) m.normal p.normal)
    ∧ (∀ k < dim,
        (Elimination.newInequalityFromPair Utils.Coeff.exact ops dim true p m v).normal.getD k 0
          * Utils.gcdVec Utils.Coeff.exact (List.zipWith
              (fun mi pl => p.normal.getD v 0 * mi - m.normal.getD v 0 * pl) m.normal p.normal)
        = p.normal.getD v 0 * m.normal.getD k 0 + -m.normal.getD v 0 * p.normal.getD k 0)
    ∧ (Elimination.newInequalityFromPair Utils.Coeff.exact ops dim true p m v).normal.length = dim
    ∧ (Elimination.newInequalityFromPair Utils.Coeff.exact ops dim true p m v).normal.getD v 0 = 0
    ∧ (Elimination.newInequalityFromPair Utils.Coeff.exact ops dim true p m v).complementaryIndex
        = ops.inter p.complementaryIndex m.complementaryIndex
    ∧ (∀ (w : Nat) (a b : List Nat), a.Sorted (fun x y => x < y) →
        b.Sorted (fun x y => x < y) →
        ∀ x, x ∈ (Utils.VectorSet.ops w).toVector ((Utils.VectorSet.ops w).inter a b)
          ↔ x ∈ (Utils.VectorSet.ops w).toVector a ∧ x ∈ (Utils.VectorSet.ops w).toVector b)
    ∧ (∀ (maxPower : Nat) (a b : List Nat) (x : Nat),
        x ∈ (Utils.BitFieldSet.ops maxPower).toVector ((Utils.BitFieldSet.ops maxPower).inter a b)
          ↔ x ∈ (Utils.BitFieldSet.ops maxPower).toVector a
            ∧ x ∈ (Utils.BitFieldSet.ops maxPower).toVector b) := by
  have hlen : (List.zipWith
      (fun mi pl => p.normal.getD v 0 * mi - m.normal.getD v 0 * pl) m.normal p.normal).length
      = dim := by
    rw [List.length_zipWith, hlp, hlm, Nat.min_self]
  have hn : (Elimination.newInequalityFromPair Utils.Coeff.exact ops dim true p m v).normal
      = Utils.normalizeIntVector Utils.Coeff.exact (List.zipWith
          (fun mi pl => p.normal.getD v 0 * mi - m.normal.getD v 0 * pl) m.normal p.normal) := by
    simp only [Elimination.newInequalityFromPair, Elimination.normalize, if_true,
      Utils.Coeff.sub_exact, Utils.Coeff.mul_exact]
    rw [List.take_of_length_le (by omega)]
  have hk : ∀ k < dim,
      (Elimination.newInequalityFromPair Utils.Coeff.exact ops dim true p m v).normal.getD k 0
        * Utils.gcdVec Utils.Coeff.exact (List.zipWith
            (fun mi pl => p.normal.getD v 0 * mi - m.normal.getD v 0 * pl) m.normal p.normal)
      = p.normal.getD v 0 * m.normal.getD k 0 + -m.normal.getD v 0 * p.normal.getD k 0 := by
    intro k hk
    rw [hn, Elimination.getD_normalizeIntVector_mul,
      Elimination.pairBlock_getD _ _ _ _ _ (by omega) (by omega)]
    ring
  refine ⟨hn, ⟨hp, by omega⟩, Utils.gcdVec_pos _, hk, ?_, ?_, rfl, ?_, ?_⟩
  · rw [hn]
    unfold Utils.normalizeIntVector
    rw [List.length_map, hlen]
  · exact Elimination.newInequalityFromPair_eliminated_zero ops dim true p m v
  · intro w a b ha hb x
    exact (Utils.VectorSet.interLoop_spec _ a b (Nat.le_refl _) ha hb).2.1 x
  · intro maxPower a b x
    exact Utils.BitFieldSet.mem_toVector_inter maxPower a b x

theorem newInequality_combination_witness :
    (0 : Int) < ([1, 1, 0] : List Int).getD 0 0 ∧ ([-2, 0, 4] : List Int).getD 0 0 < 0
    ∧ (Elimination.newInequalityFromPair Utils.Coeff.exact (Utils.VectorSet.ops 64) 3 true
        ⟨[1, 1, 0], [1, 2]⟩ ⟨[-2, 0, 4], [0, 2]⟩ 0).normal = [0, 1, 2]
    ∧ (Elimination.newInequalityFromPair Utils.Coeff.exact (Utils.VectorSet.ops 64) 3 true
        ⟨[1, 1, 0], [1, 2]⟩ ⟨[-2, 0, 4], [0, 2]⟩ 0).complementaryIndex = [2]
    ∧ (Elimination.newInequalityFromPair Utils.Coeff.exact (Utils.VectorSet.ops 64) 3 true
        ⟨[1, 1, 0], [1, 2]⟩ ⟨[-2, 0, 4], [0, 2]⟩ 0).normal.getD 0 0 = 0 :=
  ⟨by decide, by decide, by decide, by decide,
    (newInequality_combination (S := List Nat) (Utils.VectorSet.ops 64) 3 ⟨[1, 1, 0], [1, 2]⟩
      ⟨[-2, 0, 4], [0, 2]⟩ 0 (by decide) (by decide) rfl rfl).2.2.2.2.2.1⟩

/-! ## The 2nd Chernikov rule (C28) -/

namespace Utils

theorem Vector.getElem?_erase {α : Type} (v : List α) (i j : Nat) (hi : i < v.length)
    (hj : j < v.length - 1) :
    (Vector.erase v i)[j]? = if j = i then v[v.length - 1]? else v[j]? := by
  unfold Vector.erase
  cases hl : v.getLast? with
  | none =>
    have : v = [] := by simpa using hl
    subst this
    simp at hi
  | some last =>
    have hlast : v[v.length - 1]? = some last := by
      rw [List.getLast?_eq_getElem?] at hl
      exact hl
    simp only [List.getElem?_dropLast, List.length_set, List.getElem?_set, hj, if_true]
    by_cases h : i = j
    · subst h
      simp [hi, hlast]
    · have h2 : ¬ j = i := fun e => h e.symm
      simp [h, h2]

theorem Vector.take_erase {α : Type} (v : List α) (i n : Nat) (hn : n ≤ i)
    (hi : i < v.length) : (Vector.erase v i).take n = v.take n := by
  apply List.ext_getElem?
  intro k
  by_cases hk : k < n
  · rw [List.getElem?_take_of_lt hk, List.getElem?_take_of_lt hk,
      Vector.getElem?_erase_lt v i k (by omega) hi]
  · rw [List.getElem?_take_eq_none (by omega), List.getElem?_take_eq_none (by omega)]

end Utils

namespace Elimination

open Utils

theorem indexAt_congr {S : Type} (ops : SetOps S) (l1 l2 : List (Inequality S)) (i j : Nat)
    (h : l1[i]? = l2[j]?) : indexAt ops l1 i = indexAt ops l2 j := by
  unfold indexAt
  rw [List.get?_eq_getElem?, List.get?_eq_getElem?, h]

theorem redundantVsZero_false {S : Type} (ops : SetOps S) (l : List (Inequality S))
    (i nz : Nat) :
    redundantVsZero ops l i nz = false
      ↔ ∀ j < nz, ops.isSubsetOf (indexAt ops l i) (indexAt ops l j) = false := by
  unfold redundantVsZero
  rw [List.any_eq_false]
  constructor
  · intro h j hj
    have := h j (List.mem_range.mpr hj)
    simpa using this
  · intro h j hj
    rw [h j (List.mem_range.mp hj)]
    simp

theorem redundantVsOthers_false {S : Type} (ops : SetOps S) (l : List (Inequality S))
    (i startIdx : Nat) :
    redundantVsOthers ops l i startIdx = false
      ↔ ∀ j, startIdx ≤ j → j < l.length → j ≠ i →
          ops.isSubsetOf (indexAt ops l i) (indexAt ops l j) = false := by
  unfold redundantVsOthers
  rw [List.any_eq_false]
  constructor
  · intro h j h1 h2 h3
    have := h j (by rw [List.mem_range']; exact ⟨j - startIdx, by omega, by omega⟩)
    simpa [h3] using this
  · intro h j hj
    rw [List.mem_range'] at hj
    obtain ⟨t, ht, rfl⟩ := hj
    rw [Nat.one_mul]
    by_cases h3 : startIdx + t = i
    · simp [h3]
    · rw [h (startIdx + t) (by omega) (by omega) h3]
      simp

/-- The entry at position `k` is redundant neither against the first `nz`
entries nor against another entry from position `nz` on. -/
theorem notRedundant_erase {S : Type} (ops : SetOps S) (nz : Nat) (l : List (Inequality S))
    (i k : Nat) (hi1 : nz ≤ i) (hi2 : i < l.length) (hk : k < i)
    (h0 : redundantVsZero ops l k nz = false) (h1 : redundantVsOthers ops l k nz = false) :
    redundantVsZero ops (Vector.erase l i) k nz = false
    ∧ redundantVsOthers ops (Vector.erase l i) k nz = false := by
  rw [redundantVsZero_false] at h0 ⊢
  rw [redundantVsOthers_false] at h1 ⊢
  have hkk : indexAt ops (Vector.erase l i) k = indexAt ops l k :=
    indexAt_congr ops _ _ _ _ (Vector.getElem?_erase_lt l i k hk hi2)
  have hlen := Vector.length_erase l i hi2
  constructor
  · intro j hj
    rw [hkk, indexAt_congr ops _ l j j (Vector.getElem?_erase_lt l i j (by omega) hi2)]
    exact h0 j hj
  · intro j hj1 hj2 hj3
    rw [hlen] at hj2
    rw [hkk]
    by_cases hji : j = i
    · have e := Vector.getElem?_erase l i j hi2 hj2
      rw [if_pos hji] at e
      rw [indexAt_congr ops _ l j (l.length - 1) e]
      exact h1 (l.length - 1) (by omega) (by omega) (by omega)
    · have e := Vector.getElem?_erase l i j hi2 hj2
      rw [if_neg hji] at e
      rw [indexAt_congr ops _ l j j e]
      exact h1 j hj1 (by omega) hj3

theorem secondRuleLoop_spec {S : Type} (ops : SetOps S) (nz : Nat) :
    ∀ (fuel i : Nat) (l : List (Inequality S)),
      l.length - i ≤ fuel → nz ≤ i →
      (∀ k, nz ≤ k → k < i →
        redundantVsZero ops l k nz = false ∧ redundantVsOthers ops l k nz = false) →
      (secondRuleLoop ops nz nz fuel i l).take nz = l.take nz
      ∧ (∀ k, nz ≤ k → k < (secondRuleLoop ops nz nz fuel i l).length →
          redundantVsZero ops (secondRuleLoop ops nz nz fuel i l) k nz = false
          ∧ redundantVsOthers ops (secondRuleLoop ops nz nz fuel i l) k nz = false)
      ∧ Relation.ReflTransGen (PruneStep ops nz nz) l (secondRuleLoop ops nz nz fuel i l) := by
  intro fuel
  induction fuel with
  | zero =>
    intro i l hf _ hinv
    simp only [secondRuleLoop]
    exact ⟨trivial, fun k hk1 hk2 => hinv k hk1 (by omega), Relation.ReflTransGen.refl⟩
  | succ n ih =>
    intro i l hf hi hinv
    simp only [secondRuleLoop]
    by_cases hlt : i < l.length
    · rw [if_pos hlt]
      have hlen := Vector.length_erase l i hlt
      have herase : ∀ k, nz ≤ k → k < i →
          redundantVsZero ops (Vector.erase l i) k nz = false
          ∧ redundantVsOthers ops (Vector.erase l i) k nz = false := fun k hk1 hk2 =>
        notRedundant_erase ops nz l i k hi hlt hk2 (hinv k hk1 hk2).1 (hinv k hk1 hk2).2
      by_cases hz : redundantVsZero ops l i nz = true
      · rw [if_pos hz]
        obtain ⟨r1, r2, r3⟩ := ih i (Vector.erase l i) (by omega) hi herase
        refine ⟨r1.trans (Vector.take_erase l i nz hi hlt), r2, ?_⟩
        exact Relation.ReflTransGen.head (PruneStep.erase l i hi hlt (Or.inl hz)) r3
      · rw [if_neg hz]
        by_cases ho : redundantVsOthers ops l i nz = true
        · rw [if_pos ho]
          obtain ⟨r1, r2, r3⟩ := ih i (Vector.erase l i) (by omega) hi herase
          refine ⟨r1.trans (Vector.take_erase l i nz hi hlt), r2, ?_⟩
          exact Relation.ReflTransGen.head (PruneStep.erase l i hi hlt (Or.inr ho)) r3
        · rw [if_neg ho]
          apply ih (i + 1) l (by omega) (by omega)
          intro k hk1 hk2
          by_cases hki : k = i
          · subst hki
            exact ⟨by simpa using hz, by simpa using ho⟩
          · exact hinv k hk1 (by omega)
    · rw [if_neg hlt]
      exact ⟨rfl, fun k hk1 hk2 => hinv k hk1 (by omega), Relation.ReflTransGen.refl⟩

end Elimination

/-- C28: `checkSecondChernikovRule(numZero, numZero)` on a list with at least
`numZero` entries keeps the first `numZero` entries in place; in the result no
entry `i` from position `numZero` on has a complementary index that
`isSubsetOf` that of an entry `j < numZero` or of another entry `j ≥ numZero`;
every entry of the result is an entry of the input; and the result is reached
from the input by deletions each of which erases an entry that, in the list at
that time, is redundant against one of the first `numZero` entries or against
another entry from position `numZero` on. -/
theorem second_rule_enumeration {S : Type} (ops : Utils.SetOps S) (numZero : Nat)
    (ineqs : List (Elimination.Inequality S)) (h : numZero ≤ ineqs.length) :
    (Elimination.checkSecondChernikovRule ops numZero numZero ineqs).take numZero
      = ineqs.take numZero
    ∧ numZero ≤ (Elimination.checkSecondChernikovRule ops numZero numZero ineqs).length
    ∧ (∀ i j, numZero ≤ i →
        i < (Elimination.checkSecondChernikovRule ops numZero numZero ineqs).length →
        j < (Elimination.checkSecondChernikovRule ops numZero numZero ineqs).length → j ≠ i →
        ops.isSubsetOf
          (Elimination.indexAt ops
            (Elimination.checkSecondChernikovRule ops numZero numZero ineqs) i)
          (Elimination.indexAt ops
            (Elimination.checkSecondChernikovRule ops numZero numZero ineqs) j) = false)
    ∧ (∀ q ∈ Elimination.checkSecondChernikovRule ops numZero numZero ineqs, q ∈ ineqs)
    ∧ Relation.ReflTransGen (Elimination.PruneStep ops numZero numZero) ineqs
        (Elimination.checkSecondChernikovRule ops numZero numZero ineqs) := by
  obtain ⟨h1, h2, h3⟩ := Elimination.secondRuleLoop_spec ops numZero
    (ineqs.length - numZero) numZero ineqs (Nat.le_refl _) (Nat.le_refl _)
    (fun k hk1 hk2 => absurd hk2 (by omega))
  have hlen : numZero ≤ (Elimination.checkSecondChernikovRule ops numZero numZero ineqs).length := by
    have := congrArg List.length h1
    simp only [List.length_take] at this
    unfold Elimination.checkSecondChernikovRule
    omega
  refine ⟨h1, hlen, ?_, Elimination.checkSecondChernikovRule_subset ops numZero numZero ineqs, h3⟩
  intro i j hi1 hi2 hj1 hj2
  obtain ⟨hz, ho⟩ := h2 i hi1 hi2
  by_cases hj : j < numZero
  · exact (Elimination.redundantVsZero_false ops _ i numZero).mp hz j hj
  · exact (Elimination.redundantVsOthers_false ops _ i numZero).mp ho j (by omega) hj1 hj2

theorem second_rule_enumeration_witness :
    1 ≤ prunedSystem.length
    ∧ (Elimination.checkSecondChernikovRule (Utils.VectorSet.ops 64) 1 1 prunedSystem).map
        (fun q => (q.normal, q.complementaryIndex)) = [([1, 0], [0, 1]), ([1, 2], [2, 3])]
    ∧ (Elimination.checkSecondChernikovRule (Utils.VectorSet.ops 64) 1 1 prunedSystem).take 1
        = prunedSystem.take 1 :=
  ⟨by decide, by decide,
    (second_rule_enumeration (Utils.VectorSet.ops 64) 1 prunedSystem (by decide)).1⟩

/-! ## The cell manager (C25) -/

namespace Utils

/-- Invariant of a manager together with the cells held by its client. -/
theorem MemoryManager.newCell_inv (m : MemoryManager) (held : List Cell)
    (hn : 1 ≤ m.numNewCells)
    (hd : (held ++ m.unusedCells).Nodup)
    (hb : ∀ c ∈ held ++ m.unusedCells, c.pool < m.allocatedMemory.length)
    (hc : held.length + m.unusedCells.length = m.numNewCells * m.allocatedMemory.length) :
    m.newCell.1 ∉ held
    ∧ m.newCell.2.numNewCells = m.numNewCells
    ∧ ((held ++ [m.newCell.1]) ++ m.newCell.2.unusedCells).Nodup
    ∧ (∀ c ∈ (held ++ [m.newCell.1]) ++ m.newCell.2.unusedCells,
        c.pool < m.newCell.2.allocatedMemory.length)
    ∧ (held ++ [m.newCell.1]).length + m.newCell.2.unusedCells.length
        = m.newCell.2.numNewCells * m.newCell.2.allocatedMemory.length := by
  unfold MemoryManager.newCell
  cases hl : m.unusedCells.getLast? with
  | some result =>
    have hsplit : m.unusedCells.dropLast ++ [result] = m.unusedCells :=
      List.dropLast_append_getLast? result hl
    have hperm : ((held ++ [result]) ++ m.unusedCells.dropLast).Perm (held ++ m.unusedCells) := by
      rw [List.append_assoc]
      apply List.Perm.append_left
      conv_rhs => rw [← hsplit]
      exact List.perm_append_comm
    have hlen := congrArg List.length hsplit
    simp only [List.length_append, List.length_singleton] at hlen
    refine ⟨?_, rfl, hperm.nodup_iff.mpr hd, ?_, ?_⟩
    · intro hmem
      have : result ∈ m.unusedCells := List.mem_of_getLast?_eq_some hl
      exact (List.nodup_append.mp hd).2.2 hmem this
    · intro c hcm
      exact hb c (hperm.subset hcm)
    · simp only [List.length_append, List.length_singleton]
      omega
  | none =>
    have hnil : m.unusedCells = [] := by simpa using hl
    simp only [hnil, List.append_nil, List.nil_append, List.length_nil, Nat.add_zero]
      at hd hb hc ⊢
    have hfresh : ∀ c ∈ held, c.pool ≠ m.allocatedMemory.length :=
      fun c hcm => Nat.ne_of_lt (hb c hcm)
    refine ⟨?_, trivial, ?_, ?_, ?_⟩
    · intro hmem
      exact hfresh _ hmem rfl
    · rw [List.append_assoc]
      refine List.nodup_append.mpr ⟨hd, ?_, ?_⟩
      · rw [List.singleton_append, List.nodup_cons]
        constructor
        · intro hmem
          simp only [List.mem_map, List.mem_reverse, List.mem_range'_1] at hmem
          obtain ⟨i, hi, he⟩ := hmem
          have := congrArg Cell.index he
          simp only at this
          omega
        · apply List.Nodup.map
          · intro a b hab
            exact congrArg Cell.index hab
          · exact List.nodup_reverse.mpr (List.nodup_range' 1 _)
      · intro c hc1 hc2
        have h1 := hfresh c hc1
        rcases List.mem_append.mp hc2 with h2 | h2
        · rw [List.mem_singleton] at h2
          exact h1 (by rw [h2])
        · simp only [List.mem_map] at h2
          obtain ⟨i, _, he⟩ := h2
          exact h1 (by rw [← he])
    · intro c hcm
      simp only [List.length_append, List.length_singleton]
      rcases List.mem_append.mp hcm with h1 | h1
      · rcases List.mem_append.mp h1 with h2 | h2
        · have := hb c h2
          omega
        · rw [List.mem_singleton] at h2
          rw [h2]
          simp
      · simp only [List.mem_map] at h1
        obtain ⟨i, _, he⟩ := h1
        rw [← he]
        simp
    · simp only [List.length_append, List.length_singleton, List.length_map,
        List.length_reverse, List.length_range']
      rw [Nat.mul_add, Nat.mul_one]
      omega

theorem MemoryManager.deleteCell_inv (m : MemoryManager) (held : List Cell) (c : Cell)
    (hmem : c ∈ held)
    (hd : (held ++ m.unusedCells).Nodup)
    (hb : ∀ c ∈ held ++ m.unusedCells, c.pool < m.allocatedMemory.length)
    (hc : held.length + m.unusedCells.length = m.numNewCells * m.allocatedMemory.length) :
    (held.erase c ++ (m.deleteCell (some c)).unusedCells).Nodup
    ∧ (∀ x ∈ held.erase c ++ (m.deleteCell (some c)).unusedCells,
        x.pool < (m.deleteCell (some c)).allocatedMemory.length)
    ∧ (held.erase c).length + (m.deleteCell (some c)).unusedCells.length
        = (m.deleteCell (some c)).numNewCells * (m.deleteCell (some c)).allocatedMemory.length := by
  simp only [MemoryManager.deleteCell]
  have hperm : (held.erase c ++ (m.unusedCells ++ [c])).Perm (held ++ m.unusedCells) := by
    have h1 : (held.erase c ++ (m.unusedCells ++ [c])).Perm
        (c :: (held.erase c ++ m.unusedCells)) := by
      rw [← List.append_assoc]
      exact List.perm_append_singleton c _
    refine h1.trans ?_
    rw [← List.cons_append]
    exact List.Perm.append_right _ (List.perm_cons_erase hmem).symm
  refine ⟨hperm.nodup_iff.mpr hd, fun x hx => hb x (hperm.subset hx), ?_⟩
  have := List.length_erase_of_mem hmem
  have hpos : 0 < held.length := List.length_pos_of_mem hmem
  simp only [List.length_append, List.length_singleton]
  omega

theorem MemoryManager.client_inv : ∀ (ops : List MemOp) (m : MemoryManager) (held : List Cell)
    (r : MemoryManager × List Cell),
    1 ≤ m.numNewCells →
    (held ++ m.unusedCells).Nodup →
    (∀ c ∈ held ++ m.unusedCells, c.pool < m.allocatedMemory.length) →
    held.length + m.unusedCells.length = m.numNewCells * m.allocatedMemory.length →
    MemoryManager.client ops (m, held) = some r →
    r.1.numNewCells = m.numNewCells
    ∧ (r.2 ++ r.1.unusedCells).Nodup
    ∧ (∀ c ∈ r.2 ++ r.1.unusedCells, c.pool < r.1.allocatedMemory.length)
    ∧ r.2.length + r.1.unusedCells.length = r.1.numNewCells * r.1.allocatedMemory.length := by
  intro ops
  induction ops with
  | nil =>
    intro m held r _ hd hb hc hr
    simp only [MemoryManager.client, Option.some.injEq] at hr
    subst hr
    exact ⟨rfl, hd, hb, hc⟩
  | cons op ops ih =>
    intro m held r hn hd hb hc hr
    cases op with
    | alloc =>
      simp only [MemoryManager.client] at hr
      obtain ⟨_, h2, h3, h4, h5⟩ := MemoryManager.newCell_inv m held hn hd hb hc
      have := ih m.newCell.2 (held ++ [m.newCell.1]) r (by rw [h2]; exact hn) h3 h4 h5 hr
      rw [h2] at this
      exact this
    | free c =>
      simp only [MemoryManager.client] at hr
      split_ifs at hr with hmem
      obtain ⟨h3, h4, h5⟩ := MemoryManager.deleteCell_inv m held c hmem hd hb hc
      exact ih (m.deleteCell (some c)) (held.erase c) r hn h3 h4 h5 hr
    | freeNull =>
      simp only [MemoryManager.client] at hr
      exact ih m held r hn hd hb hc hr

end Utils

/-- C25: let a client start with a fresh manager (slabs of 100 cells) and
perform any operations in which it deletes only cells it holds, ending in the
manager state `m` with the cells `held`. In `m`, `newCell` returns the last
cell of the free list and removes it when the free list is non-empty, and
otherwise allocates a pool, returns its cell 0 and puts its other 99 cells on
the free list; a cell that has just been deleted is the next one returned.
The cell returned by `newCell` is not held, no cell is held twice, the held
cells and the free cells together are `100 *` the number of pools, and the
leak condition of the destructor holds exactly when some cell is held. -/
theorem memoryManager_pool (ops : List Utils.MemOp) (m : Utils.MemoryManager)
    (held : List Utils.Cell)
    (h : Utils.MemoryManager.client ops (Utils.MemoryManager.create 100, []) = some (m, held)) :
    (∀ c, m.unusedCells.getLast? = some c →
        m.newCell = (c, { m with unusedCells := m.unusedCells.dropLast }))
    ∧ (m.unusedCells = [] →
        m.newCell.1 = ⟨m.allocatedMemory.length, 0⟩
        ∧ m.newCell.2.allocatedMemory.length = m.allocatedMemory.length + 1
        ∧ m.newCell.2.unusedCells
            = (List.range' 1 99).reverse.map (fun i => Utils.Cell.mk m.allocatedMemory.length i))
    ∧ (∀ c, (m.deleteCell (some c)).newCell.1 = c
        ∧ (m.deleteCell (some c)).newCell.2 = m)
    ∧ m.newCell.1 ∉ held
    ∧ held.Nodup
    ∧ (∀ c ∈ held, c ∉ m.unusedCells)
    ∧ m.unusedCells.Nodup
    ∧ held.length + m.unusedCells.length = 100 * m.allocatedMemory.length
    ∧ (m.leakWarning = true ↔ held ≠ []) := by
  obtain ⟨h1, h2, h3, h4⟩ := Utils.MemoryManager.client_inv ops (Utils.MemoryManager.create 100)
    [] (m, held) (by decide) (by simp [Utils.MemoryManager.create])
    (by simp [Utils.MemoryManager.create]) (by simp [Utils.MemoryManager.create]) h
  have hn : m.numNewCells = 100 := h1
  simp only at h2 h3 h4
  rw [hn] at h4
  obtain ⟨n1, _, _, _, _⟩ := Utils.MemoryManager.newCell_inv m held (by omega) h2 h3
    (by rw [hn]; exact h4)
  refine ⟨?_, ?_, ?_, n1, (List.nodup_append.mp h2).1,
    fun c hc1 hc2 => (List.nodup_append.mp h2).2.2 hc1 hc2, (List.nodup_append.mp h2).2.1,
    h4, ?_⟩
  · intro c hc
    unfold Utils.MemoryManager.newCell
    rw [hc]
  · intro hnil
    unfold Utils.MemoryManager.newCell
    simp [hnil, hn]
  · intro c
    unfold Utils.MemoryManager.newCell Utils.MemoryManager.deleteCell
    simp
  · unfold Utils.MemoryManager.leakWarning
    rw [hn, decide_eq_true_eq]
    constructor
    · intro hne hnil
      rw [hnil] at h4
      simp only [List.length_nil, Nat.zero_add] at h4
      omega
    · intro hne heq
      have : 0 < held.length := List.length_pos.mpr hne
      omega

theorem memoryManager_pool_witness :
    Utils.MemoryManager.client poolOps (Utils.MemoryManager.create 100, [])
      = some (⟨100, (List.range' 2 98).reverse.map (fun i => Utils.Cell.mk 0 i), [0]⟩,
          [⟨0, 1⟩, ⟨0, 0⟩])
    ∧ ([⟨0, 1⟩, ⟨0, 0⟩] : List Utils.Cell).length + ((List.range' 2 98).reverse.map
        (fun i => Utils.Cell.mk 0 i)).length = 100 * [0].length :=
  ⟨by decide,
    (memoryManager_pool poolOps
      ⟨100, (List.range' 2 98).reverse.map (fun i => Utils.Cell.mk 0 i), [0]⟩
      [⟨0, 1⟩, ⟨0, 0⟩] (by decide)).2.2.2.2.2.2.2.1⟩

/-! ## Soundness of the elimination without overflow -/

namespace Elimination

open Utils

theorem run_eq_workingList {t : Utils.Coeff} {S : Type} (ops : SetOps S) (params : Parameters) (rnd : Nat → Nat)
    (a : Matrix) (vars : List Nat) :
    run t ops params rnd a vars
      = ⟨a.ncols, (workingList t ops params rnd a vars vars.length).map
          (fun q => q.normal.take a.ncols)⟩ := rfl

theorem elimination_eq_run {t : Utils.Coeff} (params : Parameters) (rnd : Nat → Nat) (a : Matrix)
    (vars : List Nat) :
    elimination t params rnd a vars = run t (selectedOps a.nrows) params rnd a vars := by
  unfold elimination selectedOps
  split_ifs <;> rfl

theorem classifyLoop_signs {S : Type} (e : Nat) (P : Inequality S → Prop) :
    ∀ (fuel i : Nat) (ineqs plus minus : List (Inequality S)),
      (∀ q ∈ ineqs, P q) → (∀ q ∈ plus, P q ∧ 0 < q.normal.getD e 0) →
      (∀ q ∈ minus, P q ∧ q.normal.getD e 0 < 0) →
      (∀ q ∈ (classifyLoop e fuel i (ineqs, plus, minus)).1, P q)
      ∧ (∀ q ∈ (classifyLoop e fuel i (ineqs, plus, minus)).2.1, P q ∧ 0 < q.normal.getD e 0)
      ∧ (∀ q ∈ (classifyLoop e fuel i (ineqs, plus, minus)).2.2,
          P q ∧ q.normal.getD e 0 < 0) := by
  intro fuel
  induction fuel with
  | zero =>
    intro i ineqs plus minus hi hp hm
    exact ⟨hi, hp, hm⟩
  | succ n ih =>
    intro i ineqs plus minus hi hp hm
    simp only [classifyLoop]
    cases hq : ineqs.get? i with
    | none => exact ⟨hi, hp, hm⟩
    | some q =>
      have hqm : q ∈ ineqs :=
        List.mem_iff_getElem?.mpr ⟨i, by rw [← List.get?_eq_getElem?]; exact hq⟩
      have hi2 : ∀ x ∈ Vector.erase ineqs i, P x := fun x hx => hi x (Vector.mem_of_mem_erase hx)
      simp only
      split_ifs with h0 h1
      · exact ih (i + 1) ineqs plus minus hi hp hm
      · apply ih i _ _ _ hi2 _ hm
        intro x hx
        rcases List.mem_append.mp hx with h | h
        · exact hp x h
        · rw [List.mem_singleton.mp h]
          exact ⟨hi q hqm, h1⟩
      · apply ih i _ _ _ hi2 hp
        intro x hx
        rcases List.mem_append.mp hx with h | h
        · exact hm x h
        · rw [List.mem_singleton.mp h]
          refine ⟨hi q hqm, ?_⟩
          omega

theorem getD_take_of_lt (v : List Int) (n k : Nat) (h : k < n) :
    (v.take n).getD k 0 = v.getD k 0 := by
  simp only [List.getD_eq_getElem?_getD]
  rw [List.getElem?_take_of_lt h]

theorem length_normalizeIntVector {t : Utils.Coeff} (v : List Int) : (normalizeIntVector t v).length = v.length := by
  unfold normalizeIntVector
  rw [List.length_map]

/-- Soundness of a set representation, as far as the index invariant needs
it. -/
theorem isCombination_initial {S : Type} (ops : SetOps S) (a : Matrix) (i : Nat)
    (hi : i < a.nrows)
    (hs : i ∉ ops.toVector
      (initialInequality Utils.Coeff.exact ops a.ncols a.nrows true i (a.row i)).complementaryIndex) :
    IsCombination ops a (initialInequality Utils.Coeff.exact ops a.ncols a.nrows true i (a.row i)) := by
  have hg := gcdVec_pos ((a.row i).take a.ncols)
  have hgq : (0 : ℚ) < (gcdVec Utils.Coeff.exact ((a.row i).take a.ncols) : ℚ) := by exact_mod_cast hg
  refine ⟨fun j => if j = i then 1 / (gcdVec Utils.Coeff.exact ((a.row i).take a.ncols) : ℚ) else 0, ?_, ?_, ?_⟩
  · intro j
    by_cases h : j = i
    · simp only [h, if_true]
      positivity
    · simp [h]
  · intro j hj
    have : j ≠ i := fun e => hs (e ▸ hj)
    simp [this]
  · intro k hk
    rw [Finset.sum_eq_single i]
    · simp only [if_true]
      have e1 : (initialInequality Utils.Coeff.exact ops a.ncols a.nrows true i (a.row i)).normal
          = normalizeIntVector Utils.Coeff.exact ((a.row i).take a.ncols) := by
        simp [initialInequality, newInequality, normalize]
      have e2 := getD_normalizeIntVector_mul ((a.row i).take a.ncols) k
      rw [getD_take_of_lt _ _ _ hk] at e2
      rw [e1, ← e2]
      push_cast
      field_simp
    · intro j _ hji
      simp [hji]
    · intro h
      exact absurd (Finset.mem_range.mpr hi) h

theorem isCombination_pair {S : Type} (ops : SetOps S) (a : Matrix)
    (hinter : ∀ (x y : S) (j : Nat), j ∈ ops.toVector (ops.inter x y) →
      j ∈ ops.toVector x ∧ j ∈ ops.toVector y)
    (p m : Inequality S) (v : Nat)
    (hp : IsCombination ops a p) (hm : IsCombination ops a m)
    (hlp : p.normal.length = a.ncols) (hlm : m.normal.length = a.ncols)
    (hpv : 0 < p.normal.getD v 0) (hmv : m.normal.getD v 0 < 0) :
    IsCombination ops a (newInequalityFromPair Utils.Coeff.exact ops a.ncols true p m v)
    ∧ (newInequalityFromPair Utils.Coeff.exact ops a.ncols true p m v).normal.length = a.ncols := by
  obtain ⟨cp, hp1, hp2, hp3⟩ := hp
  obtain ⟨cm, hm1, hm2, hm3⟩ := hm
  have hlen : (List.zipWith
      (fun mi pl => p.normal.getD v 0 * mi - m.normal.getD v 0 * pl) m.normal p.normal).length
      = a.ncols := by
    rw [List.length_zipWith, hlp, hlm, Nat.min_self]
  have hn : (newInequalityFromPair Utils.Coeff.exact ops a.ncols true p m v).normal
      = normalizeIntVector Utils.Coeff.exact (List.zipWith
          (fun mi pl => p.normal.getD v 0 * mi - m.normal.getD v 0 * pl) m.normal p.normal) := by
    simp only [newInequalityFromPair, normalize, if_true, Coeff.sub_exact, Coeff.mul_exact]
    rw [List.take_of_length_le (by omega)]
  have hg := gcdVec_pos (List.zipWith
      (fun mi pl => p.normal.getD v 0 * mi - m.normal.getD v 0 * pl) m.normal p.normal)
  have e := getD_normalizeIntVector_mul (List.zipWith
    (fun mi pl => p.normal.getD v 0 * mi - m.normal.getD v 0 * pl) m.normal p.normal)
  rw [← hn] at e
  generalize gcdVec Utils.Coeff.exact (List.zipWith
      (fun mi pl => p.normal.getD v 0 * mi - m.normal.getD v 0 * pl) m.normal p.normal) = g
    at hg e
  have hgq : (0 : ℚ) < (g : ℚ) := by exact_mod_cast hg
  have hpq : (0 : ℚ) < (p.normal.getD v 0 : ℚ) := by exact_mod_cast hpv
  have hmq : (m.normal.getD v 0 : ℚ) < 0 := by exact_mod_cast hmv
  constructor
  · refine ⟨fun j => (p.normal.getD v 0 : ℚ) / g * cm j + (-(m.normal.getD v 0 : ℚ)) / g * cp j,
      ?_, ?_, ?_⟩
    · intro j
      have h1 := hp1 j
      have h2 := hm1 j
      have h3 : (0 : ℚ) ≤ -(m.normal.getD v 0 : ℚ) := by linarith
      positivity
    · intro j hj
      have := hinter _ _ j hj
      simp only [newInequalityFromPair] at this
      show (p.normal.getD v 0 : ℚ) / g * cm j + (-(m.normal.getD v 0 : ℚ)) / g * cp j = 0
      rw [hp2 j this.1, hm2 j this.2]
      simp
    · intro k hk
      have ek := e k
      rw [pairBlock_getD _ _ _ _ _ (by omega) (by omega)] at ek
      have ekq : ((newInequalityFromPair Utils.Coeff.exact ops a.ncols true p m v).normal.getD k 0 : ℚ) * g
          = (p.normal.getD v 0 : ℚ) * (m.normal.getD k 0 : ℚ)
            - (m.normal.getD v 0 : ℚ) * (p.normal.getD k 0 : ℚ) := by exact_mod_cast ek
      have hsum : (Finset.range a.nrows).sum (fun j =>
          ((p.normal.getD v 0 : ℚ) / g * cm j + (-(m.normal.getD v 0 : ℚ)) / g * cp j)
            * ((a.row j).getD k 0 : ℚ))
          = (p.normal.getD v 0 : ℚ) / g * (m.normal.getD k 0 : ℚ)
            + (-(m.normal.getD v 0 : ℚ)) / g * (p.normal.getD k 0 : ℚ) := by
        rw [hp3 k hk, hm3 k hk, Finset.mul_sum, Finset.mul_sum, ← Finset.sum_add_distrib]
        apply Finset.sum_congr rfl
        intro j _
        ring
      rw [hsum, eq_div_of_mul_eq (ne_of_gt hgq) ekq]
      ring
  · rw [hn, length_normalizeIntVector, hlen]

end Elimination

namespace Utils

theorem VectorSet.mem_of_mem_interLoop : ∀ (fuel : Nat) (a b : List Nat) (x : Nat),
    x ∈ VectorSet.interLoop fuel a b → x ∈ a ∧ x ∈ b := by
  intro fuel
  induction fuel with
  | zero => intro a b x hx; simp [VectorSet.interLoop] at hx
  | succ n ih =>
    intro a b x hx
    cases a with
    | nil => simp [VectorSet.interLoop] at hx
    | cons a0 as =>
      cases b with
      | nil => simp [VectorSet.interLoop] at hx
      | cons b0 bs =>
        simp only [VectorSet.interLoop] at hx
        split_ifs at hx with h1 h2
        · have := ih _ _ x hx
          exact ⟨List.mem_cons_of_mem _ this.1, this.2⟩
        · have := ih _ _ x hx
          exact ⟨this.1, List.mem_cons_of_mem _ this.2⟩
        · have e : a0 = b0 := by omega
          rcases List.mem_cons.mp hx with h | h
          · subst h
            exact ⟨List.mem_cons_self _ _, e ▸ List.mem_cons_self _ _⟩
          · have := ih _ _ x h
            exact ⟨List.mem_cons_of_mem _ this.1, List.mem_cons_of_mem _ this.2⟩

theorem VectorSet.mem_add (w : Nat) (s : List Nat) (x y : Nat) (h : y ∈ VectorSet.add w s x) :
    y ∈ s ∨ y = x % 2 ^ w := by
  unfold VectorSet.add at h
  simp only [List.mem_append, List.mem_reverse, List.mem_singleton] at h
  rcases h with (h | h) | h
  · exact Or.inl (List.mem_reverse.mp ((List.dropWhile_sublist _).subset h))
  · exact Or.inr h
  · exact Or.inl (List.mem_reverse.mp ((List.takeWhile_sublist _).subset h))

end Utils

namespace Elimination

open Utils

theorem selectedOps_inter (n : Nat) (x y : List Nat) (j : Nat)
    (h : j ∈ (selectedOps n).toVector ((selectedOps n).inter x y)) :
    j ∈ (selectedOps n).toVector x ∧ j ∈ (selectedOps n).toVector y := by
  unfold selectedOps at h ⊢
  split_ifs at h ⊢
  · exact (BitFieldSet.mem_toVector_inter 32 x y j).mp h
  · exact (BitFieldSet.mem_toVector_inter 64 x y j).mp h
  · exact (BitFieldSet.mem_toVector_inter 96 x y j).mp h
  · exact (BitFieldSet.mem_toVector_inter 128 x y j).mp h
  · exact VectorSet.mem_of_mem_interLoop _ x y j h

theorem eliminationStep_isCombination {S : Type} (ops : SetOps S) (params : Parameters)
    (a : Matrix) (hint : params.intArithmetic = true)
    (hinter : ∀ (x y : S) (j : Nat), j ∈ ops.toVector (ops.inter x y) →
      j ∈ ops.toVector x ∧ j ∈ ops.toVector y)
    (st : List (Inequality S) × List Nat) (step : Nat)
    (h : ∀ q ∈ st.1, IsCombination ops a q ∧ q.normal.length = a.ncols) :
    ∀ q ∈ (eliminationStep Utils.Coeff.exact ops params a.ncols a.nrows st step).1,
      IsCombination ops a q ∧ q.normal.length = a.ncols := by
  have hcl := classifyLoop_signs (selectNext params.eliminationOrdering st.2 st.1 step).2
    (fun q => IsCombination ops a q ∧ q.normal.length = a.ncols) st.1.length 0 st.1 [] [] h
    (by simp) (by simp)
  obtain ⟨hz, hp, hm⟩ := hcl
  have hcr := createInequalities_spec ops params a.ncols a.nrows step
    (selectNext params.eliminationOrdering st.2 st.1 step).2
    (classifyLoop (selectNext params.eliminationOrdering st.2 st.1 step).2 st.1.length 0
      (st.1, [], [])).1.length
    (fun q => IsCombination ops a q ∧ q.normal.length = a.ncols)
    (classifyLoop (selectNext params.eliminationOrdering st.2 st.1 step).2 st.1.length 0
      (st.1, [], [])).2.2
    (classifyLoop (selectNext params.eliminationOrdering st.2 st.1 step).2 st.1.length 0
      (st.1, [], [])).2.1
    (classifyLoop (selectNext params.eliminationOrdering st.2 st.1 step).2 st.1.length 0
      (st.1, [], [])).1
    (by
      intro p hpm m hmm
      rw [hint]
      exact isCombination_pair ops a hinter p m _ (hp p hpm).1.1 (hm m hmm).1.1
        (hp p hpm).1.2 (hm m hmm).1.2 (hp p hpm).2 (hm m hmm).2)
    hz
  intro q hq
  unfold eliminationStep at hq
  simp only at hq
  split_ifs at hq
  · exact hcr q (checkSecondChernikovRule_subset _ _ _ _ q hq)
  · exact hcr q hq

theorem workingList_isCombination {S : Type} (ops : SetOps S) (params : Parameters)
    (rnd : Nat → Nat) (a : Matrix) (vars : List Nat) (hint : params.intArithmetic = true)
    (hw : ∀ r ∈ a.rows, r.length = a.ncols)
    (hinter : ∀ (x y : S) (j : Nat), j ∈ ops.toVector (ops.inter x y) →
      j ∈ ops.toVector x ∧ j ∈ ops.toVector y)
    (hinit : ∀ i < a.nrows, i ∉ ops.toVector
      (initialInequality Utils.Coeff.exact ops a.ncols a.nrows true i (a.row i)).complementaryIndex)
    (k : Nat) :
    ∀ q ∈ workingList Utils.Coeff.exact ops params rnd a vars k,
      IsCombination ops a q ∧ q.normal.length = a.ncols := by
  unfold workingList
  induction k with
  | zero =>
    intro q hq
    simp only [List.range_zero, List.foldl_nil, List.mem_map, List.mem_range] at hq
    obtain ⟨i, hi, rfl⟩ := hq
    rw [hint]
    refine ⟨isCombination_initial ops a i hi (hinit i hi), ?_⟩
    have hrow : (a.row i).length = a.ncols := by
      apply hw
      unfold Utils.Matrix.row
      rw [List.getD_eq_getElem?_getD, List.getElem?_eq_getElem hi]
      exact List.getElem_mem hi
    simp [initialInequality, newInequality, normalize, length_normalizeIntVector, hrow]
  | succ k ih =>
    rw [List.range_succ, List.foldl_append]
    simp only [List.foldl_cons, List.foldl_nil]
    exact eliminationStep_isCombination ops params a hint hinter _ k ih

end Elimination

namespace Utils

theorem BitFieldSet.testBit_getD_add (s : List Nat) (j k b : Nat)
    (hj : j / BitFieldSet.cellSizeBits < s.length) :
    Nat.testBit ((BitFieldSet.add s j).getD k 0) b
      = (Nat.testBit (s.getD k 0) b
        || decide (k = j / BitFieldSet.cellSizeBits ∧ b = j % BitFieldSet.cellSizeBits)) := by
  unfold BitFieldSet.add
  rw [List.getD_eq_getElem?_getD]
  by_cases hq : j / BitFieldSet.cellSizeBits = k
  · subst hq
    rw [List.getElem?_set_self hj]
    simp only [Option.getD_some]
    rw [Nat.testBit_or, Nat.one_shiftLeft, Nat.testBit_two_pow]
    by_cases hb : j % BitFieldSet.cellSizeBits = b
    · simp [hb]
    · have hb2 : ¬ b = j % BitFieldSet.cellSizeBits := fun e => hb e.symm
      simp [hb, hb2]
  · have hq2 : ¬ k = j / BitFieldSet.cellSizeBits := fun e => hq e.symm
    rw [List.getElem?_set_ne hq, ← List.getD_eq_getElem?_getD]
    simp [hq2]

theorem BitFieldSet.mem_toVector_add (maxPower : Nat) (s : List Nat) (j x : Nat)
    (hlen : s.length = BitFieldSet.numCells maxPower) (hj : j < maxPower) :
    x ∈ BitFieldSet.toVector maxPower (BitFieldSet.add s j)
      ↔ x ∈ BitFieldSet.toVector maxPower s ∨ x = j := by
  have hjk : j / BitFieldSet.cellSizeBits < s.length := by
    rw [hlen]
    apply Nat.div_lt_of_lt_mul
    exact Nat.lt_of_lt_of_le hj (BitFieldSet.le_numCells maxPower)
  rw [BitFieldSet.mem_toVector, BitFieldSet.mem_toVector, BitFieldSet.testBit_getD_add _ _ _ _ hjk]
  simp only [Bool.or_eq_true, decide_eq_true_eq]
  constructor
  · rintro ⟨h1, h2 | ⟨h3, h4⟩⟩
    · exact Or.inl ⟨h1, h2⟩
    · right
      have e1 := Nat.div_add_mod x BitFieldSet.cellSizeBits
      have e2 := Nat.div_add_mod j BitFieldSet.cellSizeBits
      rw [h3, h4] at e1
      omega
  · rintro (⟨h1, h2⟩ | h)
    · exact ⟨h1, Or.inl h2⟩
    · subst h
      exact ⟨hj, Or.inr ⟨rfl, rfl⟩⟩

theorem BitFieldSet.length_add (s : List Nat) (j : Nat) :
    (BitFieldSet.add s j).length = s.length := by
  simp [BitFieldSet.add]

theorem BitFieldSet.toVector_mk (maxPower x : Nat) :
    x ∉ BitFieldSet.toVector maxPower (BitFieldSet.mk maxPower) := by
  intro h
  have h2 := ((BitFieldSet.mem_toVector maxPower _ x).mp h).2
  have hz : (BitFieldSet.mk maxPower).getD (x / BitFieldSet.cellSizeBits) 0 = 0 := by
    unfold BitFieldSet.mk
    rw [List.getD_eq_getElem?_getD]
    by_cases hlt : x / BitFieldSet.cellSizeBits < BitFieldSet.numCells maxPower
    · rw [List.getElem?_eq_getElem (by simpa using hlt)]
      simp
    · rw [List.getElem?_eq_none (by simpa using hlt)]
      rfl
  rw [hz, Nat.zero_testBit] at h2
  cases h2

theorem VectorSet.mem_add_iff (w : Nat) (s : List Nat) (x y : Nat) :
    y ∈ VectorSet.add w s x ↔ y ∈ s ∨ y = x % 2 ^ w := by
  constructor
  · exact VectorSet.mem_add w s x y
  · intro h
    unfold VectorSet.add
    simp only [List.mem_append, List.mem_reverse, List.mem_singleton]
    rcases h with h | h
    · have hr : y ∈ s.reverse := List.mem_reverse.mpr h
      rw [← List.takeWhile_append_dropWhile (fun z => decide (z > x % 2 ^ w)) s.reverse] at hr
      rcases List.mem_append.mp hr with h1 | h1
      · exact Or.inr h1
      · exact Or.inl (Or.inl h1)
    · exact Or.inl (Or.inr h)

end Utils

namespace Elimination

open Utils

theorem foldl_add_mem {S : Type} (ops : SetOps S) (i n : Nat) (Inv : S → Prop)
    (hadd : ∀ s j, Inv s → j < n →
      Inv (ops.add s j) ∧ ∀ x, x ∈ ops.toVector (ops.add s j) ↔ x ∈ ops.toVector s ∨ x = j) :
    ∀ (js : List Nat) (s : S), Inv s → (∀ j ∈ js, j < n) →
      Inv (js.foldl (fun x j => if j ≠ i then ops.add x j else x) s)
      ∧ ∀ x, x ∈ ops.toVector (js.foldl (fun x j => if j ≠ i then ops.add x j else x) s)
          ↔ x ∈ ops.toVector s ∨ (x ∈ js ∧ x ≠ i) := by
  intro js
  induction js with
  | nil => intro s hs _; exact ⟨hs, fun x => by simp⟩
  | cons j js ih =>
    intro s hs hjs
    simp only [List.foldl_cons]
    have hj := hjs j (List.mem_cons_self _ _)
    have hjs2 : ∀ j' ∈ js, j' < n := fun j' hj' => hjs j' (List.mem_cons_of_mem _ hj')
    by_cases h : j ≠ i
    · rw [if_pos h]
      obtain ⟨a1, a2⟩ := hadd s j hs hj
      obtain ⟨i1, i2⟩ := ih (ops.add s j) a1 hjs2
      refine ⟨i1, fun x => ?_⟩
      rw [i2 x, a2 x, List.mem_cons]
      constructor
      · rintro ((h1 | h1) | ⟨h1, h2⟩)
        · exact Or.inl h1
        · exact Or.inr ⟨Or.inl h1, h1 ▸ h⟩
        · exact Or.inr ⟨Or.inr h1, h2⟩
      · rintro (h1 | ⟨h1 | h1, h2⟩)
        · exact Or.inl (Or.inl h1)
        · exact Or.inl (Or.inr h1)
        · exact Or.inr ⟨h1, h2⟩
    · rw [if_neg h]
      obtain ⟨i1, i2⟩ := ih s hs hjs2
      refine ⟨i1, fun x => ?_⟩
      rw [i2 x, List.mem_cons]
      have hji : j = i := by
        by_contra hc
        exact h hc
      constructor
      · rintro (h1 | ⟨h1, h2⟩)
        · exact Or.inl h1
        · exact Or.inr ⟨Or.inr h1, h2⟩
      · rintro (h1 | ⟨h1 | h1, h2⟩)
        · exact Or.inl h1
        · exact absurd (h1.trans hji) h2
        · exact Or.inr ⟨h1, h2⟩

theorem bitfield_initial_iff {t : Utils.Coeff} (maxPower dim n i : Nat) (row : List Int) (intArith : Bool)
    (hn : n ≤ maxPower) (x : Nat) :
    x ∈ (BitFieldSet.ops maxPower).toVector
      (initialInequality t (BitFieldSet.ops maxPower) dim n intArith i row).complementaryIndex
      ↔ x < n ∧ x ≠ i := by
  have h := (foldl_add_mem (BitFieldSet.ops maxPower) i n
    (fun s => s.length = BitFieldSet.numCells maxPower)
    (fun s j hs hj => ⟨(BitFieldSet.length_add s j).trans hs,
      fun x => BitFieldSet.mem_toVector_add maxPower s j x hs (by omega)⟩)
    (List.range n) (BitFieldSet.mk maxPower) (by simp [BitFieldSet.mk])
    (fun j hj => List.mem_range.mp hj)).2 x
  have e : (initialInequality t (BitFieldSet.ops maxPower) dim n intArith i row).complementaryIndex
      = (List.range n).foldl
          (fun x j => if j ≠ i then (BitFieldSet.ops maxPower).add x j else x)
          (BitFieldSet.mk maxPower) := rfl
  rw [e, h, List.mem_range]
  constructor
  · rintro (h1 | h1)
    · exact absurd h1 (BitFieldSet.toVector_mk maxPower x)
    · exact h1
  · exact fun h1 => Or.inr h1

theorem vectorSet_initial_iff {t : Utils.Coeff} (dim n i : Nat) (row : List Int) (intArith : Bool)
    (hn : n ≤ 2 ^ 64) (x : Nat) :
    x ∈ (VectorSet.ops 64).toVector
      (initialInequality t (VectorSet.ops 64) dim n intArith i row).complementaryIndex
      ↔ x < n ∧ x ≠ i := by
  have h := (foldl_add_mem (VectorSet.ops 64) i n (fun _ => True)
    (fun s j _ hj => ⟨trivial, fun x => by
      have := VectorSet.mem_add_iff 64 s j x
      rw [Nat.mod_eq_of_lt (by omega)] at this
      exact this⟩)
    (List.range n) [] trivial (fun j hj => List.mem_range.mp hj)).2 x
  have e : (initialInequality t (VectorSet.ops 64) dim n intArith i row).complementaryIndex
      = (List.range n).foldl
          (fun x j => if j ≠ i then (VectorSet.ops 64).add x j else x) [] := rfl
  rw [e, h, List.mem_range]
  constructor
  · rintro (h1 | h1)
    · exact absurd h1 (List.not_mem_nil x)
    · exact h1
  · exact fun h1 => Or.inr h1

theorem selectedOps_initial_iff {t : Utils.Coeff} (dim n i : Nat) (row : List Int) (intArith : Bool)
    (hn : n ≤ 2 ^ 64) (x : Nat) :
    x ∈ (selectedOps n).toVector
      (initialInequality t (selectedOps n) dim n intArith i row).complementaryIndex
      ↔ x < n ∧ x ≠ i := by
  unfold selectedOps
  split_ifs with h1 h2 h3 h4
  · exact bitfield_initial_iff 32 dim n i row intArith h1 x
  · exact bitfield_initial_iff 64 dim n i row intArith h2 x
  · exact bitfield_initial_iff 96 dim n i row intArith h3 x
  · exact bitfield_initial_iff 128 dim n i row intArith h4 x
  · exact vectorSet_initial_iff dim n i row intArith hn x

end Elimination

/-- The index invariant for a coefficient type without overflow: in integer
mode, for a matrix whose rows all have `ncols` entries and
at most `2 ^ 64` rows, with the set representation that `elimination` selects:
the complementary index of the initial inequality `i` is `{0, ..., n-1} \ {i}`;
after every number `k` of elimination steps each inequality of the working
list has a normal that is a combination, with non-negative rational
coefficients, of the input rows whose number is not in its complementary
index; the rows of the result are the normals of the working list after the
last step; and every row of the result is implied by the input system: it is
non-negative at every point at which all input rows are non-negative. -/
theorem elimination_index_invariant (params : Elimination.Parameters) (rnd : Nat → Nat)
    (a : Utils.Matrix) (vars : List Nat) (hint : params.intArithmetic = true)
    (hw : ∀ r ∈ a.rows, r.length = a.ncols) (hn : a.nrows ≤ 2 ^ 64) :
    (∀ i < a.nrows, ∀ x,
      x ∈ (Elimination.selectedOps a.nrows).toVector
        (Elimination.initialInequality Utils.Coeff.exact (Elimination.selectedOps a.nrows) a.ncols a.nrows
          params.intArithmetic i (a.row i)).complementaryIndex ↔ x < a.nrows ∧ x ≠ i)
    ∧ (∀ k, ∀ q ∈ Elimination.workingList Utils.Coeff.exact (Elimination.selectedOps a.nrows) params rnd a vars k,
        Elimination.IsCombination (Elimination.selectedOps a.nrows) a q)
    ∧ Elimination.elimination Utils.Coeff.exact params rnd a vars
        = ⟨a.ncols, (Elimination.workingList Utils.Coeff.exact (Elimination.selectedOps a.nrows) params rnd a vars
            vars.length).map (fun q => q.normal.take a.ncols)⟩
    ∧ (∀ row ∈ (Elimination.elimination Utils.Coeff.exact params rnd a vars).rows, ∀ x : Nat → ℚ,
        (∀ j < a.nrows,
          0 ≤ (Finset.range a.ncols).sum (fun k => ((a.row j).getD k 0 : ℚ) * x k)) →
        0 ≤ (Finset.range a.ncols).sum (fun k => (row.getD k 0 : ℚ) * x k)) := by
  have hinv := Elimination.workingList_isCombination (Elimination.selectedOps a.nrows) params
    rnd a vars hint hw (Elimination.selectedOps_inter a.nrows)
    (fun i _ hc =>
      (((Elimination.selectedOps_initial_iff a.ncols a.nrows i (a.row i) true hn i).mp hc).2 rfl))
  have hrun : Elimination.elimination Utils.Coeff.exact params rnd a vars
      = ⟨a.ncols, (Elimination.workingList Utils.Coeff.exact (Elimination.selectedOps a.nrows) params rnd a vars
          vars.length).map (fun q => q.normal.take a.ncols)⟩ := by
    rw [Elimination.elimination_eq_run, Elimination.run_eq_workingList]
  refine ⟨fun i _ x => Elimination.selectedOps_initial_iff a.ncols a.nrows i (a.row i) _ hn x,
    fun k q hq => (hinv k q hq).1, hrun, ?_⟩
  intro row hrow x hx
  rw [hrun] at hrow
  simp only [List.mem_map] at hrow
  obtain ⟨q, hq, rfl⟩ := hrow
  obtain ⟨⟨coef, h1, _, h3⟩, _⟩ := hinv vars.length q hq
  have e : (Finset.range a.ncols).sum (fun k => (((q.normal.take a.ncols).getD k 0 : Int) : ℚ) * x k)
      = (Finset.range a.nrows).sum (fun j => coef j *
          (Finset.range a.ncols).sum (fun k => ((a.row j).getD k 0 : ℚ) * x k)) := by
    have e1 : ∀ k ∈ Finset.range a.ncols,
        (((q.normal.take a.ncols).getD k 0 : Int) : ℚ) * x k
          = (Finset.range a.nrows).sum
              (fun j => coef j * (((a.row j).getD k 0 : ℚ) * x k)) := by
      intro k hk
      rw [Elimination.getD_take_of_lt _ _ _ (Finset.mem_range.mp hk),
        h3 k (Finset.mem_range.mp hk), Finset.sum_mul]
      apply Finset.sum_congr rfl
      intro j _
      ring
    rw [Finset.sum_congr rfl e1, Finset.sum_comm]
    apply Finset.sum_congr rfl
    intro j _
    rw [Finset.mul_sum]
  rw [e]
  apply Finset.sum_nonneg
  intro j hj
  exact mul_nonneg (h1 j) (hx j (Finset.mem_range.mp hj))

theorem elimination_index_invariant_witness :
    (∀ r ∈ fmeSystem.rows, r.length = fmeSystem.ncols) ∧ fmeSystem.nrows ≤ 2 ^ 64
    ∧ [0, 1] ∈ (Elimination.elimination Utils.Coeff.exact
        ⟨Elimination.ChernikovTest.Graph, Elimination.EliminationOrdering.MinPairs, true⟩
        (fun _ => 0) fmeSystem [0]).rows
    ∧ Elimination.elimination Utils.Coeff.exact
        ⟨Elimination.ChernikovTest.Graph, Elimination.EliminationOrdering.MinPairs, true⟩
        (fun _ => 0) fmeSystem [0]
      = ⟨fmeSystem.ncols, (Elimination.workingList Utils.Coeff.exact (Elimination.selectedOps fmeSystem.nrows)
          ⟨Elimination.ChernikovTest.Graph, Elimination.EliminationOrdering.MinPairs, true⟩
          (fun _ => 0) fmeSystem [0] [0].length).map (fun q => q.normal.take fmeSystem.ncols)⟩ :=
  ⟨by decide, by decide, by decide,
    (elimination_index_invariant
      ⟨Elimination.ChernikovTest.Graph, Elimination.EliminationOrdering.MinPairs, true⟩
      (fun _ => 0) fmeSystem [0] rfl (by decide) (by decide)).2.2.1⟩

/-! ## The sizes of cobases (C23) -/

namespace Utils

theorem VectorSet.interLoop_multiset : ∀ (fuel : Nat) (a b : List Nat),
    a.length + b.length ≤ fuel → a.Sorted (fun x y => x ≤ y) → b.Sorted (fun x y => x ≤ y) →
    (VectorSet.interLoop fuel a b).Sorted (fun x y => x ≤ y)
    ∧ ((VectorSet.interLoop fuel a b : List Nat) : Multiset Nat)
        = (a : Multiset Nat) ∩ (b : Multiset Nat)
    ∧ VectorSet.sizeLoop fuel a b = (VectorSet.interLoop fuel a b).length := by
  intro fuel
  induction fuel with
  | zero =>
    intro a b hlen _ _
    have ha : a = [] := List.length_eq_zero.mp (by omega)
    subst ha
    simp [VectorSet.interLoop, VectorSet.sizeLoop]
  | succ fuel ih =>
    intro a b hlen ha hb
    cases a with
    | nil => simp [VectorSet.interLoop, VectorSet.sizeLoop]
    | cons a0 as =>
      cases b with
      | nil => simp [VectorSet.interLoop, VectorSet.sizeLoop]
      | cons b0 bs =>
        have ha2 := List.sorted_cons.mp ha
        have hb2 := List.sorted_cons.mp hb
        simp only [List.length_cons] at hlen
        simp only [VectorSet.interLoop, VectorSet.sizeLoop]
        by_cases h1 : a0 < b0
        · simp only [h1, if_true]
          obtain ⟨i1, i2, i3⟩ := ih as (b0 :: bs) (by simp only [List.length_cons]; omega)
            ha2.2 hb
          refine ⟨i1, ?_, i3⟩
          rw [i2, ← Multiset.cons_coe a0 as, Multiset.cons_inter_of_neg]
          intro hmem
          rcases List.mem_cons.mp (Multiset.mem_coe.mp hmem) with h | h
          · omega
          · have := hb2.1 _ h
            omega
        · by_cases h2 : a0 > b0
          · simp only [h1, h2, if_true, if_false]
            obtain ⟨i1, i2, i3⟩ := ih (a0 :: as) bs (by simp only [List.length_cons]; omega)
              ha hb2.2
            refine ⟨i1, ?_, i3⟩
            rw [i2, ← Multiset.cons_coe b0 bs, Multiset.inter_comm, Multiset.inter_comm _ (b0 ::ₘ _),
              Multiset.cons_inter_of_neg]
            intro hmem
            rcases List.mem_cons.mp (Multiset.mem_coe.mp hmem) with h | h
            · omega
            · have := ha2.1 _ h
              omega
          · simp only [h1, h2, if_false]
            have e : a0 = b0 := by omega
            subst e
            obtain ⟨i1, i2, i3⟩ := ih as bs (by omega) ha2.2 hb2.2
            have hmemas : ∀ y ∈ VectorSet.interLoop fuel as bs, y ∈ as := by
              intro y hy
              have : y ∈ ((VectorSet.interLoop fuel as bs : List Nat) : Multiset Nat) :=
                Multiset.mem_coe.mpr hy
              rw [i2] at this
              exact Multiset.mem_coe.mp (Multiset.mem_of_le (Multiset.inter_le_left _ _) this)
            refine ⟨?_, ?_, ?_⟩
            · exact List.sorted_cons.mpr ⟨fun y hy => ha2.1 y (hmemas y hy), i1⟩
            · rw [← Multiset.cons_coe, i2, ← Multiset.cons_coe a0 as, ← Multiset.cons_coe a0 bs,
                Multiset.cons_inter_of_pos _ (Multiset.mem_cons_self _ _),
                Multiset.erase_cons_head]
            · rw [i3, List.length_cons]

theorem VectorSet.inter_common (a b : List Nat) (ha : a.Sorted (fun x y => x ≤ y))
    (hb : b.Sorted (fun x y => x ≤ y)) :
    (VectorSet.inter a b).Sorted (fun x y => x ≤ y)
    ∧ ((VectorSet.inter a b : List Nat) : Multiset Nat) = (a : Multiset Nat) ∩ (b : Multiset Nat)
    ∧ VectorSet.intersectionSize a b = Multiset.card ((a : Multiset Nat) ∩ (b : Multiset Nat)) := by
  obtain ⟨h1, h2, h3⟩ := VectorSet.interLoop_multiset (a.length + b.length) a b (Nat.le_refl _)
    ha hb
  refine ⟨h1, h2, ?_⟩
  unfold VectorSet.intersectionSize
  rw [h3, ← h2, Multiset.coe_card]

theorem VectorSet.add_le_parts (s : List Nat) (x : Nat) (hs : s.Sorted (fun a b => a ≤ b)) :
    (s.reverse.dropWhile (fun y => decide (y > x))).reverse
        ++ (s.reverse.takeWhile (fun y => decide (y > x))).reverse = s
    ∧ (∀ y ∈ (s.reverse.dropWhile (fun y => decide (y > x))).reverse, y ≤ x)
    ∧ (∀ y ∈ (s.reverse.takeWhile (fun y => decide (y > x))).reverse, x ≤ y) := by
  have hsplit : (s.reverse.dropWhile (fun y => decide (y > x))).reverse
      ++ (s.reverse.takeWhile (fun y => decide (y > x))).reverse = s := by
    rw [← List.reverse_append, List.takeWhile_append_dropWhile, List.reverse_reverse]
  refine ⟨hsplit, ?_, ?_⟩
  · intro y hy
    rw [List.mem_reverse] at hy
    cases hd : s.reverse.dropWhile (fun y => decide (y > x)) with
    | nil => rw [hd] at hy; cases hy
    | cons h t =>
      have hnot : ¬ (h > x) := by
        have := List.head_dropWhile_not (fun y => decide (y > x)) s.reverse
          (by rw [hd]; simp)
        simpa [hd] using this
      rw [hd] at hy
      rcases List.mem_cons.mp hy with h1 | h1
      · rw [h1]; omega
      · have hsorted : ((h :: t).reverse ++
            (s.reverse.takeWhile (fun y => decide (y > x))).reverse).Sorted
            (fun a b => a ≤ b) := by
          rw [← hd, hsplit]; exact hs
        have h2 := (List.pairwise_append.mp hsorted).1
        rw [List.reverse_cons] at h2
        have h3 := (List.pairwise_append.mp h2).2.2 y (List.mem_reverse.mpr h1) h (by simp)
        omega
  · intro y hy
    rw [List.mem_reverse] at hy
    have := List.mem_takeWhile_imp hy
    simp only [decide_eq_true_eq] at this
    omega

theorem VectorSet.add_multiset (w : Nat) (s : List Nat) (x : Nat)
    (hs : s.Sorted (fun a b => a ≤ b)) :
    (VectorSet.add w s x).Sorted (fun a b => a ≤ b)
    ∧ (VectorSet.add w s x).length = s.length + 1
    ∧ ((VectorSet.add w s x : List Nat) : Multiset Nat) = (x % 2 ^ w) ::ₘ (s : Multiset Nat) := by
  obtain ⟨h1, h2, h3⟩ := VectorSet.add_le_parts s (x % 2 ^ w) hs
  have hsorted : ((s.reverse.dropWhile (fun y => decide (y > x % 2 ^ w))).reverse
      ++ (s.reverse.takeWhile (fun y => decide (y > x % 2 ^ w))).reverse).Sorted
      (fun a b => a ≤ b) := by rw [h1]; exact hs
  obtain ⟨p1, p2, p3⟩ := List.pairwise_append.mp hsorted
  unfold VectorSet.add
  refine ⟨?_, ?_, ?_⟩
  · rw [List.append_assoc]
    refine List.pairwise_append.mpr ⟨p1, ?_, ?_⟩
    · exact List.pairwise_cons.mpr ⟨h3, p2⟩
    · intro a ha b hb
      rcases List.mem_cons.mp hb with h | h
      · rw [h]; exact h2 a ha
      · exact p3 a ha b h
  · have := congrArg List.length h1
    simp only [List.length_append, List.length_cons, List.length_nil] at this ⊢
    omega
  · rw [Multiset.cons_coe, Multiset.coe_eq_coe]
    conv_rhs => rw [← h1]
    rw [List.append_assoc]
    exact List.perm_middle

end Utils

namespace DDM

open Utils

theorem common_comm (a b : List Nat) : common a b = common b a := by
  unfold common
  rw [Multiset.inter_comm]

theorem common_mono (a a' b b' : List Nat) (ha : (a : Multiset Nat) ≤ (a' : Multiset Nat))
    (hb : (b : Multiset Nat) ≤ (b' : Multiset Nat)) : common a b ≤ common a' b' := by
  unfold common
  apply Multiset.card_le_card
  exact Multiset.le_inter (le_trans (Multiset.inter_le_left _ _) ha)
    (le_trans (Multiset.inter_le_right _ _) hb)

theorem length_le_of_coe_le (a a' : List Nat) (h : (a : Multiset Nat) ≤ (a' : Multiset Nat)) :
    a.length ≤ a'.length := by
  have := Multiset.card_le_card h
  simpa using this

theorem getRay_eq_of_getElem? {S : Type} (c : Context S) (heap : List (Ray S)) (i : Nat)
    (r : Ray S) (h : heap[i]? = some r) : getRay c heap i = r := by
  unfold getRay
  rw [List.getD_eq_getElem?_getD, h]
  rfl

theorem getElem?_of_lt_getRay {S : Type} (c : Context S) (heap : List (Ray S)) (i : Nat)
    (h : i < heap.length) : heap[i]? = some (getRay c heap i) := by
  unfold getRay
  rw [List.getD_eq_getElem?_getD, List.getElem?_eq_getElem h]
  rfl

theorem getRay_of_ge {S : Type} (c : Context S) (heap : List (Ray S)) (i : Nat)
    (h : heap.length ≤ i) : getRay c heap i = nullRay c := by
  unfold getRay
  rw [List.getD_eq_getElem?_getD, List.getElem?_eq_none h]
  rfl

theorem lt_of_mem_adjacentRays {S : Type} (c : Context S) (heap : List (Ray S)) (i a : Nat)
    (h : a ∈ (getRay c heap i).adjacentRays) : i < heap.length := by
  by_contra hc
  rw [getRay_of_ge c heap i (by omega)] at h
  simp [nullRay] at h

/-- Replacing the ray at position `j` by one with a larger cobasis whose
adjacency entries are old entries or entries that satisfy the bound keeps the
invariant. -/
theorem heapInv_set (rank : Nat) (heap : List (Ray (List Nat))) (j : Nat)
    (r r' : Ray (List Nat)) (h : HeapInv rank heap) (hj : heap[j]? = some r)
    (hs : r'.cobasis.Sorted (fun x y => x ≤ y))
    (hle : (r.cobasis : Multiset Nat) ≤ (r'.cobasis : Multiset Nat))
    (hadj : ∀ a ∈ r'.adjacentRays, a ∈ r.adjacentRays
      ∨ ∃ ra, (heap.set j r')[a]? = some ra ∧ rank ≤ common r'.cobasis ra.cobasis + 2) :
    HeapInv rank (heap.set j r') := by
  have hjlt : j < heap.length := by
    by_contra hc
    rw [List.getElem?_eq_none (by omega)] at hj
    cases hj
  have hnew : ∀ (a : Nat) (x ra : Ray (List Nat)), heap[a]? = some ra →
      ∀ y : List Nat, (x.cobasis : Multiset Nat) ≤ (y : Multiset Nat) →
      rank ≤ common x.cobasis ra.cobasis + 2 →
      ∃ ra', (heap.set j r')[a]? = some ra' ∧ rank ≤ common y ra'.cobasis + 2 := by
    intro a x ra hra y hxy hb
    rw [List.getElem?_set]
    by_cases hja : j = a
    · subst hja
      rw [if_pos rfl, if_pos hjlt]
      refine ⟨r', rfl, ?_⟩
      rw [hj] at hra
      cases hra
      exact le_trans hb (Nat.add_le_add_right (common_mono _ _ _ _ hxy hle) 2)
    · rw [if_neg hja]
      exact ⟨ra, hra, le_trans hb (Nat.add_le_add_right (common_mono _ _ _ _ hxy (le_refl _)) 2)⟩
  intro i ri hi
  rw [List.getElem?_set] at hi
  by_cases hji : j = i
  · subst hji
    rw [if_pos rfl, if_pos hjlt] at hi
    cases hi
    obtain ⟨_, h2, h3⟩ := h j r hj
    refine ⟨hs, le_trans h2 (Nat.add_le_add_right (length_le_of_coe_le _ _ hle) 1), ?_⟩
    intro a ha
    rcases hadj a ha with h4 | h4
    · obtain ⟨ra, hra, hb⟩ := h3 a h4
      exact hnew a r ra hra r'.cobasis hle hb
    · exact h4
  · rw [if_neg hji] at hi
    obtain ⟨h1, h2, h3⟩ := h i ri hi
    refine ⟨h1, h2, ?_⟩
    intro a ha
    obtain ⟨ra, hra, hb⟩ := h3 a ha
    exact hnew a ri ra hra ri.cobasis (le_refl _) hb

/-- The same for an update of the ray read by `getRay` (no change when `j` is
outside the heap). -/
theorem heapInv_set_getRay (c : Context (List Nat)) (heap : List (Ray (List Nat))) (j : Nat)
    (r' : Ray (List Nat)) (h : HeapInv c.rank heap)
    (hs : (getRay c heap j).cobasis.Sorted (fun x y => x ≤ y) →
      r'.cobasis.Sorted (fun x y => x ≤ y))
    (hle : ((getRay c heap j).cobasis : Multiset Nat) ≤ (r'.cobasis : Multiset Nat))
    (hadj : ∀ a ∈ r'.adjacentRays, a ∈ (getRay c heap j).adjacentRays
      ∨ ∃ ra, (heap.set j r')[a]? = some ra ∧ c.rank ≤ common r'.cobasis ra.cobasis + 2) :
    HeapInv c.rank (heap.set j r') := by
  by_cases hj : j < heap.length
  · have hg := getElem?_of_lt_getRay c heap j hj
    exact heapInv_set c.rank heap j _ r' h hg (hs (h j _ hg).1) hle hadj
  · rw [List.set_eq_of_length_le (by omega)]
    exact h

theorem heapInv_append (rank : Nat) (heap : List (Ray (List Nat))) (ray : Ray (List Nat))
    (h : HeapInv rank heap) (hs : ray.cobasis.Sorted (fun x y => x ≤ y))
    (hsize : rank ≤ ray.cobasis.length + 1)
    (hadj : ∀ a ∈ ray.adjacentRays,
      ∃ ra, (heap ++ [ray])[a]? = some ra ∧ rank ≤ common ray.cobasis ra.cobasis + 2) :
    HeapInv rank (heap ++ [ray]) := by
  intro i ri hi
  by_cases hlt : i < heap.length
  · rw [List.getElem?_append_left hlt] at hi
    obtain ⟨h1, h2, h3⟩ := h i ri hi
    refine ⟨h1, h2, ?_⟩
    intro a ha
    obtain ⟨ra, hra, hb⟩ := h3 a ha
    have halt : a < heap.length := by
      by_contra hc
      rw [List.getElem?_eq_none (by omega)] at hra
      cases hra
    exact ⟨ra, by rw [List.getElem?_append_left halt]; exact hra, hb⟩
  · rw [List.getElem?_append_right (by omega)] at hi
    have hi0 : i - heap.length = 0 := by
      by_contra hc
      rw [List.getElem?_eq_none (by simp; omega)] at hi
      cases hi
    rw [hi0] at hi
    simp only [List.getElem?_cons_zero, Option.some.injEq] at hi
    subst hi
    exact ⟨hs, hsize, hadj⟩

end DDM

namespace DDM

open Utils

theorem heapInv_set_same (c : Context (List Nat)) (heap : List (Ray (List Nat))) (j : Nat)
    (r' : Ray (List Nat)) (h : HeapInv c.rank heap)
    (hc : r'.cobasis = (getRay c heap j).cobasis)
    (ha : r'.adjacentRays = (getRay c heap j).adjacentRays) :
    HeapInv c.rank (heap.set j r') := by
  apply heapInv_set_getRay c heap j r' h
  · intro hs
    rw [hc]
    exact hs
  · rw [hc]
  · intro a hmem
    rw [ha] at hmem
    exact Or.inl hmem

theorem assignIne_heapInv (c : Context (List Nat)) (s : State (List Nat)) (ineIdx : Nat)
    (rays : List Nat) (h : HeapInv c.rank s.heap) :
    HeapInv c.rank (assignIne c s ineIdx rays).heap
    ∧ (assignIne c s ineIdx rays).heap.length = s.heap.length
    ∧ (assignIne c s ineIdx rays).extremeRays = s.extremeRays := by
  unfold assignIne
  cases findViolator c s.heap ineIdx rays with
  | none => exact ⟨h, rfl, rfl⟩
  | some r =>
    refine ⟨heapInv_set_same c s.heap r _ h rfl rfl, ?_, rfl⟩
    simp

theorem foldl_assignIne_heapInv (c : Context (List Nat)) (rays : List Nat) :
    ∀ (ines : List Nat) (s : State (List Nat)), HeapInv c.rank s.heap →
      HeapInv c.rank (ines.foldl (fun s2 ine => assignIne c s2 ine rays) s).heap
      ∧ (ines.foldl (fun s2 ine => assignIne c s2 ine rays) s).heap.length = s.heap.length
      ∧ (ines.foldl (fun s2 ine => assignIne c s2 ine rays) s).extremeRays = s.extremeRays := by
  intro ines
  induction ines with
  | nil => intro s h; exact ⟨h, rfl, rfl⟩
  | cons i is ih =>
    intro s h
    simp only [List.foldl_cons]
    obtain ⟨a1, a2, a3⟩ := assignIne_heapInv c s i rays h
    obtain ⟨b1, b2, b3⟩ := ih (assignIne c s i rays) a1
    exact ⟨b1, b2.trans a2, b3.trans a3⟩

theorem partitionInes_heapInv (c : Context (List Nat)) (zeroRays : List Nat) :
    ∀ (minusRays : List Nat) (s : State (List Nat)), HeapInv c.rank s.heap →
      HeapInv c.rank (partitionInes c s minusRays zeroRays).heap
      ∧ (partitionInes c s minusRays zeroRays).heap.length = s.heap.length
      ∧ (partitionInes c s minusRays zeroRays).extremeRays = s.extremeRays := by
  intro minusRays
  unfold partitionInes
  induction minusRays with
  | nil => intro s h; exact ⟨h, rfl, rfl⟩
  | cons m ms ih =>
    intro s h
    simp only [List.foldl_cons]
    obtain ⟨a1, a2, a3⟩ := foldl_assignIne_heapInv c zeroRays
      (getRay c s.heap m).assignedInequalities s h
    obtain ⟨b1, b2, b3⟩ := ih _ a1
    exact ⟨b1, b2.trans a2, b3.trans a3⟩

theorem next_heapInv (c : Context (List Nat)) (s s1 : State (List Nat))
    (h : HeapInv c.rank s.heap) (hn : next c s = some s1) :
    HeapInv c.rank s1.heap ∧ s1.heap.length = s.heap.length
    ∧ s1.extremeRays = s.extremeRays := by
  unfold next at hn
  split_ifs at hn
  · split at hn
    · cases hn
    · split at hn
      · cases hn
      · simp only [Option.some.injEq] at hn
        subst hn
        refine ⟨heapInv_set_same c s.heap _ _ h rfl rfl, ?_, rfl⟩
        simp
  · split at hn
    · cases hn
    · simp only [Option.some.injEq] at hn
      subst hn
      refine ⟨heapInv_set_same c s.heap _ _ h rfl rfl, ?_, rfl⟩
      simp

theorem eraseAdj_heapInv (c : Context (List Nat)) (s : State (List Nat)) (ray i : Nat)
    (h : HeapInv c.rank s.heap) :
    HeapInv c.rank (eraseAdj c s ray i).heap
    ∧ (eraseAdj c s ray i).heap.length = s.heap.length := by
  unfold eraseAdj
  refine ⟨?_, by simp⟩
  apply heapInv_set_getRay c s.heap ray _ h
  · exact fun hs => hs
  · exact le_refl _
  · intro a ha
    exact Or.inl (Vector.mem_of_mem_erase ha)

theorem visitAdj_heapInv (w : Nat) (c : Context (List Nat)) (hops : c.ops = VectorSet.ops w)
    (sw : State (List Nat) × WorkLists) (adjRay : Nat) (h : HeapInv c.rank sw.1.heap)
    (hv : adjRay < sw.1.heap.length)
    (hw : ∀ r ∈ sw.2.zeroRays ++ sw.2.newRays, r < sw.1.heap.length) :
    HeapInv c.rank (visitAdj c sw adjRay).1.heap
    ∧ (visitAdj c sw adjRay).1.heap.length = sw.1.heap.length
    ∧ (∀ r ∈ (visitAdj c sw adjRay).2.zeroRays ++ (visitAdj c sw adjRay).2.newRays,
        r < sw.1.heap.length)
    ∧ (∀ j, (getRay c (visitAdj c sw adjRay).1.heap j).adjacentRays
        = (getRay c sw.1.heap j).adjacentRays) := by
  have hadjsame : ∀ (r' : Ray (List Nat)),
      r'.adjacentRays = (getRay c sw.1.heap adjRay).adjacentRays →
      ∀ j, (getRay c (sw.1.heap.set adjRay r') j).adjacentRays
        = (getRay c sw.1.heap j).adjacentRays := by
    intro r' hr' j
    by_cases hj : j = adjRay
    · subst hj
      rw [getRay_eq_of_getElem? c _ j r' (by rw [List.getElem?_set_self hv]), hr']
    · unfold getRay
      rw [List.getD_eq_getElem?_getD, List.getD_eq_getElem?_getD,
        List.getElem?_set_ne (fun e => hj e.symm)]
  unfold visitAdj
  simp only
  split_ifs with h1 h2 h3
  · refine ⟨heapInv_set_same c _ adjRay _ h rfl rfl, by simp, hw, hadjsame _ rfl⟩
  · refine ⟨?_, by simp, ?_, hadjsame _ rfl⟩
    · apply heapInv_set_getRay c _ adjRay _ h
      · intro hs
        rw [hops]
        exact (VectorSet.add_multiset w _ _ hs).1
      · have hs := (h adjRay _ (getElem?_of_lt_getRay c _ adjRay hv)).1
        show ((getRay c sw.1.heap adjRay).cobasis : Multiset Nat)
          ≤ ((c.ops.add (getRay c sw.1.heap adjRay).cobasis sw.1.pivotInequalityIdx : List Nat) :
              Multiset Nat)
        rw [hops]
        show _ ≤ ((VectorSet.add w _ _ : List Nat) : Multiset Nat)
        rw [(VectorSet.add_multiset w _ _ hs).2.2]
        exact Multiset.le_cons_self _ _
      · intro a ha
        exact Or.inl ha
    · intro r hr
      simp only [List.mem_append, List.mem_singleton] at hr
      rcases hr with (hr | hr) | hr
      · exact hw r (List.mem_append_left _ hr)
      · rw [hr]; exact hv
      · exact hw r (List.mem_append_right _ hr)
  · refine ⟨heapInv_set_same c _ adjRay _ h rfl rfl, by simp, hw, hadjsame _ rfl⟩
  · exact ⟨h, rfl, hw, fun _ => rfl⟩

end DDM

namespace DDM

open Utils

theorem mem_replaceFirst (old new : Nat) : ∀ (l : List Nat) (a : Nat),
    a ∈ replaceFirst old new l → a ∈ l ∨ a = new := by
  intro l
  induction l with
  | nil => intro a h; simp [replaceFirst] at h
  | cons x xs ih =>
    intro a h
    simp only [replaceFirst] at h
    split_ifs at h
    · rcases List.mem_cons.mp h with h1 | h1
      · exact Or.inr h1
      · exact Or.inl (List.mem_cons_of_mem _ h1)
    · rcases List.mem_cons.mp h with h1 | h1
      · exact Or.inl (h1 ▸ List.mem_cons_self _ _)
      · rcases ih a h1 with h2 | h2
        · exact Or.inl (List.mem_cons_of_mem _ h2)
        · exact Or.inr h2

theorem edge_cobasis (w : Nat) (p m : List Nat) (piv rank : Nat)
    (hp : p.Sorted (fun x y => x ≤ y)) (hm : m.Sorted (fun x y => x ≤ y))
    (hb : rank ≤ common m p + 2) :
    (VectorSet.add w (VectorSet.inter p m) piv).Sorted (fun x y => x ≤ y)
    ∧ rank ≤ (VectorSet.add w (VectorSet.inter p m) piv).length + 1
    ∧ rank ≤ common (VectorSet.add w (VectorSet.inter p m) piv) p + 2
    ∧ rank ≤ common p (VectorSet.add w (VectorSet.inter p m) piv) + 2 := by
  obtain ⟨i1, i2, _⟩ := VectorSet.inter_common p m hp hm
  obtain ⟨a1, a2, a3⟩ := VectorSet.add_multiset w (VectorSet.inter p m) piv i1
  have hlen : (VectorSet.inter p m).length = common p m := by
    unfold common
    rw [← i2, Multiset.coe_card]
  have hcm : common m p = common p m := common_comm m p
  have hge : common p m ≤ common (VectorSet.add w (VectorSet.inter p m) piv) p := by
    unfold common
    apply Multiset.card_le_card
    rw [a3, i2]
    exact Multiset.le_inter (Multiset.le_cons_self _ _) (Multiset.inter_le_left _ _)
  refine ⟨a1, by omega, by omega, ?_⟩
  rw [common_comm]
  omega

theorem heapInv_edge (rank : Nat) (heap : List (Ray (List Nat))) (plus : Nat)
    (rp p' ray : Ray (List Nat)) (h : HeapInv rank heap) (hrp : heap[plus]? = some rp)
    (hpc : p'.cobasis = rp.cobasis)
    (hpa : ∀ a ∈ p'.adjacentRays, a ∈ rp.adjacentRays ∨ a = heap.length)
    (hs : ray.cobasis.Sorted (fun x y => x ≤ y)) (hsize : rank ≤ ray.cobasis.length + 1)
    (hra : ray.adjacentRays = [plus])
    (e3 : rank ≤ common ray.cobasis rp.cobasis + 2)
    (e4 : rank ≤ common rp.cobasis ray.cobasis + 2) :
    HeapInv rank (heap.set plus p' ++ [ray]) := by
  have hplt : plus < heap.length := by
    by_contra hc
    rw [List.getElem?_eq_none (by omega)] at hrp
    cases hrp
  obtain ⟨hps, _, _⟩ := h plus rp hrp
  have hA : HeapInv rank (heap ++ [ray]) := by
    apply heapInv_append rank heap ray h hs hsize
    intro a ha
    rw [hra, List.mem_singleton] at ha
    subst ha
    exact ⟨rp, by rw [List.getElem?_append_left hplt]; exact hrp, e3⟩
  rw [← List.set_append_left _ _ hplt]
  refine heapInv_set rank (heap ++ [ray]) plus rp p' hA
    (by rw [List.getElem?_append_left hplt]; exact hrp) (by rw [hpc]; exact hps)
    (by rw [hpc]) ?_
  intro a ha
  rcases hpa a ha with h1 | h1
  · exact Or.inl h1
  · right
    refine ⟨ray, ?_, by rw [hpc]; exact e4⟩
    rw [h1, List.getElem?_set_ne (by omega), List.getElem?_append_right (by omega)]
    simp

theorem newRayFromEdge_heapInv (w : Nat) (c : Context (List Nat))
    (hops : c.ops = VectorSet.ops w) (heap : List (Ray (List Nat)))
    (plus minus pivotIneIdx : Nat) (h : HeapInv c.rank heap)
    (hadj : plus ∈ (getRay c heap minus).adjacentRays) :
    HeapInv c.rank (newRayFromEdge c heap plus minus pivotIneIdx).1
    ∧ (newRayFromEdge c heap plus minus pivotIneIdx).1.length = heap.length + 1
    ∧ (newRayFromEdge c heap plus minus pivotIneIdx).2 = heap.length := by
  have hmlt := lt_of_mem_adjacentRays c heap minus plus hadj
  have hm := getElem?_of_lt_getRay c heap minus hmlt
  obtain ⟨hms, _, hmadj⟩ := h minus _ hm
  obtain ⟨rp, hrp, hb⟩ := hmadj plus hadj
  have hpe : getRay c heap plus = rp := getRay_eq_of_getElem? c heap plus rp hrp
  obtain ⟨hps, _, _⟩ := h plus rp hrp
  obtain ⟨e1, e2, e3, e4⟩ := edge_cobasis w rp.cobasis (getRay c heap minus).cobasis
    pivotIneIdx c.rank hps hms hb
  unfold newRayFromEdge
  simp only [hpe, hops]
  refine ⟨?_, by simp, trivial⟩
  exact heapInv_edge c.rank heap plus rp _ _ h hrp rfl
    (fun a ha => mem_replaceFirst _ _ _ a ha) e1 e2 rfl e3 e4

end DDM

namespace DDM

open Utils

theorem visitAdj_extremeRays {S : Type} (c : Context S) (sw : State S × WorkLists)
    (adjRay : Nat) : (visitAdj c sw adjRay).1.extremeRays = sw.1.extremeRays := by
  unfold visitAdj
  simp only
  split_ifs <;> rfl

/-- The invariant of the traversal of `classifyRays`: the heap invariant, and
the zero rays and new rays collected so far point into the heap. -/
theorem searchAdjLoop_inv (w : Nat) (c : Context (List Nat)) (hops : c.ops = VectorSet.ops w)
    (ray : Nat) :
    ∀ (fuel i : Nat) (sw : State (List Nat) × WorkLists),
      HeapInv c.rank sw.1.heap →
      (∀ r ∈ sw.2.zeroRays ++ sw.2.newRays, r < sw.1.heap.length) →
      HeapInv c.rank (searchAdjLoop c ray fuel i sw).1.heap
      ∧ (∀ r ∈ (searchAdjLoop c ray fuel i sw).2.zeroRays
            ++ (searchAdjLoop c ray fuel i sw).2.newRays,
          r < (searchAdjLoop c ray fuel i sw).1.heap.length)
      ∧ sw.1.heap.length ≤ (searchAdjLoop c ray fuel i sw).1.heap.length
      ∧ (searchAdjLoop c ray fuel i sw).1.extremeRays = sw.1.extremeRays := by
  intro fuel
  induction fuel with
  | zero => intro i sw h hw; exact ⟨h, hw, Nat.le_refl _, rfl⟩
  | succ n ih =>
    intro i sw h hw
    simp only [searchAdjLoop]
    cases hget : (getRay c sw.1.heap ray).adjacentRays.get? i with
    | none => exact ⟨h, hw, Nat.le_refl _, rfl⟩
    | some adjRay =>
      have hmem : adjRay ∈ (getRay c sw.1.heap ray).adjacentRays :=
        List.mem_iff_getElem?.mpr ⟨i, by rw [← List.get?_eq_getElem?]; exact hget⟩
      have hrlt := lt_of_mem_adjacentRays c sw.1.heap ray adjRay hmem
      obtain ⟨_, _, hradj⟩ := h ray _ (getElem?_of_lt_getRay c sw.1.heap ray hrlt)
      obtain ⟨ra, hra, _⟩ := hradj adjRay hmem
      have halt : adjRay < sw.1.heap.length := by
        by_contra hc
        rw [List.getElem?_eq_none (by omega)] at hra
        cases hra
      obtain ⟨v1, v2, v3, v4⟩ := visitAdj_heapInv w c hops sw adjRay h halt hw
      have v5 := visitAdj_extremeRays c sw adjRay
      have hmem1 : adjRay ∈ (getRay c (visitAdj c sw adjRay).1.heap ray).adjacentRays := by
        rw [v4 ray]
        exact hmem
      simp only
      split_ifs with h1 h2 h3
      · obtain ⟨n1, n2, n3⟩ := newRayFromEdge_heapInv w c hops (visitAdj c sw adjRay).1.heap
          adjRay ray (visitAdj c sw adjRay).1.pivotInequalityIdx v1 hmem1
        obtain ⟨r1, r2, r3, r4⟩ := ih (i + 1)
          ({ (visitAdj c sw adjRay).1 with
              heap := (newRayFromEdge c (visitAdj c sw adjRay).1.heap adjRay ray
                (visitAdj c sw adjRay).1.pivotInequalityIdx).1 },
            { (visitAdj c sw adjRay).2 with
              newRays := (visitAdj c sw adjRay).2.newRays
                ++ [(newRayFromEdge c (visitAdj c sw adjRay).1.heap adjRay ray
                  (visitAdj c sw adjRay).1.pivotInequalityIdx).2] })
          n1 (by
            intro r hr
            simp only [List.mem_append, List.mem_singleton] at hr
            simp only [n2]
            rcases hr with hr | hr | hr
            · have := v3 r (List.mem_append_left _ hr)
              omega
            · have := v3 r (List.mem_append_right _ hr)
              omega
            · rw [hr, n3]
              omega)
        refine ⟨r1, r2, ?_, r4.trans v5⟩
        simp only [n2] at r3
        omega
      · obtain ⟨e1, e2⟩ := eraseAdj_heapInv c (visitAdj c sw adjRay).1 ray i v1
        obtain ⟨r1, r2, r3, r4⟩ := ih i (eraseAdj c (visitAdj c sw adjRay).1 ray i,
          (visitAdj c sw adjRay).2) e1 (by
            intro r hr
            simp only [e2, v2]
            exact v3 r hr)
        refine ⟨r1, r2, ?_, r4.trans v5⟩
        simp only [e2, v2] at r3
        exact r3
      · obtain ⟨r1, r2, r3, r4⟩ := ih (i + 1) (visitAdj c sw adjRay) v1 (by
            intro r hr
            rw [v2]
            exact v3 r hr)
        refine ⟨r1, r2, ?_, r4.trans v5⟩
        rw [v2] at r3
        exact r3
      · obtain ⟨e1, e2⟩ := eraseAdj_heapInv c (visitAdj c sw adjRay).1 ray i v1
        obtain ⟨r1, r2, r3, r4⟩ := ih i (eraseAdj c (visitAdj c sw adjRay).1 ray i,
          (visitAdj c sw adjRay).2) e1 (by
            intro r hr
            simp only [e2, v2]
            exact v3 r hr)
        refine ⟨r1, r2, ?_, r4.trans v5⟩
        simp only [e2, v2] at r3
        exact r3

theorem classifyLoop_inv (w : Nat) (c : Context (List Nat)) (hops : c.ops = VectorSet.ops w) :
    ∀ (fuel mi zi : Nat) (sw r : State (List Nat) × WorkLists),
      HeapInv c.rank sw.1.heap →
      (∀ x ∈ sw.2.zeroRays ++ sw.2.newRays, x < sw.1.heap.length) →
      classifyLoop c fuel mi zi sw = some r →
      HeapInv c.rank r.1.heap
      ∧ (∀ x ∈ r.2.zeroRays ++ r.2.newRays, x < r.1.heap.length)
      ∧ sw.1.heap.length ≤ r.1.heap.length
      ∧ r.1.extremeRays = sw.1.extremeRays := by
  intro fuel
  induction fuel with
  | zero =>
    intro mi zi sw r h hw hr
    simp only [classifyLoop] at hr
    split_ifs at hr
    simp only [Option.some.injEq] at hr
    subst hr
    exact ⟨h, hw, Nat.le_refl _, rfl⟩
  | succ n ih =>
    intro mi zi sw r h hw hr
    simp only [classifyLoop] at hr
    split_ifs at hr
    · obtain ⟨s1, s2, s3, s4⟩ := searchAdjLoop_inv w c hops (sw.2.minusRays.getD mi 0)
        (getRay c sw.1.heap (sw.2.minusRays.getD mi 0)).adjacentRays.length 0 sw h hw
      obtain ⟨r1, r2, r3, r4⟩ := ih (mi + 1) zi _ r s1 s2 hr
      exact ⟨r1, r2, le_trans s3 r3, r4.trans s4⟩
    · obtain ⟨s1, s2, s3, s4⟩ := searchAdjLoop_inv w c hops (sw.2.zeroRays.getD zi 0)
        (getRay c sw.1.heap (sw.2.zeroRays.getD zi 0)).adjacentRays.length 0 sw h hw
      obtain ⟨r1, r2, r3, r4⟩ := ih mi (zi + 1) _ r s1 s2 hr
      exact ⟨r1, r2, le_trans s3 r3, r4.trans s4⟩
    · simp only [Option.some.injEq] at hr
      subst hr
      exact ⟨h, hw, Nat.le_refl _, rfl⟩

end DDM

namespace DDM

open Utils

theorem deleteMinusLoop_subset {S : Type} (c : Context S) (heap : List (Ray S)) :
    ∀ (fuel i : Nat) (ex : List Nat), ∀ r ∈ deleteMinusLoop c heap fuel i ex, r ∈ ex := by
  intro fuel
  induction fuel with
  | zero => intro i ex r hr; exact hr
  | succ n ih =>
    intro i ex r hr
    simp only [deleteMinusLoop] at hr
    split at hr
    · exact hr
    · split_ifs at hr
      · exact Vector.mem_of_mem_erase (ih _ _ r hr)
      · exact ih _ _ r hr

theorem classifyRays_inv (w : Nat) (c : Context (List Nat)) (hops : c.ops = VectorSet.ops w)
    (s s1 : State (List Nat)) (zeroRays : List Nat) (h : HeapInv c.rank s.heap)
    (hex : ∀ r ∈ s.extremeRays, r < s.heap.length)
    (hc : classifyRays c s = some (s1, zeroRays)) :
    HeapInv c.rank s1.heap
    ∧ (∀ r ∈ s1.extremeRays, r < s1.heap.length)
    ∧ (∀ r ∈ zeroRays, r < s1.heap.length) := by
  unfold classifyRays at hc
  split at hc
  · cases hc
  · rename_i sn hn
    obtain ⟨n1, n2, n3⟩ := next_heapInv c s sn h hn
    simp only at hc
    split at hc
    · cases hc
    · rename_i s3 wl hcl
      simp only [Option.some.injEq, Prod.mk.injEq] at hc
      obtain ⟨hc1, hc2⟩ := hc
      have h2 : HeapInv c.rank (sn.heap.set sn.pivotRay
          { getRay c sn.heap sn.pivotRay with visitingStep := sn.step }) :=
        heapInv_set_same c sn.heap sn.pivotRay _ n1 rfl rfl
      obtain ⟨l1, l2, l3, l4⟩ := classifyLoop_inv w c hops _ 0 0 _ (s3, wl) h2
        (by simp) hcl
      simp only [List.length_set] at l3
      simp only at l4
      obtain ⟨p1, p2, p3⟩ := partitionInes_heapInv c (wl.zeroRays ++ wl.newRays) wl.minusRays
        s3 l1
      subst hc1
      subst hc2
      simp only
      refine ⟨p1, ?_, ?_⟩
      · intro r hr
        rcases List.mem_append.mp hr with hr1 | hr1
        · have := deleteMinusLoop_subset c _ _ _ _ r hr1
          rw [p3, l4, n3] at this
          have := hex r this
          rw [p2]
          omega
        · rw [p2]
          exact l2 r (List.mem_append_right _ hr1)
      · intro r hr
        rw [p2]
        exact l2 r hr

theorem getRay_set_cobasis (c : Context (List Nat)) (heap : List (Ray (List Nat))) (j : Nat)
    (r' : Ray (List Nat)) (hc : r'.cobasis = (getRay c heap j).cobasis) (i : Nat) :
    (getRay c (heap.set j r') i).cobasis = (getRay c heap i).cobasis := by
  by_cases hj : j < heap.length
  · by_cases hi : i = j
    · subst hi
      rw [getRay_eq_of_getElem? c _ i r' (by rw [List.getElem?_set_self hj]), hc]
    · unfold getRay
      rw [List.getD_eq_getElem?_getD, List.getD_eq_getElem?_getD,
        List.getElem?_set_ne (fun e => hi e.symm)]
  · rw [List.set_eq_of_length_le (by omega)]

theorem heapInv_push_adj (c : Context (List Nat)) (heap : List (Ray (List Nat))) (a b : Nat)
    (r' : Ray (List Nat)) (h : HeapInv c.rank heap) (hb : b < heap.length)
    (hc : c.rank ≤ common (getRay c heap a).cobasis (getRay c heap b).cobasis + 2)
    (hrc : r'.cobasis = (getRay c heap a).cobasis)
    (hra : r'.adjacentRays = (getRay c heap a).adjacentRays ++ [b]) :
    HeapInv c.rank (heap.set a r') := by
  apply heapInv_set_getRay c heap a r' h
  · intro hs
    rw [hrc]
    exact hs
  · rw [hrc]
  · intro x hx
    rw [hra] at hx
    rcases List.mem_append.mp hx with h1 | h1
    · exact Or.inl h1
    · right
      rw [List.mem_singleton] at h1
      subst h1
      have hlt : x < (heap.set a r').length := by simpa using hb
      refine ⟨_, getElem?_of_lt_getRay c _ x hlt, ?_⟩
      rw [getRay_set_cobasis c heap a r' hrc x, hrc]
      exact hc

theorem addEdge_heapInv (c : Context (List Nat)) (heap : List (Ray (List Nat))) (a b : Nat)
    (h : HeapInv c.rank heap) (ha : a < heap.length) (hb : b < heap.length)
    (hc : c.rank ≤ common (getRay c heap a).cobasis (getRay c heap b).cobasis + 2) :
    HeapInv c.rank (addEdge c heap a b)
    ∧ (addEdge c heap a b).length = heap.length
    ∧ ∀ i, (getRay c (addEdge c heap a b) i).cobasis = (getRay c heap i).cobasis := by
  have h1 := heapInv_push_adj c heap a b
    { getRay c heap a with adjacentRays := (getRay c heap a).adjacentRays ++ [b] } h hb hc
    rfl rfl
  have c1 := getRay_set_cobasis c heap a
    { getRay c heap a with adjacentRays := (getRay c heap a).adjacentRays ++ [b] } rfl
  have hc2 : c.rank ≤ common
      (getRay c (heap.set a
        { getRay c heap a with adjacentRays := (getRay c heap a).adjacentRays ++ [b] }) b).cobasis
      (getRay c (heap.set a
        { getRay c heap a with adjacentRays := (getRay c heap a).adjacentRays ++ [b] }) a).cobasis
      + 2 := by
    rw [c1 a, c1 b, common_comm]
    exact hc
  have h2 := heapInv_push_adj c _ b a
    { getRay c (heap.set a
        { getRay c heap a with adjacentRays := (getRay c heap a).adjacentRays ++ [b] }) b with
      adjacentRays := (getRay c (heap.set a
        { getRay c heap a with adjacentRays := (getRay c heap a).adjacentRays ++ [b] })
          b).adjacentRays ++ [a] }
    h1 (by simpa using ha) hc2 rfl rfl
  have c2 := getRay_set_cobasis c (heap.set a
      { getRay c heap a with adjacentRays := (getRay c heap a).adjacentRays ++ [b] }) b
    { getRay c (heap.set a
        { getRay c heap a with adjacentRays := (getRay c heap a).adjacentRays ++ [b] }) b with
      adjacentRays := (getRay c (heap.set a
        { getRay c heap a with adjacentRays := (getRay c heap a).adjacentRays ++ [b] })
          b).adjacentRays ++ [a] } rfl
  exact ⟨h2, by simp [addEdge], fun i => (c2 i).trans (c1 i)⟩

theorem foldl_addEdge_heapInv (c : Context (List Nat)) (a : Nat) :
    ∀ (cands : List (AdjacencyCandidate (List Nat))) (heap : List (Ray (List Nat))),
      HeapInv c.rank heap → a < heap.length →
      (∀ cand ∈ cands, cand.ray < heap.length
        ∧ c.rank ≤ common (getRay c heap a).cobasis (getRay c heap cand.ray).cobasis + 2) →
      HeapInv c.rank (cands.foldl (fun h1 cand => addEdge c h1 a cand.ray) heap)
      ∧ (cands.foldl (fun h1 cand => addEdge c h1 a cand.ray) heap).length = heap.length := by
  intro cands
  induction cands with
  | nil => intro heap h _ _; exact ⟨h, rfl⟩
  | cons cd cds ih =>
    intro heap h ha hcs
    simp only [List.foldl_cons]
    obtain ⟨k1, k2⟩ := hcs cd (List.mem_cons_self _ _)
    obtain ⟨e1, e2, e3⟩ := addEdge_heapInv c heap a cd.ray h ha k1 k2
    obtain ⟨r1, r2⟩ := ih (addEdge c heap a cd.ray) e1 (by omega) (by
      intro cand hcand
      obtain ⟨q1, q2⟩ := hcs cand (List.mem_cons_of_mem _ hcand)
      rw [e2, e3 a, e3 cand.ray]
      exact ⟨q1, q2⟩)
    exact ⟨r1, r2.trans e2⟩

theorem removeDominatedLoop_subset {S : Type} (c : Context S) (heap : List (Ray S)) (ray : Nat)
    (rays : List Nat) :
    ∀ (fuel i : Nat) (cands : List (AdjacencyCandidate S)),
      ∀ x ∈ removeDominatedLoop c heap ray rays fuel i cands, x ∈ cands := by
  intro fuel
  induction fuel with
  | zero => intro i cands x hx; exact hx
  | succ n ih =>
    intro i cands x hx
    simp only [removeDominatedLoop] at hx
    split at hx
    · exact hx
    · split_ifs at hx
      · exact Vector.mem_of_mem_erase (ih _ _ x hx)
      · exact ih _ _ x hx

theorem testAdjacency_subset {S : Type} (c : Context S) (heap : List (Ray S)) (rayIdx : Nat)
    (rays : List Nat) (cands : List (AdjacencyCandidate S)) :
    ∀ x ∈ testAdjacency c heap rayIdx rays cands, x ∈ cands := by
  intro x hx
  unfold testAdjacency at hx
  simp only at hx
  split_ifs at hx
  · exact hx
  · exact removeDominatedLoop_subset c heap _ _ _ _ _ x hx
  · exact removeDominatedLoop_subset c heap _ _ _ _ _ x hx
  · exact hx

theorem findAdjacencyCandidates_spec {S : Type} (c : Context S) (heap : List (Ray S))
    (rayIdx : Nat) (rays np : List Nat) :
    ∀ x ∈ findAdjacencyCandidates c heap rayIdx rays np,
      x.ray ∈ rays
      ∧ c.rank ≤ c.ops.intersectionSize (getRay c heap (rays.getD rayIdx 0)).cobasis
          (getRay c heap x.ray).cobasis + 2 := by
  intro x hx
  unfold findAdjacencyCandidates at hx
  simp only at hx
  split_ifs at hx
  · cases hx
  · rw [List.mem_filterMap] at hx
    obtain ⟨r, hr, hx2⟩ := hx
    split_ifs at hx2 with h1 h2
    · simp only [Option.some.injEq] at hx2
      subst hx2
      exact ⟨(List.drop_sublist _ _).subset hr, h1⟩

end DDM

namespace DDM

open Utils

theorem heapInv_getRay (c : Context (List Nat)) (heap : List (Ray (List Nat))) (i : Nat)
    (h : HeapInv c.rank heap) (hi : i < heap.length) :
    (getRay c heap i).cobasis.Sorted (fun x y => x ≤ y)
    ∧ c.rank ≤ (getRay c heap i).cobasis.length + 1
    ∧ ∀ a ∈ (getRay c heap i).adjacentRays,
        a < heap.length
        ∧ c.rank ≤ common (getRay c heap i).cobasis (getRay c heap a).cobasis + 2 := by
  obtain ⟨h1, h2, h3⟩ := h i _ (getElem?_of_lt_getRay c heap i hi)
  refine ⟨h1, h2, ?_⟩
  intro a ha
  obtain ⟨ra, e1, e2⟩ := h3 a ha
  have hlt : a < heap.length := by
    by_contra hc
    rw [List.getElem?_eq_none (by omega)] at e1
    cases e1
  rw [getRay_eq_of_getElem? c heap a ra e1]
  exact ⟨hlt, e2⟩

theorem intersectionSize_common (w : Nat) (c : Context (List Nat))
    (hops : c.ops = VectorSet.ops w) (a b : List Nat) (ha : a.Sorted (fun x y => x ≤ y))
    (hb : b.Sorted (fun x y => x ≤ y)) : c.ops.intersectionSize a b = common a b := by
  rw [hops]
  exact (VectorSet.inter_common a b ha hb).2.2

theorem computeAdjacency_fold_inv (w : Nat) (c : Context (List Nat))
    (hops : c.ops = VectorSet.ops w) (rays np : List Nat) :
    ∀ (idxs : List Nat) (heap : List (Ray (List Nat))), HeapInv c.rank heap →
      (∀ r ∈ rays, r < heap.length) → (∀ i ∈ idxs, i < rays.length) →
      HeapInv c.rank (idxs.foldl
        (fun h i =>
          (testAdjacency c h i rays (findAdjacencyCandidates c h i rays np)).foldl
            (fun h1 cand => addEdge c h1 (rays.getD i 0) cand.ray) h) heap)
      ∧ (idxs.foldl
        (fun h i =>
          (testAdjacency c h i rays (findAdjacencyCandidates c h i rays np)).foldl
            (fun h1 cand => addEdge c h1 (rays.getD i 0) cand.ray) h) heap).length
          = heap.length := by
  intro idxs
  induction idxs with
  | nil => intro heap h _ _; exact ⟨h, rfl⟩
  | cons i is ih =>
    intro heap h hr hi
    simp only [List.foldl_cons]
    have hil : i < rays.length := hi i (List.mem_cons_self _ _)
    have hmem : rays.getD i 0 ∈ rays := by
      rw [List.getD_eq_getElem _ _ hil]
      exact List.getElem_mem _
    have ha : rays.getD i 0 < heap.length := hr _ hmem
    obtain ⟨e1, e2⟩ := foldl_addEdge_heapInv c (rays.getD i 0)
      (testAdjacency c heap i rays (findAdjacencyCandidates c heap i rays np)) heap h ha (by
        intro cand hcand
        obtain ⟨q1, q2⟩ := findAdjacencyCandidates_spec c heap i rays np cand
          (testAdjacency_subset c heap i rays _ cand hcand)
        have hcl : cand.ray < heap.length := hr _ q1
        refine ⟨hcl, ?_⟩
        rw [intersectionSize_common w c hops _ _ (heapInv_getRay c heap _ h ha).1
          (heapInv_getRay c heap _ h hcl).1] at q2
        exact q2)
    obtain ⟨r1, r2⟩ := ih _ e1 (by intro r hrm; rw [e2]; exact hr r hrm)
      (fun j hj => hi j (List.mem_cons_of_mem _ hj))
    exact ⟨r1, r2.trans e2⟩

/-- `computeAdjacency` on rays of the heap keeps the invariant: every committed
edge passed the test `intersectionSize + 2 >= rank` of
`findAdjacencyCandidates`. -/
theorem computeAdjacency_heapInv (w : Nat) (c : Context (List Nat))
    (hops : c.ops = VectorSet.ops w) (heap : List (Ray (List Nat))) (rays np : List Nat)
    (h : HeapInv c.rank heap) (hr : ∀ r ∈ rays, r < heap.length) :
    HeapInv c.rank (computeAdjacency c heap rays np)
    ∧ (computeAdjacency c heap rays np).length = heap.length := by
  unfold computeAdjacency
  exact computeAdjacency_fold_inv w c hops rays np (List.range rays.length) heap h hr
    (fun i hi => List.mem_range.mp hi)

theorem foldl_add_sorted (w : Nat) (g : Nat → Nat) :
    ∀ (l : List Nat) (s : List Nat), s.Sorted (fun x y => x ≤ y) →
      (l.foldl (fun x j => VectorSet.add w x (g j)) s).Sorted (fun x y => x ≤ y)
      ∧ (l.foldl (fun x j => VectorSet.add w x (g j)) s).length = s.length + l.length := by
  intro l
  induction l with
  | nil => intro s hs; exact ⟨hs, rfl⟩
  | cons j js ih =>
    intro s hs
    simp only [List.foldl_cons, List.length_cons]
    obtain ⟨a1, a2, _⟩ := VectorSet.add_multiset w s (g j) hs
    obtain ⟨b1, b2⟩ := ih _ a1
    exact ⟨b1, by rw [b2, a2]; omega⟩

theorem initialCobasis_sorted (w : Nat) (c : Context (List Nat))
    (hops : c.ops = VectorSet.ops w) (perm : List Nat) (rayIdx : Nat) (hr : rayIdx < c.rank) :
    (initialCobasis c perm rayIdx []).Sorted (fun x y => x ≤ y)
    ∧ c.rank ≤ (initialCobasis c perm rayIdx []).length + 1 := by
  unfold initialCobasis
  rw [hops]
  obtain ⟨a1, a2⟩ := foldl_add_sorted w (fun j => perm.getD j 0) (List.range rayIdx) []
    List.sorted_nil
  obtain ⟨b1, b2⟩ := foldl_add_sorted w (fun j => perm.getD j 0)
    (List.range' (rayIdx + 1) (c.rank - (rayIdx + 1))) _ a1
  refine ⟨b1, ?_⟩
  have hlen : ((List.range' (rayIdx + 1) (c.rank - (rayIdx + 1))).foldl
      (fun x j => (VectorSet.ops w).add x (perm.getD j 0))
      ((List.range rayIdx).foldl (fun x j => (VectorSet.ops w).add x (perm.getD j 0)) [])).length
      = 0 + rayIdx + (c.rank - (rayIdx + 1)) := by
    have := b2
    rw [a2] at this
    simpa using this
  rw [hlen]
  omega

theorem foldl_assignIne_self_heapInv (c : Context (List Nat)) :
    ∀ (ines : List Nat) (s : State (List Nat)), HeapInv c.rank s.heap →
      HeapInv c.rank (ines.foldl (fun s2 ine => assignIne c s2 ine s2.extremeRays) s).heap
      ∧ (ines.foldl (fun s2 ine => assignIne c s2 ine s2.extremeRays) s).heap.length
          = s.heap.length
      ∧ (ines.foldl (fun s2 ine => assignIne c s2 ine s2.extremeRays) s).extremeRays
          = s.extremeRays := by
  intro ines
  induction ines with
  | nil => intro s h; exact ⟨h, rfl, rfl⟩
  | cons i is ih =>
    intro s h
    simp only [List.foldl_cons]
    obtain ⟨a1, a2, a3⟩ := assignIne_heapInv c s i s.extremeRays h
    obtain ⟨b1, b2, b3⟩ := ih (assignIne c s i s.extremeRays) a1
    exact ⟨b1, b2.trans a2, b3.trans a3⟩

/-- The state after `makeInitialStep` satisfies the invariant: each initial
cobasis is built by `rank - 1` calls of `add`. -/
theorem makeInitialStep_inv (w : Nat) (c : Context (List Nat))
    (hops : c.ops = VectorSet.ops w) (f : Matrix) (perm : List Nat) :
    HeapInv c.rank (makeInitialStep c f perm).heap
    ∧ ∀ r ∈ (makeInitialStep c f perm).extremeRays, r < (makeInitialStep c f perm).heap.length := by
  have hcreate : ∀ n, c.ops.create n = [] := by
    intro n
    rw [hops]
    rfl
  have h0 : HeapInv c.rank ((List.range c.rank).map (fun rayIdx =>
      ({ newRay c (f.row rayIdx)
          (if c.usePlusPlus then computeDiscrepancies c (f.row rayIdx) else [])
          c.inequalityMatrix.nrows with
        cobasis := initialCobasis c perm rayIdx (newRay c (f.row rayIdx)
          (if c.usePlusPlus then computeDiscrepancies c (f.row rayIdx) else [])
          c.inequalityMatrix.nrows).cobasis } : Ray (List Nat)))) := by
    intro i r hi
    rw [List.getElem?_map] at hi
    by_cases hlt : i < c.rank
    · rw [List.getElem?_range hlt] at hi
      simp only [Option.map_some', Option.some.injEq] at hi
      subst hi
      simp only [newRay, hcreate]
      obtain ⟨s1, s2⟩ := initialCobasis_sorted w c hops perm i hlt
      exact ⟨s1, s2, fun a ha => by cases ha⟩
    · rw [List.getElem?_eq_none (by simpa using hlt)] at hi
      cases hi
  obtain ⟨h1, h2⟩ := computeAdjacency_heapInv w c hops _ (List.range c.rank)
    (initialState c).notProcessedInequalities h0 (by
      intro r hr
      simpa using hr)
  obtain ⟨h3, h4, h5⟩ := foldl_assignIne_self_heapInv c (List.range c.inequalityMatrix.nrows)
    { initialState c with
      heap := computeAdjacency c ((List.range c.rank).map (fun rayIdx =>
        ({ newRay c (f.row rayIdx)
            (if c.usePlusPlus then computeDiscrepancies c (f.row rayIdx) else [])
            c.inequalityMatrix.nrows with
          cobasis := initialCobasis c perm rayIdx (newRay c (f.row rayIdx)
            (if c.usePlusPlus then computeDiscrepancies c (f.row rayIdx) else [])
            c.inequalityMatrix.nrows).cobasis } : Ray (List Nat)))) (List.range c.rank)
        (initialState c).notProcessedInequalities,
      extremeRays := List.range c.rank } h1
  refine ⟨h3, ?_⟩
  intro r hr
  have hr2 : r ∈ List.range c.rank := by
    have e : (makeInitialStep c f perm).extremeRays = List.range c.rank := h5
    rw [e] at hr
    exact hr
  have e2 : (makeInitialStep c f perm).heap.length = c.rank := by
    have := h4.trans h2
    simpa using this
  rw [e2]
  exact List.mem_range.mp hr2

/-- One execution of the body of the main loop keeps the invariant. -/
theorem loopBody_inv (w : Nat) (c : Context (List Nat)) (hops : c.ops = VectorSet.ops w)
    (s s1 : State (List Nat)) (h : HeapInv c.rank s.heap)
    (hex : ∀ r ∈ s.extremeRays, r < s.heap.length) (hl : loopBody c s = some s1) :
    HeapInv c.rank s1.heap ∧ ∀ r ∈ s1.extremeRays, r < s1.heap.length := by
  unfold loopBody at hl
  cases hc : classifyRays c s with
  | none => rw [hc] at hl; cases hl
  | some p =>
    obtain ⟨s2, zeroRays⟩ := p
    rw [hc] at hl
    simp only [Option.some.injEq] at hl
    subst hl
    obtain ⟨a1, a2, a3⟩ := classifyRays_inv w c hops s s2 zeroRays h hex hc
    obtain ⟨b1, b2⟩ := computeAdjacency_heapInv w c hops s2.heap zeroRays
      s2.notProcessedInequalities a1 a3
    refine ⟨b1, ?_⟩
    intro r hr
    show r < (computeAdjacency c s2.heap zeroRays s2.notProcessedInequalities).length
    rw [b2]
    exact a2 r hr

theorem iterations_inv (w : Nat) (c : Context (List Nat)) (hops : c.ops = VectorSet.ops w) :
    ∀ (k : Nat) (s s1 : State (List Nat)), HeapInv c.rank s.heap →
      (∀ r ∈ s.extremeRays, r < s.heap.length) → iterations c k s = some s1 →
      HeapInv c.rank s1.heap ∧ ∀ r ∈ s1.extremeRays, r < s1.heap.length := by
  intro k
  induction k with
  | zero =>
    intro s s1 h hex hi
    simp only [iterations, Option.some.injEq] at hi
    subst hi
    exact ⟨h, hex⟩
  | succ k ih =>
    intro s s1 h hex hi
    unfold iterations at hi
    cases hl : loopBody c s with
    | none => rw [hl] at hi; cases hi
    | some s2 =>
      rw [hl] at hi
      obtain ⟨a1, a2⟩ := loopBody_inv w c hops s s2 h hex hl
      exact ih s2 s1 a1 a2 hi

/-- A state returned by `mainLoop` is reached by finitely many executions of
the loop body. -/
theorem mainLoop_iterations {S : Type} (c : Context S) :
    ∀ (fuel : Nat) (s s1 : State S), mainLoop c fuel s = some s1 →
      ∃ k, k ≤ fuel ∧ iterations c k s = some s1 := by
  intro fuel
  induction fuel with
  | zero =>
    intro s s1 h
    unfold mainLoop at h
    split_ifs at h
    exact ⟨0, Nat.le_refl _, h⟩
  | succ fuel ih =>
    intro s s1 h
    unfold mainLoop at h
    split_ifs at h
    · exact ⟨0, Nat.zero_le _, h⟩
    · cases hc : classifyRays c s with
      | none => rw [hc] at h; cases h
      | some p =>
        obtain ⟨s2, zeroRays⟩ := p
        rw [hc] at h
        obtain ⟨k, hk, hit⟩ := ih _ s1 h
        refine ⟨k + 1, by omega, ?_⟩
        unfold iterations loopBody
        rw [hc]
        exact hit

end DDM

/-! ### The invariant at every iteration boundary -/

/-- C23: with sorted-vector sets (index type of any width `w`; any arithmetic
mode, order and adjacency test; `f`, `perm` and the rank of the context
arbitrary), in the state after `makeInitialStep` (`k = 0`) and after every
further execution of the body of the main loop of `Algorithm::run`, and so in
every state that the main loop ends in, every ray of `extremeRays` has a
cobasis of at least `rank - 1` elements, and every entry of its list
`adjacentRays` is a ray that shares at least `rank - 2` cobasis elements with
it, as counted by `intersectionSize`. -/
theorem cobasis_size_invariant (w : Nat) (c : DDM.Context (List Nat))
    (hops : c.ops = Utils.VectorSet.ops w) (f : Utils.Matrix) (perm : List Nat) :
    (∀ (k : Nat) (s : DDM.State (List Nat)),
      DDM.iterations c k (DDM.makeInitialStep c f perm) = some s →
      ∀ r ∈ s.extremeRays,
        c.rank - 1 ≤ c.ops.size (DDM.getRay c s.heap r).cobasis
        ∧ ∀ a ∈ (DDM.getRay c s.heap r).adjacentRays,
            c.rank - 2 ≤ c.ops.intersectionSize (DDM.getRay c s.heap r).cobasis
              (DDM.getRay c s.heap a).cobasis)
    ∧ (∀ (fuel : Nat) (s : DDM.State (List Nat)),
      DDM.mainLoop c fuel (DDM.makeInitialStep c f perm) = some s →
      ∀ r ∈ s.extremeRays,
        c.rank - 1 ≤ c.ops.size (DDM.getRay c s.heap r).cobasis
        ∧ ∀ a ∈ (DDM.getRay c s.heap r).adjacentRays,
            c.rank - 2 ≤ c.ops.intersectionSize (DDM.getRay c s.heap r).cobasis
              (DDM.getRay c s.heap a).cobasis) := by
  have key : ∀ (k : Nat) (s : DDM.State (List Nat)),
      DDM.iterations c k (DDM.makeInitialStep c f perm) = some s →
      ∀ r ∈ s.extremeRays,
        c.rank - 1 ≤ c.ops.size (DDM.getRay c s.heap r).cobasis
        ∧ ∀ a ∈ (DDM.getRay c s.heap r).adjacentRays,
            c.rank - 2 ≤ c.ops.intersectionSize (DDM.getRay c s.heap r).cobasis
              (DDM.getRay c s.heap a).cobasis := by
    intro k s hs r hr
    obtain ⟨i1, i2⟩ := DDM.makeInitialStep_inv w c hops f perm
    obtain ⟨j1, j2⟩ := DDM.iterations_inv w c hops k _ s i1 i2 hs
    obtain ⟨g1, g2, g3⟩ := DDM.heapInv_getRay c s.heap r j1 (j2 r hr)
    have hsize : c.ops.size (DDM.getRay c s.heap r).cobasis
        = (DDM.getRay c s.heap r).cobasis.length := by
      rw [hops]
      rfl
    refine ⟨by rw [hsize]; omega, ?_⟩
    intro a ha
    obtain ⟨q1, q2⟩ := g3 a ha
    rw [DDM.intersectionSize_common w c hops _ _ g1 (DDM.heapInv_getRay c s.heap a j1 q1).1]
    omega
  refine ⟨key, ?_⟩
  intro fuel s hs
  obtain ⟨k, _, hk⟩ := DDM.mainLoop_iterations c fuel _ s hs
  exact key k s hk

set_option maxRecDepth 100000 in
/-- C23 at the cone `squareCone` (rank 3, sets of 8-bit indices): one
execution of the loop body from the state after `makeInitialStep` succeeds and
leaves 4 extreme rays, each with at least 2 cobasis elements and with at
least 1 cobasis element in common with each adjacent ray. -/
theorem cobasis_size_invariant_witness :
    (defaultContext squareCone).ops = Utils.VectorSet.ops 8
    ∧ (defaultContext squareCone).rank = 3
    ∧ (DDM.iterations (defaultContext squareCone) 1 (defaultInitialState squareCone)).map
        (fun s => s.extremeRays.length) = some 4
    ∧ ∃ s, DDM.iterations (defaultContext squareCone) 1 (defaultInitialState squareCone) = some s
      ∧ ∀ r ∈ s.extremeRays,
        (defaultContext squareCone).rank - 1
          ≤ (defaultContext squareCone).ops.size
              (DDM.getRay (defaultContext squareCone) s.heap r).cobasis
        ∧ ∀ a ∈ (DDM.getRay (defaultContext squareCone) s.heap r).adjacentRays,
            (defaultContext squareCone).rank - 2
              ≤ (defaultContext squareCone).ops.intersectionSize
                  (DDM.getRay (defaultContext squareCone) s.heap r).cobasis
                  (DDM.getRay (defaultContext squareCone) s.heap a).cobasis :=
  have h : (DDM.iterations (defaultContext squareCone) 1
      (defaultInitialState squareCone)).isSome = true := by decide
  ⟨rfl, by decide, by decide, _, (Option.some_get h).symm,
    (cobasis_size_invariant 8 (defaultContext squareCone) rfl
      (Utils.gauss Utils.Coeff.int squareCone squareCone.nrows true 0).f
      (Utils.gauss Utils.Coeff.int squareCone squareCone.nrows true 0).perm).1 1 _ (Option.some_get h).symm⟩

/-! ## The ray built for a (minus, plus) edge (C31) -/

namespace DDM

open Utils

theorem replaceFirst_eq_set (old new : Nat) : ∀ (l : List Nat),
    replaceFirst old new l = if old ∈ l then l.set (l.indexOf old) new else l := by
  intro l
  induction l with
  | nil => simp [replaceFirst]
  | cons x xs ih =>
    unfold replaceFirst
    by_cases hx : x = old
    · subst hx
      simp
    · have hx2 : ¬ old = x := fun h => hx h.symm
      rw [if_neg hx, ih, List.indexOf_cons_ne _ hx]
      by_cases hm : old ∈ xs
      · simp [hm]
      · simp [hm, hx2]

theorem getRay_newRayFromEdge_new {S : Type} (c : Context S) (heap : List (Ray S))
    (plus minus pivotIneIdx : Nat) :
    (newRayFromEdge c heap plus minus pivotIneIdx).2 = heap.length
    ∧ (newRayFromEdge c heap plus minus pivotIneIdx).1.length = heap.length + 1
    ∧ (edgeRay c heap plus minus pivotIneIdx).cobasis
        = c.ops.add (c.ops.inter (getRay c heap plus).cobasis (getRay c heap minus).cobasis)
            pivotIneIdx
    ∧ (edgeRay c heap plus minus pivotIneIdx).adjacentRays = [plus]
    ∧ (edgeRay c heap plus minus pivotIneIdx).assignedInequalities = []
    ∧ (edgeRay c heap plus minus pivotIneIdx).pivotDiscrepancy = 0
    ∧ (edgeRay c heap plus minus pivotIneIdx).visitingStep = (getRay c heap plus).visitingStep := by
  unfold edgeRay newRayFromEdge getRay
  simp

theorem getRay_newRayFromEdge_old {S : Type} (c : Context S) (heap : List (Ray S))
    (plus minus pivotIneIdx : Nat) (j : Nat) (hj : j < heap.length) :
    getRay c (newRayFromEdge c heap plus minus pivotIneIdx).1 j
      = if j = plus then
          { getRay c heap plus with
            adjacentRays := replaceFirst minus heap.length (getRay c heap plus).adjacentRays }
        else getRay c heap j := by
  unfold newRayFromEdge getRay
  simp only
  rw [List.getD_eq_getElem?_getD, List.getD_eq_getElem?_getD,
    List.getElem?_append_left (by simpa using hj), List.getElem?_set]
  by_cases hjp : j = plus
  · subst hjp
    simp [hj]
  · have hjp2 : ¬ plus = j := fun h => hjp h.symm
    simp [hjp, hjp2]

end DDM

/-- C31: the ray built by `newRay(plus, minus, pivotIneIdx)` for an edge gets
the next free heap position; as a set its cobasis is the intersection of the
cobases of the two rays together with the pivot index (sorted-vector sets with
sorted cobases and a pivot index that fits the index type, or bit-field sets
with cobases of `numCells` cells and a pivot index below `maxPower`); its
adjacency list is `[plus]`; in the adjacency list of `plus` the first entry
equal to `minus` (if there is one) is replaced by the new ray and the other
entries stay; the other fields of `plus` and every other ray of the heap are
unchanged. -/
theorem newRay_cobasis_and_rewiring (w maxPower : Nat) (c : DDM.Context (List Nat))
    (heap : List (DDM.Ray (List Nat))) (plus minus pivotIneIdx : Nat)
    (hplus : plus < heap.length)
    (hset : (c.ops = Utils.VectorSet.ops w
        ∧ (DDM.getRay c heap plus).cobasis.Sorted (fun x y => x ≤ y)
        ∧ (DDM.getRay c heap minus).cobasis.Sorted (fun x y => x ≤ y)
        ∧ pivotIneIdx < 2 ^ w)
      ∨ (c.ops = Utils.BitFieldSet.ops maxPower
        ∧ (DDM.getRay c heap plus).cobasis.length = Utils.BitFieldSet.numCells maxPower
        ∧ (DDM.getRay c heap minus).cobasis.length = Utils.BitFieldSet.numCells maxPower
        ∧ pivotIneIdx < maxPower)) :
    (DDM.newRayFromEdge c heap plus minus pivotIneIdx).2 = heap.length
    ∧ (DDM.newRayFromEdge c heap plus minus pivotIneIdx).1.length = heap.length + 1
    ∧ (∀ x, x ∈ c.ops.toVector (DDM.edgeRay c heap plus minus pivotIneIdx).cobasis
        ↔ (x ∈ c.ops.toVector (DDM.getRay c heap plus).cobasis
            ∧ x ∈ c.ops.toVector (DDM.getRay c heap minus).cobasis)
          ∨ x = pivotIneIdx)
    ∧ (DDM.edgeRay c heap plus minus pivotIneIdx).adjacentRays = [plus]
    ∧ (DDM.getRay c (DDM.newRayFromEdge c heap plus minus pivotIneIdx).1 plus).adjacentRays
        = (if minus ∈ (DDM.getRay c heap plus).adjacentRays then
            (DDM.getRay c heap plus).adjacentRays.set
              ((DDM.getRay c heap plus).adjacentRays.indexOf minus) heap.length
          else (DDM.getRay c heap plus).adjacentRays)
    ∧ (DDM.getRay c (DDM.newRayFromEdge c heap plus minus pivotIneIdx).1 plus).cobasis
        = (DDM.getRay c heap plus).cobasis
    ∧ (DDM.getRay c (DDM.newRayFromEdge c heap plus minus pivotIneIdx).1 plus).coordinates
        = (DDM.getRay c heap plus).coordinates
    ∧ (DDM.getRay c (DDM.newRayFromEdge c heap plus minus pivotIneIdx).1
          plus).assignedInequalities
        = (DDM.getRay c heap plus).assignedInequalities
    ∧ (∀ j, j < heap.length → j ≠ plus →
        DDM.getRay c (DDM.newRayFromEdge c heap plus minus pivotIneIdx).1 j
          = DDM.getRay c heap j) := by
  obtain ⟨n1, n2, n3, n4, _⟩ := DDM.getRay_newRayFromEdge_new c heap plus minus pivotIneIdx
  have hp := DDM.getRay_newRayFromEdge_old c heap plus minus pivotIneIdx plus hplus
  rw [if_pos rfl] at hp
  refine ⟨n1, n2, ?_, n4, ?_, ?_, ?_, ?_, ?_⟩
  · intro x
    rw [n3]
    rcases hset with ⟨hops, hsp, hsm, hpiv⟩ | ⟨hops, hlp, hlm, hpiv⟩
    · rw [hops]
      show x ∈ Utils.VectorSet.add w (Utils.VectorSet.inter _ _) pivotIneIdx ↔ _
      rw [Utils.VectorSet.mem_add_iff, Nat.mod_eq_of_lt hpiv]
      have hmem : x ∈ Utils.VectorSet.inter (DDM.getRay c heap plus).cobasis
          (DDM.getRay c heap minus).cobasis
          ↔ x ∈ (DDM.getRay c heap plus).cobasis ∧ x ∈ (DDM.getRay c heap minus).cobasis := by
        rw [← Multiset.mem_coe, (Utils.VectorSet.inter_common _ _ hsp hsm).2.1,
          Multiset.mem_inter]
        rfl
      rw [hmem]
      rfl
    · rw [hops]
      show x ∈ Utils.BitFieldSet.toVector maxPower
        (Utils.BitFieldSet.add (Utils.BitFieldSet.inter _ _) pivotIneIdx) ↔ _
      rw [Utils.BitFieldSet.mem_toVector_add maxPower _ pivotIneIdx x
        (by unfold Utils.BitFieldSet.inter; rw [List.length_zipWith, hlp, hlm, Nat.min_self])
        hpiv, Utils.BitFieldSet.mem_toVector_inter]
      rfl
  · rw [hp]
    exact DDM.replaceFirst_eq_set minus heap.length _
  · rw [hp]
  · rw [hp]
  · rw [hp]
  · intro j hj hjp
    rw [DDM.getRay_newRayFromEdge_old c heap plus minus pivotIneIdx j hj, if_neg hjp]

/-- C31 on the heap `planeHeap`: the edge between the plus ray 0 (cobasis
`{1}`, adjacency list `[1]`) and the minus ray 1 with pivot index 1 gives
the ray 2 with the cobasis `{1}`, and the adjacency list of ray 0 becomes
`[2]`. -/
theorem newRay_cobasis_and_rewiring_witness :
    (DDM.newRayFromEdge planeContext planeHeap 0 1 1).2 = 2
    ∧ (DDM.edgeRay planeContext planeHeap 0 1 1).cobasis = [1]
    ∧ (DDM.getRay planeContext (DDM.newRayFromEdge planeContext planeHeap 0 1 1).1
        0).adjacentRays = [2]
    ∧ (∀ x, x ∈ planeContext.ops.toVector (DDM.edgeRay planeContext planeHeap 0 1 1).cobasis
        ↔ (x ∈ planeContext.ops.toVector (DDM.getRay planeContext planeHeap 0).cobasis
            ∧ x ∈ planeContext.ops.toVector (DDM.getRay planeContext planeHeap 1).cobasis)
          ∨ x = 1) :=
  ⟨by decide, by decide, by decide,
    (newRay_cobasis_and_rewiring 8 0 planeContext planeHeap 0 1 1 (by decide)
      (Or.inl ⟨rfl, by decide, by decide, by decide⟩)).2.2.1⟩

/-! ## The new ray lies on the pivot hyperplane without overflow -/

namespace DDM

open Utils

theorem foldl_add_exact (l : List Int) : ∀ (acc : Int),
    l.foldl (fun s p => Coeff.exact.add s p) acc = acc + l.sum := by
  induction l with
  | nil => intro acc; simp
  | cons x xs ih =>
    intro acc
    rw [List.foldl_cons, ih, List.sum_cons, Coeff.add_exact]
    ring

/-- In exact arithmetic the accumulation loop computes the sum of the
products. -/
theorem dot_exact (n : Nat) (x y : List Int) :
    dot Coeff.exact n x y = ((List.zipWith (fun a b => a * b) x y).take n).sum := by
  unfold dot
  rw [foldl_add_exact, Int.zero_add]
  rfl

theorem dot_eq_sum : ∀ (n : Nat) (x y : List Int),
    dot Coeff.exact n x y = (Finset.range n).sum (fun k => x.getD k 0 * y.getD k 0) := by
  intro n
  induction n with
  | zero => intro x y; simp [dot_exact]
  | succ n ih =>
    intro x y
    cases x with
    | nil => simp [dot_exact]
    | cons a x =>
      cases y with
      | nil => simp [dot_exact]
      | cons b y =>
        have h := ih x y
        rw [dot_exact] at h ⊢
        rw [Finset.sum_range_succ']
        simp only [List.getD_cons_succ, List.getD_cons_zero, List.zipWith_cons_cons,
          List.take_succ_cons, List.sum_cons]
        rw [← h, add_comm]

theorem edgeBlock_getD {S : Type} (c : Context S) (hex : c.arith = Coeff.exact)
    (heap : List (Ray S)) (plus minus k : Nat)
    (hlp : (getRay c heap plus).coordinates.length = c.extendedDim)
    (hlm : (getRay c heap minus).coordinates.length = c.extendedDim)
    (hk : k < c.extendedDim) :
    (newRayFromEdgeBlock c heap plus minus).getD k 0
      = (getRay c heap plus).pivotDiscrepancy * (getRay c heap minus).coordinates.getD k 0
        - (getRay c heap minus).pivotDiscrepancy * (getRay c heap plus).coordinates.getD k 0 := by
  unfold newRayFromEdgeBlock
  rw [Elimination.getD_take_of_lt _ _ _ hk, hex]
  exact Elimination.pairBlock_getD _ _ _ _ k (by omega) (by omega)

theorem dim_le_extendedDim {S : Type} (c : Context S) : c.dim ≤ c.extendedDim := by
  unfold Context.extendedDim
  omega

/-- The discrepancy of the ray built for an edge, multiplied by the gcd of its
block, is the combination of the discrepancies of the two rays. -/
theorem computeDiscrepancy_edgeRay {S : Type} (c : Context S)
    (hex : c.arith = Coeff.exact) (hint : c.intArith = true)
    (heap : List (Ray S)) (plus minus pivotIneIdx : Nat)
    (hlp : (getRay c heap plus).coordinates.length = c.extendedDim)
    (hlm : (getRay c heap minus).coordinates.length = c.extendedDim) (i : Nat) :
    computeDiscrepancy c (edgeRay c heap plus minus pivotIneIdx) i
        * gcdVec c.arith (newRayFromEdgeBlock c heap plus minus)
      = (getRay c heap plus).pivotDiscrepancy * computeDiscrepancy c (getRay c heap minus) i
        - (getRay c heap minus).pivotDiscrepancy
            * computeDiscrepancy c (getRay c heap plus) i := by
  unfold computeDiscrepancy
  rw [edgeRay_coordinates, normalizeRay_int c hint, hex, dot_eq_sum, dot_eq_sum, dot_eq_sum,
    Finset.sum_mul, Finset.mul_sum, Finset.mul_sum, ← Finset.sum_sub_distrib]
  apply Finset.sum_congr rfl
  intro k hk
  have hk2 : k < c.extendedDim :=
    lt_of_lt_of_le (Finset.mem_range.mp hk) (dim_le_extendedDim c)
  have e1 := Elimination.getD_normalizeIntVector_mul (newRayFromEdgeBlock c heap plus minus) k
  have e2 := edgeBlock_getD c hex heap plus minus k hlp hlm hk2
  calc (normalizeIntVector Coeff.exact (newRayFromEdgeBlock c heap plus minus)).getD k 0
          * (c.inequalityMatrix.row i).getD k 0
          * gcdVec Coeff.exact (newRayFromEdgeBlock c heap plus minus)
      = ((normalizeIntVector Coeff.exact (newRayFromEdgeBlock c heap plus minus)).getD k 0
          * gcdVec Coeff.exact (newRayFromEdgeBlock c heap plus minus))
          * (c.inequalityMatrix.row i).getD k 0 := by ring
    _ = _ := by rw [e1, e2]; ring

end DDM

/-- The new ray for a coefficient type without overflow: in integer mode, for
rays `plus` and `minus` whose arrays have
`extendedDim` entries and whose `pivotDiscrepancy` fields hold their
discrepancies on the pivot inequality, positive for `plus` and negative for
`minus`, the ray built by `newRay(plus, minus, pivotIneIdx)` is the
combination of the two rays with the positive rational coefficients
`d+ / g` (on `minus`) and `-d- / g` (on `plus`), `g` the gcd of the block; its
discrepancy on the pivot inequality is exactly 0, and its discrepancy on every
inequality that both rays satisfy is non-negative. -/
theorem newRay_on_pivot_hyperplane {S : Type} (c : DDM.Context S)
    (hex : c.arith = Utils.Coeff.exact) (hint : c.intArith = true)
    (heap : List (DDM.Ray S)) (plus minus pivotIneIdx : Nat)
    (hlp : (DDM.getRay c heap plus).coordinates.length = c.extendedDim)
    (hlm : (DDM.getRay c heap minus).coordinates.length = c.extendedDim)
    (hp : (DDM.getRay c heap plus).pivotDiscrepancy
      = DDM.computeDiscrepancy c (DDM.getRay c heap plus) pivotIneIdx)
    (hm : (DDM.getRay c heap minus).pivotDiscrepancy
      = DDM.computeDiscrepancy c (DDM.getRay c heap minus) pivotIneIdx)
    (hpos : 0 < (DDM.getRay c heap plus).pivotDiscrepancy)
    (hneg : (DDM.getRay c heap minus).pivotDiscrepancy < 0) :
    (∃ α β : ℚ, 0 < α ∧ 0 < β
      ∧ ∀ k, k < c.extendedDim →
        (((DDM.edgeRay c heap plus minus pivotIneIdx).coordinates.getD k 0 : Int) : ℚ)
          = α * ((DDM.getRay c heap minus).coordinates.getD k 0 : Int)
            + β * ((DDM.getRay c heap plus).coordinates.getD k 0 : Int))
    ∧ DDM.computeDiscrepancy c (DDM.edgeRay c heap plus minus pivotIneIdx) pivotIneIdx = 0
    ∧ ∀ i, 0 ≤ DDM.computeDiscrepancy c (DDM.getRay c heap plus) i →
        0 ≤ DDM.computeDiscrepancy c (DDM.getRay c heap minus) i →
        0 ≤ DDM.computeDiscrepancy c (DDM.edgeRay c heap plus minus pivotIneIdx) i := by
  have hg := Utils.gcdVec_pos (DDM.newRayFromEdgeBlock c heap plus minus)
  rw [← hex] at hg
  have hgq : (0 : ℚ) < (Utils.gcdVec c.arith (DDM.newRayFromEdgeBlock c heap plus minus) : Int) := by
    exact_mod_cast hg
  refine ⟨⟨((DDM.getRay c heap plus).pivotDiscrepancy : ℚ)
        / (Utils.gcdVec c.arith (DDM.newRayFromEdgeBlock c heap plus minus) : Int),
      (-(DDM.getRay c heap minus).pivotDiscrepancy : ℚ)
        / (Utils.gcdVec c.arith (DDM.newRayFromEdgeBlock c heap plus minus) : Int),
      div_pos (by exact_mod_cast hpos) hgq,
      div_pos (by
        have : (0 : Int) < -(DDM.getRay c heap minus).pivotDiscrepancy := by omega
        exact_mod_cast this) hgq, ?_⟩, ?_, ?_⟩
  · intro k hk
    have e1 := Elimination.getD_normalizeIntVector_mul
      (DDM.newRayFromEdgeBlock c heap plus minus) k
    rw [← hex, DDM.edgeBlock_getD c hex heap plus minus k hlp hlm hk] at e1
    rw [DDM.edgeRay_coordinates, DDM.normalizeRay_int c hint]
    have e2 : (((Utils.normalizeIntVector c.arith (DDM.newRayFromEdgeBlock c heap plus minus)).getD k 0
          : Int) : ℚ) * (Utils.gcdVec c.arith (DDM.newRayFromEdgeBlock c heap plus minus) : Int)
        = ((DDM.getRay c heap plus).pivotDiscrepancy : ℚ)
            * ((DDM.getRay c heap minus).coordinates.getD k 0 : Int)
          - ((DDM.getRay c heap minus).pivotDiscrepancy : ℚ)
            * ((DDM.getRay c heap plus).coordinates.getD k 0 : Int) := by
      exact_mod_cast e1
    rw [eq_div_of_mul_eq (ne_of_gt hgq) e2]
    ring
  · have e := DDM.computeDiscrepancy_edgeRay c hex hint heap plus minus pivotIneIdx hlp hlm
      pivotIneIdx
    rw [← hp, ← hm] at e
    have e0 : DDM.computeDiscrepancy c (DDM.edgeRay c heap plus minus pivotIneIdx) pivotIneIdx
        * Utils.gcdVec c.arith (DDM.newRayFromEdgeBlock c heap plus minus) = 0 := by
      rw [e]
      ring
    rcases mul_eq_zero.mp e0 with h0 | h0
    · exact h0
    · omega
  · intro i h1 h2
    have e := DDM.computeDiscrepancy_edgeRay c hex hint heap plus minus pivotIneIdx hlp hlm i
    have hnn : 0 ≤ DDM.computeDiscrepancy c (DDM.edgeRay c heap plus minus pivotIneIdx) i
        * Utils.gcdVec c.arith (DDM.newRayFromEdgeBlock c heap plus minus) := by
      rw [e]
      have t1 := mul_nonneg (le_of_lt hpos) h2
      have t2 := mul_nonneg (by omega : (0 : Int) ≤ -(DDM.getRay c heap minus).pivotDiscrepancy) h1
      linarith
    exact nonneg_of_mul_nonneg_left hnn hg

/-! ## Pivot selection in quickhull order (C34) -/

namespace DDM

open Utils

/-- The scan for the least discrepancy in `next`: the result is the first
element of the list at which the discrepancy is least. -/
theorem argminFold_spec (d : Nat → Int) : ∀ (rest pre post : List Nat) (b : Nat),
    (∀ j ∈ pre, d b < d j) → (∀ j ∈ post, d b ≤ d j) →
    ∃ pre1 post1,
      pre ++ b :: post ++ rest
        = pre1 ++ (rest.foldl (fun (acc : Nat × Int) j => if d j < acc.2 then (j, d j) else acc)
            (b, d b)).1 :: post1
      ∧ (rest.foldl (fun (acc : Nat × Int) j => if d j < acc.2 then (j, d j) else acc)
            (b, d b)).2
        = d (rest.foldl (fun (acc : Nat × Int) j => if d j < acc.2 then (j, d j) else acc)
            (b, d b)).1
      ∧ (∀ j ∈ pre1, d (rest.foldl
            (fun (acc : Nat × Int) j => if d j < acc.2 then (j, d j) else acc) (b, d b)).1 < d j)
      ∧ (∀ j ∈ post1, d (rest.foldl
            (fun (acc : Nat × Int) j => if d j < acc.2 then (j, d j) else acc) (b, d b)).1
          ≤ d j) := by
  intro rest
  induction rest with
  | nil =>
    intro pre post b h1 h2
    exact ⟨pre, post, by simp, rfl, h1, h2⟩
  | cons j rest ih =>
    intro pre post b h1 h2
    simp only [List.foldl_cons]
    by_cases hj : d j < d b
    · rw [if_pos hj]
      obtain ⟨pre1, post1, e1, e2, e3, e4⟩ := ih (pre ++ b :: post) [] j (by
        intro x hx
        rcases List.mem_append.mp hx with hx1 | hx1
        · exact lt_trans hj (h1 x hx1)
        · rcases List.mem_cons.mp hx1 with hx2 | hx2
          · rw [hx2]; exact hj
          · exact lt_of_lt_of_le hj (h2 x hx2)) (by intro x hx; cases hx)
      refine ⟨pre1, post1, ?_, e2, e3, e4⟩
      rw [← e1]
      simp
    · rw [if_neg hj]
      obtain ⟨pre1, post1, e1, e2, e3, e4⟩ := ih pre (post ++ [j]) b h1 (by
        intro x hx
        rcases List.mem_append.mp hx with hx1 | hx1
        · exact h2 x hx1
        · rw [List.mem_singleton] at hx1
          rw [hx1]
          exact not_lt.mp hj)
      refine ⟨pre1, post1, ?_, e2, e3, e4⟩
      rw [← e1]
      simp

end DDM

/-- C34: in quickhull order, if some ray of `extremeRays` has a non-empty list
`assignedInequalities`, then `next` succeeds; the pivot ray is the first such
ray of the list; the pivot inequality is the first element of its list
`assignedInequalities` at which the discrepancy of the ray is least; that
discrepancy is stored in `pivotDiscrepancy` of the pivot ray; `step` grows by
one; nothing else changes. -/
theorem next_quickhull_selection {S : Type} (c : DDM.Context S) (s : DDM.State S)
    (horder : c.order = DDM.PivotingOrder.Quickhull)
    (hex : ∃ r ∈ s.extremeRays, (DDM.getRay c s.heap r).assignedInequalities ≠ []) :
    ∃ s1, DDM.next c s = some s1
      ∧ s1.step = s.step + 1
      ∧ (∃ before after, s.extremeRays = before ++ s1.pivotRay :: after
          ∧ (∀ r ∈ before, (DDM.getRay c s.heap r).assignedInequalities = [])
          ∧ (DDM.getRay c s.heap s1.pivotRay).assignedInequalities ≠ [])
      ∧ (∃ pre post,
          (DDM.getRay c s.heap s1.pivotRay).assignedInequalities
            = pre ++ s1.pivotInequalityIdx :: post
          ∧ (∀ j ∈ pre,
              DDM.computeDiscrepancy c (DDM.getRay c s.heap s1.pivotRay) s1.pivotInequalityIdx
                < DDM.computeDiscrepancy c (DDM.getRay c s.heap s1.pivotRay) j)
          ∧ (∀ j ∈ post,
              DDM.computeDiscrepancy c (DDM.getRay c s.heap s1.pivotRay) s1.pivotInequalityIdx
                ≤ DDM.computeDiscrepancy c (DDM.getRay c s.heap s1.pivotRay) j))
      ∧ (DDM.getRay c s1.heap s1.pivotRay).pivotDiscrepancy
          = DDM.computeDiscrepancy c (DDM.getRay c s.heap s1.pivotRay) s1.pivotInequalityIdx
      ∧ s1.heap = s.heap.set s1.pivotRay
          { DDM.getRay c s.heap s1.pivotRay with
            pivotDiscrepancy := DDM.computeDiscrepancy c (DDM.getRay c s.heap s1.pivotRay)
              s1.pivotInequalityIdx }
      ∧ s1.extremeRays = s.extremeRays
      ∧ s1.assigneeRays = s.assigneeRays
      ∧ s1.numProcessedInequalities = s.numProcessedInequalities
      ∧ s1.notProcessedInequalities = s.notProcessedInequalities := by
  obtain ⟨r0, hr0, hne0⟩ := hex
  cases hf : s.extremeRays.find?
      (fun r => (DDM.getRay c s.heap r).assignedInequalities.length ≠ 0) with
  | none =>
    exfalso
    rw [List.find?_eq_none] at hf
    have := hf r0 hr0
    simp at this
    exact hne0 this
  | some pr =>
    obtain ⟨hp, before, after, hsplit, hbefore⟩ := List.find?_eq_some.mp hf
    have hp2 : (DDM.getRay c s.heap pr).assignedInequalities ≠ [] := by
      intro h0
      rw [h0] at hp
      simp at hp
    have hvalid : pr < s.heap.length := by
      by_contra hc
      apply hp2
      unfold DDM.getRay
      rw [List.getD_eq_getElem?_getD, List.getElem?_eq_none (by omega)]
      rfl
    cases hl : (DDM.getRay c s.heap pr).assignedInequalities with
    | nil => exact absurd hl hp2
    | cons i0 rest =>
      obtain ⟨pre, post, e1, e2, e3, e4⟩ := DDM.argminFold_spec
        (fun j => DDM.computeDiscrepancy c (DDM.getRay c s.heap pr) j) rest [] [] i0
        (by intro j hj; cases hj) (by intro j hj; cases hj)
      refine ⟨{ s with
          step := s.step + 1, pivotRay := pr,
          pivotInequalityIdx := (rest.foldl
            (fun (acc : Nat × Int) j =>
              if DDM.computeDiscrepancy c (DDM.getRay c s.heap pr) j < acc.2
              then (j, DDM.computeDiscrepancy c (DDM.getRay c s.heap pr) j) else acc)
            (i0, DDM.computeDiscrepancy c (DDM.getRay c s.heap pr) i0)).1,
          heap := s.heap.set pr
            { DDM.getRay c s.heap pr with
              pivotDiscrepancy := (rest.foldl
                (fun (acc : Nat × Int) j =>
                  if DDM.computeDiscrepancy c (DDM.getRay c s.heap pr) j < acc.2
                  then (j, DDM.computeDiscrepancy c (DDM.getRay c s.heap pr) j) else acc)
                (i0, DDM.computeDiscrepancy c (DDM.getRay c s.heap pr) i0)).2 } },
        ?_, rfl, ⟨before, after, hsplit, ?_, ?_⟩, ⟨pre, post, ?_, e3, e4⟩, ?_, ?_, rfl, rfl,
        rfl, rfl⟩
      · unfold DDM.next
        rw [if_pos horder, hf]
        simp only [hl]
      · intro r hr
        have := hbefore r hr
        simpa using this
      · rw [hl]
        exact List.cons_ne_nil _ _
      · rw [hl]
        simpa using e1
      · show (DDM.getRay c (s.heap.set pr _) pr).pivotDiscrepancy = _
        unfold DDM.getRay
        rw [List.getD_eq_getElem?_getD, List.getElem?_set_self (by simpa using hvalid)]
        exact e2
      · show s.heap.set pr _ = s.heap.set pr _
        rw [e2]

/-- C34 on `fanState`: the ray 0 = `(1, 0)` has the assigned inequalities
2, 3, 4 with the discrepancies -1, -2, -1; `next` selects the ray 0 and the
inequality 3, stores -2 and sets `step` to 1. -/
theorem next_quickhull_selection_witness :
    (DDM.getRay fanContext fanState.heap 0).assignedInequalities = [2, 3, 4]
    ∧ (DDM.next fanContext fanState).map
        (fun s => (s.pivotRay, s.pivotInequalityIdx, s.step,
          (DDM.getRay fanContext s.heap s.pivotRay).pivotDiscrepancy)) = some (0, 3, 1, -2)
    ∧ ∃ s1, DDM.next fanContext fanState = some s1 ∧ s1.step = fanState.step + 1
      ∧ (DDM.getRay fanContext s1.heap s1.pivotRay).pivotDiscrepancy
          = DDM.computeDiscrepancy fanContext (DDM.getRay fanContext fanState.heap s1.pivotRay)
              s1.pivotInequalityIdx :=
  ⟨by decide, by decide,
    (next_quickhull_selection fanContext fanState rfl (by decide)).imp
      (fun _ h => ⟨h.1, h.2.1, h.2.2.2.2.1⟩)⟩

/-! ## The effect of `assignIne` (C35) -/

namespace DDM

open Utils

theorem findViolator_eq_some {S : Type} (c : Context S) (heap : List (Ray S)) (ineIdx : Nat) :
    ∀ (rays : List Nat) (r : Nat), findViolator c heap ineIdx rays = some r ↔
      ∃ before after, rays = before ++ r :: after
        ∧ (∀ b ∈ before, ¬ computeDiscrepancy c (getRay c heap b) ineIdx < -c.zerotol)
        ∧ computeDiscrepancy c (getRay c heap r) ineIdx < -c.zerotol := by
  intro rays
  induction rays with
  | nil =>
    intro r
    simp [findViolator]
  | cons x xs ih =>
    intro r
    unfold findViolator
    by_cases hx : computeDiscrepancy c (getRay c heap x) ineIdx < -c.zerotol
    · rw [if_pos hx]
      constructor
      · intro h
        simp only [Option.some.injEq] at h
        subst h
        exact ⟨[], xs, rfl, ⟨fun b hb => absurd hb (List.not_mem_nil b), hx⟩⟩
      · rintro ⟨before, after, e1, e2, _⟩
        cases before with
        | nil =>
          simp only [List.nil_append, List.cons.injEq] at e1
          rw [e1.1]
        | cons b bs =>
          simp only [List.cons_append, List.cons.injEq] at e1
          exact absurd (e1.1 ▸ hx) (e2 b (List.mem_cons_self _ _))
    · rw [if_neg hx, ih r]
      constructor
      · rintro ⟨before, after, e1, e2, e3⟩
        refine ⟨x :: before, after, by rw [e1]; rfl, ?_, e3⟩
        intro b hb
        rcases List.mem_cons.mp hb with h1 | h1
        · rw [h1]; exact hx
        · exact e2 b h1
      · rintro ⟨before, after, e1, e2, e3⟩
        cases before with
        | nil =>
          simp only [List.nil_append, List.cons.injEq] at e1
          exact absurd (e1.1 ▸ e3) hx
        | cons b bs =>
          simp only [List.cons_append, List.cons.injEq] at e1
          exact ⟨bs, after, e1.2, fun y hy => e2 y (List.mem_cons_of_mem _ hy), e3⟩

theorem findViolator_eq_none {S : Type} (c : Context S) (heap : List (Ray S)) (ineIdx : Nat) :
    ∀ (rays : List Nat), findViolator c heap ineIdx rays = none ↔
      ∀ r ∈ rays, ¬ computeDiscrepancy c (getRay c heap r) ineIdx < -c.zerotol := by
  intro rays
  induction rays with
  | nil => simp [findViolator]
  | cons x xs ih =>
    unfold findViolator
    by_cases hx : computeDiscrepancy c (getRay c heap x) ineIdx < -c.zerotol
    · rw [if_pos hx]
      simp only [List.mem_cons, forall_eq_or_imp, false_iff, not_and, reduceCtorEq]
      intro h
      exact absurd hx h
    · rw [if_neg hx, ih]
      simp only [List.mem_cons, forall_eq_or_imp]
      exact ⟨fun h => ⟨hx, h⟩, fun h => h.2⟩

/-- When a ray of `rays` strictly violates the inequality, `assignIne` appends
the index to the list of the first such ray and records the ray; nothing else
changes. -/
theorem assignIne_of_some {S : Type} (c : Context S) (s : State S) (ineIdx : Nat)
    (rays : List Nat) (r : Nat) (h : findViolator c s.heap ineIdx rays = some r) :
    assignIne c s ineIdx rays =
      { s with
        heap := s.heap.set r
          { getRay c s.heap r with
            assignedInequalities := (getRay c s.heap r).assignedInequalities ++ [ineIdx] },
        assigneeRays := s.assigneeRays.set ineIdx (some r) } := by
  unfold assignIne
  rw [h]

theorem assignIne_none_fields {S : Type} (c : Context S) (s : State S) (ineIdx : Nat)
    (rays : List Nat) (h : findViolator c s.heap ineIdx rays = none) :
    (assignIne c s ineIdx rays).heap = s.heap
    ∧ (assignIne c s ineIdx rays).assigneeRays = s.assigneeRays.set ineIdx none
    ∧ (assignIne c s ineIdx rays).numProcessedInequalities
        = (s.numProcessedInequalities + 1) % 2 ^ c.ops.idxBits
    ∧ (assignIne c s ineIdx rays).notProcessedInequalities
        = Vector.remove s.notProcessedInequalities ineIdx
    ∧ (assignIne c s ineIdx rays).extremeRays = s.extremeRays := by
  rw [assignIne_of_none c s ineIdx rays h]
  exact ⟨rfl, rfl, rfl, rfl, rfl⟩

theorem makeInitialStepUpTo_eye_state {S : Type} (c : Context S) (n : Nat)
    (hn : n < 2147483648) (perm : List Nat)
    (hm : c.inequalityMatrix = Matrix.assign_eye n) (hi : c.intArith = true)
    (hp : c.usePlusPlus = false) (hz : c.zerotol = 0) (k : Nat) :
    (∀ r ∈ (makeInitialStepUpTo c (Matrix.assign_eye n) perm k).heap, Good r)
    ∧ findViolator c (makeInitialStepUpTo c (Matrix.assign_eye n) perm k).heap k
        (makeInitialStepUpTo c (Matrix.assign_eye n) perm k).extremeRays = none := by
  have hrays : ∀ r ∈ (List.range c.rank).map (fun rayIdx =>
      ({ newRay c ((Matrix.assign_eye n).row rayIdx)
            (if c.usePlusPlus then computeDiscrepancies c ((Matrix.assign_eye n).row rayIdx)
              else [])
            c.inequalityMatrix.nrows with
          cobasis := initialCobasis c perm rayIdx
            (newRay c ((Matrix.assign_eye n).row rayIdx)
              (if c.usePlusPlus then computeDiscrepancies c ((Matrix.assign_eye n).row rayIdx)
                else [])
              c.inequalityMatrix.nrows).cobasis } : Ray S)), Good r := by
    intro r hr
    simp only [List.mem_map] at hr
    obtain ⟨i, _, rfl⟩ := hr
    refine ⟨?_, rfl⟩
    simp only [newRay, normalizeRay, hi, hp, if_true, Bool.false_eq_true, if_false,
      List.take_nil, List.append_nil]
    have h01 : ∀ x ∈ ((Matrix.assign_eye n).row i).take c.dim, x = 0 ∨ x = 1 :=
      fun x hx => eye_row_zero_one n i x (List.mem_of_mem_take hx)
    rw [normalizeIntVector_zero_one _ h01]
    exact h01
  have hheap := computeAdjacency_good c _ (List.range c.rank)
    (initialState c).notProcessedInequalities hrays
  have hfold := assignIne_fold_eye c n hn hm hz
    { initialState c with
      heap := computeAdjacency c _ (List.range c.rank) (initialState c).notProcessedInequalities,
      extremeRays := List.range c.rank }
    hheap rfl k
  have hgood : ∀ r ∈ (makeInitialStepUpTo c (Matrix.assign_eye n) perm k).heap, Good r := by
    intro r hr
    have e : (makeInitialStepUpTo c (Matrix.assign_eye n) perm k).heap
        = computeAdjacency c _ (List.range c.rank) (initialState c).notProcessedInequalities :=
      hfold.1
    rw [e] at hr
    exact hheap r hr
  refine ⟨hgood, ?_⟩
  apply findViolator_none c _ k hz
  intro r _
  unfold computeDiscrepancy
  apply dot_nonneg
  · rw [hm]
    exact hn
  · exact (getRay_good c _ r hgood).1
  · rw [hm]
    exact eye_row_zero_one n k

end DDM

/-- C35, evaluated at a failing input: on the 256 × 256 identity matrix (8-bit
index type), in the state after the first 255 calls of `assignIne` in
`makeInitialStep`, no ray of `extremeRays` strictly violates the inequality
255; the call `assignIne(255, extremeRays)` leaves every ray unchanged and sets
`assigneeRays[255]` to null, but the counter goes from 255 to 0, not to
256. -/
theorem assignIne_counter_identity_256 :
    DDM.findViolator (defaultContext (Utils.Matrix.assign_eye 256))
        (DDM.makeInitialStepUpTo (defaultContext (Utils.Matrix.assign_eye 256))
          (Utils.Matrix.assign_eye 256) (List.range 256) 255).heap 255
        (DDM.makeInitialStepUpTo (defaultContext (Utils.Matrix.assign_eye 256))
          (Utils.Matrix.assign_eye 256) (List.range 256) 255).extremeRays = none
    ∧ (DDM.assignIne (defaultContext (Utils.Matrix.assign_eye 256))
        (DDM.makeInitialStepUpTo (defaultContext (Utils.Matrix.assign_eye 256))
          (Utils.Matrix.assign_eye 256) (List.range 256) 255) 255
        (DDM.makeInitialStepUpTo (defaultContext (Utils.Matrix.assign_eye 256))
          (Utils.Matrix.assign_eye 256) (List.range 256) 255).extremeRays).heap
      = (DDM.makeInitialStepUpTo (defaultContext (Utils.Matrix.assign_eye 256))
          (Utils.Matrix.assign_eye 256) (List.range 256) 255).heap
    ∧ (DDM.assignIne (defaultContext (Utils.Matrix.assign_eye 256))
        (DDM.makeInitialStepUpTo (defaultContext (Utils.Matrix.assign_eye 256))
          (Utils.Matrix.assign_eye 256) (List.range 256) 255) 255
        (DDM.makeInitialStepUpTo (defaultContext (Utils.Matrix.assign_eye 256))
          (Utils.Matrix.assign_eye 256) (List.range 256) 255).extremeRays).assigneeRays
      = (DDM.makeInitialStepUpTo (defaultContext (Utils.Matrix.assign_eye 256))
          (Utils.Matrix.assign_eye 256) (List.range 256) 255).assigneeRays.set 255 none
    ∧ (DDM.makeInitialStepUpTo (defaultContext (Utils.Matrix.assign_eye 256))
        (Utils.Matrix.assign_eye 256) (List.range 256) 255).numProcessedInequalities + 1 = 256
    ∧ (DDM.assignIne (defaultContext (Utils.Matrix.assign_eye 256))
        (DDM.makeInitialStepUpTo (defaultContext (Utils.Matrix.assign_eye 256))
          (Utils.Matrix.assign_eye 256) (List.range 256) 255) 255
        (DDM.makeInitialStepUpTo (defaultContext (Utils.Matrix.assign_eye 256))
          (Utils.Matrix.assign_eye 256) (List.range 256) 255).extremeRays).numProcessedInequalities
      = 0 := by
  have hv := (DDM.makeInitialStepUpTo_eye_state (defaultContext (Utils.Matrix.assign_eye 256)) 256
    (by decide) (List.range 256) rfl rfl rfl rfl 255).2
  have h255 := DDM.makeInitialStepUpTo_eye (defaultContext (Utils.Matrix.assign_eye 256)) 256
    (by decide) (List.range 256) rfl rfl rfl rfl 255
  obtain ⟨e1, e2, e3, _, _⟩ := DDM.assignIne_none_fields
    (defaultContext (Utils.Matrix.assign_eye 256))
    (DDM.makeInitialStepUpTo (defaultContext (Utils.Matrix.assign_eye 256))
      (Utils.Matrix.assign_eye 256) (List.range 256) 255) 255
    (DDM.makeInitialStepUpTo (defaultContext (Utils.Matrix.assign_eye 256))
      (Utils.Matrix.assign_eye 256) (List.range 256) 255).extremeRays hv
  refine ⟨hv, e1, e2, ?_, ?_⟩
  · rw [h255]
    decide
  · rw [e3, h255]
    decide

/-! ## `Vector::erase` and `Vector::remove` as operations on multisets -/

namespace Utils

theorem Vector.erase_append_cons {α : Type} (pre : List α) (x : α) (rest : List α) :
    Vector.erase (pre ++ x :: rest) pre.length
      = pre ++ (match rest.getLast? with
                | none => []
                | some l => l :: rest.dropLast) := by
  unfold Vector.erase
  rcases List.eq_nil_or_concat rest with h | ⟨mid, l, h⟩
  · subst h
    simp
  · rw [List.concat_eq_append] at h
    subst h
    have h1 : (pre ++ x :: (mid ++ [l])).getLast? = some l := by
      simp [List.getLast?_append, List.getLast?_cons]
    have h3 : (mid ++ [l]).getLast? = some l := by simp
    have h4 : (mid ++ [l]).dropLast = mid := by simp
    rw [h1, h3, h4]
    simp only
    rw [List.set_append_right _ _ (Nat.le_refl _), Nat.sub_self, List.set_cons_zero]
    have h2 : pre ++ l :: (mid ++ [l]) = (pre ++ l :: mid) ++ [l] := by simp
    rw [h2, List.dropLast_concat]

theorem Vector.split_at {α : Type} (v : List α) (i : Nat) (hi : i < v.length) :
    v = v.take i ++ v[i] :: v.drop (i + 1) ∧ (v.take i).length = i := by
  refine ⟨?_, by rw [List.length_take]; omega⟩
  rw [← List.drop_eq_getElem_cons hi, List.take_append_drop]

/-- Erasing position `i` leaves the elements before it in place and permutes
the elements after it. -/
theorem Vector.erase_perm {α : Type} (v : List α) (i : Nat) (hi : i < v.length) :
    (Vector.erase v i).take i = v.take i
    ∧ ((Vector.erase v i).drop i).Perm (v.drop (i + 1))
    ∧ (Vector.erase v i).Perm (v.take i ++ v.drop (i + 1)) := by
  obtain ⟨hv, hlen⟩ := Vector.split_at v i hi
  have he : Vector.erase v i
      = v.take i ++ (match (v.drop (i + 1)).getLast? with
                      | none => []
                      | some l => l :: (v.drop (i + 1)).dropLast) := by
    have := Vector.erase_append_cons (v.take i) v[i] (v.drop (i + 1))
    rw [hlen, ← hv] at this
    exact this
  have hp : (match (v.drop (i + 1)).getLast? with
              | none => []
              | some l => l :: (v.drop (i + 1)).dropLast).Perm (v.drop (i + 1)) := by
    rcases List.eq_nil_or_concat (v.drop (i + 1)) with h | ⟨mid, l, h⟩
    · rw [h]
      simp
    · rw [List.concat_eq_append] at h
      have h3 : (mid ++ [l]).getLast? = some l := by simp
      have h4 : (mid ++ [l]).dropLast = mid := by simp
      rw [h, h3, h4]
      exact (List.perm_append_singleton l mid).symm
  refine ⟨?_, ?_, ?_⟩
  · rw [he, List.take_left' hlen]
  · rw [he, List.drop_left' hlen]
    exact hp
  · rw [he]
    exact List.Perm.append_left _ hp

/-- The loop of `Vector::remove` with enough fuel keeps the elements before
position `i` and, of the others, exactly those that differ from `element`. -/
theorem Vector.removeLoop_perm {α : Type} [DecidableEq α] (element : α) :
    ∀ (fuel i : Nat) (v : List α), v.length ≤ fuel + i → i ≤ v.length →
      (Vector.removeLoop element fuel i v).Perm
        (v.take i ++ (v.drop i).filter (fun x => decide (x ≠ element))) := by
  intro fuel
  induction fuel with
  | zero =>
    intro i v h1 h2
    have hi : i = v.length := by omega
    subst hi
    simp [Vector.removeLoop]
  | succ fuel ih =>
    intro i v h1 h2
    unfold Vector.removeLoop
    by_cases hi : i < v.length
    · rw [if_pos hi]
      have hd : v.drop i = v[i] :: v.drop (i + 1) := List.drop_eq_getElem_cons hi
      by_cases hx : v.get? i = some element
      · rw [if_pos hx]
        have hxe : v[i] = element := by
          rw [List.get?_eq_getElem?, List.getElem?_eq_getElem hi] at hx
          exact Option.some.inj hx
        obtain ⟨e1, e2, _⟩ := Vector.erase_perm v i hi
        have hlen := Vector.length_erase v i hi
        have := ih i (Vector.erase v i) (by omega) (by omega)
        refine this.trans ?_
        rw [e1, hd, List.filter_cons_of_neg (by simp [hxe])]
        exact List.Perm.append_left _ (List.Perm.filter _ e2)
      · rw [if_neg hx]
        have hxe : v[i] ≠ element := by
          intro h0
          apply hx
          rw [List.get?_eq_getElem?, List.getElem?_eq_getElem hi, h0]
        have := ih (i + 1) v (by omega) (by omega)
        refine this.trans ?_
        have ht : v.take (i + 1) = v.take i ++ [v[i]] := by
          rw [List.take_succ, List.getElem?_eq_getElem hi]
          rfl
        rw [hd, List.filter_cons_of_pos (by simp [hxe]), ht, List.append_assoc]
        exact List.Perm.refl _
    · rw [if_neg hi]
      have hi2 : i = v.length := by omega
      subst hi2
      simp

/-- `Vector::remove(element)` keeps exactly the elements that differ from
`element`. -/
theorem Vector.remove_perm {α : Type} [DecidableEq α] (v : List α) (element : α) :
    (Vector.remove v element).Perm (v.filter (fun x => decide (x ≠ element))) := by
  have := Vector.removeLoop_perm element v.length 0 v (by omega) (Nat.zero_le _)
  simpa [Vector.remove] using this

end Utils

/-! ## The partition of the inequalities and the counter (C36) -/

namespace DDM

open Utils

theorem foldl_remove_perm : ∀ (l v : List Nat),
    (l.foldl (fun (x : List Nat) i => Vector.remove x i) v).Perm
      (v.filter (fun x => decide (x ∉ l))) := by
  intro l
  induction l with
  | nil => intro v; simp
  | cons i is ih =>
    intro v
    simp only [List.foldl_cons]
    refine (ih _).trans ?_
    refine ((Vector.remove_perm v i).filter _).trans ?_
    rw [List.filter_filter]
    apply List.Perm.of_eq
    apply List.filter_congr
    intro x _
    simp only [List.mem_cons, not_or, ne_eq, decide_not, Bool.and_eq_true, Bool.not_eq_true',
      decide_eq_false_iff_not, Bool.decide_and]
    by_cases h1 : x = i <;> by_cases h2 : x ∈ is <;> simp [h1, h2]

/-- On an identity matrix every call of `assignIne` in `makeInitialStep`
finds no violating ray: the heap and the list of rays stay, every index is
removed from `notProcessedInequalities` and gets a null assignee. -/
theorem assignIne_fold_eye_lists {S : Type} (c : Context S) (n : Nat) (hn31 : n < 2147483648)
    (hm : c.inequalityMatrix = Matrix.assign_eye n) (hz : c.zerotol = 0) (s : State S)
    (hgood : ∀ r ∈ s.heap, Good r) (k : Nat) :
    ((List.range k).foldl (fun s i => assignIne c s i s.extremeRays) s).heap = s.heap
    ∧ ((List.range k).foldl (fun s i => assignIne c s i s.extremeRays) s).assigneeRays
        = (List.range k).foldl (fun (a : List (Option Nat)) i => a.set i none) s.assigneeRays
    ∧ ((List.range k).foldl (fun s i => assignIne c s i s.extremeRays) s).notProcessedInequalities
        = (List.range k).foldl (fun (x : List Nat) i => Vector.remove x i)
            s.notProcessedInequalities := by
  induction k with
  | zero => simp
  | succ k ih =>
    rw [List.range_succ, List.foldl_append, List.foldl_append, List.foldl_append]
    simp only [List.foldl_cons, List.foldl_nil]
    obtain ⟨h1, h2, h3⟩ := ih
    have hnone : findViolator c
        ((List.range k).foldl (fun s i => assignIne c s i s.extremeRays) s).heap k
        ((List.range k).foldl (fun s i => assignIne c s i s.extremeRays) s).extremeRays = none := by
      apply findViolator_none c _ k hz
      intro r _
      unfold computeDiscrepancy
      apply dot_nonneg
      · rw [hm]
        exact hn31
      · rw [h1]
        exact (getRay_good c s.heap r hgood).1
      · rw [hm]
        exact eye_row_zero_one n k
    obtain ⟨f1, f2, _, f4, _⟩ := assignIne_none_fields c _ k _ hnone
    rw [f1, f2, f4, h1, h2, h3]
    exact ⟨rfl, rfl, rfl⟩

theorem foldl_set_none_replicate (n : Nat) : ∀ (l : List Nat),
    l.foldl (fun (a : List (Option Nat)) i => a.set i none) (List.replicate n none)
      = List.replicate n none := by
  intro l
  induction l with
  | nil => rfl
  | cons i is ih =>
    simp only [List.foldl_cons]
    have : (List.replicate n (none : Option Nat)).set i none = List.replicate n none :=
      List.set_replicate_self
    rw [this, ih]

theorem makeInitialStep_eye_lists {S : Type} (c : Context S) (n : Nat) (hn31 : n < 2147483648)
    (perm : List Nat)
    (hm : c.inequalityMatrix = Matrix.assign_eye n) (hi : c.intArith = true)
    (hp : c.usePlusPlus = false) (hz : c.zerotol = 0) (hn : n ≤ 2 ^ c.ops.idxBits) :
    (makeInitialStep c (Matrix.assign_eye n) perm).assigneeRays = List.replicate n none
    ∧ (makeInitialStep c (Matrix.assign_eye n) perm).notProcessedInequalities = [] := by
  have hrays : ∀ r ∈ (List.range c.rank).map (fun rayIdx =>
      ({ newRay c ((Matrix.assign_eye n).row rayIdx)
            (if c.usePlusPlus then computeDiscrepancies c ((Matrix.assign_eye n).row rayIdx)
              else [])
            c.inequalityMatrix.nrows with
          cobasis := initialCobasis c perm rayIdx
            (newRay c ((Matrix.assign_eye n).row rayIdx)
              (if c.usePlusPlus then computeDiscrepancies c ((Matrix.assign_eye n).row rayIdx)
                else [])
              c.inequalityMatrix.nrows).cobasis } : Ray S)), Good r := by
    intro r hr
    simp only [List.mem_map] at hr
    obtain ⟨i, _, rfl⟩ := hr
    refine ⟨?_, rfl⟩
    simp only [newRay, normalizeRay, hi, hp, if_true, Bool.false_eq_true, if_false,
      List.take_nil, List.append_nil]
    have h01 : ∀ x ∈ ((Matrix.assign_eye n).row i).take c.dim, x = 0 ∨ x = 1 :=
      fun x hx => eye_row_zero_one n i x (List.mem_of_mem_take hx)
    rw [normalizeIntVector_zero_one _ h01]
    exact h01
  have hheap := computeAdjacency_good c _ (List.range c.rank)
    (initialState c).notProcessedInequalities hrays
  have hrows : c.inequalityMatrix.nrows = n := by rw [hm]; exact eye_nrows n
  obtain ⟨_, f2, f3⟩ := assignIne_fold_eye_lists c n hn31 hm hz
    { initialState c with
      heap := computeAdjacency c _ (List.range c.rank) (initialState c).notProcessedInequalities,
      extremeRays := List.range c.rank }
    hheap c.inequalityMatrix.nrows
  constructor
  · refine Eq.trans f2 ?_
    show (List.range c.inequalityMatrix.nrows).foldl _
      (List.replicate c.inequalityMatrix.nrows none) = _
    rw [hrows]
    exact foldl_set_none_replicate n _
  · refine Eq.trans f3 ?_
    have hperm := foldl_remove_perm (List.range c.inequalityMatrix.nrows)
      ((List.range c.inequalityMatrix.nrows).map (fun i => i % 2 ^ c.ops.idxBits))
    have hnil : ((List.range c.inequalityMatrix.nrows).map
        (fun i => i % 2 ^ c.ops.idxBits)).filter
          (fun x => decide (x ∉ List.range c.inequalityMatrix.nrows)) = [] := by
      rw [List.filter_eq_nil_iff]
      intro x hx
      rw [List.mem_map] at hx
      obtain ⟨i, hi1, hi2⟩ := hx
      rw [List.mem_range] at hi1
      have : x ∈ List.range c.inequalityMatrix.nrows := by
        rw [List.mem_range, ← hi2, Nat.mod_eq_of_lt (by omega)]
        exact hi1
      simp [this]
    rw [hnil] at hperm
    exact List.Perm.eq_nil hperm

theorem classifyRays_of_next_none {S : Type} (c : Context S) (s : State S)
    (h : next c s = none) : classifyRays c s = none := by
  unfold classifyRays
  rw [h]

end DDM

/-- C36, evaluated at a failing input: on the 256 × 256 identity matrix
(default parameters, 8-bit index type), after `makeInitialStep` every
inequality is processed (all 256 assignees are null, no index is left in
`notProcessedInequalities`), but the counter holds 0, not 256; `isEnded()` is
false, and `next` finds no ray with an outside set and reads past the end of
the list of rays, so that `classifyRays` has no defined result. -/
theorem partition_counter_identity_256 :
    (defaultInitialState (Utils.Matrix.assign_eye 256)).assigneeRays = List.replicate 256 none
    ∧ (defaultInitialState (Utils.Matrix.assign_eye 256)).notProcessedInequalities = []
    ∧ (defaultInitialState (Utils.Matrix.assign_eye 256)).numProcessedInequalities = 0
    ∧ DDM.isEnded (defaultContext (Utils.Matrix.assign_eye 256))
        (defaultInitialState (Utils.Matrix.assign_eye 256)) = false
    ∧ DDM.next (defaultContext (Utils.Matrix.assign_eye 256))
        (defaultInitialState (Utils.Matrix.assign_eye 256)) = none
    ∧ DDM.classifyRays (defaultContext (Utils.Matrix.assign_eye 256))
        (defaultInitialState (Utils.Matrix.assign_eye 256)) = none := by
  have hn : (Utils.Matrix.assign_eye 256).nrows = 256 := Utils.eye_nrows 256
  have hg2 : Utils.gauss Utils.Coeff.int (Utils.Matrix.assign_eye 256) (Utils.Matrix.assign_eye 256).nrows true 0
      = ⟨Utils.Matrix.assign_eye 256, Utils.Matrix.resize 0 256, 256, List.range 256⟩ := by
    rw [hn]; exact Utils.gauss_eye 256
  obtain ⟨h1, _, h3⟩ := DDM.makeInitialStep_eye (defaultContext (Utils.Matrix.assign_eye 256))
    256 (by decide) (List.range 256) rfl rfl rfl rfl
  obtain ⟨l1, l2⟩ := DDM.makeInitialStep_eye_lists
    (defaultContext (Utils.Matrix.assign_eye 256)) 256 (by decide) (List.range 256)
    rfl rfl rfl rfl (by decide)
  have hs : defaultInitialState (Utils.Matrix.assign_eye 256)
      = DDM.makeInitialStep (defaultContext (Utils.Matrix.assign_eye 256))
          (Utils.Matrix.assign_eye 256) (List.range 256) := by
    unfold defaultInitialState
    rw [hg2]
  have hnext : DDM.next (defaultContext (Utils.Matrix.assign_eye 256))
      (defaultInitialState (Utils.Matrix.assign_eye 256)) = none := by
    rw [hs]
    exact DDM.next_none_of_good _ _ rfl h3
  refine ⟨?_, ?_, ?_, ?_, hnext, ?_⟩
  · exact (congrArg DDM.State.assigneeRays hs).trans l1
  · exact (congrArg DDM.State.notProcessedInequalities hs).trans l2
  · rw [hs, h1]
    rfl
  · unfold DDM.isEnded
    rw [hs, h1]
    show decide (256 % 2 ^ 8 ≥ (Utils.Matrix.assign_eye 256).nrows) = false
    rw [hn]
    decide
  · exact DDM.classifyRays_of_next_none _ _ hnext

/-! ## Reordering of the inequalities (C39) -/

namespace Utils

theorem Matrix.getElem?_swapList {α : Type} (l : List α) (i j k : Nat) (hi : i < l.length)
    (hj : j < l.length) :
    (Matrix.swapList l i j)[k]? = if k = j then l[i]? else if k = i then l[j]? else l[k]? := by
  unfold Matrix.swapList
  rw [List.get?_eq_getElem?, List.get?_eq_getElem?, List.getElem?_eq_getElem hi,
    List.getElem?_eq_getElem hj]
  simp only
  rw [List.getElem?_set, List.getElem?_set]
  by_cases hkj : k = j
  · subst hkj
    simp [hj]
  · have hjk : ¬ j = k := fun h => hkj h.symm
    rw [if_neg hjk, if_neg hkj]
    by_cases hki : k = i
    · subst hki
      simp [hi]
    · have hik : ¬ i = k := fun h => hki h.symm
      rw [if_neg hik, if_neg hki]

theorem Matrix.swapList_perm {α : Type} [DecidableEq α] (l : List α) (i j : Nat) :
    (Matrix.swapList l i j).Perm l := by
  unfold Matrix.swapList
  by_cases hi : i < l.length
  · by_cases hj : j < l.length
    · rw [List.get?_eq_getElem?, List.get?_eq_getElem?, List.getElem?_eq_getElem hi,
        List.getElem?_eq_getElem hj]
      simp only
      rw [List.perm_iff_count]
      intro b
      have hj2 : j < (l.set i l[j]).length := by simpa using hj
      rw [List.count_set _ _ _ _ hj2, List.count_set _ _ _ _ hi]
      have hget : (l.set i l[j])[j] = l[j] := by
        rw [List.getElem_set]
        split_ifs <;> rfl
      rw [hget]
      have hc1 : (l[i] == b) = true → 0 < List.count b l := by
        intro h
        rw [beq_iff_eq] at h
        rw [List.count_pos_iff]
        exact h ▸ List.getElem_mem _
      by_cases h1 : (l[i] == b) = true <;> by_cases h2 : (l[j] == b) = true
      · have := hc1 h1
        simp only [h1, h2, if_true]
        omega
      · have := hc1 h1
        simp only [h1, h2, if_true]
        simp
        omega
      · simp only [h1, h2, if_true]
        simp
      · simp only [h1, h2]
        simp
    · have hnone : l.get? j = none := by
        rw [List.get?_eq_getElem?]
        exact List.getElem?_eq_none (by omega)
      rw [hnone]
      cases l.get? i <;> exact List.Perm.refl _
  · have hnone : l.get? i = none := by
      rw [List.get?_eq_getElem?]
      exact List.getElem?_eq_none (by omega)
    rw [hnone]

end Utils

namespace DDM

open Utils

theorem lexLess_iff : ∀ (a b : List Int), a.length = b.length →
    (lexLess a b = true ↔ a < b) := by
  intro a
  induction a with
  | nil =>
    intro b hb
    cases b with
    | nil => simp [lexLess]
    | cons y ys => simp at hb
  | cons x xs ih =>
    intro b hb
    cases b with
    | nil => simp at hb
    | cons y ys =>
      simp only [List.length_cons, Nat.add_right_cancel_iff] at hb
      unfold lexLess
      by_cases h1 : x < y
      · rw [if_pos h1]
        exact ⟨fun _ => List.Lex.rel h1, fun _ => rfl⟩
      · rw [if_neg h1]
        by_cases h2 : x > y
        · rw [if_pos h2]
          constructor
          · intro h; cases h
          · intro h
            cases h with
            | rel h3 => exact absurd h3 h1
            | cons h3 => exact absurd h2 (lt_irrefl _)
        · rw [if_neg h2, ih ys hb]
          have hxy : x = y := le_antisymm (not_lt.mp h2) (not_lt.mp h1)
          subst hxy
          constructor
          · intro h; exact List.Lex.cons h
          · intro h
            cases h with
            | rel h3 => exact absurd h3 h1
            | cons h3 => exact h3

end DDM

namespace DDM

open Utils

theorem argminRow_spec (rows : List (List Int)) (d : Nat) (hlen : ∀ r ∈ rows, r.length = d) :
    ∀ (js : List Nat) (b0 : Nat), b0 < rows.length → (∀ j ∈ js, j < rows.length) →
      ((js.foldl (fun b j => if lexLess (rows.getD j []) (rows.getD b []) then j else b) b0 = b0
        ∨ js.foldl (fun b j => if lexLess (rows.getD j []) (rows.getD b []) then j else b) b0
            ∈ js)
      ∧ rows.getD
          (js.foldl (fun b j => if lexLess (rows.getD j []) (rows.getD b []) then j else b) b0)
          [] ≤ rows.getD b0 []
      ∧ ∀ j ∈ js, rows.getD
          (js.foldl (fun b j => if lexLess (rows.getD j []) (rows.getD b []) then j else b) b0)
          [] ≤ rows.getD j []) := by
  have hl : ∀ j, j < rows.length → (rows.getD j []).length = d := by
    intro j hj
    rw [List.getD_eq_getElem _ _ hj]
    exact hlen _ (List.getElem_mem _)
  intro js
  induction js with
  | nil =>
    intro b0 _ _
    exact ⟨Or.inl rfl, le_refl _, fun j hj => by cases hj⟩
  | cons j js ih =>
    intro b0 hb0 hjs
    simp only [List.foldl_cons]
    have hj : j < rows.length := hjs j (List.mem_cons_self _ _)
    have hjs2 : ∀ x ∈ js, x < rows.length := fun x hx => hjs x (List.mem_cons_of_mem _ hx)
    by_cases hlt : lexLess (rows.getD j []) (rows.getD b0 []) = true
    · rw [if_pos hlt]
      obtain ⟨e1, e2, e3⟩ := ih j hj hjs2
      have hjb : rows.getD j [] < rows.getD b0 [] :=
        (lexLess_iff _ _ ((hl j hj).trans (hl b0 hb0).symm)).mp hlt
      refine ⟨Or.inr ?_, le_trans e2 (le_of_lt hjb), ?_⟩
      · rcases e1 with h | h
        · rw [h]; exact List.mem_cons_self _ _
        · exact List.mem_cons_of_mem _ h
      · intro x hx
        rcases List.mem_cons.mp hx with h | h
        · rw [h]; exact e2
        · exact e3 x h
    · rw [if_neg hlt]
      obtain ⟨e1, e2, e3⟩ := ih b0 hb0 hjs2
      have hjb : rows.getD b0 [] ≤ rows.getD j [] := by
        rw [← not_lt]
        intro h
        exact hlt ((lexLess_iff _ _ ((hl j hj).trans (hl b0 hb0).symm)).mpr h)
      refine ⟨?_, e2, ?_⟩
      · rcases e1 with h | h
        · exact Or.inl h
        · exact Or.inr (List.mem_cons_of_mem _ h)
      · intro x hx
        rcases List.mem_cons.mp hx with h | h
        · rw [h]; exact le_trans e2 hjb
        · exact e3 x h

theorem getD_swapList_rows (rows : List (List Int)) (i j x : Nat) (hi : i < rows.length)
    (hj : j < rows.length) :
    (Matrix.swapList rows i j).getD x []
      = rows.getD (if x = j then i else if x = i then j else x) [] := by
  rw [List.getD_eq_getElem?_getD, List.getD_eq_getElem?_getD,
    Matrix.getElem?_swapList rows i j x hi hj]
  split_ifs <;> rfl

/-- One pass of the selection sort: if the first `k` rows are in place (each is
at most every later row), then after the pass the first `k + 1` rows are. -/
theorem lexSelect_step (m : Matrix) (hlen : ∀ r ∈ m.rows, r.length = m.numCols) (k : Nat)
    (hk : k < m.nrows)
    (hinv : ∀ a b, a < b → a < k → b < m.rows.length → m.rows.getD a [] ≤ m.rows.getD b []) :
    (lexSelect m k).numCols = m.numCols
    ∧ (lexSelect m k).rows.Perm m.rows
    ∧ ∀ a b, a < b → a < k + 1 → b < (lexSelect m k).rows.length →
        (lexSelect m k).rows.getD a [] ≤ (lexSelect m k).rows.getD b [] := by
  have hk2 : k < m.rows.length := hk
  obtain ⟨e1, e2, e3⟩ := argminRow_spec m.rows m.numCols hlen
    (List.range' (k + 1) (m.nrows - (k + 1))) k hk2 (by
      intro j hj
      rw [List.mem_range'] at hj
      obtain ⟨i, hi1, hi2⟩ := hj
      have : m.nrows = m.rows.length := rfl
      omega)
  have hmin : ∀ j, k ≤ j → j < m.rows.length →
      m.rows.getD ((List.range' (k + 1) (m.nrows - (k + 1))).foldl
        (fun b j => if lexLess (m.rows.getD j []) (m.rows.getD b []) then j else b) k) []
        ≤ m.rows.getD j [] := by
    intro j hj1 hj2
    by_cases hjk : j = k
    · rw [hjk]; exact e2
    · apply e3
      rw [List.mem_range']
      have : m.nrows = m.rows.length := rfl
      exact ⟨j - (k + 1), by omega, by omega⟩
  have hrange : k ≤ (List.range' (k + 1) (m.nrows - (k + 1))).foldl
        (fun b j => if lexLess (m.rows.getD j []) (m.rows.getD b []) then j else b) k
      ∧ (List.range' (k + 1) (m.nrows - (k + 1))).foldl
        (fun b j => if lexLess (m.rows.getD j []) (m.rows.getD b []) then j else b) k
        < m.rows.length := by
    rcases e1 with h | h
    · rw [h]; exact ⟨le_refl _, hk2⟩
    · rw [List.mem_range'] at h
      obtain ⟨i, hi1, hi2⟩ := h
      have : m.nrows = m.rows.length := rfl
      omega
  have hsel : lexSelect m k = m.swap_rows k ((List.range' (k + 1) (m.nrows - (k + 1))).foldl
      (fun b j => if lexLess (m.rows.getD j []) (m.rows.getD b []) then j else b) k) := rfl
  generalize (List.range' (k + 1) (m.nrows - (k + 1))).foldl
    (fun b j => if lexLess (m.rows.getD j []) (m.rows.getD b []) then j else b) k = js
    at hmin hrange hsel
  obtain ⟨hr1, hr2⟩ := hrange
  rw [hsel]
  refine ⟨rfl, Matrix.swapList_perm m.rows k js, ?_⟩
  intro a b hab hak hb
  have hb2 : b < m.rows.length := by
    have : (m.swap_rows k js).rows.length = m.rows.length := Matrix.length_swapList _ _ _
    omega
  show (Matrix.swapList m.rows k js).getD a [] ≤ (Matrix.swapList m.rows k js).getD b []
  rw [getD_swapList_rows m.rows k js a hk2 hr2, getD_swapList_rows m.rows k js b hk2 hr2]
  have hpb : b < k ∧ (if b = js then k else if b = k then js else b) = b
      ∨ k ≤ (if b = js then k else if b = k then js else b)
        ∧ (if b = js then k else if b = k then js else b) < m.rows.length := by
    by_cases h1 : b = js
    · rw [if_pos h1]; exact Or.inr ⟨le_refl _, hk2⟩
    · rw [if_neg h1]
      by_cases h2 : b = k
      · rw [if_pos h2]; exact Or.inr ⟨hr1, hr2⟩
      · rw [if_neg h2]
        by_cases h3 : b < k
        · exact Or.inl ⟨h3, rfl⟩
        · exact Or.inr ⟨by omega, hb2⟩
  by_cases hak2 : a < k
  · have hpa : (if a = js then k else if a = k then js else a) = a := by
      rw [if_neg (by omega), if_neg (by omega)]
    rw [hpa]
    rcases hpb with ⟨h1, h2⟩ | ⟨h1, h2⟩
    · rw [h2]; exact hinv a b hab hak2 hb2
    · exact hinv a _ (by omega) hak2 h2
  · have hak3 : a = k := by omega
    have hpa : (if a = js then k else if a = k then js else a) = js := by
      by_cases h1 : a = js
      · rw [if_pos h1]; omega
      · rw [if_neg h1, if_pos hak3]
    rw [hpa]
    rcases hpb with ⟨h1, _⟩ | ⟨h1, h2⟩
    · omega
    · exact hmin _ h1 h2

/-- The selection sort of `reorderInequalities` leaves a permutation of the
rows in non-decreasing lexicographic order. -/
theorem lexSort_spec : ∀ (k : Nat) (m : Matrix), (∀ r ∈ m.rows, r.length = m.numCols) →
    k < m.nrows ∨ k = 0 →
    ((List.range k).foldl lexSelect m).numCols = m.numCols
    ∧ ((List.range k).foldl lexSelect m).rows.Perm m.rows
    ∧ ∀ a b, a < b → a < k → b < ((List.range k).foldl lexSelect m).rows.length →
        ((List.range k).foldl lexSelect m).rows.getD a []
          ≤ ((List.range k).foldl lexSelect m).rows.getD b [] := by
  intro k
  induction k with
  | zero =>
    intro m _ _
    exact ⟨rfl, List.Perm.refl _, fun a b _ h _ => absurd h (Nat.not_lt_zero a)⟩
  | succ k ih =>
    intro m hlen hk
    have hk1 : k + 1 < m.nrows := by omega
    rw [List.range_succ, List.foldl_append]
    simp only [List.foldl_cons, List.foldl_nil]
    obtain ⟨i1, i2, i3⟩ := ih m hlen (Or.inl (by omega))
    have hlen2 : ∀ r ∈ ((List.range k).foldl lexSelect m).rows,
        r.length = ((List.range k).foldl lexSelect m).numCols := by
      intro r hr
      rw [i1]
      exact hlen r (i2.subset hr)
    have hk2 : k < ((List.range k).foldl lexSelect m).nrows := by
      show k < ((List.range k).foldl lexSelect m).rows.length
      rw [i2.length_eq]
      exact Nat.lt_of_succ_lt hk1
    obtain ⟨s1, s2, s3⟩ := lexSelect_step _ hlen2 k hk2 i3
    exact ⟨s1.trans i1, s2.trans i2, s3⟩

theorem sorted_of_prefix (rows : List (List Int))
    (h : ∀ a b, a < b → a < rows.length - 1 → b < rows.length →
      rows.getD a [] ≤ rows.getD b []) : rows.Sorted (fun x y => x ≤ y) := by
  unfold List.Sorted
  rw [List.pairwise_iff_getElem]
  intro i j hi hj hij
  have := h i j hij (by omega) hj
  rw [List.getD_eq_getElem _ _ hi, List.getD_eq_getElem _ _ hj] at this
  exact this

/-- The reversal loop of `reorderInequalities`. -/
theorem reverseLoop_spec (rows : List (List Int)) (d : Nat) : ∀ (k : Nat), k ≤ rows.length / 2 →
    ((List.range k).foldl (fun (x : Matrix) i => x.swap_rows i (x.nrows - 1 - i))
        ⟨d, rows⟩).numCols = d
    ∧ ((List.range k).foldl (fun (x : Matrix) i => x.swap_rows i (x.nrows - 1 - i))
        ⟨d, rows⟩).rows.length = rows.length
    ∧ ∀ x, x < rows.length →
        ((List.range k).foldl (fun (x : Matrix) i => x.swap_rows i (x.nrows - 1 - i))
          ⟨d, rows⟩).rows[x]?
          = if x < k ∨ rows.length - k ≤ x then rows[rows.length - 1 - x]? else rows[x]? := by
  intro k
  induction k with
  | zero =>
    intro _
    refine ⟨rfl, rfl, ?_⟩
    intro x hx
    rw [if_neg (by omega)]
    rfl
  | succ k ih =>
    intro hk
    obtain ⟨i1, i2, i3⟩ := ih (by omega)
    rw [List.range_succ, List.foldl_append]
    simp only [List.foldl_cons, List.foldl_nil]
    generalize (List.range k).foldl (fun (x : Matrix) i => x.swap_rows i (x.nrows - 1 - i))
      ⟨d, rows⟩ = mk at i1 i2 i3
    have hn : mk.nrows = rows.length := i2
    refine ⟨i1, (Matrix.length_swapList _ _ _).trans i2, ?_⟩
    intro x hx
    show (Matrix.swapList mk.rows k (mk.nrows - 1 - k))[x]? = _
    rw [Matrix.getElem?_swapList mk.rows k (mk.nrows - 1 - k) x (by omega) (by omega), hn]
    by_cases h1 : x = rows.length - 1 - k
    · rw [if_pos h1, i3 k (by omega), if_neg (by omega), if_pos (by omega)]
      rw [h1]
      congr 1
      omega
    · rw [if_neg h1]
      by_cases h2 : x = k
      · rw [if_pos h2, i3 _ (by omega), if_neg (by omega), if_pos (by omega), h2]
      · rw [if_neg h2, i3 x hx]
        by_cases h3 : x < k ∨ rows.length - k ≤ x
        · rw [if_pos h3, if_pos (by omega)]
        · rw [if_neg h3, if_neg (by omega)]

theorem reverseLoop_eq (m : Matrix) :
    (List.range (m.nrows / 2)).foldl (fun (x : Matrix) i => x.swap_rows i (x.nrows - 1 - i)) m
      = ⟨m.numCols, m.rows.reverse⟩ := by
  obtain ⟨d, rows⟩ := m
  obtain ⟨h1, h2, h3⟩ := reverseLoop_spec rows d (rows.length / 2) (le_refl _)
  show (List.range (rows.length / 2)).foldl
    (fun (x : Matrix) i => x.swap_rows i (x.nrows - 1 - i)) ⟨d, rows⟩ = ⟨d, rows.reverse⟩
  generalize (List.range (rows.length / 2)).foldl
    (fun (x : Matrix) i => x.swap_rows i (x.nrows - 1 - i)) ⟨d, rows⟩ = mk at h1 h2 h3
  obtain ⟨d2, rows2⟩ := mk
  simp only at h1 h2 h3
  subst h1
  congr 1
  apply List.ext_getElem?
  intro x
  by_cases hx : x < rows.length
  · rw [h3 x hx, List.getElem?_reverse hx]
    by_cases h4 : x < rows.length / 2 ∨ rows.length - rows.length / 2 ≤ x
    · rw [if_pos h4]
    · rw [if_neg h4]
      congr 1
      omega
  · rw [List.getElem?_eq_none (by omega), List.getElem?_eq_none (by simp; omega)]

theorem randomLoop_perm (rnd : Nat → Nat) : ∀ (idxs : List Nat) (m : Matrix),
    (idxs.foldl (fun (x : Matrix) i => x.swap_rows i (rnd i % x.nrows)) m).numCols = m.numCols
    ∧ (idxs.foldl (fun (x : Matrix) i => x.swap_rows i (rnd i % x.nrows)) m).rows.Perm m.rows := by
  intro idxs
  induction idxs with
  | nil => intro m; exact ⟨rfl, List.Perm.refl _⟩
  | cons i is ih =>
    intro m
    simp only [List.foldl_cons]
    obtain ⟨h1, h2⟩ := ih (m.swap_rows i (rnd i % m.nrows))
    exact ⟨h1, h2.trans (Matrix.swapList_perm _ _ _)⟩


theorem lexSelect_fold_perm : ∀ (k : Nat) (m : Matrix),
    ((List.range k).foldl lexSelect m).numCols = m.numCols
    ∧ ((List.range k).foldl lexSelect m).rows.Perm m.rows := by
  intro k
  induction k with
  | zero => intro m; exact ⟨rfl, List.Perm.refl _⟩
  | succ k ih =>
    intro m
    rw [List.range_succ, List.foldl_append]
    simp only [List.foldl_cons, List.foldl_nil]
    obtain ⟨i1, i2⟩ := ih m
    exact ⟨i1, (Matrix.swapList_perm _ _ _).trans i2⟩

end DDM

/-- C39: `reorderInequalities` keeps the number of columns and returns a
permutation of the rows, for every order and every random stream; when all
rows have `numCols` entries, the rows are in non-decreasing lexicographic
order for `LexMin` and in non-increasing lexicographic order for `LexMax`
(`≤` on rows is the lexicographic order of lists); for `MaxIndex` the list of
rows is reversed; for `Quickhull` and `MinIndex` the matrix is unchanged. -/
theorem reorderInequalities_spec (order : DDM.PivotingOrder) (rnd : Nat → Nat)
    (m : Utils.Matrix) :
    (DDM.reorderInequalities order rnd m).numCols = m.numCols
    ∧ (DDM.reorderInequalities order rnd m).rows.Perm m.rows
    ∧ (order = DDM.PivotingOrder.LexMin → (∀ r ∈ m.rows, r.length = m.numCols) →
        (DDM.reorderInequalities order rnd m).rows.Sorted (fun x y => x ≤ y))
    ∧ (order = DDM.PivotingOrder.LexMax → (∀ r ∈ m.rows, r.length = m.numCols) →
        (DDM.reorderInequalities order rnd m).rows.Sorted (fun x y => y ≤ x))
    ∧ (order = DDM.PivotingOrder.MaxIndex →
        (DDM.reorderInequalities order rnd m).rows = m.rows.reverse)
    ∧ (order = DDM.PivotingOrder.Quickhull ∨ order = DDM.PivotingOrder.MinIndex →
        DDM.reorderInequalities order rnd m = m) := by
  have hsort : (∀ r ∈ m.rows, r.length = m.numCols) →
      ((List.range (m.nrows - 1)).foldl DDM.lexSelect m).rows.Sorted (fun x y => x ≤ y) := by
    intro hlen
    obtain ⟨_, s2, s3⟩ := DDM.lexSort_spec (m.nrows - 1) m hlen (by
      by_cases h0 : m.nrows = 0
      · right; omega
      · left; omega)
    apply DDM.sorted_of_prefix
    intro a b hab ha hb
    rw [s2.length_eq] at ha
    exact s3 a b hab ha hb
  cases order
  case Quickhull =>
    have e : DDM.reorderInequalities DDM.PivotingOrder.Quickhull rnd m = m := by
      simp [DDM.reorderInequalities]
    rw [e]
    refine ⟨rfl, List.Perm.refl _, ?_, ?_, ?_, ?_⟩
    · intro h; cases h
    · intro h; cases h
    · intro h; cases h
    · intro _; rfl
  case MinIndex =>
    have e : DDM.reorderInequalities DDM.PivotingOrder.MinIndex rnd m = m := by
      simp [DDM.reorderInequalities]
    rw [e]
    refine ⟨rfl, List.Perm.refl _, ?_, ?_, ?_, ?_⟩
    · intro h; cases h
    · intro h; cases h
    · intro h; cases h
    · intro _; rfl
  case MaxIndex =>
    have e : DDM.reorderInequalities DDM.PivotingOrder.MaxIndex rnd m
        = ⟨m.numCols, m.rows.reverse⟩ := by
      simp only [DDM.reorderInequalities, reduceCtorEq, or_self, if_false, true_or, if_true]
      exact DDM.reverseLoop_eq m
    rw [e]
    refine ⟨rfl, List.reverse_perm _, ?_, ?_, ?_, ?_⟩
    · intro h; cases h
    · intro h; cases h
    · intro _; rfl
    · intro h; rcases h with h | h <;> cases h
  case LexMin =>
    have e : DDM.reorderInequalities DDM.PivotingOrder.LexMin rnd m
        = (List.range (m.nrows - 1)).foldl DDM.lexSelect m := by
      simp [DDM.reorderInequalities]
    rw [e]
    have hp : ((List.range (m.nrows - 1)).foldl DDM.lexSelect m).numCols = m.numCols
        ∧ ((List.range (m.nrows - 1)).foldl DDM.lexSelect m).rows.Perm m.rows :=
      ⟨(DDM.lexSelect_fold_perm (m.nrows - 1) m).1, (DDM.lexSelect_fold_perm (m.nrows - 1) m).2⟩
    refine ⟨hp.1, hp.2, ?_, ?_, ?_, ?_⟩
    · intro _ hlen; exact hsort hlen
    · intro h; cases h
    · intro h; cases h
    · intro h; rcases h with h | h <;> cases h
  case LexMax =>
    have e : DDM.reorderInequalities DDM.PivotingOrder.LexMax rnd m
        = ⟨((List.range (m.nrows - 1)).foldl DDM.lexSelect m).numCols,
            ((List.range (m.nrows - 1)).foldl DDM.lexSelect m).rows.reverse⟩ := by
      simp only [DDM.reorderInequalities, reduceCtorEq, or_true, if_true, if_false]
      exact DDM.reverseLoop_eq _
    rw [e]
    refine ⟨(DDM.lexSelect_fold_perm (m.nrows - 1) m).1,
      (List.reverse_perm _).trans (DDM.lexSelect_fold_perm (m.nrows - 1) m).2, ?_, ?_, ?_, ?_⟩
    · intro h; cases h
    · intro _ hlen
      have := hsort hlen
      unfold List.Sorted at this ⊢
      rw [List.pairwise_reverse]
      exact this
    · intro h; cases h
    · intro h; rcases h with h | h <;> cases h
  case Random =>
    have e : DDM.reorderInequalities DDM.PivotingOrder.Random rnd m
        = (List.range m.nrows).foldl
            (fun (x : Utils.Matrix) i => x.swap_rows i (rnd i % x.nrows)) m := by
      simp [DDM.reorderInequalities]
    rw [e]
    obtain ⟨r1, r2⟩ := DDM.randomLoop_perm rnd (List.range m.nrows) m
    refine ⟨r1, r2, ?_, ?_, ?_, ?_⟩
    · intro h; cases h
    · intro h; cases h
    · intro h; cases h
    · intro h; rcases h with h | h <;> cases h

set_option maxRecDepth 100000 in
/-- C39 on the matrix `squareCone`: the orders `LexMin`, `LexMax` and
`MaxIndex` give the rows sorted upwards, sorted downwards and reversed. -/
theorem reorderInequalities_spec_witness :
    (∀ r ∈ squareCone.rows, r.length = squareCone.numCols)
    ∧ DDM.reorderInequalities DDM.PivotingOrder.LexMin (fun _ => 0) squareCone
        = ⟨3, [[-1, 0, 1], [0, -1, 1], [0, 0, 1], [0, 1, 1], [1, 0, 1]]⟩
    ∧ DDM.reorderInequalities DDM.PivotingOrder.LexMax (fun _ => 0) squareCone
        = ⟨3, [[1, 0, 1], [0, 1, 1], [0, 0, 1], [0, -1, 1], [-1, 0, 1]]⟩
    ∧ (DDM.reorderInequalities DDM.PivotingOrder.LexMin (fun _ => 0) squareCone).rows.Sorted
        (fun x y => x ≤ y)
    ∧ (DDM.reorderInequalities DDM.PivotingOrder.LexMax (fun _ => 0) squareCone).rows.Sorted
        (fun x y => y ≤ x)
    ∧ (DDM.reorderInequalities DDM.PivotingOrder.MaxIndex (fun _ => 0) squareCone).rows
        = squareCone.rows.reverse :=
  ⟨by decide, by decide, by decide,
    (reorderInequalities_spec DDM.PivotingOrder.LexMin (fun _ => 0) squareCone).2.2.1 rfl
      (by decide),
    (reorderInequalities_spec DDM.PivotingOrder.LexMax (fun _ => 0) squareCone).2.2.2.1 rfl
      (by decide),
    (reorderInequalities_spec DDM.PivotingOrder.MaxIndex (fun _ => 0) squareCone).2.2.2.2.1 rfl⟩

/-! ## Properties of rays that every created ray has -/

namespace DDM

open Utils

theorem getRay_set_ne {S : Type} (c : Context S) (heap : List (Ray S)) (j i : Nat)
    (r1 : Ray S) (h : i ≠ j) : getRay c (heap.set j r1) i = getRay c heap i := by
  unfold getRay
  rw [List.getD_eq_getElem?_getD, List.getD_eq_getElem?_getD,
    List.getElem?_set_ne (fun e => h e.symm)]

theorem getRay_set_self {S : Type} (c : Context S) (heap : List (Ray S)) (j : Nat)
    (r1 : Ray S) (h : j < heap.length) : getRay c (heap.set j r1) j = r1 :=
  getRay_eq_of_getElem? c _ j r1 (List.getElem?_set_self (by simpa using h))

theorem heapOk_set {S : Type} (c : Context S) (Q : Ray S → Prop) (step : Nat)
    (heap : List (Ray S)) (j : Nat) (r1 : Ray S) (h : HeapOk c Q step heap)
    (hQ : Q (getRay c heap j) → Q r1)
    (hadj : ∀ a ∈ r1.adjacentRays, a ∈ (getRay c heap j).adjacentRays ∨ a < heap.length)
    (hasg : ∀ x ∈ r1.assignedInequalities,
      x ∈ (getRay c heap j).assignedInequalities ∨ x < c.inequalityMatrix.nrows)
    (hvs : r1.visitingStep ≤ step) :
    HeapOk c Q step (heap.set j r1) := by
  by_cases hj : j < heap.length
  · have hg := getElem?_of_lt_getRay c heap j hj
    obtain ⟨g1, g2, g3, _⟩ := h j _ hg
    intro i ri hi
    rw [List.getElem?_set] at hi
    rw [List.length_set]
    by_cases hji : j = i
    · subst hji
      rw [if_pos rfl, if_pos hj] at hi
      cases hi
      refine ⟨hQ g1, ?_, ?_, hvs⟩
      · intro a ha
        rcases hadj a ha with h1 | h1
        · exact g2 a h1
        · exact h1
      · intro x hx
        rcases hasg x hx with h1 | h1
        · exact g3 x h1
        · exact h1
    · rw [if_neg hji] at hi
      exact h i ri hi
  · rw [List.set_eq_of_length_le (by omega)]
    exact h

theorem pivotOk_set {S : Type} (c : Context S) (step piv : Nat) (heap : List (Ray S)) (j : Nat)
    (r1 : Ray S) (h : PivotOk c step piv heap)
    (hJ : j < heap.length → r1.visitingStep = step →
      r1.pivotDiscrepancy = computeDiscrepancy c r1 piv) :
    PivotOk c step piv (heap.set j r1) := by
  intro i ri hi hvs
  rw [List.getElem?_set] at hi
  by_cases hji : j = i
  · subst hji
    rw [if_pos rfl] at hi
    by_cases hj : j < heap.length
    · rw [if_pos hj] at hi
      cases hi
      exact hJ hj hvs
    · rw [if_neg hj] at hi
      cases hi
  · rw [if_neg hji] at hi
    exact h i ri hi hvs

theorem heapOk_mono {S : Type} (c : Context S) (Q : Ray S → Prop) (step step1 : Nat)
    (heap : List (Ray S)) (h : HeapOk c Q step heap) (hle : step ≤ step1) :
    HeapOk c Q step1 heap := by
  intro i r hi
  obtain ⟨h1, h2, h3, h4⟩ := h i r hi
  exact ⟨h1, h2, h3, le_trans h4 hle⟩

theorem heapOk_getRay {S : Type} (c : Context S) (Q : Ray S → Prop) (step : Nat)
    (heap : List (Ray S)) (h : HeapOk c Q step heap) (i : Nat) (hi : i < heap.length) :
    Q (getRay c heap i) ∧ (∀ a ∈ (getRay c heap i).adjacentRays, a < heap.length)
    ∧ (∀ j ∈ (getRay c heap i).assignedInequalities, j < c.inequalityMatrix.nrows)
    ∧ (getRay c heap i).visitingStep ≤ step :=
  h i _ (getElem?_of_lt_getRay c heap i hi)

theorem assigned_lt_of_heapOk {S : Type} (c : Context S) (Q : Ray S → Prop) (step : Nat)
    (heap : List (Ray S)) (h : HeapOk c Q step heap) (i : Nat) :
    ∀ j ∈ (getRay c heap i).assignedInequalities, j < c.inequalityMatrix.nrows := by
  intro j hj
  by_cases hi : i < heap.length
  · exact (heapOk_getRay c Q step heap h i hi).2.2.1 j hj
  · rw [getRay_of_ge c heap i (by omega)] at hj
    simp [nullRay] at hj

theorem assignIne_heapOk {S : Type} (c : Context S) (Q : Ray S → Prop) (hQ : RayClosed c Q)
    (step : Nat) (s : State S) (ineIdx : Nat) (rays : List Nat)
    (h : HeapOk c Q step s.heap) (hi : ineIdx < c.inequalityMatrix.nrows) :
    HeapOk c Q step (assignIne c s ineIdx rays).heap
    ∧ (assignIne c s ineIdx rays).heap.length = s.heap.length
    ∧ (assignIne c s ineIdx rays).extremeRays = s.extremeRays
    ∧ (assignIne c s ineIdx rays).step = s.step
    ∧ (assignIne c s ineIdx rays).assigneeRays.length = s.assigneeRays.length
    ∧ (∀ j, (getRay c (assignIne c s ineIdx rays).heap j).pivotDiscrepancy
        = (getRay c s.heap j).pivotDiscrepancy) := by
  unfold assignIne
  cases hf : findViolator c s.heap ineIdx rays with
  | none => exact ⟨h, rfl, rfl, rfl, by simp, fun _ => rfl⟩
  | some r =>
    refine ⟨?_, by simp, rfl, rfl, by simp, ?_⟩
    · apply heapOk_set c Q step s.heap r _ h
      · exact fun hq => hQ.frame _ _ hq rfl rfl
      · exact fun a ha => Or.inl ha
      · intro x hx
        rcases List.mem_append.mp hx with h1 | h1
        · exact Or.inl h1
        · rw [List.mem_singleton] at h1
          rw [h1]
          exact Or.inr hi
      · by_cases hr : r < s.heap.length
        · exact (heapOk_getRay c Q step s.heap h r hr).2.2.2
        · rw [getRay_of_ge c s.heap r (by omega)]
          exact Nat.zero_le _
    · intro j
      show (getRay c (s.heap.set r _) j).pivotDiscrepancy = _
      by_cases hjr : j = r
      · subst hjr
        by_cases hr : j < s.heap.length
        · rw [getRay_set_self c s.heap j _ hr]
        · rw [List.set_eq_of_length_le (by omega)]
      · rw [getRay_set_ne c s.heap r j _ hjr]

theorem foldl_assignIne_heapOk {S : Type} (c : Context S) (Q : Ray S → Prop)
    (hQ : RayClosed c Q) (step : Nat) (rays : List Nat) :
    ∀ (ines : List Nat) (s : State S), HeapOk c Q step s.heap →
      (∀ i ∈ ines, i < c.inequalityMatrix.nrows) →
      HeapOk c Q step (ines.foldl (fun s2 ine => assignIne c s2 ine rays) s).heap
      ∧ (ines.foldl (fun s2 ine => assignIne c s2 ine rays) s).heap.length = s.heap.length
      ∧ (ines.foldl (fun s2 ine => assignIne c s2 ine rays) s).extremeRays = s.extremeRays
      ∧ (ines.foldl (fun s2 ine => assignIne c s2 ine rays) s).step = s.step
      ∧ (ines.foldl (fun s2 ine => assignIne c s2 ine rays) s).assigneeRays.length
          = s.assigneeRays.length
      ∧ (∀ j, (getRay c (ines.foldl (fun s2 ine => assignIne c s2 ine rays) s).heap
            j).pivotDiscrepancy = (getRay c s.heap j).pivotDiscrepancy) := by
  intro ines
  induction ines with
  | nil => intro s h _; exact ⟨h, rfl, rfl, rfl, rfl, fun _ => rfl⟩
  | cons i is ih =>
    intro s h hi
    simp only [List.foldl_cons]
    obtain ⟨a1, a2, a3, a4, a5, a6⟩ := assignIne_heapOk c Q hQ step s i rays h
      (hi i (List.mem_cons_self _ _))
    obtain ⟨b1, b2, b3, b4, b5, b6⟩ := ih (assignIne c s i rays) a1
      (fun j hj => hi j (List.mem_cons_of_mem _ hj))
    exact ⟨b1, b2.trans a2, b3.trans a3, b4.trans a4, b5.trans a5,
      fun j => (b6 j).trans (a6 j)⟩

theorem partitionInes_heapOk {S : Type} (c : Context S) (Q : Ray S → Prop)
    (hQ : RayClosed c Q) (step : Nat) (zeroRays : List Nat) :
    ∀ (minusRays : List Nat) (s : State S), HeapOk c Q step s.heap →
      HeapOk c Q step (partitionInes c s minusRays zeroRays).heap
      ∧ (partitionInes c s minusRays zeroRays).heap.length = s.heap.length
      ∧ (partitionInes c s minusRays zeroRays).extremeRays = s.extremeRays
      ∧ (partitionInes c s minusRays zeroRays).step = s.step
      ∧ (partitionInes c s minusRays zeroRays).assigneeRays.length = s.assigneeRays.length
      ∧ (∀ j, (getRay c (partitionInes c s minusRays zeroRays).heap j).pivotDiscrepancy
          = (getRay c s.heap j).pivotDiscrepancy) := by
  intro minusRays
  unfold partitionInes
  induction minusRays with
  | nil => intro s h; exact ⟨h, rfl, rfl, rfl, rfl, fun _ => rfl⟩
  | cons m ms ih =>
    intro s h
    simp only [List.foldl_cons]
    obtain ⟨a1, a2, a3, a4, a5, a6⟩ := foldl_assignIne_heapOk c Q hQ step zeroRays
      (getRay c s.heap m).assignedInequalities s h (assigned_lt_of_heapOk c Q step s.heap h m)
    obtain ⟨b1, b2, b3, b4, b5, b6⟩ := ih _ a1
    exact ⟨b1, b2.trans a2, b3.trans a3, b4.trans a4, b5.trans a5,
      fun j => (b6 j).trans (a6 j)⟩

end DDM

namespace DDM

open Utils

theorem heapOk_append {S : Type} (c : Context S) (Q : Ray S → Prop) (step : Nat)
    (heap : List (Ray S)) (r2 : Ray S) (h : HeapOk c Q step heap) (hQ : Q r2)
    (hadj : ∀ a ∈ r2.adjacentRays, a < heap.length + 1)
    (hasg : ∀ x ∈ r2.assignedInequalities, x < c.inequalityMatrix.nrows)
    (hvs : r2.visitingStep ≤ step) : HeapOk c Q step (heap ++ [r2]) := by
  intro i ri hi
  rw [List.length_append, List.length_singleton]
  by_cases hlt : i < heap.length
  · rw [List.getElem?_append_left hlt] at hi
    obtain ⟨h1, h2, h3, h4⟩ := h i ri hi
    exact ⟨h1, fun a ha => Nat.lt_succ_of_lt (h2 a ha), h3, h4⟩
  · rw [List.getElem?_append_right (by omega)] at hi
    have hi0 : i - heap.length = 0 := by
      by_contra hc
      rw [List.getElem?_eq_none (by simp; omega)] at hi
      cases hi
    rw [hi0] at hi
    simp only [List.getElem?_cons_zero, Option.some.injEq] at hi
    subst hi
    exact ⟨hQ, hadj, hasg, hvs⟩

theorem pivotOk_append {S : Type} (c : Context S) (step piv : Nat) (heap : List (Ray S))
    (r2 : Ray S) (h : PivotOk c step piv heap)
    (hJ : r2.visitingStep = step → r2.pivotDiscrepancy = computeDiscrepancy c r2 piv) :
    PivotOk c step piv (heap ++ [r2]) := by
  intro i ri hi hvs
  by_cases hlt : i < heap.length
  · rw [List.getElem?_append_left hlt] at hi
    exact h i ri hi hvs
  · rw [List.getElem?_append_right (by omega)] at hi
    have hi0 : i - heap.length = 0 := by
      by_contra hc
      rw [List.getElem?_eq_none (by simp; omega)] at hi
      cases hi
    rw [hi0] at hi
    simp only [List.getElem?_cons_zero, Option.some.injEq] at hi
    subst hi
    exact hJ hvs

theorem getRay_append_left {S : Type} (c : Context S) (heap : List (Ray S)) (r2 : Ray S)
    (j : Nat) (hj : j < heap.length) : getRay c (heap ++ [r2]) j = getRay c heap j := by
  unfold getRay
  rw [List.getD_eq_getElem?_getD, List.getD_eq_getElem?_getD, List.getElem?_append_left hj]

theorem pivotOk_getRay {S : Type} (c : Context S) (step piv : Nat) (heap : List (Ray S))
    (h : PivotOk c step piv heap) (i : Nat) (hi : i < heap.length)
    (hvs : (getRay c heap i).visitingStep = step) :
    (getRay c heap i).pivotDiscrepancy = computeDiscrepancy c (getRay c heap i) piv :=
  h i _ (getElem?_of_lt_getRay c heap i hi) hvs

/-- A record that agrees with the ray at position `j` in the coordinates, the
step of the last visit and the pivot discrepancy keeps `PivotOk`. -/
theorem pivotOk_set_same {S : Type} (c : Context S) (step piv : Nat) (heap : List (Ray S))
    (j : Nat) (r1 : Ray S) (h : PivotOk c step piv heap)
    (hc : r1.coordinates = (getRay c heap j).coordinates)
    (hv : r1.visitingStep = (getRay c heap j).visitingStep)
    (hp : r1.pivotDiscrepancy = (getRay c heap j).pivotDiscrepancy) :
    PivotOk c step piv (heap.set j r1) := by
  apply pivotOk_set c step piv heap j r1 h
  intro hj hvs
  have := pivotOk_getRay c step piv heap h j hj (hv ▸ hvs)
  rw [hp, this]
  unfold computeDiscrepancy
  rw [hc]

theorem scanPivot_spec (w : Nat) (a : List (Option Nat)) : ∀ (fuel idx0 idx pr : Nat),
    scanPivot w a fuel idx0 = some (idx, pr) → a.get? idx = some (some pr) := by
  intro fuel
  induction fuel with
  | zero => intro idx0 idx pr h; simp [scanPivot] at h
  | succ n ih =>
    intro idx0 idx pr h
    unfold scanPivot at h
    split at h
    · cases h
    · exact ih _ idx pr h
    · rename_i r hget
      simp only [Option.some.injEq, Prod.mk.injEq] at h
      rw [← h.1, ← h.2]
      exact hget

/-- `next` keeps the heap invariant, selects a row index, and stores in the
pivot ray its discrepancy on the selected inequality. -/
theorem next_ok {S : Type} (c : Context S) (Q : Ray S → Prop) (hQ : RayClosed c Q)
    (s s1 : State S) (h : StateOk c Q s) (hn : next c s = some s1) :
    HeapOk c Q s.step s1.heap
    ∧ s1.step = s.step + 1
    ∧ s1.heap.length = s.heap.length
    ∧ s1.extremeRays = s.extremeRays
    ∧ s1.assigneeRays = s.assigneeRays
    ∧ s1.pivotInequalityIdx < c.inequalityMatrix.nrows
    ∧ (s1.pivotRay < s1.heap.length →
        (getRay c s1.heap s1.pivotRay).pivotDiscrepancy
          = computeDiscrepancy c (getRay c s1.heap s1.pivotRay) s1.pivotInequalityIdx) := by
  obtain ⟨h1, h2, h3⟩ := h
  have hset : ∀ (pr : Nat) (d : Int),
      HeapOk c Q s.step (s.heap.set pr { getRay c s.heap pr with pivotDiscrepancy := d }) := by
    intro pr d
    apply heapOk_set c Q s.step s.heap pr _ h1
    · exact fun hq => hQ.frame _ _ hq rfl rfl
    · exact fun a ha => Or.inl ha
    · exact fun x hx => Or.inl hx
    · by_cases hr : pr < s.heap.length
      · exact (heapOk_getRay c Q s.step s.heap h1 pr hr).2.2.2
      · rw [getRay_of_ge c s.heap pr (by omega)]
        exact Nat.zero_le _
  unfold next at hn
  split_ifs at hn
  · split at hn
    · cases hn
    · rename_i pr hfind
      split at hn
      · cases hn
      · rename_i i0 rest hl
        simp only [Option.some.injEq] at hn
        subst hn
        obtain ⟨pre, post, e1, e2, _, _⟩ := argminFold_spec
          (fun j => computeDiscrepancy c (getRay c s.heap pr) j) rest [] [] i0
          (by intro j hj; cases hj) (by intro j hj; cases hj)
        refine ⟨hset pr _, rfl, by simp, rfl, rfl, ?_, ?_⟩
        · apply assigned_lt_of_heapOk c Q s.step s.heap h1 pr
          rw [hl]
          have : (rest.foldl
              (fun (acc : Nat × Int) j =>
                if computeDiscrepancy c (getRay c s.heap pr) j < acc.2
                then (j, computeDiscrepancy c (getRay c s.heap pr) j) else acc)
              (i0, computeDiscrepancy c (getRay c s.heap pr) i0)).1 ∈ pre ++ (rest.foldl
              (fun (acc : Nat × Int) j =>
                if computeDiscrepancy c (getRay c s.heap pr) j < acc.2
                then (j, computeDiscrepancy c (getRay c s.heap pr) j) else acc)
              (i0, computeDiscrepancy c (getRay c s.heap pr) i0)).1 :: post := by simp
          rw [← e1] at this
          simpa using this
        · intro hv
          simp only [List.length_set] at hv
          simp only
          rw [getRay_set_self c s.heap pr _ hv]
          exact e2
  · split at hn
    · cases hn
    · rename_i idx pr hscan
      simp only [Option.some.injEq] at hn
      subst hn
      have hget := scanPivot_spec _ _ _ _ idx pr hscan
      refine ⟨hset pr _, rfl, by simp, rfl, rfl, ?_, ?_⟩
      · have hlt : idx < s.assigneeRays.length := by
          by_contra hc
          rw [List.get?_eq_getElem?, List.getElem?_eq_none (by omega)] at hget
          cases hget
        exact lt_of_lt_of_le hlt h3
      · intro hv
        simp only [List.length_set] at hv
        simp only
        rw [getRay_set_self c s.heap pr _ hv]
        rfl

end DDM

namespace DDM

open Utils

theorem stepFrame_refl {S : Type} (c : Context S) (s : State S) : StepFrame c s s :=
  ⟨rfl, rfl, rfl, rfl, Nat.le_refl _, fun _ _ h => h⟩

theorem stepFrame_trans {S : Type} (c : Context S) (s s1 s2 : State S)
    (h1 : StepFrame c s s1) (h2 : StepFrame c s1 s2) : StepFrame c s s2 := by
  obtain ⟨a1, a2, a3, a4, a5, a6⟩ := h1
  obtain ⟨b1, b2, b3, b4, b5, b6⟩ := h2
  refine ⟨b1.trans a1, b2.trans a2, b3.trans a3, b4.trans a4, le_trans a5 b5, ?_⟩
  intro j hj hv
  have := b6 j (by omega) (by rw [a1]; exact a6 j hj hv)
  rw [a1] at this
  exact this

theorem visitAdj_ok {S : Type} (c : Context S) (Q : Ray S → Prop) (hQ : RayClosed c Q)
    (sw : State S × WorkLists) (adjRay : Nat) (h : StepOk c Q sw)
    (hv : adjRay < sw.1.heap.length) :
    StepOk c Q (visitAdj c sw adjRay)
    ∧ StepFrame c sw.1 (visitAdj c sw adjRay).1
    ∧ (visitAdj c sw adjRay).1.heap.length = sw.1.heap.length
    ∧ (getRay c (visitAdj c sw adjRay).1.heap adjRay).visitingStep = sw.1.step
    ∧ (∀ j, (getRay c (visitAdj c sw adjRay).1.heap j).adjacentRays
        = (getRay c sw.1.heap j).adjacentRays) := by
  obtain ⟨hH, hP, hpiv, hwv, hws⟩ := h
  obtain ⟨g1, g2, g3, g4⟩ := heapOk_getRay c Q sw.1.step sw.1.heap hH adjRay hv
  -- the three ways the visited ray is written back
  have key : ∀ (r1 : Ray S),
      r1.coordinates = (getRay c sw.1.heap adjRay).coordinates →
      r1.adjacentRays = (getRay c sw.1.heap adjRay).adjacentRays →
      r1.assignedInequalities = (getRay c sw.1.heap adjRay).assignedInequalities →
      r1.visitingStep = sw.1.step →
      r1.pivotDiscrepancy
        = computeDiscrepancy c (getRay c sw.1.heap adjRay) sw.1.pivotInequalityIdx →
      Q r1 →
      HeapOk c Q sw.1.step (sw.1.heap.set adjRay r1)
      ∧ PivotOk c sw.1.step sw.1.pivotInequalityIdx (sw.1.heap.set adjRay r1)
      ∧ (∀ j, j < sw.1.heap.length → (getRay c sw.1.heap j).visitingStep = sw.1.step →
          (getRay c (sw.1.heap.set adjRay r1) j).visitingStep = sw.1.step)
      ∧ (getRay c (sw.1.heap.set adjRay r1) adjRay).visitingStep = sw.1.step
      ∧ (∀ j, (getRay c (sw.1.heap.set adjRay r1) j).adjacentRays
          = (getRay c sw.1.heap j).adjacentRays) := by
    intro r1 hc ha hs hvs hpd hq
    refine ⟨?_, ?_, ?_, ?_, ?_⟩
    · apply heapOk_set c Q sw.1.step sw.1.heap adjRay r1 hH (fun _ => hq)
      · intro a haa; rw [ha] at haa; exact Or.inl haa
      · intro x hx; rw [hs] at hx; exact Or.inl hx
      · rw [hvs]
    · apply pivotOk_set c _ _ sw.1.heap adjRay r1 hP
      intro _ _
      rw [hpd]
      unfold computeDiscrepancy
      rw [hc]
    · intro j hj hjv
      by_cases hja : j = adjRay
      · subst hja
        rw [getRay_set_self c _ j r1 hv]
        exact hvs
      · rw [getRay_set_ne c _ adjRay j r1 hja]
        exact hjv
    · rw [getRay_set_self c _ adjRay r1 hv]
      exact hvs
    · intro j
      by_cases hja : j = adjRay
      · subst hja
        rw [getRay_set_self c _ j r1 hv]
        exact ha
      · rw [getRay_set_ne c _ adjRay j r1 hja]
  have hwsKeep : ∀ (heap1 : List (Ray S)), heap1.length = sw.1.heap.length →
      (∀ j, j < sw.1.heap.length → (getRay c sw.1.heap j).visitingStep = sw.1.step →
          (getRay c heap1 j).visitingStep = sw.1.step) →
      ∀ r ∈ sw.2.minusRays ++ sw.2.zeroRays, r < heap1.length →
        (getRay c heap1 r).visitingStep = sw.1.step := by
    intro heap1 hl hm r hr hrl
    rw [hl] at hrl
    exact hm r hrl (hws r hr hrl)
  unfold visitAdj
  simp only
  split_ifs with h1 h2 h3
  · obtain ⟨k1, k2, k3, k4, k5⟩ := key
      { getRay c sw.1.heap adjRay with
        visitingStep := sw.1.step,
        pivotDiscrepancy := computeDiscrepancy c (getRay c sw.1.heap adjRay)
          sw.1.pivotInequalityIdx } rfl rfl rfl rfl rfl (hQ.frame _ _ g1 rfl rfl)
    refine ⟨⟨k1, k2, hpiv, ?_, ?_⟩, ⟨rfl, rfl, rfl, rfl, by simp, k3⟩, by simp, k4, k5⟩
    · intro r hr
      simp only [List.length_set]
      exact hwv r hr
    · intro r hr hrl
      simp only [List.length_set] at hrl
      simp only [List.mem_append, List.mem_singleton] at hr
      rcases hr with (hr | hr) | hr
      · exact k3 r hrl (hws r (List.mem_append_left _ hr) hrl)
      · rw [hr]; exact k4
      · exact k3 r hrl (hws r (List.mem_append_right _ hr) hrl)
  · obtain ⟨k1, k2, k3, k4, k5⟩ := key
      { getRay c sw.1.heap adjRay with
        visitingStep := sw.1.step,
        pivotDiscrepancy := computeDiscrepancy c (getRay c sw.1.heap adjRay)
          sw.1.pivotInequalityIdx,
        cobasis := c.ops.add (getRay c sw.1.heap adjRay).cobasis sw.1.pivotInequalityIdx }
      rfl rfl rfl rfl rfl
      (hQ.zero _ _ sw.1.pivotInequalityIdx g1 hpiv (not_lt.mp h2) h3 rfl rfl)
    refine ⟨⟨k1, k2, hpiv, ?_, ?_⟩, ⟨rfl, rfl, rfl, rfl, by simp, k3⟩, by simp, k4, k5⟩
    · intro r hr
      simp only [List.length_set]
      simp only [List.mem_append, List.mem_singleton] at hr
      rcases hr with (hr | hr) | hr
      · exact hwv r (List.mem_append_left _ hr)
      · rw [hr]; exact hv
      · exact hwv r (List.mem_append_right _ hr)
    · intro r hr hrl
      simp only [List.length_set] at hrl
      simp only [List.mem_append, List.mem_singleton] at hr
      rcases hr with hr | hr | hr
      · exact k3 r hrl (hws r (List.mem_append_left _ hr) hrl)
      · exact k3 r hrl (hws r (List.mem_append_right _ hr) hrl)
      · rw [hr]; exact k4
  · obtain ⟨k1, k2, k3, k4, k5⟩ := key
      { getRay c sw.1.heap adjRay with
        visitingStep := sw.1.step,
        pivotDiscrepancy := computeDiscrepancy c (getRay c sw.1.heap adjRay)
          sw.1.pivotInequalityIdx } rfl rfl rfl rfl rfl (hQ.frame _ _ g1 rfl rfl)
    refine ⟨⟨k1, k2, hpiv, ?_, ?_⟩, ⟨rfl, rfl, rfl, rfl, by simp, k3⟩, by simp, k4, k5⟩
    · intro r hr
      simp only [List.length_set]
      exact hwv r hr
    · intro r hr hrl
      simp only [List.length_set] at hrl
      exact k3 r hrl (hws r hr hrl)
  · have hvs : (getRay c sw.1.heap adjRay).visitingStep = sw.1.step := by
      by_contra hc
      exact h1 hc
    exact ⟨⟨hH, hP, hpiv, hwv, hws⟩, stepFrame_refl c sw.1, rfl, hvs, fun _ => rfl⟩

theorem eraseAdj_ok {S : Type} (c : Context S) (Q : Ray S → Prop) (hQ : RayClosed c Q)
    (s : State S) (w : WorkLists) (ray i : Nat) (h : StepOk c Q (s, w)) :
    StepOk c Q (eraseAdj c s ray i, w) ∧ StepFrame c s (eraseAdj c s ray i)
    ∧ (eraseAdj c s ray i).heap.length = s.heap.length := by
  obtain ⟨hH, hP, hpiv, hwv, hws⟩ := h
  have hvsame : ∀ j, (getRay c (eraseAdj c s ray i).heap j).visitingStep
      = (getRay c s.heap j).visitingStep := by
    intro j
    unfold eraseAdj
    simp only
    by_cases hjr : j = ray
    · subst hjr
      by_cases hj : j < s.heap.length
      · rw [getRay_set_self c _ j _ hj]
      · rw [List.set_eq_of_length_le (by omega)]
    · rw [getRay_set_ne c _ ray j _ hjr]
  have hlen : (eraseAdj c s ray i).heap.length = s.heap.length := by
    unfold eraseAdj
    simp
  refine ⟨⟨?_, ?_, hpiv, ?_, ?_⟩, ⟨rfl, rfl, rfl, rfl, by rw [hlen], ?_⟩, hlen⟩
  · unfold eraseAdj
    apply heapOk_set c Q s.step s.heap ray _ hH
    · exact fun hq => hQ.frame _ _ hq rfl rfl
    · exact fun a ha => Or.inl (Vector.mem_of_mem_erase ha)
    · exact fun x hx => Or.inl hx
    · by_cases hr : ray < s.heap.length
      · exact (heapOk_getRay c Q s.step s.heap hH ray hr).2.2.2
      · rw [getRay_of_ge c s.heap ray (by omega)]
        exact Nat.zero_le _
  · unfold eraseAdj
    exact pivotOk_set_same c _ _ s.heap ray _ hP rfl rfl rfl
  · intro r hr
    show r < (eraseAdj c s ray i).heap.length
    rw [hlen]
    exact hwv r hr
  · intro r hr hrl
    show (getRay c (eraseAdj c s ray i).heap r).visitingStep = s.step
    rw [hvsame r]
    rw [hlen] at hrl
    exact hws r hr hrl
  · intro j _ hjv
    rw [hvsame j]
    exact hjv

end DDM

namespace DDM

open Utils

theorem newRayFromEdge_heap_eq {S : Type} (c : Context S) (heap : List (Ray S))
    (plus minus pivotIneIdx : Nat) (hp : plus < heap.length) :
    (newRayFromEdge c heap plus minus pivotIneIdx).1
      = (heap ++ [edgeRay c heap plus minus pivotIneIdx]).set plus
          { getRay c heap plus with
            adjacentRays := replaceFirst minus heap.length (getRay c heap plus).adjacentRays } := by
  have he : edgeRay c heap plus minus pivotIneIdx
      = (⟨normalizeRay c ((List.zipWith
          (fun mc pc => c.arith.sub (c.arith.mul (getRay c heap plus).pivotDiscrepancy mc)
            (c.arith.mul (getRay c heap minus).pivotDiscrepancy pc))
          (getRay c heap minus).coordinates (getRay c heap plus).coordinates).take
            c.extendedDim),
        c.ops.add (c.ops.inter (getRay c heap plus).cobasis (getRay c heap minus).cobasis)
          pivotIneIdx,
        [plus], [], 0, (getRay c heap plus).visitingStep⟩ : Ray S) := by
    unfold edgeRay newRayFromEdge getRay
    simp
  rw [he, List.set_append_left _ _ hp]
  rfl

theorem edgeRay_discrepancy_zero {S : Type} (c : Context S) (hxa : c.arith = Utils.Coeff.exact) (hint : c.intArith = true)
    (heap : List (Ray S)) (plus minus piv : Nat)
    (hlp : (getRay c heap plus).coordinates.length = c.extendedDim)
    (hlm : (getRay c heap minus).coordinates.length = c.extendedDim)
    (hp : (getRay c heap plus).pivotDiscrepancy = computeDiscrepancy c (getRay c heap plus) piv)
    (hm : (getRay c heap minus).pivotDiscrepancy
      = computeDiscrepancy c (getRay c heap minus) piv) :
    computeDiscrepancy c (edgeRay c heap plus minus piv) piv = 0 := by
  have e := computeDiscrepancy_edgeRay c hxa hint heap plus minus piv hlp hlm piv
  rw [← hp, ← hm] at e
  have e0 : computeDiscrepancy c (edgeRay c heap plus minus piv) piv
      * gcdVec c.arith (newRayFromEdgeBlock c heap plus minus) = 0 := by
    rw [e]
    ring
  have hg := gcdVec_pos (newRayFromEdgeBlock c heap plus minus)
  rw [← hxa] at hg
  rcases mul_eq_zero.mp e0 with h0 | h0
  · exact h0
  · omega

/-- Creating the ray of a (minus, plus) edge keeps the invariant of the
traversal. -/
theorem edge_ok {S : Type} (c : Context S) (Q : Ray S → Prop) (hQ : RayClosed c Q)
    (hxa : c.arith = Utils.Coeff.exact) (hint : c.intArith = true) (s : State S) (w : WorkLists) (plus ray : Nat)
    (h : StepOk c Q (s, w)) (hplus : plus < s.heap.length) (hray : ray < s.heap.length)
    (hvp : (getRay c s.heap plus).visitingStep = s.step)
    (hvr : (getRay c s.heap ray).visitingStep = s.step)
    (hdr : (getRay c s.heap ray).pivotDiscrepancy < -c.zerotol)
    (hdp : (getRay c s.heap plus).pivotDiscrepancy > c.zerotol) :
    StepOk c Q
      ({ s with heap := (newRayFromEdge c s.heap plus ray s.pivotInequalityIdx).1 },
        { w with
          newRays := w.newRays ++ [(newRayFromEdge c s.heap plus ray s.pivotInequalityIdx).2] })
    ∧ StepFrame c s
        { s with heap := (newRayFromEdge c s.heap plus ray s.pivotInequalityIdx).1 }
    ∧ (newRayFromEdge c s.heap plus ray s.pivotInequalityIdx).1.length = s.heap.length + 1 := by
  obtain ⟨hH0, hP0, hpiv0, hwv0, hws0⟩ := h
  have hH : HeapOk c Q s.step s.heap := hH0
  have hP : PivotOk c s.step s.pivotInequalityIdx s.heap := hP0
  have hpiv : s.pivotInequalityIdx < c.inequalityMatrix.nrows := hpiv0
  have hwv : ∀ r ∈ w.zeroRays ++ w.newRays, r < s.heap.length := hwv0
  have hws : ∀ r ∈ w.minusRays ++ w.zeroRays, r < s.heap.length →
      (getRay c s.heap r).visitingStep = s.step := hws0
  clear hH0 hP0 hpiv0 hwv0 hws0
  obtain ⟨n1, n2, n3, n4, n5, n6, n7⟩ :=
    getRay_newRayFromEdge_new c s.heap plus ray s.pivotInequalityIdx
  obtain ⟨p1, p2, p3, p4⟩ := heapOk_getRay c Q s.step s.heap hH plus hplus
  obtain ⟨m1, _, _, _⟩ := heapOk_getRay c Q s.step s.heap hH ray hray
  have hpp := pivotOk_getRay c _ _ s.heap hP plus hplus hvp
  have hpm := pivotOk_getRay c _ _ s.heap hP ray hray hvr
  have hQe : Q (edgeRay c s.heap plus ray s.pivotInequalityIdx) :=
    hQ.edge _ _ _ s.pivotInequalityIdx p1 m1 hpiv hpp hpm hdp hdr
      (by
        rw [edgeRay_coordinates]
        rfl) n3
  have hzero := edgeRay_discrepancy_zero c hxa hint s.heap plus ray s.pivotInequalityIdx
    (hQ.length _ p1) (hQ.length _ m1) hpp hpm
  have hheq := newRayFromEdge_heap_eq c s.heap plus ray s.pivotInequalityIdx hplus
  have hA : HeapOk c Q s.step (s.heap ++ [edgeRay c s.heap plus ray s.pivotInequalityIdx]) := by
    apply heapOk_append c Q s.step s.heap _ hH hQe
    · intro a ha
      rw [n4, List.mem_singleton] at ha
      omega
    · intro x hx
      rw [n5] at hx
      cases hx
    · rw [n7]
      exact p4
  have hB : PivotOk c s.step s.pivotInequalityIdx
      (s.heap ++ [edgeRay c s.heap plus ray s.pivotInequalityIdx]) := by
    apply pivotOk_append c _ _ s.heap _ hP
    intro _
    rw [n6, hzero]
  have hgl := getRay_append_left c s.heap (edgeRay c s.heap plus ray s.pivotInequalityIdx)
    plus hplus
  have hvsold : ∀ j, j < s.heap.length →
      (getRay c (newRayFromEdge c s.heap plus ray s.pivotInequalityIdx).1 j).visitingStep
        = (getRay c s.heap j).visitingStep := by
    intro j hj
    rw [getRay_newRayFromEdge_old c s.heap plus ray s.pivotInequalityIdx j hj]
    split_ifs with hjp
    · rw [hjp]
    · rfl
  refine ⟨⟨?_, ?_, hpiv, ?_, ?_⟩, ⟨rfl, rfl, rfl, rfl, ?_, ?_⟩, n2⟩
  · show HeapOk c Q s.step (newRayFromEdge c s.heap plus ray s.pivotInequalityIdx).1
    rw [hheq]
    apply heapOk_set c Q s.step _ plus _ hA
    · intro hq
      rw [hgl] at hq
      exact hQ.frame _ _ hq rfl rfl
    · intro a ha
      rw [hgl]
      rcases mem_replaceFirst _ _ _ a ha with h1 | h1
      · exact Or.inl h1
      · right
        rw [h1, List.length_append, List.length_singleton]
        omega
    · intro x hx
      rw [hgl]
      exact Or.inl hx
    · exact p4
  · show PivotOk c s.step s.pivotInequalityIdx
      (newRayFromEdge c s.heap plus ray s.pivotInequalityIdx).1
    rw [hheq]
    apply pivotOk_set_same c _ _ _ plus _ hB
    · rw [hgl]
    · rw [hgl]
    · rw [hgl]
  · intro r hr
    show r < (newRayFromEdge c s.heap plus ray s.pivotInequalityIdx).1.length
    rw [n2]
    simp only [List.mem_append, List.mem_singleton] at hr
    rcases hr with hr | hr | hr
    · have := hwv r (List.mem_append_left _ hr)
      omega
    · have := hwv r (List.mem_append_right _ hr)
      omega
    · rw [hr, n1]
      omega
  · intro r hr hrl
    show (getRay c (newRayFromEdge c s.heap plus ray s.pivotInequalityIdx).1 r).visitingStep
      = s.step
    have hrl2 : r < (newRayFromEdge c s.heap plus ray s.pivotInequalityIdx).1.length := hrl
    rw [n2] at hrl2
    by_cases hro : r < s.heap.length
    · rw [hvsold r hro]
      exact hws r hr hro
    · have hre : r = s.heap.length := by omega
      have : getRay c (newRayFromEdge c s.heap plus ray s.pivotInequalityIdx).1 r
          = edgeRay c s.heap plus ray s.pivotInequalityIdx := by
        rw [hre]
        unfold edgeRay
        rw [n1]
      rw [this, n7]
      exact hvp
  · show s.heap.length ≤ (newRayFromEdge c s.heap plus ray s.pivotInequalityIdx).1.length
    rw [n2]
    omega
  · intro j hj hjv
    show (getRay c (newRayFromEdge c s.heap plus ray s.pivotInequalityIdx).1 j).visitingStep
      = s.step
    rw [hvsold j hj]
    exact hjv

end DDM

namespace DDM

open Utils

/-- The loop of `searchAdj` keeps the invariant of the traversal. -/
theorem searchAdjLoop_ok {S : Type} (c : Context S) (Q : Ray S → Prop) (hQ : RayClosed c Q)
    (hxa : c.arith = Utils.Coeff.exact) (hint : c.intArith = true) (ray : Nat) :
    ∀ (fuel i : Nat) (sw : State S × WorkLists), StepOk c Q sw →
      (ray < sw.1.heap.length → (getRay c sw.1.heap ray).visitingStep = sw.1.step) →
      StepOk c Q (searchAdjLoop c ray fuel i sw)
      ∧ StepFrame c sw.1 (searchAdjLoop c ray fuel i sw).1 := by
  intro fuel
  induction fuel with
  | zero => intro i sw h _; exact ⟨h, stepFrame_refl c sw.1⟩
  | succ n ih =>
    intro i sw h hray
    simp only [searchAdjLoop]
    cases hget : (getRay c sw.1.heap ray).adjacentRays.get? i with
    | none => exact ⟨h, stepFrame_refl c sw.1⟩
    | some adjRay =>
      have hmem : adjRay ∈ (getRay c sw.1.heap ray).adjacentRays :=
        List.mem_iff_getElem?.mpr ⟨i, by rw [← List.get?_eq_getElem?]; exact hget⟩
      have hrlt := lt_of_mem_adjacentRays c sw.1.heap ray adjRay hmem
      have halt : adjRay < sw.1.heap.length :=
        (heapOk_getRay c Q sw.1.step sw.1.heap h.1 ray hrlt).2.1 adjRay hmem
      obtain ⟨v1, v2, v3, v4, _⟩ := visitAdj_ok c Q hQ sw adjRay h halt
      have hstep : (visitAdj c sw adjRay).1.step = sw.1.step := v2.1
      have hray1 : (getRay c (visitAdj c sw adjRay).1.heap ray).visitingStep
          = (visitAdj c sw adjRay).1.step := by
        rw [hstep]
        exact v2.2.2.2.2.2 ray hrlt (hray hrlt)
      have hadj1 : (getRay c (visitAdj c sw adjRay).1.heap adjRay).visitingStep
          = (visitAdj c sw adjRay).1.step := by
        rw [hstep]
        exact v4
      have hrl1 : ray < (visitAdj c sw adjRay).1.heap.length := by rw [v3]; exact hrlt
      have hal1 : adjRay < (visitAdj c sw adjRay).1.heap.length := by rw [v3]; exact halt
      simp only
      split_ifs with h1 h2 h3
      · obtain ⟨e1, e2, e3⟩ := edge_ok c Q hQ hxa hint (visitAdj c sw adjRay).1
          (visitAdj c sw adjRay).2 adjRay ray v1 hal1 hrl1 hadj1 hray1 h1 h2
        obtain ⟨r1, r2⟩ := ih (i + 1) _ e1 (by
          intro _
          exact e2.2.2.2.2.2 ray hrl1 hray1)
        exact ⟨r1, stepFrame_trans c _ _ _ v2 (stepFrame_trans c _ _ _ e2 r2)⟩
      · obtain ⟨e1, e2, e3⟩ := eraseAdj_ok c Q hQ (visitAdj c sw adjRay).1
          (visitAdj c sw adjRay).2 ray i v1
        obtain ⟨r1, r2⟩ := ih i _ e1 (by
          intro _
          exact e2.2.2.2.2.2 ray hrl1 hray1)
        exact ⟨r1, stepFrame_trans c _ _ _ v2 (stepFrame_trans c _ _ _ e2 r2)⟩
      · obtain ⟨r1, r2⟩ := ih (i + 1) (visitAdj c sw adjRay) v1 (fun _ => hray1)
        exact ⟨r1, stepFrame_trans c _ _ _ v2 r2⟩
      · obtain ⟨e1, e2, e3⟩ := eraseAdj_ok c Q hQ (visitAdj c sw adjRay).1
          (visitAdj c sw adjRay).2 ray i v1
        obtain ⟨r1, r2⟩ := ih i _ e1 (by
          intro _
          exact e2.2.2.2.2.2 ray hrl1 hray1)
        exact ⟨r1, stepFrame_trans c _ _ _ v2 (stepFrame_trans c _ _ _ e2 r2)⟩

theorem classifyLoop_ok {S : Type} (c : Context S) (Q : Ray S → Prop) (hQ : RayClosed c Q)
    (hxa : c.arith = Utils.Coeff.exact) (hint : c.intArith = true) :
    ∀ (fuel mi zi : Nat) (sw r : State S × WorkLists), StepOk c Q sw →
      classifyLoop c fuel mi zi sw = some r →
      StepOk c Q r ∧ StepFrame c sw.1 r.1 := by
  intro fuel
  induction fuel with
  | zero =>
    intro mi zi sw r h hr
    simp only [classifyLoop] at hr
    split_ifs at hr
    simp only [Option.some.injEq] at hr
    subst hr
    exact ⟨h, stepFrame_refl c sw.1⟩
  | succ n ih =>
    intro mi zi sw r h hr
    simp only [classifyLoop] at hr
    split_ifs at hr with h1 h2
    · have hmem : sw.2.minusRays.getD mi 0 ∈ sw.2.minusRays ++ sw.2.zeroRays := by
        rw [List.getD_eq_getElem _ _ h1]
        exact List.mem_append_left _ (List.getElem_mem _)
      obtain ⟨s1, s2⟩ := searchAdjLoop_ok c Q hQ hxa hint (sw.2.minusRays.getD mi 0)
        (getRay c sw.1.heap (sw.2.minusRays.getD mi 0)).adjacentRays.length 0 sw h
        (h.2.2.2.2 _ hmem)
      obtain ⟨r1, r2⟩ := ih (mi + 1) zi _ r s1 hr
      exact ⟨r1, stepFrame_trans c _ _ _ s2 r2⟩
    · have hmem : sw.2.zeroRays.getD zi 0 ∈ sw.2.minusRays ++ sw.2.zeroRays := by
        rw [List.getD_eq_getElem _ _ h2]
        exact List.mem_append_right _ (List.getElem_mem _)
      obtain ⟨s1, s2⟩ := searchAdjLoop_ok c Q hQ hxa hint (sw.2.zeroRays.getD zi 0)
        (getRay c sw.1.heap (sw.2.zeroRays.getD zi 0)).adjacentRays.length 0 sw h
        (h.2.2.2.2 _ hmem)
      obtain ⟨r1, r2⟩ := ih mi (zi + 1) _ r s1 hr
      exact ⟨r1, stepFrame_trans c _ _ _ s2 r2⟩
    · simp only [Option.some.injEq] at hr
      subst hr
      exact ⟨h, stepFrame_refl c sw.1⟩

/-- `classifyRays` keeps the invariant of the iteration boundaries; the zero
rays it returns are rays of the heap. -/
theorem classifyRays_ok {S : Type} (c : Context S) (Q : Ray S → Prop) (hQ : RayClosed c Q)
    (hxa : c.arith = Utils.Coeff.exact) (hint : c.intArith = true) (s s1 : State S) (zeroRays : List Nat) (h : StateOk c Q s)
    (hc : classifyRays c s = some (s1, zeroRays)) :
    StateOk c Q s1 ∧ (∀ r ∈ zeroRays, r < s1.heap.length) := by
  unfold classifyRays at hc
  split at hc
  · cases hc
  · rename_i sn hn
    obtain ⟨n1, n2, n3, n4, n5, n6, n7⟩ := next_ok c Q hQ s sn h hn
    obtain ⟨hH, hex, hasg⟩ := h
    simp only at hc
    split at hc
    · cases hc
    · rename_i s3 wl hcl
      simp only [Option.some.injEq, Prod.mk.injEq] at hc
      obtain ⟨hc1, hc2⟩ := hc
      have hHn : HeapOk c Q sn.step sn.heap :=
        heapOk_mono c Q s.step sn.step sn.heap n1 (by omega)
      have hPn : PivotOk c sn.step sn.pivotInequalityIdx sn.heap := by
        intro i r hi hv
        have := (n1 i r hi).2.2.2
        omega
      have hstart : StepOk c Q
          (({ sn with
              heap := sn.heap.set sn.pivotRay
                { getRay c sn.heap sn.pivotRay with visitingStep := sn.step } } : State S),
            WorkLists.mk [sn.pivotRay] [] []) := by
        refine ⟨?_, ?_, n6, ?_, ?_⟩
        · apply heapOk_set c Q sn.step sn.heap sn.pivotRay _ hHn
          · exact fun hq => hQ.frame _ _ hq rfl rfl
          · exact fun a ha => Or.inl ha
          · exact fun x hx => Or.inl hx
          · exact Nat.le_refl _
        · apply pivotOk_set c _ _ sn.heap sn.pivotRay _ hPn
          intro hj _
          exact n7 hj
        · intro r hr
          simp at hr
        · intro r hr hrl
          simp only [List.append_nil, List.mem_singleton] at hr
          simp only [List.length_set] at hrl
          subst hr
          simp only
          rw [getRay_set_self c sn.heap _ _ hrl]
      obtain ⟨l1, l2⟩ := classifyLoop_ok c Q hQ hxa hint _ 0 0 _ (s3, wl) hstart hcl
      obtain ⟨f1, f2, f3, f4, f5, _⟩ := l2
      simp only [List.length_set] at f5
      simp only at f1 f3 f4
      obtain ⟨k1, _, _, k4, _⟩ := l1
      have k1b : HeapOk c Q s3.step s3.heap := k1
      have k4b : ∀ r ∈ wl.zeroRays ++ wl.newRays, r < s3.heap.length := k4
      obtain ⟨p1, p2, p3, p4, p5, _⟩ := partitionInes_heapOk c Q hQ s3.step
        (wl.zeroRays ++ wl.newRays) wl.minusRays s3 k1b
      subst hc1
      subst hc2
      refine ⟨⟨?_, ?_, ?_⟩, ?_⟩
      · show HeapOk c Q (partitionInes c s3 wl.minusRays (wl.zeroRays ++ wl.newRays)).step
          (partitionInes c s3 wl.minusRays (wl.zeroRays ++ wl.newRays)).heap
        rw [p4]
        exact p1
      · intro r hr
        show r < (partitionInes c s3 wl.minusRays (wl.zeroRays ++ wl.newRays)).heap.length
        rw [p2]
        rcases List.mem_append.mp hr with hr1 | hr1
        · have := deleteMinusLoop_subset c _ _ _ _ r hr1
          rw [p3, f3, n4] at this
          have := hex r this
          omega
        · exact k4b r (List.mem_append_right _ hr1)
      · show (partitionInes c s3 wl.minusRays (wl.zeroRays ++ wl.newRays)).assigneeRays.length
          ≤ c.inequalityMatrix.nrows
        rw [p5, f4, n5]
        exact hasg
      · intro r hr
        show r < (partitionInes c s3 wl.minusRays (wl.zeroRays ++ wl.newRays)).heap.length
        rw [p2]
        exact k4b r hr

end DDM

namespace DDM

open Utils

theorem addEdge_heapOk {S : Type} (c : Context S) (Q : Ray S → Prop) (hQ : RayClosed c Q)
    (step : Nat) (heap : List (Ray S)) (a b : Nat) (h : HeapOk c Q step heap)
    (ha : a < heap.length) (hb : b < heap.length) :
    HeapOk c Q step (addEdge c heap a b) ∧ (addEdge c heap a b).length = heap.length := by
  have push : ∀ (hp : List (Ray S)) (x y : Nat), HeapOk c Q step hp → x < hp.length →
      y < hp.length →
      HeapOk c Q step (hp.set x
        { getRay c hp x with adjacentRays := (getRay c hp x).adjacentRays ++ [y] }) := by
    intro hp x y hh hx hy
    apply heapOk_set c Q step hp x _ hh
    · exact fun hq => hQ.frame _ _ hq rfl rfl
    · intro z hz
      rcases List.mem_append.mp hz with h1 | h1
      · exact Or.inl h1
      · rw [List.mem_singleton] at h1
        rw [h1]
        exact Or.inr hy
    · exact fun z hz => Or.inl hz
    · exact (heapOk_getRay c Q step hp hh x hx).2.2.2
  unfold addEdge
  refine ⟨?_, by simp⟩
  exact push _ b a (push heap a b h ha hb) (by simpa using hb) (by simpa using ha)

theorem foldl_addEdge_heapOk {S : Type} (c : Context S) (Q : Ray S → Prop)
    (hQ : RayClosed c Q) (step : Nat) (a : Nat) :
    ∀ (cands : List (AdjacencyCandidate S)) (heap : List (Ray S)), HeapOk c Q step heap →
      a < heap.length → (∀ cand ∈ cands, cand.ray < heap.length) →
      HeapOk c Q step (cands.foldl (fun h1 cand => addEdge c h1 a cand.ray) heap)
      ∧ (cands.foldl (fun h1 cand => addEdge c h1 a cand.ray) heap).length = heap.length := by
  intro cands
  induction cands with
  | nil => intro heap h _ _; exact ⟨h, rfl⟩
  | cons cd cds ih =>
    intro heap h ha hcs
    simp only [List.foldl_cons]
    obtain ⟨e1, e2⟩ := addEdge_heapOk c Q hQ step heap a cd.ray h ha
      (hcs cd (List.mem_cons_self _ _))
    obtain ⟨r1, r2⟩ := ih (addEdge c heap a cd.ray) e1 (by omega) (by
      intro cand hcand
      rw [e2]
      exact hcs cand (List.mem_cons_of_mem _ hcand))
    exact ⟨r1, r2.trans e2⟩

theorem computeAdjacency_fold_heapOk {S : Type} (c : Context S) (Q : Ray S → Prop)
    (hQ : RayClosed c Q) (step : Nat) (rays np : List Nat) :
    ∀ (idxs : List Nat) (heap : List (Ray S)), HeapOk c Q step heap →
      (∀ r ∈ rays, r < heap.length) → (∀ i ∈ idxs, i < rays.length) →
      HeapOk c Q step (idxs.foldl
        (fun h i =>
          (testAdjacency c h i rays (findAdjacencyCandidates c h i rays np)).foldl
            (fun h1 cand => addEdge c h1 (rays.getD i 0) cand.ray) h) heap)
      ∧ (idxs.foldl
        (fun h i =>
          (testAdjacency c h i rays (findAdjacencyCandidates c h i rays np)).foldl
            (fun h1 cand => addEdge c h1 (rays.getD i 0) cand.ray) h) heap).length
          = heap.length := by
  intro idxs
  induction idxs with
  | nil => intro heap h _ _; exact ⟨h, rfl⟩
  | cons i is ih =>
    intro heap h hr hi
    simp only [List.foldl_cons]
    have hil : i < rays.length := hi i (List.mem_cons_self _ _)
    have hmem : rays.getD i 0 ∈ rays := by
      rw [List.getD_eq_getElem _ _ hil]
      exact List.getElem_mem _
    obtain ⟨e1, e2⟩ := foldl_addEdge_heapOk c Q hQ step (rays.getD i 0)
      (testAdjacency c heap i rays (findAdjacencyCandidates c heap i rays np)) heap h
      (hr _ hmem) (by
        intro cand hcand
        exact hr _ (findAdjacencyCandidates_spec c heap i rays np cand
          (testAdjacency_subset c heap i rays _ cand hcand)).1)
    obtain ⟨r1, r2⟩ := ih _ e1 (by intro r hrm; rw [e2]; exact hr r hrm)
      (fun j hj => hi j (List.mem_cons_of_mem _ hj))
    exact ⟨r1, r2.trans e2⟩

theorem computeAdjacency_heapOk {S : Type} (c : Context S) (Q : Ray S → Prop)
    (hQ : RayClosed c Q) (step : Nat) (heap : List (Ray S)) (rays np : List Nat)
    (h : HeapOk c Q step heap) (hr : ∀ r ∈ rays, r < heap.length) :
    HeapOk c Q step (computeAdjacency c heap rays np)
    ∧ (computeAdjacency c heap rays np).length = heap.length := by
  unfold computeAdjacency
  exact computeAdjacency_fold_heapOk c Q hQ step rays np (List.range rays.length) heap h hr
    (fun i hi => List.mem_range.mp hi)

theorem foldl_assignIne_self_heapOk {S : Type} (c : Context S) (Q : Ray S → Prop)
    (hQ : RayClosed c Q) (step : Nat) :
    ∀ (ines : List Nat) (s : State S), HeapOk c Q step s.heap →
      (∀ i ∈ ines, i < c.inequalityMatrix.nrows) →
      HeapOk c Q step (ines.foldl (fun s2 ine => assignIne c s2 ine s2.extremeRays) s).heap
      ∧ (ines.foldl (fun s2 ine => assignIne c s2 ine s2.extremeRays) s).heap.length
          = s.heap.length
      ∧ (ines.foldl (fun s2 ine => assignIne c s2 ine s2.extremeRays) s).extremeRays
          = s.extremeRays
      ∧ (ines.foldl (fun s2 ine => assignIne c s2 ine s2.extremeRays) s).step = s.step
      ∧ (ines.foldl (fun s2 ine => assignIne c s2 ine s2.extremeRays) s).assigneeRays.length
          = s.assigneeRays.length := by
  intro ines
  induction ines with
  | nil => intro s h _; exact ⟨h, rfl, rfl, rfl, rfl⟩
  | cons i is ih =>
    intro s h hi
    simp only [List.foldl_cons]
    obtain ⟨a1, a2, a3, a4, a5, _⟩ := assignIne_heapOk c Q hQ step s i s.extremeRays h
      (hi i (List.mem_cons_self _ _))
    obtain ⟨b1, b2, b3, b4, b5⟩ := ih (assignIne c s i s.extremeRays) a1
      (fun j hj => hi j (List.mem_cons_of_mem _ hj))
    exact ⟨b1, b2.trans a2, b3.trans a3, b4.trans a4, b5.trans a5⟩

theorem makeInitialStep_rays {S : Type} (c : Context S) (f : Matrix) (perm : List Nat) :
    makeInitialStep c f perm
      = (List.range c.inequalityMatrix.nrows).foldl
          (fun s i => assignIne c s i s.extremeRays)
          { initialState c with
            heap := computeAdjacency c ((List.range c.rank).map (initialRay c f perm))
              (List.range c.rank) (initialState c).notProcessedInequalities,
            extremeRays := List.range c.rank } := rfl

/-- If the initial rays have the property `Q`, the state after
`makeInitialStep` satisfies the invariant of the iteration boundaries. -/
theorem makeInitialStep_ok {S : Type} (c : Context S) (Q : Ray S → Prop) (hQ : RayClosed c Q)
    (f : Matrix) (perm : List Nat)
    (hinit : ∀ rayIdx, rayIdx < c.rank → Q (initialRay c f perm rayIdx)) :
    StateOk c Q (makeInitialStep c f perm) := by
  have h0 : HeapOk c Q 0 ((List.range c.rank).map (initialRay c f perm)) := by
    intro i r hi
    rw [List.getElem?_map] at hi
    by_cases hlt : i < c.rank
    · rw [List.getElem?_range hlt] at hi
      simp only [Option.map_some', Option.some.injEq] at hi
      subst hi
      refine ⟨hinit i hlt, ?_, ?_, Nat.le_refl _⟩
      · intro a ha
        simp [initialRay, newRay] at ha
      · intro a ha
        simp [initialRay, newRay] at ha
    · rw [List.getElem?_eq_none (by simpa using hlt)] at hi
      cases hi
  obtain ⟨h1, h2⟩ := computeAdjacency_heapOk c Q hQ 0 _ (List.range c.rank)
    (initialState c).notProcessedInequalities h0 (by
      intro r hr
      simpa using hr)
  obtain ⟨h3, h4, h5, h6, h7⟩ := foldl_assignIne_self_heapOk c Q hQ 0
    (List.range c.inequalityMatrix.nrows)
    { initialState c with
      heap := computeAdjacency c ((List.range c.rank).map (initialRay c f perm))
        (List.range c.rank) (initialState c).notProcessedInequalities,
      extremeRays := List.range c.rank } h1 (fun i hi => List.mem_range.mp hi)
  rw [makeInitialStep_rays]
  refine ⟨?_, ?_, ?_⟩
  · rw [h6]
    exact h3
  · intro r hr
    rw [h5] at hr
    rw [h4]
    simp only at hr ⊢
    rw [h2]
    simpa using hr
  · rw [h7]
    simp [initialState]

theorem loopBody_ok {S : Type} (c : Context S) (Q : Ray S → Prop) (hQ : RayClosed c Q)
    (hxa : c.arith = Utils.Coeff.exact) (hint : c.intArith = true) (s s1 : State S) (h : StateOk c Q s)
    (hl : loopBody c s = some s1) : StateOk c Q s1 := by
  unfold loopBody at hl
  cases hc : classifyRays c s with
  | none => rw [hc] at hl; cases hl
  | some p =>
    obtain ⟨s2, zeroRays⟩ := p
    rw [hc] at hl
    simp only [Option.some.injEq] at hl
    subst hl
    obtain ⟨⟨a1, a2, a3⟩, a4⟩ := classifyRays_ok c Q hQ hxa hint s s2 zeroRays h hc
    obtain ⟨b1, b2⟩ := computeAdjacency_heapOk c Q hQ s2.step s2.heap zeroRays
      s2.notProcessedInequalities a1 a4
    refine ⟨b1, ?_, a3⟩
    intro r hr
    show r < (computeAdjacency c s2.heap zeroRays s2.notProcessedInequalities).length
    rw [b2]
    exact a2 r hr

/-- Every state reached from `makeInitialStep` by executions of the loop body
satisfies the invariant of the iteration boundaries. -/
theorem iterations_ok {S : Type} (c : Context S) (Q : Ray S → Prop) (hQ : RayClosed c Q)
    (hxa : c.arith = Utils.Coeff.exact) (hint : c.intArith = true) :
    ∀ (k : Nat) (s s1 : State S), StateOk c Q s → iterations c k s = some s1 →
      StateOk c Q s1 := by
  intro k
  induction k with
  | zero =>
    intro s s1 h hi
    simp only [iterations, Option.some.injEq] at hi
    subst hi
    exact h
  | succ k ih =>
    intro s s1 h hi
    unfold iterations at hi
    cases hl : loopBody c s with
    | none => rw [hl] at hi; cases hi
    | some s2 =>
      rw [hl] at hi
      exact ih s2 s1 (loopBody_ok c Q hQ hxa hint s s2 h hl) hi

end DDM

/-! ## The cache of discrepancies without overflow -/

namespace Utils

theorem dvd_listGcd (v : List Int) (d : Int) (h : ∀ x ∈ v, d ∣ x) : d ∣ (listGcd v : Int) := by
  induction v with
  | nil => simp [listGcd]
  | cons y ys ih =>
    rw [listGcd_cons]
    exact Int.dvd_gcd (h y (List.mem_cons_self _ _))
      (ih (fun x hx => h x (List.mem_cons_of_mem _ hx)))

/-- If every entry after the first `n` is a multiple of the gcd of the first
`n` entries, the gcd of the vector is the gcd of its first `n` entries. -/
theorem gcdVec_take (v : List Int) (n : Nat)
    (h : ∀ x ∈ v.drop n, (listGcd (v.take n) : Int) ∣ x) : gcdVec Utils.Coeff.exact v = gcdVec Utils.Coeff.exact (v.take n) := by
  have hmem : ∀ x, x ∈ v ↔ x ∈ v.take n ∨ x ∈ v.drop n := by
    intro x
    rw [← List.mem_append, List.take_append_drop]
  have hz : (∀ x ∈ v, x = 0) ↔ (∀ x ∈ v.take n, x = 0) := by
    constructor
    · intro h0 x hx
      exact h0 x ((hmem x).mpr (Or.inl hx))
    · intro h0 x hx
      rcases (hmem x).mp hx with h1 | h1
      · exact h0 x h1
      · have := h x h1
        rw [(listGcd_eq_zero_iff _).mpr h0] at this
        simpa using this
  rw [gcdVec_eq, gcdVec_eq]
  by_cases h0 : ∀ x ∈ v, x = 0
  · rw [if_pos h0, if_pos (hz.mp h0)]
  · rw [if_neg h0, if_neg (fun h1 => h0 (hz.mpr h1))]
    have d1 : (listGcd v : Int) ∣ (listGcd (v.take n) : Int) :=
      dvd_listGcd _ _ (fun x hx => listGcd_dvd v x ((hmem x).mpr (Or.inl hx)))
    have d2 : (listGcd (v.take n) : Int) ∣ (listGcd v : Int) := by
      apply dvd_listGcd
      intro x hx
      rcases (hmem x).mp hx with h1 | h1
      · exact listGcd_dvd _ x h1
      · exact h x h1
    have := Nat.dvd_antisymm (Int.natCast_dvd_natCast.mp d1) (Int.natCast_dvd_natCast.mp d2)
    rw [this]

end Utils

namespace DDM

open Utils

theorem dot_normalize_mul (n : Nat) (v y : List Int) :
    dot Utils.Coeff.exact n (normalizeIntVector Utils.Coeff.exact v) y * gcdVec Utils.Coeff.exact v = dot Utils.Coeff.exact n v y := by
  rw [dot_eq_sum, dot_eq_sum, Finset.sum_mul]
  apply Finset.sum_congr rfl
  intro k _
  have := Elimination.getD_normalizeIntVector_mul v k
  calc (normalizeIntVector Utils.Coeff.exact v).getD k 0 * y.getD k 0 * gcdVec Utils.Coeff.exact v
      = ((normalizeIntVector Utils.Coeff.exact v).getD k 0 * gcdVec Utils.Coeff.exact v) * y.getD k 0 := by ring
    _ = _ := by rw [this]

theorem cacheConsistent_normalize {S : Type} (c : Context S) (hxa : c.arith = Utils.Coeff.exact) (v : List Int)
    (h : CacheConsistent c v) : CacheConsistent c (normalizeIntVector c.arith v) := by
  obtain ⟨h1, h2⟩ := h
  refine ⟨by rw [Elimination.length_normalizeIntVector, h1], ?_⟩
  intro i hi
  have h2i := h2 i hi
  rw [hxa] at h2i ⊢
  have e1 := Elimination.getD_normalizeIntVector_mul v (c.dim + i)
  have e2 := dot_normalize_mul c.inequalityMatrix.ncols v (c.inequalityMatrix.row i)
  have hg := gcdVec_pos v
  have : (normalizeIntVector Coeff.exact v).getD (c.dim + i) 0 * gcdVec Coeff.exact v
      = dot Coeff.exact c.inequalityMatrix.ncols (normalizeIntVector Coeff.exact v)
          (c.inequalityMatrix.row i)
        * gcdVec Coeff.exact v := by
    rw [e1, e2]
    exact h2i
  exact Int.eq_of_mul_eq_mul_right (ne_of_gt hg) this

/-- With a consistent cache the gcd of the extended array is the gcd of the
coordinates alone. -/
theorem gcdVec_cacheConsistent {S : Type} (c : Context S) (hxa : c.arith = Utils.Coeff.exact) (hpp : c.usePlusPlus = true)
    (v : List Int) (h : CacheConsistent c v) : gcdVec c.arith v = gcdVec c.arith (v.take c.dim) := by
  obtain ⟨h1, h2⟩ := h
  have hext : c.extendedDim = c.dim + c.inequalityMatrix.nrows := by
    unfold Context.extendedDim
    rw [if_pos hpp]
  rw [hxa]
  apply gcdVec_take
  intro x hx
  obtain ⟨j, hj⟩ := List.mem_iff_getElem?.mp hx
  rw [List.getElem?_drop] at hj
  have hjl : c.dim + j < v.length := by
    by_contra hc
    rw [List.getElem?_eq_none (by omega)] at hj
    cases hj
  have hx2 : x = v.getD (c.dim + j) 0 := by
    rw [List.getD_eq_getElem?_getD, hj]
    rfl
  rw [hx2, h2 j (by omega), hxa, dot_eq_sum]
  apply Finset.dvd_sum
  intro k hk
  have hk2 : k < c.dim := Finset.mem_range.mp hk
  apply Dvd.dvd.mul_right
  apply listGcd_dvd
  rw [List.mem_iff_getElem?]
  refine ⟨k, ?_⟩
  rw [List.getElem?_take_of_lt hk2, List.getD_eq_getElem?_getD, List.getElem?_eq_getElem (by omega)]
  rfl

theorem dot_take_append (n : Nat) (x t y : List Int) (hx : n ≤ x.length) :
    dot Utils.Coeff.exact n (x.take n ++ t) y = dot Utils.Coeff.exact n x y := by
  rw [dot_eq_sum, dot_eq_sum]
  apply Finset.sum_congr rfl
  intro k hk
  have hk2 : k < n := Finset.mem_range.mp hk
  congr 1
  rw [List.getD_eq_getElem?_getD, List.getD_eq_getElem?_getD,
    List.getElem?_append_left (by rw [List.length_take]; omega), List.getElem?_take_of_lt hk2]

/-- The block that `makeInitialStep` hands to `newRay` has a consistent
cache. -/
theorem cacheConsistent_initial {S : Type} (c : Context S) (hxa : c.arith = Utils.Coeff.exact) (hpp : c.usePlusPlus = true)
    (coords : List Int) (hlen : c.dim ≤ coords.length) :
    CacheConsistent c (newRayBlock c coords (computeDiscrepancies c coords)) := by
  have hext : c.extendedDim = c.dim + c.inequalityMatrix.nrows := by
    unfold Context.extendedDim
    rw [if_pos hpp]
  have hd : (computeDiscrepancies c coords).length = c.inequalityMatrix.nrows := by
    unfold computeDiscrepancies
    rw [List.length_map]
    rfl
  unfold newRayBlock
  have ht : (computeDiscrepancies c coords).take (c.extendedDim - c.dim)
      = computeDiscrepancies c coords := by
    apply List.take_of_length_le
    omega
  rw [ht]
  refine ⟨by rw [List.length_append, List.length_take, hd, hext]; omega, ?_⟩
  intro i hi
  have hdim : c.dim = c.inequalityMatrix.ncols := rfl
  rw [← hdim, hxa, dot_take_append c.dim coords _ _ hlen]
  rw [List.getD_eq_getElem?_getD, List.getElem?_append_right (by rw [List.length_take]; omega)]
  have hsub : c.dim + i - (coords.take c.dim).length = i := by
    rw [List.length_take]
    omega
  rw [hsub]
  unfold computeDiscrepancies
  rw [List.getElem?_map, hxa]
  have hrow : c.inequalityMatrix.rows[i]? = some (c.inequalityMatrix.row i) := by
    show c.inequalityMatrix.rows[i]? = some (c.inequalityMatrix.rows.getD i [])
    rw [List.getD_eq_getElem?_getD, List.getElem?_eq_getElem hi]
    rfl
  rw [hrow]
  rfl

/-- The block of the ray built for an edge between two rays with consistent
caches has a consistent cache. -/
theorem cacheConsistent_edge {S : Type} (c : Context S) (hxa : c.arith = Utils.Coeff.exact) (p m : Ray S)
    (hp : CacheConsistent c p.coordinates) (hm : CacheConsistent c m.coordinates) :
    CacheConsistent c ((List.zipWith
        (fun mc pc =>
          c.arith.sub (c.arith.mul p.pivotDiscrepancy mc) (c.arith.mul m.pivotDiscrepancy pc))
        m.coordinates p.coordinates).take c.extendedDim) := by
  obtain ⟨p1, p2⟩ := hp
  obtain ⟨m1, m2⟩ := hm
  rw [hxa] at p2 m2
  have hget : ∀ k, k < c.extendedDim →
      ((List.zipWith (fun mc pc =>
          c.arith.sub (c.arith.mul p.pivotDiscrepancy mc) (c.arith.mul m.pivotDiscrepancy pc))
        m.coordinates p.coordinates).take c.extendedDim).getD k 0
      = p.pivotDiscrepancy * m.coordinates.getD k 0
        - m.pivotDiscrepancy * p.coordinates.getD k 0 :=
    fun k hk => edgeBlock_getD c hxa [p, m] 0 1 k p1 m1 hk
  refine ⟨by rw [List.length_take, List.length_zipWith, p1, m1]; omega, ?_⟩
  intro i hi
  rw [show dot c.arith = dot Utils.Coeff.exact from by rw [hxa]]
  by_cases hlt : c.dim + i < c.extendedDim
  · rw [hget _ hlt, m2 i hi, p2 i hi, dot_eq_sum, dot_eq_sum, dot_eq_sum, Finset.mul_sum,
      Finset.mul_sum, ← Finset.sum_sub_distrib]
    apply Finset.sum_congr rfl
    intro k hk
    have hk2 : k < c.extendedDim :=
      lt_of_lt_of_le (Finset.mem_range.mp hk) (dim_le_extendedDim c)
    rw [hget k hk2]
    ring
  · -- without the cache the positions `dim + i` are outside all three arrays
    have hz : ∀ (v : List Int), v.length = c.extendedDim → v.getD (c.dim + i) 0 = 0 := by
      intro v hv
      rw [List.getD_eq_getElem?_getD, List.getElem?_eq_none (by omega)]
      rfl
    have e1 := m2 i hi
    have e2 := p2 i hi
    rw [hz _ m1] at e1
    rw [hz _ p1] at e2
    rw [hz _ (by rw [List.length_take, List.length_zipWith, p1, m1]; omega), dot_eq_sum]
    rw [dot_eq_sum] at e1 e2
    have : ∑ k in Finset.range c.inequalityMatrix.ncols,
        ((List.zipWith (fun mc pc =>
          c.arith.sub (c.arith.mul p.pivotDiscrepancy mc) (c.arith.mul m.pivotDiscrepancy pc))
          m.coordinates p.coordinates).take c.extendedDim).getD k 0
          * (c.inequalityMatrix.row i).getD k 0
        = p.pivotDiscrepancy * (∑ k in Finset.range c.inequalityMatrix.ncols,
            m.coordinates.getD k 0 * (c.inequalityMatrix.row i).getD k 0)
          - m.pivotDiscrepancy * (∑ k in Finset.range c.inequalityMatrix.ncols,
            p.coordinates.getD k 0 * (c.inequalityMatrix.row i).getD k 0) := by
      rw [Finset.mul_sum, Finset.mul_sum, ← Finset.sum_sub_distrib]
      apply Finset.sum_congr rfl
      intro k hk
      have hk2 : k < c.extendedDim :=
        lt_of_lt_of_le (Finset.mem_range.mp hk) (dim_le_extendedDim c)
      rw [hget k hk2]
      ring
    rw [this, ← e1, ← e2]
    ring

/-- The property "the cache is consistent" is closed in the sense of
`RayClosed`. -/
theorem rayClosed_cache {S : Type} (c : Context S) (hxa : c.arith = Utils.Coeff.exact) (hint : c.intArith = true) :
    RayClosed c (fun r => CacheConsistent c r.coordinates) where
  frame := by
    intro r r1 h hc _
    rw [hc]
    exact h
  length := fun r h => h.1
  zero := by
    intro r r1 piv h _ _ _ hc _
    rw [hc]
    exact h
  edge := by
    intro p m r1 piv hp hm _ _ _ _ _ hc _
    rw [hc, normalizeRay_int c hint]
    exact cacheConsistent_normalize c hxa _ (cacheConsistent_edge c hxa p m hp hm)

end DDM

namespace DDM

open Utils

theorem take_normalizeIntVector_cache {S : Type} (c : Context S) (hxa : c.arith = Utils.Coeff.exact) (hpp : c.usePlusPlus = true)
    (v : List Int) (h : CacheConsistent c v) :
    (normalizeIntVector c.arith v).take c.dim = normalizeIntVector c.arith (v.take c.dim) := by
  unfold normalizeIntVector
  rw [← gcdVec_cacheConsistent c hxa hpp v h, List.map_take]

theorem initialRay_cache {S : Type} (c : Context S) (hpp : c.usePlusPlus = true)
    (hxa : c.arith = Utils.Coeff.exact) (hint : c.intArith = true) (f : Matrix) (perm : List Nat) (rayIdx : Nat)
    (hf : c.dim ≤ (f.row rayIdx).length) :
    CacheConsistent c (initialRay c f perm rayIdx).coordinates := by
  have e : (initialRay c f perm rayIdx).coordinates
      = normalizeIntVector c.arith (newRayBlock c (f.row rayIdx)
          (computeDiscrepancies c (f.row rayIdx))) := by
    unfold initialRay newRay newRayBlock
    simp only [hpp, if_true]
    rw [normalizeRay_int c hint]
  rw [e]
  exact cacheConsistent_normalize c hxa _ (cacheConsistent_initial c hxa hpp _ hf)

theorem heap_cache {S : Type} (c : Context S) (hpp : c.usePlusPlus = true)
    (hxa : c.arith = Utils.Coeff.exact) (hint : c.intArith = true) (f : Matrix) (perm : List Nat)
    (hf : ∀ k, k < c.rank → c.dim ≤ (f.row k).length) (k : Nat) (s : State S)
    (hs : iterations c k (makeInitialStep c f perm) = some s) :
    ∀ r ∈ s.heap, CacheConsistent c r.coordinates := by
  have h0 := makeInitialStep_ok c _ (rayClosed_cache c hxa hint) f perm
    (fun rayIdx hr => initialRay_cache c hpp hxa hint f perm rayIdx (hf rayIdx hr))
  have h1 := iterations_ok c _ (rayClosed_cache c hxa hint) hxa hint k _ s h0 hs
  intro r hr
  obtain ⟨i, hi⟩ := List.mem_iff_getElem?.mp hr
  exact (h1.1 i r hi).1

end DDM

/-- The cache for a coefficient type without overflow: with plusplus enabled
and integer arithmetic (any set
representation, order and adjacency test; `f` any matrix whose first `rank`
rows have at least `dim` entries, as the `dim × dim` matrix of `gauss` has),
in the state after `makeInitialStep` (`k = 0`) and after every further
execution of the body of the main loop, every ray of the heap (which keeps
every ray ever created, the deleted ones included) has `extendedDim` entries
and its cached discrepancy `coordinates[dim + i]` is the inner product of its
coordinates with the row `i` of the inequality matrix, the value
`computeDiscrepancy` compares it with; the coordinates of each initial ray
are the row of `f` divided by the gcd of that row alone; and the coordinates
of the ray that `newRay(plus, minus, pivot)` makes from any two rays of the
heap are the combined coordinates divided by the gcd of these `dim` numbers
alone. -/
theorem discrepancy_cache_consistent {S : Type} (c : DDM.Context S)
    (hpp : c.usePlusPlus = true) (hxa : c.arith = Utils.Coeff.exact) (hint : c.intArith = true) (f : Utils.Matrix)
    (perm : List Nat) (hf : ∀ k, k < c.rank → c.dim ≤ (f.row k).length)
    (k : Nat) (s : DDM.State S)
    (hs : DDM.iterations c k (DDM.makeInitialStep c f perm) = some s) :
    (∀ r ∈ s.heap, r.coordinates.length = c.extendedDim
      ∧ ∀ i, i < c.inequalityMatrix.nrows →
          r.coordinates.getD (c.dim + i) 0 = DDM.computeDiscrepancy c r i)
    ∧ (∀ rayIdx, rayIdx < c.rank →
        (DDM.newRay c (f.row rayIdx) (DDM.computeDiscrepancies c (f.row rayIdx))
          c.inequalityMatrix.nrows).coordinates.take c.dim
        = Utils.normalizeIntVector c.arith ((f.row rayIdx).take c.dim))
    ∧ (∀ plus minus pivotIneIdx, plus < s.heap.length → minus < s.heap.length →
        (DDM.edgeRay c s.heap plus minus pivotIneIdx).coordinates.take c.dim
        = Utils.normalizeIntVector c.arith
            ((DDM.newRayFromEdgeBlock c s.heap plus minus).take c.dim)) := by
  have hc := DDM.heap_cache c hpp hxa hint f perm hf k s hs
  refine ⟨fun r hr => hc r hr, ?_, ?_⟩
  · intro rayIdx hr
    have e : (DDM.newRay c (f.row rayIdx) (DDM.computeDiscrepancies c (f.row rayIdx))
          c.inequalityMatrix.nrows).coordinates
        = Utils.normalizeIntVector c.arith (DDM.newRayBlock c (f.row rayIdx)
            (DDM.computeDiscrepancies c (f.row rayIdx))) := by
      unfold DDM.newRay DDM.newRayBlock
      rw [DDM.normalizeRay_int c hint]
    rw [e, DDM.take_normalizeIntVector_cache c hxa hpp _
      (DDM.cacheConsistent_initial c hxa hpp _ (hf rayIdx hr))]
    congr 1
    unfold DDM.newRayBlock
    rw [List.take_append_of_le_length (by rw [List.length_take]; exact le_min (le_refl _) (hf rayIdx hr)),
      List.take_take, min_self]
  · intro plus minus pivotIneIdx hp hm
    have cp : DDM.CacheConsistent c (DDM.getRay c s.heap plus).coordinates :=
      hc _ (by
        unfold DDM.getRay
        rw [List.getD_eq_getElem _ _ hp]
        exact List.getElem_mem _)
    have cm : DDM.CacheConsistent c (DDM.getRay c s.heap minus).coordinates :=
      hc _ (by
        unfold DDM.getRay
        rw [List.getD_eq_getElem _ _ hm]
        exact List.getElem_mem _)
    rw [DDM.edgeRay_coordinates, DDM.normalizeRay_int c hint]
    exact DDM.take_normalizeIntVector_cache c hxa hpp _
      (DDM.cacheConsistent_edge c hxa _ _ cp cm)

set_option maxRecDepth 100000 in
/-- The cache at `fanSystem` with plusplus and a coefficient type without
overflow: one execution of the loop body from the
state after `makeInitialStep` succeeds and leaves three rays in the heap, the
last with the extended array `[1, 2, 1, 2, 1, 0, 5]`; the caches of all three
are consistent. -/
theorem discrepancy_cache_consistent_witness :
    fanPlusExactContext.usePlusPlus = true ∧ fanPlusExactContext.intArith = true
    ∧ (DDM.iterations fanPlusExactContext 1
        (DDM.makeInitialStep fanPlusExactContext (Utils.Matrix.assign_eye 2) [0, 1, 2, 3, 4])).map
        (fun s => s.heap.map (fun r => r.coordinates))
      = some [[1, 0, 1, 0, -1, -2, -1], [0, 1, 0, 1, 1, 1, 3], [1, 2, 1, 2, 1, 0, 5]]
    ∧ ∃ s, DDM.iterations fanPlusExactContext 1
        (DDM.makeInitialStep fanPlusExactContext (Utils.Matrix.assign_eye 2) [0, 1, 2, 3, 4]) = some s
      ∧ ∀ r ∈ s.heap, r.coordinates.length = fanPlusExactContext.extendedDim
        ∧ ∀ i, i < fanPlusExactContext.inequalityMatrix.nrows →
            r.coordinates.getD (fanPlusExactContext.dim + i) 0
              = DDM.computeDiscrepancy fanPlusExactContext r i :=
  have h : (DDM.iterations fanPlusExactContext 1
      (DDM.makeInitialStep fanPlusExactContext (Utils.Matrix.assign_eye 2)
        [0, 1, 2, 3, 4])).isSome = true := by decide
  ⟨rfl, rfl, by decide, _, (Option.some_get h).symm,
    (discrepancy_cache_consistent fanPlusExactContext rfl rfl rfl (Utils.Matrix.assign_eye 2)
      [0, 1, 2, 3, 4] (by decide) 1 _ (Option.some_get h).symm).1⟩

/-! ## Soundness of the cobasis (C38) -/

namespace DDM

open Utils

/-- The property "sound for its cobasis" is closed in the sense of
`RayClosed` when the tolerance is zero and the set operations only ever
report members that were put in. -/
theorem rayClosed_cobasisSound {S : Type} (c : Context S) (hxa : c.arith = Utils.Coeff.exact) (hint : c.intArith = true)
    (hz : c.zerotol = 0)
    (hadd : ∀ (s : S) (j x : Nat), j < c.inequalityMatrix.nrows →
      x ∈ c.ops.toVector (c.ops.add s j) → x ∈ c.ops.toVector s ∨ x = j)
    (hinter : ∀ (a b : S) (x : Nat), x ∈ c.ops.toVector (c.ops.inter a b) →
      x ∈ c.ops.toVector a ∧ x ∈ c.ops.toVector b) :
    RayClosed c (CobasisSound c) where
  frame := by
    intro r r1 h hc hb
    refine ⟨by rw [hc]; exact h.1, ?_⟩
    intro k hk
    rw [hb] at hk
    have := h.2 k hk
    unfold computeDiscrepancy at this ⊢
    rw [hc]
    exact this
  length := fun r h => h.1
  zero := by
    intro r r1 piv h hpiv hlo hhi hc hb
    refine ⟨by rw [hc]; exact h.1, ?_⟩
    intro k hk
    rw [hb] at hk
    have e : ∀ j, computeDiscrepancy c r1 j = computeDiscrepancy c r j := by
      intro j
      unfold computeDiscrepancy
      rw [hc]
    rw [e]
    rcases hadd _ _ _ hpiv hk with h1 | h1
    · exact h.2 k h1
    · rw [h1]
      rw [hz] at hlo hhi
      omega
  edge := by
    intro p m r1 piv hp hm hpiv hpd hmd _ _ hc hb
    have hlp : (getRay c [p, m] 0).coordinates.length = c.extendedDim := hp.1
    have hlm : (getRay c [p, m] 1).coordinates.length = c.extendedDim := hm.1
    have hco : r1.coordinates = (edgeRay c [p, m] 0 1 piv).coordinates := by
      rw [hc, edgeRay_coordinates]
      rfl
    have e : ∀ j, computeDiscrepancy c r1 j = computeDiscrepancy c (edgeRay c [p, m] 0 1 piv) j := by
      intro j
      unfold computeDiscrepancy
      rw [hco]
    refine ⟨?_, ?_⟩
    · rw [hc, normalizeRay_int c hint, Elimination.length_normalizeIntVector, List.length_take,
        List.length_zipWith, hp.1, hm.1]
      omega
    · intro k hk
      rw [hb] at hk
      rw [e]
      rcases hadd _ _ _ hpiv hk with h1 | h1
      · obtain ⟨i1, i2⟩ := hinter _ _ _ h1
        have e1 := computeDiscrepancy_edgeRay c hxa hint [p, m] 0 1 piv hlp hlm k
        have z1 : computeDiscrepancy c (getRay c [p, m] 0) k = 0 := hp.2 k i1
        have z2 : computeDiscrepancy c (getRay c [p, m] 1) k = 0 := hm.2 k i2
        rw [z1, z2] at e1
        have hg := gcdVec_pos (newRayFromEdgeBlock c [p, m] 0 1)
        rw [← hxa] at hg
        have e0 : computeDiscrepancy c (edgeRay c [p, m] 0 1 piv) k
            * gcdVec c.arith (newRayFromEdgeBlock c [p, m] 0 1) = 0 := by
          rw [e1]
          ring
        rcases mul_eq_zero.mp e0 with h0 | h0
        · exact h0
        · omega
      · rw [h1]
        exact edgeRay_discrepancy_zero c hxa hint [p, m] 0 1 piv hlp hlm hpd hmd

theorem foldl_add_sound {S : Type} (c : Context S) (g : Nat → Nat) (P : Nat → Prop)
    (hadd : ∀ (s : S) (j x : Nat), j < c.inequalityMatrix.nrows →
      x ∈ c.ops.toVector (c.ops.add s j) → x ∈ c.ops.toVector s ∨ x = j) :
    ∀ (l : List Nat) (s : S), (∀ j ∈ l, g j < c.inequalityMatrix.nrows ∧ P (g j)) →
      (∀ x ∈ c.ops.toVector s, P x) →
      ∀ x ∈ c.ops.toVector (l.foldl (fun y j => c.ops.add y (g j)) s), P x := by
  intro l
  induction l with
  | nil => intro s _ hs; exact hs
  | cons j js ih =>
    intro s hl hs
    simp only [List.foldl_cons]
    apply ih
    · intro j1 hj1
      exact hl j1 (List.mem_cons_of_mem _ hj1)
    · intro x hx
      rcases hadd _ _ _ (hl j (List.mem_cons_self _ _)).1 hx with h1 | h1
      · exact hs x h1
      · rw [h1]
        exact (hl j (List.mem_cons_self _ _)).2

/-- The rays made by `makeInitialStep` are sound for their cobases when `f`
and `perm` are in the diagonal form of `gauss`. -/
theorem initialRay_cobasisSound {S : Type} (c : Context S) (hxa : c.arith = Utils.Coeff.exact) (hint : c.intArith = true)
    (hadd : ∀ (s : S) (j x : Nat), j < c.inequalityMatrix.nrows →
      x ∈ c.ops.toVector (c.ops.add s j) → x ∈ c.ops.toVector s ∨ x = j)
    (hcreate : ∀ n, c.ops.toVector (c.ops.create n) = [])
    (f : Matrix) (perm : List Nat)
    (hf : ∀ k, k < c.rank → c.dim ≤ (f.row k).length)
    (hperm : ∀ j, j < c.rank → perm.getD j 0 < c.inequalityMatrix.nrows)
    (hdiag : ∀ i, i < c.rank → ∀ j, j < c.rank → i ≠ j →
      dot c.arith c.dim (f.row i) (c.inequalityMatrix.row (perm.getD j 0)) = 0)
    (rayIdx : Nat) (hr : rayIdx < c.rank) :
    CobasisSound c (initialRay c f perm rayIdx) := by
  have hco : (initialRay c f perm rayIdx).coordinates
      = normalizeIntVector c.arith (newRayBlock c (f.row rayIdx)
          (if c.usePlusPlus then computeDiscrepancies c (f.row rayIdx) else [])) := by
    unfold initialRay newRay newRayBlock
    rw [normalizeRay_int c hint]
  have hcb : (initialRay c f perm rayIdx).cobasis
      = initialCobasis c perm rayIdx (c.ops.create c.inequalityMatrix.nrows) := rfl
  have hd : (computeDiscrepancies c (f.row rayIdx)).length = c.inequalityMatrix.nrows := by
    unfold computeDiscrepancies
    rw [List.length_map]
    rfl
  refine ⟨?_, ?_⟩
  · rw [hco, Elimination.length_normalizeIntVector]
    unfold newRayBlock Context.extendedDim
    rw [List.length_append, List.length_take, List.length_take, min_eq_left (hf rayIdx hr)]
    by_cases hpp : c.usePlusPlus = true
    · simp only [hpp, if_true, hd]
      omega
    · simp only [hpp, if_false, Bool.false_eq_true, List.length_nil]
      omega
  · have key : ∀ x ∈ c.ops.toVector (initialCobasis c perm rayIdx
        (c.ops.create c.inequalityMatrix.nrows)),
        dot c.arith c.dim (f.row rayIdx) (c.inequalityMatrix.row x) = 0 := by
      unfold initialCobasis
      apply foldl_add_sound c (fun j => perm.getD j 0)
        (fun x => dot c.arith c.dim (f.row rayIdx) (c.inequalityMatrix.row x) = 0) hadd
      · intro j hj
        rw [List.mem_range'_1] at hj
        exact ⟨hperm j (by omega), hdiag rayIdx hr j (by omega) (by omega)⟩
      · apply foldl_add_sound c (fun j => perm.getD j 0)
          (fun x => dot c.arith c.dim (f.row rayIdx) (c.inequalityMatrix.row x) = 0) hadd
        · intro j hj
          rw [List.mem_range] at hj
          exact ⟨hperm j (by omega), hdiag rayIdx hr j (by omega) (by omega)⟩
        · intro x hx
          rw [hcreate] at hx
          cases hx
    intro k hk
    rw [hcb] at hk
    have h0 := key k hk
    unfold computeDiscrepancy
    rw [hco]
    rw [hxa] at h0 ⊢
    have e := dot_normalize_mul c.inequalityMatrix.ncols
      (newRayBlock c (f.row rayIdx)
        (if c.usePlusPlus then computeDiscrepancies c (f.row rayIdx) else []))
      (c.inequalityMatrix.row k)
    have hdim : c.dim = c.inequalityMatrix.ncols := rfl
    have e2 : dot Coeff.exact c.inequalityMatrix.ncols
        (newRayBlock c (f.row rayIdx)
          (if c.usePlusPlus then computeDiscrepancies c (f.row rayIdx) else []))
        (c.inequalityMatrix.row k) = 0 := by
      unfold newRayBlock
      rw [← hdim, dot_take_append c.dim _ _ _ (hf rayIdx hr)]
      exact h0
    rw [e2] at e
    have hg := gcdVec_pos (newRayBlock c (f.row rayIdx)
        (if c.usePlusPlus then computeDiscrepancies c (f.row rayIdx) else []))
    rcases mul_eq_zero.mp e with h1 | h1
    · exact h1
    · omega

end DDM

namespace DDM

open Utils

/-- The sorted-vector set of an index type that holds every index below `n`
reports after `add` only the members it had and the index added. -/
theorem vectorSet_add_sound (w n : Nat) (hw : n ≤ 2 ^ w) (s : List Nat) (j x : Nat)
    (hj : j < n) (hx : x ∈ (VectorSet.ops w).toVector ((VectorSet.ops w).add s j)) :
    x ∈ (VectorSet.ops w).toVector s ∨ x = j := by
  have := VectorSet.mem_add w s j x hx
  rw [Nat.mod_eq_of_lt (by omega)] at this
  exact this

/-- The cell `k` of a bit-field set after `add`. -/
theorem bitFieldSet_getD_add (s : List Nat) (j k : Nat) :
    (BitFieldSet.add s j).getD k 0
      = if k = j / BitFieldSet.cellSizeBits ∧ k < s.length
        then s.getD k 0 ||| (1 <<< (j % BitFieldSet.cellSizeBits)) else s.getD k 0 := by
  unfold BitFieldSet.add
  rw [List.getD_eq_getElem?_getD, List.getElem?_set]
  by_cases h1 : j / BitFieldSet.cellSizeBits = k
  · subst h1
    by_cases h2 : j / BitFieldSet.cellSizeBits < s.length
    · simp [h2]
    · have h3 : s[j / BitFieldSet.cellSizeBits]? = none := List.getElem?_eq_none (by omega)
      simp [h2, h3]
  · have h2 : ¬ (k = j / BitFieldSet.cellSizeBits) := fun h => h1 h.symm
    simp [h1, h2]

/-- The bit-field set reports after `add` only the members it had and the
index added. -/
theorem bitFieldSet_add_sound (maxPower : Nat) (s : List Nat) (j x : Nat)
    (hx : x ∈ (BitFieldSet.ops maxPower).toVector ((BitFieldSet.ops maxPower).add s j)) :
    x ∈ (BitFieldSet.ops maxPower).toVector s ∨ x = j := by
  change x ∈ BitFieldSet.toVector maxPower (BitFieldSet.add s j) at hx
  change x ∈ BitFieldSet.toVector maxPower s ∨ x = j
  rw [BitFieldSet.mem_toVector] at hx ⊢
  obtain ⟨h1, h2⟩ := hx
  rw [bitFieldSet_getD_add] at h2
  by_cases hc : x / BitFieldSet.cellSizeBits = j / BitFieldSet.cellSizeBits
      ∧ x / BitFieldSet.cellSizeBits < s.length
  · rw [if_pos hc, Nat.testBit_or, Nat.one_shiftLeft, Nat.testBit_two_pow, Bool.or_eq_true,
      decide_eq_true_eq] at h2
    rcases h2 with h2 | h2
    · exact Or.inl ⟨h1, h2⟩
    · right
      have e1 := Nat.div_add_mod x BitFieldSet.cellSizeBits
      have e2 := Nat.div_add_mod j BitFieldSet.cellSizeBits
      rw [hc.1, ← h2] at e1
      omega
  · rw [if_neg hc] at h2
    exact Or.inl ⟨h1, h2⟩

/-- The bit-field set built from two sets reports only common members. -/
theorem bitFieldSet_inter_sound (maxPower : Nat) (a b : List Nat) (x : Nat)
    (hx : x ∈ (BitFieldSet.ops maxPower).toVector ((BitFieldSet.ops maxPower).inter a b)) :
    x ∈ (BitFieldSet.ops maxPower).toVector a ∧ x ∈ (BitFieldSet.ops maxPower).toVector b := by
  change x ∈ BitFieldSet.toVector maxPower (BitFieldSet.inter a b) at hx
  change x ∈ BitFieldSet.toVector maxPower a ∧ x ∈ BitFieldSet.toVector maxPower b
  rw [BitFieldSet.mem_toVector] at hx ⊢
  rw [BitFieldSet.mem_toVector]
  obtain ⟨h1, h2⟩ := hx
  unfold BitFieldSet.inter at h2
  have e : (List.zipWith (fun x y => x &&& y) a b).getD (x / BitFieldSet.cellSizeBits) 0
      = a.getD (x / BitFieldSet.cellSizeBits) 0 &&& b.getD (x / BitFieldSet.cellSizeBits) 0 := by
    rw [List.getD_eq_getElem?_getD, List.getD_eq_getElem?_getD, List.getD_eq_getElem?_getD,
      List.getElem?_zipWith]
    cases a[x / BitFieldSet.cellSizeBits]? <;> cases b[x / BitFieldSet.cellSizeBits]? <;> simp
  rw [e, Nat.testBit_and, Bool.and_eq_true] at h2
  exact ⟨⟨h1, h2.1⟩, ⟨h1, h2.2⟩⟩

/-- The bit-field set made by the constructor `BitFieldSet(size_t)` reports no
member. -/
theorem bitFieldSet_create_sound (maxPower n : Nat) :
    (BitFieldSet.ops maxPower).toVector ((BitFieldSet.ops maxPower).create n) = [] := by
  change BitFieldSet.toVector maxPower (BitFieldSet.mk maxPower) = []
  rw [List.eq_nil_iff_forall_not_mem]
  intro x hx
  rw [BitFieldSet.mem_toVector] at hx
  have e : (BitFieldSet.mk maxPower).getD (x / BitFieldSet.cellSizeBits) 0 = 0 := by
    unfold BitFieldSet.mk
    rw [List.getD_eq_getElem?_getD, List.getElem?_replicate]
    split <;> rfl
  rw [e, Nat.zero_testBit] at hx
  exact Bool.false_ne_true hx.2

theorem stateOk_cobasisSound {S : Type} (c : Context S)
    (hxa : c.arith = Utils.Coeff.exact) (hint : c.intArith = true) (hz : c.zerotol = 0)
    (hadd : ∀ (s : S) (j x : Nat), j < c.inequalityMatrix.nrows →
      x ∈ c.ops.toVector (c.ops.add s j) → x ∈ c.ops.toVector s ∨ x = j)
    (hinter : ∀ (a b : S) (x : Nat), x ∈ c.ops.toVector (c.ops.inter a b) →
      x ∈ c.ops.toVector a ∧ x ∈ c.ops.toVector b)
    (hcreate : ∀ n, c.ops.toVector (c.ops.create n) = [])
    (f : Matrix) (perm : List Nat)
    (hf : ∀ k, k < c.rank → c.dim ≤ (f.row k).length)
    (hperm : ∀ j, j < c.rank → perm.getD j 0 < c.inequalityMatrix.nrows)
    (hdiag : ∀ i, i < c.rank → ∀ j, j < c.rank → i ≠ j →
      dot c.arith c.dim (f.row i) (c.inequalityMatrix.row (perm.getD j 0)) = 0)
    (k : Nat) (s : State S)
    (hs : iterations c k (makeInitialStep c f perm) = some s) :
    StateOk c (CobasisSound c) s := by
  have hQ := rayClosed_cobasisSound c hxa hint hz hadd hinter
  have h0 := makeInitialStep_ok c _ hQ f perm
    (fun rayIdx hr => initialRay_cobasisSound c hxa hint hadd hcreate f perm hf hperm hdiag rayIdx hr)
  exact iterations_ok c _ hQ hxa hint k _ s h0 hs

/-- The set operations of a run, sorted vector with an index type that holds
every row index or bit field, report only members that were put in. -/
theorem setOps_sound (w : Nat) (c : Context (List Nat))
    (hops : (c.ops = VectorSet.ops w ∧ c.inequalityMatrix.nrows ≤ 2 ^ w)
      ∨ c.ops = BitFieldSet.ops w) :
    (∀ (s : List Nat) (j x : Nat), j < c.inequalityMatrix.nrows →
      x ∈ c.ops.toVector (c.ops.add s j) → x ∈ c.ops.toVector s ∨ x = j)
    ∧ (∀ (a b : List Nat) (x : Nat), x ∈ c.ops.toVector (c.ops.inter a b) →
      x ∈ c.ops.toVector a ∧ x ∈ c.ops.toVector b)
    ∧ (∀ n, c.ops.toVector (c.ops.create n) = []) := by
  rcases hops with ⟨hops, hw⟩ | hops
  · rw [hops]
    refine ⟨fun s j x hj hx => vectorSet_add_sound w _ hw s j x hj hx, ?_, fun _ => rfl⟩
    intro a b x hx
    exact VectorSet.mem_of_mem_interLoop _ a b x hx
  · rw [hops]
    exact ⟨fun s j x _ hx => bitFieldSet_add_sound w s j x hx,
      bitFieldSet_inter_sound w, bitFieldSet_create_sound w⟩

end DDM

/-- C38: for a coefficient type without overflow, integer mode and zero
tolerance 0, with either set representation (sorted-vector sets whose index
type of width `w` holds every row index, `nrows ≤ 2 ^ w`, or bit-field sets
of any capacity `w`), for outputs `f`, `perm` of `gauss` in diagonal form
(row `i` of `f` is orthogonal to the row `perm[j]` of the inequality matrix
for all `i ≠ j` below the rank), in the state after `makeInitialStep`
(`k = 0`) and after every further execution of the body of the main loop, and
so in every state that the main loop ends in, every ray of `extremeRays` has
discrepancy zero on every row of the working inequality matrix whose index is
in its cobasis. -/
theorem cobasis_soundness (w : Nat) (c : DDM.Context (List Nat))
    (hops : (c.ops = Utils.VectorSet.ops w ∧ c.inequalityMatrix.nrows ≤ 2 ^ w)
      ∨ c.ops = Utils.BitFieldSet.ops w)
    (hxa : c.arith = Utils.Coeff.exact) (hint : c.intArith = true) (hz : c.zerotol = 0)
    (f : Utils.Matrix) (perm : List Nat)
    (hf : ∀ k, k < c.rank → c.dim ≤ (f.row k).length)
    (hperm : ∀ j, j < c.rank → perm.getD j 0 < c.inequalityMatrix.nrows)
    (hdiag : ∀ i, i < c.rank → ∀ j, j < c.rank → i ≠ j →
      DDM.dot c.arith c.dim (f.row i) (c.inequalityMatrix.row (perm.getD j 0)) = 0) :
    (∀ (k : Nat) (s : DDM.State (List Nat)),
      DDM.iterations c k (DDM.makeInitialStep c f perm) = some s →
      ∀ r ∈ s.extremeRays, ∀ x ∈ c.ops.toVector (DDM.getRay c s.heap r).cobasis,
        DDM.computeDiscrepancy c (DDM.getRay c s.heap r) x = 0)
    ∧ (∀ (fuel : Nat) (s : DDM.State (List Nat)),
      DDM.mainLoop c fuel (DDM.makeInitialStep c f perm) = some s →
      ∀ r ∈ s.extremeRays, ∀ x ∈ c.ops.toVector (DDM.getRay c s.heap r).cobasis,
        DDM.computeDiscrepancy c (DDM.getRay c s.heap r) x = 0) := by
  obtain ⟨hadd, hinter, hcreate⟩ := DDM.setOps_sound w c hops
  have key : ∀ (k : Nat) (s : DDM.State (List Nat)),
      DDM.iterations c k (DDM.makeInitialStep c f perm) = some s →
      ∀ r ∈ s.extremeRays, ∀ x ∈ c.ops.toVector (DDM.getRay c s.heap r).cobasis,
        DDM.computeDiscrepancy c (DDM.getRay c s.heap r) x = 0 := by
    intro k s hs r hr x hx
    obtain ⟨h1, h2, _⟩ := DDM.stateOk_cobasisSound c hxa hint hz hadd hinter hcreate f perm
      hf hperm hdiag k s hs
    exact (DDM.heapOk_getRay c _ s.step s.heap h1 r (h2 r hr)).1.2 x hx
  refine ⟨key, ?_⟩
  intro fuel s hs
  obtain ⟨k, _, hk⟩ := DDM.mainLoop_iterations c fuel _ s hs
  exact key k s hk

set_option maxRecDepth 100000 in
/-- C38 at the cone `squareCone` (rank 3, the outputs of `gauss` are in
diagonal form) for a coefficient type without overflow, once with
sorted-vector sets of 8-bit indices and once with bit-field sets of capacity
32: one execution of the loop body from the state after `makeInitialStep`
succeeds and leaves the extreme rays `(1, -1, 1)`, `(-1, -1, 1)`,
`(1, 1, 1)`, `(-1, 1, 1)` with the cobases `{1, 2}`, `{0, 2}`, `{1, 3}`,
`{0, 3}`; each has discrepancy zero on the rows of its cobasis. -/
theorem cobasis_soundness_witness :
    ((exactContext (Utils.VectorSet.ops 8) squareCone).inequalityMatrix.nrows ≤ 2 ^ 8
    ∧ (DDM.iterations (exactContext (Utils.VectorSet.ops 8) squareCone) 1
        (exactInitialState (Utils.VectorSet.ops 8) squareCone)).map
        (fun s => s.extremeRays.map (fun r =>
          ((DDM.getRay (exactContext (Utils.VectorSet.ops 8) squareCone) s.heap r).coordinates,
            (Utils.VectorSet.ops 8).toVector
              (DDM.getRay (exactContext (Utils.VectorSet.ops 8) squareCone) s.heap r).cobasis)))
      = some [([1, -1, 1], [1, 2]), ([-1, -1, 1], [0, 2]), ([1, 1, 1], [1, 3]),
          ([-1, 1, 1], [0, 3])]
    ∧ ∃ s, DDM.iterations (exactContext (Utils.VectorSet.ops 8) squareCone) 1
          (exactInitialState (Utils.VectorSet.ops 8) squareCone) = some s
      ∧ ∀ r ∈ s.extremeRays,
        ∀ x ∈ (exactContext (Utils.VectorSet.ops 8) squareCone).ops.toVector
            (DDM.getRay (exactContext (Utils.VectorSet.ops 8) squareCone) s.heap r).cobasis,
          DDM.computeDiscrepancy (exactContext (Utils.VectorSet.ops 8) squareCone)
            (DDM.getRay (exactContext (Utils.VectorSet.ops 8) squareCone) s.heap r) x = 0)
    ∧ ((DDM.iterations (exactContext (Utils.BitFieldSet.ops 32) squareCone) 1
        (exactInitialState (Utils.BitFieldSet.ops 32) squareCone)).map
        (fun s => s.extremeRays.map (fun r =>
          ((DDM.getRay (exactContext (Utils.BitFieldSet.ops 32) squareCone) s.heap r).coordinates,
            (Utils.BitFieldSet.ops 32).toVector
              (DDM.getRay (exactContext (Utils.BitFieldSet.ops 32) squareCone) s.heap r).cobasis)))
      = some [([1, -1, 1], [1, 2]), ([-1, -1, 1], [0, 2]), ([1, 1, 1], [1, 3]),
          ([-1, 1, 1], [0, 3])]
    ∧ ∃ s, DDM.iterations (exactContext (Utils.BitFieldSet.ops 32) squareCone) 1
          (exactInitialState (Utils.BitFieldSet.ops 32) squareCone) = some s
      ∧ ∀ r ∈ s.extremeRays,
        ∀ x ∈ (exactContext (Utils.BitFieldSet.ops 32) squareCone).ops.toVector
            (DDM.getRay (exactContext (Utils.BitFieldSet.ops 32) squareCone) s.heap r).cobasis,
          DDM.computeDiscrepancy (exactContext (Utils.BitFieldSet.ops 32) squareCone)
            (DDM.getRay (exactContext (Utils.BitFieldSet.ops 32) squareCone) s.heap r) x = 0) :=
  have h : (DDM.iterations (exactContext (Utils.VectorSet.ops 8) squareCone) 1
      (exactInitialState (Utils.VectorSet.ops 8) squareCone)).isSome = true := by decide
  have hb : (DDM.iterations (exactContext (Utils.BitFieldSet.ops 32) squareCone) 1
      (exactInitialState (Utils.BitFieldSet.ops 32) squareCone)).isSome = true := by decide
  ⟨⟨by decide, by decide, _, (Option.some_get h).symm,
    (cobasis_soundness 8 (exactContext (Utils.VectorSet.ops 8) squareCone)
      (Or.inl ⟨rfl, by decide⟩) rfl rfl rfl
      (Utils.gauss Utils.Coeff.exact squareCone squareCone.nrows true 0).f
      (Utils.gauss Utils.Coeff.exact squareCone squareCone.nrows true 0).perm
      (by decide) (by decide) (by decide)).1 1 _ (Option.some_get h).symm⟩,
   ⟨by decide, _, (Option.some_get hb).symm,
    (cobasis_soundness 32 (exactContext (Utils.BitFieldSet.ops 32) squareCone)
      (Or.inr rfl) rfl rfl rfl
      (Utils.gauss Utils.Coeff.exact squareCone squareCone.nrows true 0).f
      (Utils.gauss Utils.Coeff.exact squareCone squareCone.nrows true 0).perm
      (by decide) (by decide) (by decide)).1 1 _ (Option.some_get hb).symm⟩⟩

/-! ## The effect of `searchAdj` (C33) -/

namespace DDM

open Utils

theorem seenDiscrepancy_congr {S : Type} (c : Context S) (s s2 : State S) (j : Nat)
    (hstep : s2.step = s.step) (hpiv : s2.pivotInequalityIdx = s.pivotInequalityIdx)
    (hc : (getRay c s2.heap j).coordinates = (getRay c s.heap j).coordinates)
    (hv : (getRay c s2.heap j).visitingStep = (getRay c s.heap j).visitingStep)
    (hp : (getRay c s2.heap j).pivotDiscrepancy = (getRay c s.heap j).pivotDiscrepancy) :
    seenDiscrepancy c s2 j = seenDiscrepancy c s j := by
  unfold seenDiscrepancy computeDiscrepancy
  rw [hstep, hpiv, hc, hv, hp]

theorem seenDiscrepancy_visited {S : Type} (c : Context S) (s : State S) (j : Nat)
    (hv : (getRay c s.heap j).visitingStep = s.step) :
    seenDiscrepancy c s j = (getRay c s.heap j).pivotDiscrepancy := by
  unfold seenDiscrepancy
  rw [if_neg (fun h => h hv)]

/-- The effect of `visitAdj` on the heap and on the work lists. -/
theorem visitAdj_effect {S : Type} (c : Context S) (s : State S) (w : WorkLists)
    (ray adjRay : Nat) (hv : adjRay < s.heap.length) :
    (visitAdj c (s, w) adjRay).1 = { s with heap := (visitAdj c (s, w) adjRay).1.heap }
    ∧ (visitAdj c (s, w) adjRay).1.heap.length = s.heap.length
    ∧ (visitAdj c (s, w) adjRay).2.newRays = w.newRays
    ∧ (visitAdj c (s, w) adjRay).2.minusRays
        = w.minusRays ++ (if (getRay c s.heap adjRay).visitingStep ≠ s.step
            ∧ seenDiscrepancy c s adjRay < -c.zerotol then [adjRay] else [])
    ∧ (visitAdj c (s, w) adjRay).2.zeroRays
        = w.zeroRays ++ (if (getRay c s.heap adjRay).visitingStep ≠ s.step
            ∧ -c.zerotol ≤ seenDiscrepancy c s adjRay ∧ seenDiscrepancy c s adjRay ≤ c.zerotol
            then [adjRay] else [])
    ∧ (∀ j, (getRay c (visitAdj c (s, w) adjRay).1.heap j).adjacentRays
        = (getRay c s.heap j).adjacentRays)
    ∧ RayStep c s (visitAdj c (s, w) adjRay).1 ray adjRay := by
  by_cases hvis : (getRay c s.heap adjRay).visitingStep = s.step
  · have e : visitAdj c (s, w) adjRay = (s, w) := by
      unfold visitAdj
      simp only [ne_eq, hvis, not_true_eq_false, if_false]
    rw [e]
    refine ⟨rfl, rfl, rfl, by simp [hvis], by simp [hvis], fun _ => rfl, ?_⟩
    intro j hj
    refine ⟨rfl, rfl, ?_, fun _ => ⟨rfl, rfl⟩, ?_, fun _ => rfl, fun _ _ => rfl⟩
    · intro hja
      subst hja
      exact ⟨hvis, (seenDiscrepancy_visited c s j hvis).symm⟩
    · intro h
      rw [h.1] at h
      exact absurd hvis h.2.1
  · have hseen : seenDiscrepancy c s adjRay
        = computeDiscrepancy c (getRay c s.heap adjRay) s.pivotInequalityIdx := by
      unfold seenDiscrepancy
      rw [if_pos hvis]
    -- the ray written back in each of the three branches
    have key : ∀ (r1 : Ray S) (s1 : State S),
        s1 = { s with heap := s.heap.set adjRay r1 } →
        r1.coordinates = (getRay c s.heap adjRay).coordinates →
        r1.adjacentRays = (getRay c s.heap adjRay).adjacentRays →
        r1.assignedInequalities = (getRay c s.heap adjRay).assignedInequalities →
        r1.visitingStep = s.step →
        r1.pivotDiscrepancy = seenDiscrepancy c s adjRay →
        r1.cobasis = (if -c.zerotol ≤ seenDiscrepancy c s adjRay
            ∧ seenDiscrepancy c s adjRay ≤ c.zerotol
          then c.ops.add (getRay c s.heap adjRay).cobasis s.pivotInequalityIdx
          else (getRay c s.heap adjRay).cobasis) →
        s1 = { s with heap := s1.heap }
        ∧ s1.heap.length = s.heap.length
        ∧ (∀ j, (getRay c s1.heap j).adjacentRays = (getRay c s.heap j).adjacentRays)
        ∧ RayStep c s s1 ray adjRay := by
      intro r1 s1 hs1 hc ha hs hvs hpd hcb
      subst hs1
      refine ⟨rfl, by simp, ?_, ?_⟩
      · intro j
        by_cases hja : j = adjRay
        · subst hja
          show (getRay c (s.heap.set j r1) j).adjacentRays = _
          rw [getRay_set_self c _ j r1 hv, ha]
        · show (getRay c (s.heap.set adjRay r1) j).adjacentRays = _
          rw [getRay_set_ne c _ adjRay j r1 hja]
      · intro j hj
        show (getRay c (s.heap.set adjRay r1) j).coordinates = _ ∧ _
        by_cases hja : j = adjRay
        · subst hja
          rw [getRay_set_self c _ j r1 hv]
          refine ⟨hc, hs, fun _ => ⟨hvs, hpd⟩, fun h => absurd rfl h, ?_, ?_, fun _ h => absurd rfl h⟩
          · intro h
            rw [hcb, if_pos h.2.2]
          · intro h
            rw [hcb, if_neg (fun h2 => h ⟨rfl, hvis, h2⟩)]
        · rw [getRay_set_ne c _ adjRay j r1 hja]
          exact ⟨rfl, rfl, fun h => absurd h hja, fun _ => ⟨rfl, rfl⟩,
            fun h => absurd h.1 hja, fun _ => rfl, fun _ _ => rfl⟩
    by_cases h1 : computeDiscrepancy c (getRay c s.heap adjRay) s.pivotInequalityIdx < -c.zerotol
    · have e : visitAdj c (s, w) adjRay
          = (State.mk (s.heap.set adjRay
                (Ray.mk (getRay c s.heap adjRay).coordinates (getRay c s.heap adjRay).cobasis
                  (getRay c s.heap adjRay).adjacentRays
                  (getRay c s.heap adjRay).assignedInequalities
                  (computeDiscrepancy c (getRay c s.heap adjRay) s.pivotInequalityIdx) s.step))
                s.extremeRays s.step s.pivotRay s.pivotInequalityIdx s.numProcessedInequalities
                s.notProcessedInequalities s.assigneeRays,
              WorkLists.mk (w.minusRays ++ [adjRay]) w.zeroRays w.newRays) := by
        unfold visitAdj
        simp only [ne_eq, hvis, not_false_eq_true, if_true, h1]
      rw [e]
      obtain ⟨k1, k2, k3, k4⟩ := key (Ray.mk (getRay c s.heap adjRay).coordinates (getRay c s.heap adjRay).cobasis
          (getRay c s.heap adjRay).adjacentRays (getRay c s.heap adjRay).assignedInequalities
          (computeDiscrepancy c (getRay c s.heap adjRay) s.pivotInequalityIdx) s.step) _ rfl rfl rfl rfl rfl hseen.symm
        (by rw [if_neg (fun h => by rw [hseen] at h; omega)])
      refine ⟨k1, k2, rfl, ?_, ?_, k3, k4⟩
      · rw [if_pos ⟨hvis, by rw [hseen]; exact h1⟩]
      · rw [if_neg (fun h => by rw [hseen] at h; omega)]
        simp
    · by_cases h2 : computeDiscrepancy c (getRay c s.heap adjRay) s.pivotInequalityIdx
          ≤ c.zerotol
      · have e : visitAdj c (s, w) adjRay
            = (State.mk (s.heap.set adjRay
                  (Ray.mk (getRay c s.heap adjRay).coordinates
                    (c.ops.add (getRay c s.heap adjRay).cobasis s.pivotInequalityIdx)
                    (getRay c s.heap adjRay).adjacentRays
                    (getRay c s.heap adjRay).assignedInequalities
                    (computeDiscrepancy c (getRay c s.heap adjRay) s.pivotInequalityIdx) s.step))
                  s.extremeRays s.step s.pivotRay s.pivotInequalityIdx
                  s.numProcessedInequalities s.notProcessedInequalities s.assigneeRays,
                WorkLists.mk w.minusRays (w.zeroRays ++ [adjRay]) w.newRays) := by
          unfold visitAdj
          simp only [ne_eq, hvis, not_false_eq_true, if_true, h1, h2, if_false]
        rw [e]
        obtain ⟨k1, k2, k3, k4⟩ := key (Ray.mk (getRay c s.heap adjRay).coordinates
          (c.ops.add (getRay c s.heap adjRay).cobasis s.pivotInequalityIdx)
          (getRay c s.heap adjRay).adjacentRays (getRay c s.heap adjRay).assignedInequalities
          (computeDiscrepancy c (getRay c s.heap adjRay) s.pivotInequalityIdx) s.step) _ rfl rfl rfl rfl rfl hseen.symm
          (by rw [if_pos (by rw [hseen]; omega)])
        refine ⟨k1, k2, rfl, ?_, ?_, k3, k4⟩
        · rw [if_neg (fun h => by rw [hseen] at h; omega)]
          simp
        · rw [if_pos ⟨hvis, by rw [hseen]; omega⟩]
      · have e : visitAdj c (s, w) adjRay
            = (State.mk (s.heap.set adjRay
                  (Ray.mk (getRay c s.heap adjRay).coordinates (getRay c s.heap adjRay).cobasis
                    (getRay c s.heap adjRay).adjacentRays
                    (getRay c s.heap adjRay).assignedInequalities
                    (computeDiscrepancy c (getRay c s.heap adjRay) s.pivotInequalityIdx) s.step))
                  s.extremeRays s.step s.pivotRay s.pivotInequalityIdx
                  s.numProcessedInequalities s.notProcessedInequalities s.assigneeRays,
                w) := by
          unfold visitAdj
          simp only [ne_eq, hvis, not_false_eq_true, if_true, h1, h2, if_false]
        rw [e]
        obtain ⟨k1, k2, k3, k4⟩ := key (Ray.mk (getRay c s.heap adjRay).coordinates (getRay c s.heap adjRay).cobasis
          (getRay c s.heap adjRay).adjacentRays (getRay c s.heap adjRay).assignedInequalities
          (computeDiscrepancy c (getRay c s.heap adjRay) s.pivotInequalityIdx) s.step) _ rfl rfl rfl rfl rfl hseen.symm
          (by rw [if_neg (fun h => by rw [hseen] at h; omega)])
        refine ⟨k1, k2, rfl, ?_, ?_, k3, k4⟩
        · rw [if_neg (fun h => by rw [hseen] at h; omega)]
          simp
        · rw [if_neg (fun h => by rw [hseen] at h; omega)]
          simp

end DDM

namespace DDM

open Utils

theorem range_succ_append (n a b : Nat) :
    List.range' n a ++ List.range' (n + a) b = List.range' n (a + b) := by
  rw [List.range'_append_1, Nat.add_comm]

/-- Handling one entry of the adjacency list and then the remaining ones has
the effect of handling them all. -/
theorem searchEffect_step {S : Type} (c : Context S) (ray adjRay : Nat) (s s2 : State S)
    (w w2 : WorkLists) (pre T0 T2 : List Nat) (sw1 : State S × WorkLists)
    (hray : ray < s.heap.length) (hne : adjRay ≠ ray) (hadj : adjRay < s.heap.length)
    (hT0 : ∀ a ∈ T0, a < s.heap.length) (hperm : T2.Perm T0)
    (hfr : s2 = { s with heap := s2.heap })
    (hlen : s2.heap.length = s.heap.length + numNewRays c ray s [adjRay])
    (hnew : w2.newRays = w.newRays ++ List.range' s.heap.length (numNewRays c ray s [adjRay]))
    (hmin : w2.minusRays
        = w.minusRays ++ (if (getRay c s.heap adjRay).visitingStep ≠ s.step
            ∧ seenDiscrepancy c s adjRay < -c.zerotol then [adjRay] else []))
    (hzero : w2.zeroRays
        = w.zeroRays ++ (if (getRay c s.heap adjRay).visitingStep ≠ s.step
            ∧ -c.zerotol ≤ seenDiscrepancy c s adjRay ∧ seenDiscrepancy c s adjRay ≤ c.zerotol
            then [adjRay] else []))
    (hrs : RayStep c s s2 ray adjRay)
    (hrec : SearchEffect c ray s2 w2
      (pre ++ [adjRay].filter (fun a => decide (c.zerotol < seenDiscrepancy c s a))) T2 sw1) :
    SearchEffect c ray s w pre (adjRay :: T0) sw1 := by
  have hstep : s2.step = s.step := by rw [hfr]
  have hpiv : s2.pivotInequalityIdx = s.pivotInequalityIdx := by rw [hfr]
  have hle : s.heap.length ≤ s2.heap.length := by omega
  have hmem : ∀ a, a ∈ T2 ↔ a ∈ T0 := fun a => hperm.mem_iff
  -- what the second state knows about the rays of the first
  have hvs2 : (getRay c s2.heap adjRay).visitingStep = s2.step := by
    rw [hstep]
    exact ((hrs adjRay hadj).2.2.1 rfl).1
  have hseen2 : ∀ j, j < s.heap.length → seenDiscrepancy c s2 j = seenDiscrepancy c s j := by
    intro j hj
    obtain ⟨r1, _, r3, r4, _⟩ := hrs j hj
    by_cases hja : j = adjRay
    · rw [seenDiscrepancy_visited c s2 j (by rw [hja]; exact hvs2)]
      exact (r3 hja).2
    · exact seenDiscrepancy_congr c s s2 j hstep hpiv r1 (r4 hja).1 (r4 hja).2
  have hunv2 : ∀ j, j < s.heap.length →
      ((getRay c s2.heap j).visitingStep ≠ s2.step
        ↔ j ≠ adjRay ∧ (getRay c s.heap j).visitingStep ≠ s.step) := by
    intro j hj
    obtain ⟨_, _, _, r4, _⟩ := hrs j hj
    by_cases hja : j = adjRay
    · rw [hja]
      constructor
      · intro h
        exact absurd hvs2 h
      · intro h
        exact absurd rfl h.1
    · rw [(r4 hja).1, hstep]
      constructor
      · intro h
        exact ⟨hja, h⟩
      · intro h
        exact h.2
  have hpdray : (getRay c s2.heap ray).pivotDiscrepancy = (getRay c s.heap ray).pivotDiscrepancy :=
    ((hrs ray hray).2.2.2.1 (fun h => hne h.symm)).2
  have hfilter : T2.filter (fun a => decide (c.zerotol < seenDiscrepancy c s2 a))
      = T2.filter (fun a => decide (c.zerotol < seenDiscrepancy c s a)) := by
    apply List.filter_congr
    intro x hx
    rw [hseen2 x (hT0 x ((hmem x).mp hx))]
  have hfperm : (T2.filter (fun a => decide (c.zerotol < seenDiscrepancy c s2 a))).Perm
      (T0.filter (fun a => decide (c.zerotol < seenDiscrepancy c s a))) := by
    rw [hfilter]
    exact hperm.filter _
  have hcons : (adjRay :: T0).filter (fun a => decide (c.zerotol < seenDiscrepancy c s a))
      = [adjRay].filter (fun a => decide (c.zerotol < seenDiscrepancy c s a))
        ++ T0.filter (fun a => decide (c.zerotol < seenDiscrepancy c s a)) := by
    rw [← List.filter_append]
    rfl
  have hnum : numNewRays c ray s [adjRay] + numNewRays c ray s2 T2
      = numNewRays c ray s (adjRay :: T0) := by
    unfold numNewRays
    rw [hpdray, hcons, List.length_append, hfperm.length_eq]
    split_ifs <;> rfl
  obtain ⟨e1, e2, e3, e4, ⟨M2, Z2, m1, m2, m3, m4, m5, m6⟩, e6⟩ := hrec
  refine ⟨?_, ?_, ?_, ?_, ?_, ?_⟩
  · rw [e1, hfr]
  · rw [hcons, ← List.append_assoc]
    exact e2.trans (List.Perm.append_left _ hfperm)
  · rw [e3, hlen, ← hnum]
    omega
  · rw [e4, hnew, hlen, List.append_assoc, range_succ_append, hnum]
  · refine ⟨(if (getRay c s.heap adjRay).visitingStep ≠ s.step
        ∧ seenDiscrepancy c s adjRay < -c.zerotol then [adjRay] else []) ++ M2,
      (if (getRay c s.heap adjRay).visitingStep ≠ s.step
        ∧ -c.zerotol ≤ seenDiscrepancy c s adjRay ∧ seenDiscrepancy c s adjRay ≤ c.zerotol
        then [adjRay] else []) ++ Z2, ?_, ?_, ?_, ?_, ?_, ?_⟩
    · rw [m1, hmin, List.append_assoc]
    · rw [m2, hzero, List.append_assoc]
    · have hnot : adjRay ∉ M2 := by
        intro h
        have := ((m5 adjRay).mp h).2.1
        exact this hvs2
      split_ifs
      · exact List.nodup_cons.mpr ⟨hnot, m3⟩
      · exact m3
    · have hnot : adjRay ∉ Z2 := by
        intro h
        have := ((m6 adjRay).mp h).2.1
        exact this hvs2
      split_ifs
      · exact List.nodup_cons.mpr ⟨hnot, m4⟩
      · exact m4
    · intro a
      rw [List.mem_append, m5 a]
      constructor
      · intro h
        rcases h with h | ⟨h1, h2, h3⟩
        · split_ifs at h with hc
          · rw [List.mem_singleton] at h
            subst h
            exact ⟨List.mem_cons_self _ _, hc.1, hc.2⟩
          · cases h
        · have ha : a < s.heap.length := hT0 a ((hmem a).mp h1)
          rw [hseen2 a ha] at h3
          exact ⟨List.mem_cons_of_mem _ ((hmem a).mp h1), ((hunv2 a ha).mp h2).2, h3⟩
      · intro ⟨h1, h2, h3⟩
        by_cases haa : a = adjRay
        · subst haa
          left
          rw [if_pos ⟨h2, h3⟩]
          exact List.mem_singleton.mpr rfl
        · right
          rcases List.mem_cons.mp h1 with h | h
          · exact absurd h haa
          · have ha : a < s.heap.length := hT0 a h
            refine ⟨(hmem a).mpr h, (hunv2 a ha).mpr ⟨haa, h2⟩, ?_⟩
            rw [hseen2 a ha]
            exact h3
    · intro a
      rw [List.mem_append, m6 a]
      constructor
      · intro h
        rcases h with h | ⟨h1, h2, h3⟩
        · split_ifs at h with hc
          · rw [List.mem_singleton] at h
            subst h
            exact ⟨List.mem_cons_self _ _, hc.1, hc.2⟩
          · cases h
        · have ha : a < s.heap.length := hT0 a ((hmem a).mp h1)
          rw [hseen2 a ha] at h3
          exact ⟨List.mem_cons_of_mem _ ((hmem a).mp h1), ((hunv2 a ha).mp h2).2, h3⟩
      · intro ⟨h1, h2, h3⟩
        by_cases haa : a = adjRay
        · subst haa
          left
          rw [if_pos ⟨h2, h3⟩]
          exact List.mem_singleton.mpr rfl
        · right
          rcases List.mem_cons.mp h1 with h | h
          · exact absurd h haa
          · have ha : a < s.heap.length := hT0 a h
            refine ⟨(hmem a).mpr h, (hunv2 a ha).mpr ⟨haa, h2⟩, ?_⟩
            rw [hseen2 a ha]
            exact h3
  · intro j hj
    obtain ⟨r1, r2, r3, r4, r5, r6, r7⟩ := hrs j hj
    obtain ⟨f1, f2, f3, f4, f5, f6, f7⟩ := e6 j (by omega)
    have hs2j := hseen2 j hj
    refine ⟨f1.trans r1, f2.trans r2, ?_, ?_, ?_, ?_, ?_⟩
    · intro hjT
      by_cases hj2 : j ∈ T2
      · obtain ⟨g1, g2⟩ := f3 hj2
        exact ⟨g1.trans hstep, g2.trans hs2j⟩
      · have hja : j = adjRay := by
          rcases List.mem_cons.mp hjT with h | h
          · exact h
          · exact absurd ((hmem j).mpr h) hj2
        obtain ⟨g1, g2⟩ := f4 hj2
        exact ⟨g1.trans (r3 hja).1, g2.trans (r3 hja).2⟩
    · intro hjT
      have hja : j ≠ adjRay := fun h => hjT (by rw [h]; exact List.mem_cons_self _ _)
      have hj2 : j ∉ T2 := fun h => hjT (List.mem_cons_of_mem _ ((hmem j).mp h))
      obtain ⟨g1, g2⟩ := f4 hj2
      exact ⟨g1.trans (r4 hja).1, g2.trans (r4 hja).2⟩
    · intro ⟨hjT, hu, hz⟩
      by_cases hja : j = adjRay
      · rw [f6 (fun h => absurd (by rw [hja]; exact hvs2) h.2.1)]
        exact r5 ⟨hja, hu, hz⟩
      · have hj0 : j ∈ T0 := by
          rcases List.mem_cons.mp hjT with h | h
          · exact absurd h hja
          · exact h
        rw [f5 ⟨(hmem j).mpr hj0, (hunv2 j hj).mpr ⟨hja, hu⟩, by rw [hs2j]; exact hz⟩,
          r6 (fun h => hja h.1), hpiv]
    · intro hn
      by_cases hja : j = adjRay
      · rw [f6 (fun h => absurd (by rw [hja]; exact hvs2) h.2.1)]
        apply r6
        intro h
        exact hn ⟨by rw [hja]; exact List.mem_cons_self _ _, h.2⟩
      · rw [f6 (fun h => hn ⟨List.mem_cons_of_mem _ ((hmem j).mp h.1),
          ((hunv2 j hj).mp h.2.1).2, by rw [← hs2j]; exact h.2.2⟩)]
        exact r6 (fun h => hja h.1)
    · intro hjr hjT
      have hja : j ≠ adjRay := fun h => hjT (by rw [h]; exact List.mem_cons_self _ _)
      have hj2 : j ∉ T2 := fun h => hjT (List.mem_cons_of_mem _ ((hmem j).mp h))
      exact (f7 hjr hj2).trans (r7 hjr hja)

/-- With nothing left to handle the loop has no effect. -/
theorem searchEffect_nil {S : Type} (c : Context S) (ray : Nat) (s : State S) (w : WorkLists) :
    SearchEffect c ray s w (getRay c s.heap ray).adjacentRays [] (s, w) := by
  refine ⟨rfl, by simp, by simp [numNewRays], by simp [numNewRays],
    ⟨[], [], by simp, by simp, List.nodup_nil, List.nodup_nil, by simp, by simp⟩, ?_⟩
  intro j _
  refine ⟨rfl, rfl, fun h => absurd h (List.not_mem_nil _), fun _ => ⟨rfl, rfl⟩,
    fun h => absurd h.1 (List.not_mem_nil _), fun _ => rfl, fun _ _ => rfl⟩

end DDM

namespace DDM

open Utils

theorem rayStep_frame {S : Type} (c : Context S) (s s1 s2 : State S) (ray adjRay : Nat)
    (h : RayStep c s s1 ray adjRay) (hlen : s1.heap.length = s.heap.length)
    (hf : ∀ j, j < s1.heap.length →
      (getRay c s2.heap j).coordinates = (getRay c s1.heap j).coordinates
      ∧ (getRay c s2.heap j).assignedInequalities = (getRay c s1.heap j).assignedInequalities
      ∧ (getRay c s2.heap j).visitingStep = (getRay c s1.heap j).visitingStep
      ∧ (getRay c s2.heap j).pivotDiscrepancy = (getRay c s1.heap j).pivotDiscrepancy
      ∧ (getRay c s2.heap j).cobasis = (getRay c s1.heap j).cobasis
      ∧ (j ≠ ray → j ≠ adjRay →
          (getRay c s2.heap j).adjacentRays = (getRay c s1.heap j).adjacentRays)) :
    RayStep c s s2 ray adjRay := by
  intro j hj
  obtain ⟨r1, r2, r3, r4, r5, r6, r7⟩ := h j hj
  obtain ⟨f1, f2, f3, f4, f5, f6⟩ := hf j (by omega)
  refine ⟨f1.trans r1, f2.trans r2, ?_, ?_, ?_, ?_, ?_⟩
  · intro hja
    exact ⟨f3.trans (r3 hja).1, f4.trans (r3 hja).2⟩
  · intro hja
    exact ⟨f3.trans (r4 hja).1, f4.trans (r4 hja).2⟩
  · intro hc
    exact f5.trans (r5 hc)
  · intro hc
    exact f5.trans (r6 hc)
  · intro h1 h2
    exact (f6 h1 h2).trans (r7 h1 h2)

theorem state_frame_heap {S : Type} (s s1 : State S) (X : List (Ray S))
    (h : s1 = { s with heap := s1.heap }) :
    ({ s1 with heap := X } : State S) = { s with heap := X } := by
  rw [h]

/-- One execution of the body of the loop of `searchAdj`: the entry at
position `i` of the adjacency list of `ray` is visited; it stays in the list
when it is on the plus side (with a new ray appended to the heap when `ray`
is on the minus side) and is erased otherwise. -/
theorem searchAdj_body {S : Type} (c : Context S) (ray : Nat) (fuel i : Nat) (s : State S)
    (w : WorkLists) (adjRay : Nat) (hray : ray < s.heap.length)
    (hadj : adjRay < s.heap.length) (hne : adjRay ≠ ray)
    (hget : (getRay c s.heap ray).adjacentRays.get? i = some adjRay) :
    ∃ (i2 : Nat) (s2 : State S) (w2 : WorkLists),
      searchAdjLoop c ray (fuel + 1) i (s, w) = searchAdjLoop c ray fuel i2 (s2, w2)
      ∧ s2 = { s with heap := s2.heap }
      ∧ s2.heap.length = s.heap.length + numNewRays c ray s [adjRay]
      ∧ w2.newRays = w.newRays ++ List.range' s.heap.length (numNewRays c ray s [adjRay])
      ∧ w2.minusRays
          = w.minusRays ++ (if (getRay c s.heap adjRay).visitingStep ≠ s.step
              ∧ seenDiscrepancy c s adjRay < -c.zerotol then [adjRay] else [])
      ∧ w2.zeroRays
          = w.zeroRays ++ (if (getRay c s.heap adjRay).visitingStep ≠ s.step
              ∧ -c.zerotol ≤ seenDiscrepancy c s adjRay
              ∧ seenDiscrepancy c s adjRay ≤ c.zerotol then [adjRay] else [])
      ∧ RayStep c s s2 ray adjRay
      ∧ ((c.zerotol < seenDiscrepancy c s adjRay ∧ i2 = i + 1
            ∧ (getRay c s2.heap ray).adjacentRays = (getRay c s.heap ray).adjacentRays)
          ∨ (¬ c.zerotol < seenDiscrepancy c s adjRay ∧ i2 = i
            ∧ (getRay c s2.heap ray).adjacentRays
                = Vector.erase (getRay c s.heap ray).adjacentRays i))
      ∧ ((getRay c s.heap ray).pivotDiscrepancy < -c.zerotol
          ∧ c.zerotol < seenDiscrepancy c s adjRay →
          (getRay c s2.heap adjRay).adjacentRays
            = replaceFirst ray s.heap.length (getRay c s.heap adjRay).adjacentRays
          ∧ (getRay c s2.heap s.heap.length).adjacentRays = [adjRay]
          ∧ (getRay c s2.heap s.heap.length).pivotDiscrepancy = 0
          ∧ (getRay c s2.heap s.heap.length).visitingStep = s.step
          ∧ (getRay c s2.heap s.heap.length).assignedInequalities = [])
      ∧ (¬ ((getRay c s.heap ray).pivotDiscrepancy < -c.zerotol
          ∧ c.zerotol < seenDiscrepancy c s adjRay) →
          (getRay c s2.heap adjRay).adjacentRays = (getRay c s.heap adjRay).adjacentRays) := by
  obtain ⟨v1, v2, v3, v4, v5, v6, v7⟩ := visitAdj_effect c s w ray adjRay hadj
  have hpdr : (getRay c (visitAdj c (s, w) adjRay).1.heap ray).pivotDiscrepancy
      = (getRay c s.heap ray).pivotDiscrepancy :=
    ((v7 ray hray).2.2.2.1 (fun h => hne h.symm)).2
  have hpda : (getRay c (visitAdj c (s, w) adjRay).1.heap adjRay).pivotDiscrepancy
      = seenDiscrepancy c s adjRay := ((v7 adjRay hadj).2.2.1 rfl).2
  have hstep1 : (visitAdj c (s, w) adjRay).1.step = s.step := by rw [v1]
  have hpiv1 : (visitAdj c (s, w) adjRay).1.pivotInequalityIdx = s.pivotInequalityIdx := by
    rw [v1]
  have hray1 : ray < (visitAdj c (s, w) adjRay).1.heap.length := by omega
  have hadj1 : adjRay < (visitAdj c (s, w) adjRay).1.heap.length := by omega
  rw [searchAdjLoop]
  simp only [hget]
  rw [hpdr, hpda]
  generalize visitAdj c (s, w) adjRay = sw1 at v1 v2 v3 v4 v5 v6 v7 hpdr hpda hstep1 hpiv1 hray1 hadj1
  by_cases hm : (getRay c s.heap ray).pivotDiscrepancy < -c.zerotol
  · by_cases hp : c.zerotol < seenDiscrepancy c s adjRay
    · rw [if_pos hm, if_pos hp]
      have hnum : numNewRays c ray s [adjRay] = 1 := by
        unfold numNewRays
        rw [if_pos hm]
        simp [hp]
      refine ⟨_, _, _, rfl, ?_, ?_, ?_, v4, v5, ?_, ?_, ?_, fun h => absurd ⟨hm, hp⟩ h⟩
      · exact state_frame_heap s sw1.1 _ v1
      · rw [hnum]
        show (newRayFromEdge c sw1.1.heap adjRay ray sw1.1.pivotInequalityIdx).1.length = _
        rw [(getRay_newRayFromEdge_new c sw1.1.heap adjRay ray sw1.1.pivotInequalityIdx).2.1, v2]
      · rw [hnum]
        show sw1.2.newRays ++ [(newRayFromEdge c sw1.1.heap adjRay ray
          sw1.1.pivotInequalityIdx).2] = _
        rw [(getRay_newRayFromEdge_new c sw1.1.heap adjRay ray sw1.1.pivotInequalityIdx).1, v3, v2]
        rfl
      · apply rayStep_frame c s sw1.1 _ ray adjRay v7 v2
        intro j hj
        simp only
        rw [getRay_newRayFromEdge_old c sw1.1.heap adjRay ray sw1.1.pivotInequalityIdx j hj]
        by_cases hja : j = adjRay
        · rw [if_pos hja, hja]
          exact ⟨rfl, rfl, rfl, rfl, rfl, fun _ h => absurd rfl h⟩
        · rw [if_neg hja]
          exact ⟨rfl, rfl, rfl, rfl, rfl, fun _ _ => rfl⟩
      · left
        refine ⟨hp, rfl, ?_⟩
        show (getRay c (newRayFromEdge c sw1.1.heap adjRay ray sw1.1.pivotInequalityIdx).1
          ray).adjacentRays = _
        rw [getRay_newRayFromEdge_old c sw1.1.heap adjRay ray sw1.1.pivotInequalityIdx ray hray1,
          if_neg (fun h => hne h.symm), v6]
      · intro _
        obtain ⟨n1, _, _, n4, n5, n6, n7⟩ :=
          getRay_newRayFromEdge_new c sw1.1.heap adjRay ray sw1.1.pivotInequalityIdx
        unfold edgeRay at n4 n5 n6 n7
        rw [n1, v2] at n4 n5 n6 n7
        refine ⟨?_, n4, n6, ?_, n5⟩
        · show (getRay c (newRayFromEdge c sw1.1.heap adjRay ray sw1.1.pivotInequalityIdx).1
            adjRay).adjacentRays = _
          rw [getRay_newRayFromEdge_old c sw1.1.heap adjRay ray sw1.1.pivotInequalityIdx adjRay
            hadj1, if_pos rfl]
          show replaceFirst ray sw1.1.heap.length (getRay c sw1.1.heap adjRay).adjacentRays = _
          rw [v2, v6]
        · rw [n7]
          exact ((v7 adjRay hadj).2.2.1 rfl).1
    · rw [if_pos hm, if_neg hp]
      have hnum : numNewRays c ray s [adjRay] = 0 := by
        unfold numNewRays
        rw [if_pos hm]
        simp [hp]
      refine ⟨_, _, _, rfl, ?_, ?_, ?_, v4, v5, ?_, ?_, fun h => absurd h.2 hp, ?_⟩
      · exact state_frame_heap s sw1.1 _ v1
      · rw [hnum]
        show (eraseAdj c sw1.1 ray i).heap.length = _
        unfold eraseAdj
        simp only [List.length_set]
        omega
      · rw [hnum, v3]
        simp
      · apply rayStep_frame c s sw1.1 _ ray adjRay v7 v2
        intro j hj
        unfold eraseAdj
        simp only
        by_cases hjr : j = ray
        · subst hjr
          rw [getRay_set_self c _ j _ hray1]
          exact ⟨rfl, rfl, rfl, rfl, rfl, fun h _ => absurd rfl h⟩
        · rw [getRay_set_ne c _ ray j _ hjr]
          exact ⟨rfl, rfl, rfl, rfl, rfl, fun _ _ => rfl⟩
      · right
        refine ⟨hp, rfl, ?_⟩
        unfold eraseAdj
        simp only
        rw [getRay_set_self c _ ray _ hray1, v6]
      · intro _
        unfold eraseAdj
        simp only
        rw [getRay_set_ne c _ ray adjRay _ hne, v6]
  · by_cases hp : c.zerotol < seenDiscrepancy c s adjRay
    · rw [if_neg hm, if_pos hp]
      have hnum : numNewRays c ray s [adjRay] = 0 := by
        unfold numNewRays
        rw [if_neg hm]
      refine ⟨_, _, _, rfl, v1, ?_, ?_, v4, v5, v7, ?_, fun h => absurd h.1 hm,
        fun _ => v6 adjRay⟩
      · rw [hnum, v2]
        rfl
      · rw [hnum, v3]
        simp
      · left
        exact ⟨hp, rfl, v6 ray⟩
    · rw [if_neg hm, if_neg hp]
      have hnum : numNewRays c ray s [adjRay] = 0 := by
        unfold numNewRays
        rw [if_neg hm]
      refine ⟨_, _, _, rfl, ?_, ?_, ?_, v4, v5, ?_, ?_, fun h => absurd h.2 hp, ?_⟩
      · exact state_frame_heap s sw1.1 _ v1
      · rw [hnum]
        show (eraseAdj c sw1.1 ray i).heap.length = _
        unfold eraseAdj
        simp only [List.length_set]
        omega
      · rw [hnum, v3]
        simp
      · apply rayStep_frame c s sw1.1 _ ray adjRay v7 v2
        intro j hj
        unfold eraseAdj
        simp only
        by_cases hjr : j = ray
        · subst hjr
          rw [getRay_set_self c _ j _ hray1]
          exact ⟨rfl, rfl, rfl, rfl, rfl, fun h _ => absurd rfl h⟩
        · rw [getRay_set_ne c _ ray j _ hjr]
          exact ⟨rfl, rfl, rfl, rfl, rfl, fun _ _ => rfl⟩
      · right
        refine ⟨hp, rfl, ?_⟩
        unfold eraseAdj
        simp only
        rw [getRay_set_self c _ ray _ hray1, v6]
      · intro _
        unfold eraseAdj
        simp only
        rw [getRay_set_ne c _ ray adjRay _ hne, v6]

end DDM

namespace DDM

open Utils

/-- The loop of `searchAdj` from position `i` on, with enough fuel for the
entries that are left: the entries before `i` stay, the entries from `i` on
are handled. -/
theorem searchAdjLoop_effect {S : Type} (c : Context S) (ray : Nat) :
    ∀ (fuel i : Nat) (s : State S) (w : WorkLists), ray < s.heap.length →
      (∀ a ∈ (getRay c s.heap ray).adjacentRays, a < s.heap.length ∧ a ≠ ray) →
      (getRay c s.heap ray).adjacentRays.length ≤ i + fuel →
      SearchEffect c ray s w ((getRay c s.heap ray).adjacentRays.take i)
        ((getRay c s.heap ray).adjacentRays.drop i) (searchAdjLoop c ray fuel i (s, w)) := by
  intro fuel
  induction fuel with
  | zero =>
    intro i s w _ _ hfuel
    rw [List.drop_eq_nil_of_le (by omega), List.take_of_length_le (by omega)]
    unfold searchAdjLoop
    exact searchEffect_nil c ray s w
  | succ fuel ih =>
    intro i s w hray hval hfuel
    cases hget : (getRay c s.heap ray).adjacentRays.get? i with
    | none =>
      have hlen : (getRay c s.heap ray).adjacentRays.length ≤ i := by
        rw [List.get?_eq_getElem?] at hget
        exact List.getElem?_eq_none_iff.mp hget
      rw [List.drop_eq_nil_of_le hlen, List.take_of_length_le hlen, searchAdjLoop]
      simp only [hget]
      exact searchEffect_nil c ray s w
    | some adjRay =>
      rw [List.get?_eq_getElem?] at hget
      obtain ⟨hi, hai⟩ := List.getElem?_eq_some_iff.mp hget
      have hmemA : adjRay ∈ (getRay c s.heap ray).adjacentRays := by
        rw [← hai]
        exact List.getElem_mem _
      obtain ⟨hadj, hne⟩ := hval adjRay hmemA
      obtain ⟨i2, s2, w2, hloop, hfr, hlen, hnew, hmin, hzero, hrs, hcase, _, _⟩ :=
        searchAdj_body c ray fuel i s w adjRay hray hadj hne
          (by rw [List.get?_eq_getElem?]; exact hget)
      rw [hloop]
      have hdrop : (getRay c s.heap ray).adjacentRays.drop i
          = adjRay :: (getRay c s.heap ray).adjacentRays.drop (i + 1) := by
        rw [List.drop_eq_getElem_cons hi, hai]
      rw [hdrop]
      have hT0 : ∀ a ∈ (getRay c s.heap ray).adjacentRays.drop (i + 1), a < s.heap.length :=
        fun a ha => (hval a (List.mem_of_mem_drop ha)).1
      rcases hcase with ⟨hp, hi2, hadj2⟩ | ⟨hp, hi2, hadj2⟩
      · subst hi2
        have hrec := ih (i + 1) s2 w2 (by omega)
          (by
            rw [hadj2]
            intro a ha
            exact ⟨by have := (hval a ha).1; omega, (hval a ha).2⟩)
          (by rw [hadj2]; omega)
        rw [hadj2] at hrec
        apply searchEffect_step c ray adjRay s s2 w w2 _ _ _ _ hray hne hadj hT0
          (List.Perm.refl _) hfr hlen hnew hmin hzero hrs
        have hpre : (getRay c s.heap ray).adjacentRays.take i
            ++ [adjRay].filter (fun a => decide (c.zerotol < seenDiscrepancy c s a))
            = (getRay c s.heap ray).adjacentRays.take (i + 1) := by
          rw [List.take_succ, hget]
          simp [hp]
        rw [hpre]
        exact hrec
      · rw [hi2]
        obtain ⟨t1, t2, t3⟩ := Vector.erase_perm (getRay c s.heap ray).adjacentRays i hi
        have hsub : ∀ a ∈ Vector.erase (getRay c s.heap ray).adjacentRays i,
            a ∈ (getRay c s.heap ray).adjacentRays := by
          intro a ha
          rcases List.mem_append.mp (t3.mem_iff.mp ha) with h | h
          · exact List.mem_of_mem_take h
          · exact List.mem_of_mem_drop h
        have hlenE : (Vector.erase (getRay c s.heap ray).adjacentRays i).length
            = (getRay c s.heap ray).adjacentRays.length - 1 := by
          rw [t3.length_eq, List.length_append, List.length_take, List.length_drop]
          omega
        have hrec := ih i s2 w2 (by omega)
          (by
            rw [hadj2]
            intro a ha
            exact ⟨by have := (hval a (hsub a ha)).1; omega, (hval a (hsub a ha)).2⟩)
          (by rw [hadj2, hlenE]; omega)
        rw [hadj2, t1] at hrec
        apply searchEffect_step c ray adjRay s s2 w w2 _ _ _ _ hray hne hadj hT0
          t2 hfr hlen hnew hmin hzero hrs
        have hpre : (getRay c s.heap ray).adjacentRays.take i
            ++ [adjRay].filter (fun a => decide (c.zerotol < seenDiscrepancy c s a))
            = (getRay c s.heap ray).adjacentRays.take i := by
          simp [hp]
        rw [hpre]
        exact hrec

theorem searchAdj_effect {S : Type} (c : Context S) (ray : Nat) (s : State S) (w : WorkLists)
    (hray : ray < s.heap.length)
    (hval : ∀ a ∈ (getRay c s.heap ray).adjacentRays, a < s.heap.length ∧ a ≠ ray) :
    SearchEffect c ray s w [] (getRay c s.heap ray).adjacentRays (searchAdj c ray (s, w)) := by
  have := searchAdjLoop_effect c ray (getRay c s.heap ray).adjacentRays.length 0 s w hray hval
    (by omega)
  rw [List.take_zero, List.drop_zero] at this
  exact this

end DDM

/-- C33: let `ray` be a ray of the heap whose adjacency list names rays of
the heap other than itself, and call the discrepancy of a neighbour the value
that `searchAdj` reads for it (`seenDiscrepancy`: computed on the first visit
in this step, the stored one otherwise). After `searchAdj(ray, ...)` the
adjacency list of `ray` is, as a multiset, the list of the former neighbours
with discrepancy `> zerotol`; the heap has grown by one ray per neighbour
with discrepancy `> zerotol` when `ray` is a minus ray (its
`pivotDiscrepancy < -zerotol`) and by none otherwise, and `newRays` has
gained the pointers to exactly these rays; `minusRays` has gained, once each,
the neighbours visited for the first time with discrepancy `< -zerotol`, and
`zeroRays`, once each, those visited for the first time with discrepancy in
`[-zerotol, zerotol]`; every neighbour is marked as visited in this step with
its discrepancy stored, and its cobasis has gained the pivot index when it
went to `zeroRays` and is unchanged otherwise. -/
theorem searchAdj_edge_table {S : Type} (c : DDM.Context S)
    (sw : DDM.State S × DDM.WorkLists) (ray : Nat) (hray : ray < sw.1.heap.length)
    (hval : ∀ a ∈ (DDM.getRay c sw.1.heap ray).adjacentRays, a < sw.1.heap.length ∧ a ≠ ray) :
    List.Perm (DDM.getRay c (DDM.searchAdj c ray sw).1.heap ray).adjacentRays
      ((DDM.getRay c sw.1.heap ray).adjacentRays.filter
        (fun a => decide (c.zerotol < DDM.seenDiscrepancy c sw.1 a)))
    ∧ (DDM.searchAdj c ray sw).1.heap.length
        = sw.1.heap.length
          + (if (DDM.getRay c sw.1.heap ray).pivotDiscrepancy < -c.zerotol then
              ((DDM.getRay c sw.1.heap ray).adjacentRays.filter
                (fun a => decide (c.zerotol < DDM.seenDiscrepancy c sw.1 a))).length
            else 0)
    ∧ (DDM.searchAdj c ray sw).2.newRays
        = sw.2.newRays ++ List.range' sw.1.heap.length
            (if (DDM.getRay c sw.1.heap ray).pivotDiscrepancy < -c.zerotol then
              ((DDM.getRay c sw.1.heap ray).adjacentRays.filter
                (fun a => decide (c.zerotol < DDM.seenDiscrepancy c sw.1 a))).length
            else 0)
    ∧ (∃ M Z : List Nat,
        (DDM.searchAdj c ray sw).2.minusRays = sw.2.minusRays ++ M
        ∧ (DDM.searchAdj c ray sw).2.zeroRays = sw.2.zeroRays ++ Z
        ∧ M.Nodup ∧ Z.Nodup
        ∧ (∀ a, a ∈ M ↔ a ∈ (DDM.getRay c sw.1.heap ray).adjacentRays
            ∧ (DDM.getRay c sw.1.heap a).visitingStep ≠ sw.1.step
            ∧ DDM.seenDiscrepancy c sw.1 a < -c.zerotol)
        ∧ (∀ a, a ∈ Z ↔ a ∈ (DDM.getRay c sw.1.heap ray).adjacentRays
            ∧ (DDM.getRay c sw.1.heap a).visitingStep ≠ sw.1.step
            ∧ -c.zerotol ≤ DDM.seenDiscrepancy c sw.1 a ∧ DDM.seenDiscrepancy c sw.1 a ≤ c.zerotol))
    ∧ (∀ a ∈ (DDM.getRay c sw.1.heap ray).adjacentRays,
        (DDM.getRay c (DDM.searchAdj c ray sw).1.heap a).visitingStep = sw.1.step
        ∧ (DDM.getRay c (DDM.searchAdj c ray sw).1.heap a).pivotDiscrepancy
            = DDM.seenDiscrepancy c sw.1 a
        ∧ (DDM.getRay c (DDM.searchAdj c ray sw).1.heap a).cobasis
            = (if (DDM.getRay c sw.1.heap a).visitingStep ≠ sw.1.step
                ∧ -c.zerotol ≤ DDM.seenDiscrepancy c sw.1 a
                ∧ DDM.seenDiscrepancy c sw.1 a ≤ c.zerotol
              then c.ops.add (DDM.getRay c sw.1.heap a).cobasis sw.1.pivotInequalityIdx
              else (DDM.getRay c sw.1.heap a).cobasis)) := by
  obtain ⟨s, w⟩ := sw
  obtain ⟨_, e2, e3, e4, e5, e6⟩ := DDM.searchAdj_effect c ray s w hray hval
  refine ⟨by simpa using e2, e3, e4, e5, ?_⟩
  intro a ha
  obtain ⟨_, _, f3, _, f5, f6, _⟩ := e6 a (hval a ha).1
  refine ⟨(f3 ha).1, (f3 ha).2, ?_⟩
  split_ifs with hc
  · exact f5 ⟨ha, hc⟩
  · exact f6 (fun h => hc h.2)

theorem some_getD_of_isSome {α : Type} (o : Option α) (d : α) (h : o.isSome = true) :
    o = some (o.getD d) := by
  cases o with
  | none => cases h
  | some x => rfl

set_option maxRecDepth 100000 in
/-- C33 at the first call of `searchAdj` in the run on `orthantSystem`: the
pivot ray 0 is a minus ray with the neighbours 1 (plus), 2 (zero) and 3
(minus), none visited yet. Afterwards its adjacency list is `[1]`, one ray
has been created (pointer 4), ray 3 has joined `minusRays`, ray 2 has joined
`zeroRays` and has gained the pivot index 4 in its cobasis. -/
theorem searchAdj_edge_table_witness :
    DDM.classifyStart orthantContext orthantState = some orthantSearchStart
    ∧ (orthantSearchStart.1.step, orthantSearchStart.1.pivotInequalityIdx,
        orthantSearchStart.2,
        (DDM.getRay orthantContext orthantSearchStart.1.heap 0).adjacentRays,
        (DDM.getRay orthantContext orthantSearchStart.1.heap 0).pivotDiscrepancy)
      = (1, 4, ⟨[0], [], []⟩, [1, 2, 3], -1)
    ∧ [1, 2, 3].map (fun a =>
        ((DDM.getRay orthantContext orthantSearchStart.1.heap a).visitingStep,
          DDM.seenDiscrepancy orthantContext orthantSearchStart.1 a))
      = [(0, 1), (0, 0), (0, -1)]
    ∧ ((DDM.searchAdj orthantContext 0 orthantSearchStart).2,
        (DDM.searchAdj orthantContext 0 orthantSearchStart).1.heap.length,
        (DDM.getRay orthantContext
          (DDM.searchAdj orthantContext 0 orthantSearchStart).1.heap 0).adjacentRays,
        (DDM.getRay orthantContext
          (DDM.searchAdj orthantContext 0 orthantSearchStart).1.heap 2).cobasis)
      = (⟨[0, 3], [2], [4]⟩, 5, [1], [0, 1, 3, 4])
    ∧ List.Perm
        (DDM.getRay orthantContext
          (DDM.searchAdj orthantContext 0 orthantSearchStart).1.heap 0).adjacentRays
        ((DDM.getRay orthantContext orthantSearchStart.1.heap 0).adjacentRays.filter
          (fun a => decide
            (orthantContext.zerotol < DDM.seenDiscrepancy orthantContext orthantSearchStart.1 a)))
    ∧ (DDM.searchAdj orthantContext 0 orthantSearchStart).2.newRays
        = orthantSearchStart.2.newRays ++ List.range' orthantSearchStart.1.heap.length
            (if (DDM.getRay orthantContext orthantSearchStart.1.heap 0).pivotDiscrepancy
                < -orthantContext.zerotol then
              ((DDM.getRay orthantContext orthantSearchStart.1.heap 0).adjacentRays.filter
                (fun a => decide (orthantContext.zerotol
                  < DDM.seenDiscrepancy orthantContext orthantSearchStart.1 a))).length
            else 0) :=
  ⟨some_getD_of_isSome _ _ (by decide), by decide, by decide, by decide,
    (searchAdj_edge_table orthantContext orthantSearchStart 0 (by decide) (by decide)).1,
    (searchAdj_edge_table orthantContext orthantSearchStart 0 (by decide) (by decide)).2.2.1⟩

/-! ## Symmetry of the adjacency lists (C37) -/

namespace DDM

open Utils

theorem mem_replaceFirst_of_mem (old new : Nat) : ∀ (l : List Nat),
    old ∈ l → new ∈ replaceFirst old new l := by
  intro l
  induction l with
  | nil => intro h; cases h
  | cons x xs ih =>
    intro h
    unfold replaceFirst
    by_cases hx : x = old
    · rw [if_pos hx]
      exact List.mem_cons_self _ _
    · rw [if_neg hx]
      rcases List.mem_cons.mp h with h1 | h1
      · exact absurd h1.symm hx
      · exact List.mem_cons_of_mem _ (ih h1)

theorem mem_replaceFirst_of_ne (old new : Nat) : ∀ (l : List Nat) (a : Nat),
    a ∈ l → a ≠ old → a ∈ replaceFirst old new l := by
  intro l
  induction l with
  | nil => intro a h; cases h
  | cons x xs ih =>
    intro a h hne
    unfold replaceFirst
    by_cases hx : x = old
    · rw [if_pos hx]
      rcases List.mem_cons.mp h with h1 | h1
      · exact absurd (h1.trans hx) hne
      · exact List.mem_cons_of_mem _ h1
    · rw [if_neg hx]
      rcases List.mem_cons.mp h with h1 | h1
      · rw [h1]
        exact List.mem_cons_self _ _
      · exact List.mem_cons_of_mem _ (ih a h1 hne)

theorem not_mem_replaceFirst (old new : Nat) (hne : old ≠ new) : ∀ (l : List Nat),
    l.Nodup → old ∉ replaceFirst old new l := by
  intro l
  induction l with
  | nil => intro _ h; cases h
  | cons x xs ih =>
    intro hnd h
    unfold replaceFirst at h
    obtain ⟨hx1, hx2⟩ := List.nodup_cons.mp hnd
    by_cases hx : x = old
    · rw [if_pos hx] at h
      rcases List.mem_cons.mp h with h1 | h1
      · exact hne h1
      · exact hx1 (hx ▸ h1)
    · rw [if_neg hx] at h
      rcases List.mem_cons.mp h with h1 | h1
      · exact hx h1.symm
      · exact ih hx2 h1

theorem nodup_replaceFirst (old new : Nat) : ∀ (l : List Nat),
    l.Nodup → new ∉ l → (replaceFirst old new l).Nodup := by
  intro l
  induction l with
  | nil => intro _ _; exact List.nodup_nil
  | cons x xs ih =>
    intro hnd hnew
    unfold replaceFirst
    obtain ⟨hx1, hx2⟩ := List.nodup_cons.mp hnd
    by_cases hx : x = old
    · rw [if_pos hx]
      exact List.nodup_cons.mpr ⟨fun h => hnew (List.mem_cons_of_mem _ h), hx2⟩
    · rw [if_neg hx]
      refine List.nodup_cons.mpr ⟨?_, ih hx2 (fun h => hnew (List.mem_cons_of_mem _ h))⟩
      intro h
      rcases mem_replaceFirst old new xs x h with h1 | h1
      · exact hx1 h1
      · exact hnew (h1 ▸ List.mem_cons_self _ _)

theorem replaceFirst_of_not_mem (old new : Nat) : ∀ (l : List Nat),
    old ∉ l → replaceFirst old new l = l := by
  intro l
  induction l with
  | nil => intro _; rfl
  | cons x xs ih =>
    intro h
    unfold replaceFirst
    rw [if_neg (fun hx => h (by rw [hx]; exact List.mem_cons_self _ _)),
      ih (fun hx => h (List.mem_cons_of_mem _ hx))]

/-- The value read for a ray of the heap is the same after one entry has
been handled. -/
theorem rayStep_seen {S : Type} (c : Context S) (s s2 : State S) (ray adjRay : Nat)
    (hfr : s2 = { s with heap := s2.heap }) (hadj : adjRay < s.heap.length)
    (hrs : RayStep c s s2 ray adjRay) :
    ∀ j, j < s.heap.length → seenDiscrepancy c s2 j = seenDiscrepancy c s j := by
  have hstep : s2.step = s.step := by rw [hfr]
  have hpiv : s2.pivotInequalityIdx = s.pivotInequalityIdx := by rw [hfr]
  have hvs2 : (getRay c s2.heap adjRay).visitingStep = s2.step := by
    rw [hstep]
    exact ((hrs adjRay hadj).2.2.1 rfl).1
  intro j hj
  obtain ⟨r1, _, r3, r4, _⟩ := hrs j hj
  by_cases hja : j = adjRay
  · rw [seenDiscrepancy_visited c s2 j (by rw [hja]; exact hvs2)]
    exact (r3 hja).2
  · exact seenDiscrepancy_congr c s s2 j hstep hpiv r1 (r4 hja).1 (r4 hja).2

end DDM

namespace DDM

open Utils

/-- The loop of `searchAdj` from position `i` on: what it does to the
adjacency lists of the entries that are left and to the rays it creates. -/
theorem searchAdjLoop_adjacency {S : Type} (c : Context S) (ray : Nat) :
    ∀ (fuel i : Nat) (s : State S) (w : WorkLists), ray < s.heap.length →
      (∀ a ∈ (getRay c s.heap ray).adjacentRays, a < s.heap.length ∧ a ≠ ray) →
      (getRay c s.heap ray).adjacentRays.Nodup →
      (getRay c s.heap ray).adjacentRays.length ≤ i + fuel →
      SearchAdjacency c ray s ((getRay c s.heap ray).adjacentRays.drop i)
        (searchAdjLoop c ray fuel i (s, w)) := by
  intro fuel
  induction fuel with
  | zero =>
    intro i s w _ _ _ hfuel
    rw [List.drop_eq_nil_of_le (by omega)]
    unfold searchAdjLoop
    refine ⟨fun j hj => absurd hj (List.not_mem_nil _), ?_,
      fun j hj => absurd hj (List.not_mem_nil _)⟩
    intro n h1 h2
    have h3 : n < s.heap.length := h2
    omega
  | succ fuel ih =>
    intro i s w hray hval hnd hfuel
    cases hget : (getRay c s.heap ray).adjacentRays.get? i with
    | none =>
      have hlen : (getRay c s.heap ray).adjacentRays.length ≤ i := by
        rw [List.get?_eq_getElem?] at hget
        exact List.getElem?_eq_none_iff.mp hget
      rw [List.drop_eq_nil_of_le hlen, searchAdjLoop]
      simp only [hget]
      refine ⟨fun j hj => absurd hj (List.not_mem_nil _), ?_,
        fun j hj => absurd hj (List.not_mem_nil _)⟩
      intro n h1 h2
      have h3 : n < s.heap.length := h2
      omega
    | some adjRay =>
      rw [List.get?_eq_getElem?] at hget
      obtain ⟨hi, hai⟩ := List.getElem?_eq_some_iff.mp hget
      have hmemA : adjRay ∈ (getRay c s.heap ray).adjacentRays := by
        rw [← hai]
        exact List.getElem_mem _
      obtain ⟨hadj, hne⟩ := hval adjRay hmemA
      obtain ⟨i2, s2, w2, hloop, hfr, hlen, hnew, hmin, hzero, hrs, hcase, hcr, hncr⟩ :=
        searchAdj_body c ray fuel i s w adjRay hray hadj hne
          (by rw [List.get?_eq_getElem?]; exact hget)
      rw [hloop]
      have hdrop : (getRay c s.heap ray).adjacentRays.drop i
          = adjRay :: (getRay c s.heap ray).adjacentRays.drop (i + 1) := by
        rw [List.drop_eq_getElem_cons hi, hai]
      rw [hdrop]
      have hT0 : ∀ a ∈ (getRay c s.heap ray).adjacentRays.drop (i + 1),
          a < s.heap.length ∧ a ≠ ray ∧ a ≠ adjRay := by
        intro a ha
        refine ⟨(hval a (List.mem_of_mem_drop ha)).1, (hval a (List.mem_of_mem_drop ha)).2, ?_⟩
        intro h
        have hnd2 : ((getRay c s.heap ray).adjacentRays.drop i).Nodup :=
          (List.drop_sublist _ _).nodup hnd
        rw [hdrop] at hnd2
        exact (List.nodup_cons.mp hnd2).1 (h ▸ ha)
      have hle : s.heap.length ≤ s2.heap.length := by omega
      have hstep : s2.step = s.step := by rw [hfr]
      have hseen2 := rayStep_seen c s s2 ray adjRay hfr hadj hrs
      have hpdray : (getRay c s2.heap ray).pivotDiscrepancy
          = (getRay c s.heap ray).pivotDiscrepancy :=
        ((hrs ray hray).2.2.2.1 (fun h => hne h.symm)).2
      -- the adjacency list of `ray` in the next state, and the entries left in it
      have hnext : ∃ T2 : List Nat,
          T2 = (getRay c s2.heap ray).adjacentRays.drop i2
          ∧ T2.Perm ((getRay c s.heap ray).adjacentRays.drop (i + 1))
          ∧ (∀ a ∈ (getRay c s2.heap ray).adjacentRays, a < s2.heap.length ∧ a ≠ ray)
          ∧ (getRay c s2.heap ray).adjacentRays.Nodup
          ∧ (getRay c s2.heap ray).adjacentRays.length ≤ i2 + fuel := by
        rcases hcase with ⟨_, hi2, hadj2⟩ | ⟨_, hi2, hadj2⟩
        · refine ⟨_, rfl, by rw [hadj2, hi2], ?_, by rw [hadj2]; exact hnd,
            by rw [hadj2, hi2]; omega⟩
          rw [hadj2]
          intro a ha
          exact ⟨by have := (hval a ha).1; omega, (hval a ha).2⟩
        · obtain ⟨_, t2, t3⟩ := Vector.erase_perm (getRay c s.heap ray).adjacentRays i hi
          have hsub : ∀ a ∈ Vector.erase (getRay c s.heap ray).adjacentRays i,
              a ∈ (getRay c s.heap ray).adjacentRays := by
            intro a ha
            rcases List.mem_append.mp (t3.mem_iff.mp ha) with h | h
            · exact List.mem_of_mem_take h
            · exact List.mem_of_mem_drop h
          have hlenE : (Vector.erase (getRay c s.heap ray).adjacentRays i).length
              = (getRay c s.heap ray).adjacentRays.length - 1 := by
            rw [t3.length_eq, List.length_append, List.length_take, List.length_drop]
            omega
          refine ⟨_, rfl, by rw [hadj2, hi2]; exact t2, ?_, ?_, by rw [hadj2, hlenE, hi2]; omega⟩
          · rw [hadj2]
            intro a ha
            exact ⟨by have := (hval a (hsub a ha)).1; omega, (hval a (hsub a ha)).2⟩
          · rw [hadj2]
            have hnd3 : ((getRay c s.heap ray).adjacentRays.take i
                ++ (getRay c s.heap ray).adjacentRays.drop (i + 1)).Nodup := by
              have hsl : ((getRay c s.heap ray).adjacentRays.take i
                  ++ (getRay c s.heap ray).adjacentRays.drop (i + 1)).Sublist
                  ((getRay c s.heap ray).adjacentRays.take i
                    ++ (getRay c s.heap ray).adjacentRays.drop i) :=
                List.Sublist.append_left (List.drop_sublist_drop_left _ (Nat.le_succ i)) _
              rw [List.take_append_drop] at hsl
              exact hsl.nodup hnd
            exact t3.nodup_iff.mpr hnd3
      obtain ⟨T2, hT2, hperm, hval2, hnd2, hfuel2⟩ := hnext
      have hmem : ∀ a, a ∈ T2 ↔ a ∈ (getRay c s.heap ray).adjacentRays.drop (i + 1) :=
        fun a => hperm.mem_iff
      have hrest := ih i2 s2 w2 (by omega) hval2 hnd2 hfuel2
      have heff := searchAdjLoop_effect c ray fuel i2 s2 w2 (by omega) hval2 hfuel2
      rw [← hT2] at hrest heff
      generalize searchAdjLoop c ray fuel i2 (s2, w2) = sw1 at hrest heff
      obtain ⟨p1, p2, p3⟩ := hrest
      obtain ⟨_, _, e3, _, _, e6⟩ := heff
      have hle2 : s2.heap.length ≤ sw1.1.heap.length := by omega
      have hnotT2 : adjRay ∉ T2 := fun h => (hT0 adjRay ((hmem adjRay).mp h)).2.2 rfl
      have hadjA : (getRay c sw1.1.heap adjRay).adjacentRays
          = (getRay c s2.heap adjRay).adjacentRays :=
        (e6 adjRay (by omega)).2.2.2.2.2.2 hne hnotT2
      have hold : ∀ j ∈ (getRay c s.heap ray).adjacentRays.drop (i + 1),
          (getRay c s2.heap j).adjacentRays = (getRay c s.heap j).adjacentRays := by
        intro j hj
        obtain ⟨q1, q2, q3⟩ := hT0 j hj
        exact (hrs j q1).2.2.2.2.2.2 q2 q3
      -- the ray created for `adjRay`, if any
      have hcreated : (getRay c s.heap ray).pivotDiscrepancy < -c.zerotol →
          c.zerotol < seenDiscrepancy c s adjRay →
          s.heap.length < sw1.1.heap.length
          ∧ (getRay c sw1.1.heap adjRay).adjacentRays
              = replaceFirst ray s.heap.length (getRay c s.heap adjRay).adjacentRays
          ∧ (getRay c sw1.1.heap s.heap.length).adjacentRays = [adjRay]
          ∧ (getRay c sw1.1.heap s.heap.length).pivotDiscrepancy = 0
          ∧ (getRay c sw1.1.heap s.heap.length).visitingStep = s.step
          ∧ (getRay c sw1.1.heap s.heap.length).assignedInequalities = [] := by
        intro hm hp
        obtain ⟨c1, c2, c3, c4, c5⟩ := hcr ⟨hm, hp⟩
        have hnum : numNewRays c ray s [adjRay] = 1 := by
          unfold numNewRays
          rw [if_pos hm]
          simp [hp]
        rw [hnum] at hlen
        have hnT : s.heap.length ∉ T2 := by
          intro h
          have := (hT0 _ ((hmem _).mp h)).1
          omega
        obtain ⟨_, f2, _, f4, _, _, f7⟩ := e6 s.heap.length (by omega)
        refine ⟨by omega, hadjA.trans c1, (f7 (by omega) hnT).trans c2, (f4 hnT).2.trans c3,
          (f4 hnT).1.trans c4, f2.trans c5⟩
      refine ⟨?_, ?_, ?_⟩
      · intro j hj hm hp
        rcases List.mem_cons.mp hj with h | h
        · subst h
          obtain ⟨c0, c1, c2, c3, c4, c5⟩ := hcreated hm hp
          exact ⟨s.heap.length, Nat.le_refl _, c0, c1, c2, c3, c4, c5⟩
        · obtain ⟨n, n1, n2, n3, n4, n5, n6, n7⟩ := p1 j ((hmem j).mpr h)
            (by rw [hpdray]; exact hm) (by rw [hseen2 j (hT0 j h).1]; exact hp)
          exact ⟨n, by omega, n2, by rw [n3, hold j h], n4, n5, n6.trans hstep, n7⟩
      · intro n hn1 hn2
        by_cases hcase2 : (getRay c s.heap ray).pivotDiscrepancy < -c.zerotol
            ∧ c.zerotol < seenDiscrepancy c s adjRay
        · by_cases hn : n = s.heap.length
          · subst hn
            obtain ⟨_, c1, c2, c3, c4, c5⟩ := hcreated hcase2.1 hcase2.2
            exact ⟨adjRay, List.mem_cons_self _ _, hcase2.1, hcase2.2, c1, c2, c3, c4, c5⟩
          · have hnum : numNewRays c ray s [adjRay] = 1 := by
              unfold numNewRays
              rw [if_pos hcase2.1]
              simp [hcase2.2]
            rw [hnum] at hlen
            obtain ⟨j, j1, j2, j3, j4, j5, j6, j7, j8⟩ := p2 n (by omega) hn2
            have hj0 := (hmem j).mp j1
            exact ⟨j, List.mem_cons_of_mem _ hj0, by rw [← hpdray]; exact j2,
              by rw [← hseen2 j (hT0 j hj0).1]; exact j3, by rw [j4, hold j hj0], j5, j6,
              j7.trans hstep, j8⟩
        · have hnum : numNewRays c ray s [adjRay] = 0 := by
            unfold numNewRays
            split_ifs with h1
            · have : ¬ c.zerotol < seenDiscrepancy c s adjRay := fun h => hcase2 ⟨h1, h⟩
              simp [this]
            · rfl
          rw [hnum] at hlen
          obtain ⟨j, j1, j2, j3, j4, j5, j6, j7, j8⟩ := p2 n (by omega) hn2
          have hj0 := (hmem j).mp j1
          exact ⟨j, List.mem_cons_of_mem _ hj0, by rw [← hpdray]; exact j2,
            by rw [← hseen2 j (hT0 j hj0).1]; exact j3, by rw [j4, hold j hj0], j5, j6,
            j7.trans hstep, j8⟩
      · intro j hj hn
        rcases List.mem_cons.mp hj with h | h
        · subst h
          exact hadjA.trans (hncr hn)
        · rw [p3 j ((hmem j).mpr h) (by rw [hpdray, hseen2 j (hT0 j h).1]; exact hn)]
          exact hold j h

theorem searchAdj_adjacency {S : Type} (c : Context S) (ray : Nat) (s : State S)
    (w : WorkLists) (hray : ray < s.heap.length)
    (hval : ∀ a ∈ (getRay c s.heap ray).adjacentRays, a < s.heap.length ∧ a ≠ ray)
    (hnd : (getRay c s.heap ray).adjacentRays.Nodup) :
    SearchAdjacency c ray s (getRay c s.heap ray).adjacentRays (searchAdj c ray (s, w)) := by
  have := searchAdjLoop_adjacency c ray (getRay c s.heap ray).adjacentRays.length 0 s w hray
    hval hnd (by omega)
  rw [List.drop_zero] at this
  exact this

end DDM

namespace DDM

open Utils

theorem computeDiscrepancy_congr {S : Type} (c : Context S) (r1 r2 : Ray S) (j : Nat)
    (h : r1.coordinates = r2.coordinates) :
    computeDiscrepancy c r1 j = computeDiscrepancy c r2 j := by
  unfold computeDiscrepancy
  rw [h]

/-- One call of `searchAdj` for a ray that is waiting in `minusRays` or
`zeroRays` keeps the invariant of the traversal, with that ray done. -/
theorem travInv_searchAdj {S : Type} (c : Context S) (heps : 0 ≤ c.zerotol) (E : List Nat)
    (h0 : Nat) (s : State S) (w : WorkLists) (done : Nat → Prop) (q : Nat)
    (hinv : TravInv c E h0 s w.minusRays w.zeroRays w.newRays done)
    (hq : q ∈ w.minusRays ∨ q ∈ w.zeroRays) (hnd : ¬ done q) :
    TravInv c E h0 (searchAdj c q (s, w)).1 (searchAdj c q (s, w)).2.minusRays
        (searchAdj c q (s, w)).2.zeroRays (searchAdj c q (s, w)).2.newRays
        (fun x => done x ∨ x = q)
    ∧ (searchAdj c q (s, w)).1 = { s with heap := (searchAdj c q (s, w)).1.heap }
    ∧ (∃ Mn, (searchAdj c q (s, w)).2.minusRays = w.minusRays ++ Mn)
    ∧ (∃ Zn, (searchAdj c q (s, w)).2.zeroRays = w.zeroRays ++ Zn) := by
  -- the ray `q`
  have hqc : q ∈ E ∧ (getRay c s.heap q).visitingStep = s.step
      ∧ (getRay c s.heap q).pivotDiscrepancy ≤ c.zerotol := by
    rcases hq with h | h
    · obtain ⟨a, b, d⟩ := hinv.classM q h
      exact ⟨a, b, by omega⟩
    · obtain ⟨a, b, _, d⟩ := hinv.classZ q h
      exact ⟨a, b, d⟩
  obtain ⟨hqE, hqvis, hqpd⟩ := hqc
  have hh := hinv.heapLen
  have hqlt : q < s.heap.length := by
    have := hinv.validE q hqE
    omega
  have hElt : ∀ r ∈ E, r < s.heap.length := by
    intro r hr
    have := hinv.validE r hr
    omega
  have hNge : ∀ n ∈ w.newRays, h0 ≤ n ∧ n < s.heap.length := by
    intro n hn
    rw [hinv.newRays, List.mem_range'_1] at hn
    omega
  have hEN : ∀ r, r ∈ E → r ∈ w.newRays → False := by
    intro r h1 h2
    have := hinv.validE r h1
    have := (hNge r h2).1
    omega
  have hQE : ∀ r, r ∈ w.minusRays ∨ r ∈ w.zeroRays →
      r ∈ E ∧ (getRay c s.heap r).visitingStep = s.step
      ∧ (getRay c s.heap r).pivotDiscrepancy ≤ c.zerotol := by
    intro r h
    rcases h with h | h
    · obtain ⟨a, b, d⟩ := hinv.classM r h
      exact ⟨a, b, by omega⟩
    · obtain ⟨a, b, _, d⟩ := hinv.classZ r h
      exact ⟨a, b, d⟩
  have hplusQ : ∀ a, isPlus c s a → ¬ (a ∈ w.minusRays ∨ a ∈ w.zeroRays) := by
    intro a hp h
    have := (hQE a h).2.2
    have := hp.2
    omega
  -- the neighbours of `q`
  have hL : ∀ a ∈ (getRay c s.heap q).adjacentRays,
      a ≠ q ∧ a ∈ E ∧ (¬ done a → q ∈ (getRay c s.heap a).adjacentRays) := by
    intro a ha
    obtain ⟨o1, o2, o3⟩ := hinv.openAdj q hqE hnd a ha
    have haE : a ∈ E := by
      rcases o2 with h | h
      · exact h
      · exfalso
        rcases o3 with h3 | h3
        · obtain ⟨b, b1, _, b3, _⟩ := hinv.newAdj a h
          rw [b1, List.mem_singleton] at h3
          rw [← h3] at b3
          exact hplusQ q b3 hq
        · exact hEN a (hQE a (hinv.doneQ a h3.1)).1 h
    refine ⟨o1, haE, ?_⟩
    intro hda
    rcases o3 with h3 | h3
    · exact h3
    · exact absurd h3.1 hda
  have hval : ∀ a ∈ (getRay c s.heap q).adjacentRays, a < s.heap.length ∧ a ≠ q :=
    fun a ha => ⟨hElt a (hL a ha).2.1, (hL a ha).1⟩
  have hLnd := hinv.adjNodup q (Or.inl hqE)
  have heff := searchAdj_effect c q s w hqlt hval
  have hadjf := searchAdj_adjacency c q s w hqlt hval hLnd
  generalize searchAdj c q (s, w) = sw1 at heff hadjf ⊢
  obtain ⟨e1, e2, e3, e4, ⟨Mn, Zn, m1, m2, m3, m4, m5, m6⟩, e6⟩ := heff
  obtain ⟨p1, p2, p3⟩ := hadjf
  rw [List.nil_append] at e2
  have hstep : sw1.1.step = s.step := by rw [e1]
  have hle : s.heap.length ≤ sw1.1.heap.length := by omega
  have hseenv : ∀ j, (getRay c s.heap j).visitingStep = s.step →
      seenDiscrepancy c s j = (getRay c s.heap j).pivotDiscrepancy :=
    fun j hv => seenDiscrepancy_visited c s j hv
  -- visiting marks and stored discrepancies afterwards
  have hLs : ∀ j ∈ (getRay c s.heap q).adjacentRays,
      (getRay c sw1.1.heap j).visitingStep = s.step
      ∧ (getRay c sw1.1.heap j).pivotDiscrepancy = seenDiscrepancy c s j :=
    fun j hj => (e6 j (hval j hj).1).2.2.1 hj
  have hnL : ∀ j, j < s.heap.length → j ∉ (getRay c s.heap q).adjacentRays →
      (getRay c sw1.1.heap j).visitingStep = (getRay c s.heap j).visitingStep
      ∧ (getRay c sw1.1.heap j).pivotDiscrepancy = (getRay c s.heap j).pivotDiscrepancy :=
    fun j hj hjL => (e6 j hj).2.2.2.1 hjL
  have hvis : ∀ j, j < s.heap.length → (getRay c s.heap j).visitingStep = s.step →
      (getRay c sw1.1.heap j).visitingStep = s.step
      ∧ (getRay c sw1.1.heap j).pivotDiscrepancy = (getRay c s.heap j).pivotDiscrepancy := by
    intro j hj hv
    by_cases hjL : j ∈ (getRay c s.heap q).adjacentRays
    · exact ⟨(hLs j hjL).1, (hLs j hjL).2.trans (hseenv j hv)⟩
    · exact ⟨(hnL j hj hjL).1.trans hv, (hnL j hj hjL).2⟩
  have hplus1 : ∀ a, a < s.heap.length → isPlus c s a → isPlus c sw1.1 a := by
    intro a ha hp
    obtain ⟨v1, v2⟩ := hvis a ha hp.1
    exact ⟨v1.trans hstep.symm, by rw [v2]; exact hp.2⟩
  have hplusL : ∀ a ∈ (getRay c s.heap q).adjacentRays, c.zerotol < seenDiscrepancy c s a →
      isPlus c sw1.1 a := by
    intro a ha hp
    exact ⟨(hLs a ha).1.trans hstep.symm, by rw [(hLs a ha).2]; exact hp⟩
  have hqueueSeen : ∀ a, a ∈ w.minusRays ∨ a ∈ w.zeroRays →
      ¬ c.zerotol < seenDiscrepancy c s a := by
    intro a h
    obtain ⟨_, b, d⟩ := hQE a h
    rw [hseenv a b]
    omega
  have hLback : ∀ a ∈ (getRay c s.heap q).adjacentRays, c.zerotol < seenDiscrepancy c s a →
      q ∈ (getRay c s.heap a).adjacentRays := by
    intro a ha hp
    apply (hL a ha).2.2
    intro hd
    exact hqueueSeen a (hinv.doneQ a hd) hp
  -- the shape of the adjacency lists afterwards
  have hG : ∀ x, x < s.heap.length → x ≠ q →
      (getRay c sw1.1.heap x).adjacentRays = (getRay c s.heap x).adjacentRays
      ∨ (∃ n, s.heap.length ≤ n ∧ n < sw1.1.heap.length
          ∧ x ∈ (getRay c s.heap q).adjacentRays
          ∧ (getRay c s.heap q).pivotDiscrepancy < -c.zerotol
          ∧ c.zerotol < seenDiscrepancy c s x
          ∧ (getRay c sw1.1.heap x).adjacentRays
              = replaceFirst q n (getRay c s.heap x).adjacentRays
          ∧ (getRay c sw1.1.heap n).adjacentRays = [x]) := by
    intro x hx hxq
    by_cases hxL : x ∈ (getRay c s.heap q).adjacentRays
    · by_cases hc : (getRay c s.heap q).pivotDiscrepancy < -c.zerotol
          ∧ c.zerotol < seenDiscrepancy c s x
      · obtain ⟨n, n1, n2, n3, n4, _⟩ := p1 x hxL hc.1 hc.2
        exact Or.inr ⟨n, n1, n2, hxL, hc.1, hc.2, n3, n4⟩
      · exact Or.inl (p3 x hxL hc)
    · exact Or.inl ((e6 x hx).2.2.2.2.2.2 hxq hxL)
  have hGmem : ∀ x y, x < s.heap.length → x ≠ q → y ∈ (getRay c s.heap x).adjacentRays →
      y ≠ q → y ∈ (getRay c sw1.1.heap x).adjacentRays := by
    intro x y hx hxq hy hyq
    rcases hG x hx hxq with h | ⟨n, _, _, _, _, _, h, _⟩
    · rw [h]
      exact hy
    · rw [h]
      exact mem_replaceFirst_of_ne q n _ y hy hyq
  have hGold : ∀ x y, x < s.heap.length → x ≠ q → y ∈ (getRay c sw1.1.heap x).adjacentRays →
      y < s.heap.length → y ∈ (getRay c s.heap x).adjacentRays := by
    intro x y hx hxq hy hylt
    rcases hG x hx hxq with h | ⟨n, n1, _, _, _, _, h, _⟩
    · rw [h] at hy
      exact hy
    · rw [h] at hy
      rcases mem_replaceFirst q n _ y hy with h2 | h2
      · exact h2
      · omega
  have hQ1 : ∀ r, r ∈ w.minusRays ∨ r ∈ w.zeroRays → r ≠ q →
      (getRay c sw1.1.heap r).adjacentRays = (getRay c s.heap r).adjacentRays := by
    intro r hr hrq
    rcases hG r (hElt r (hQE r hr).1) hrq with h | ⟨n, _, _, _, _, h5, _, _⟩
    · exact h
    · exact absurd h5 (hqueueSeen r hr)
  have hnewN : ∀ n, n ∈ List.range' s.heap.length (numNewRays c q s
      (getRay c s.heap q).adjacentRays) → s.heap.length ≤ n ∧ n < sw1.1.heap.length := by
    intro n hn
    rw [List.mem_range'_1] at hn
    omega
  have hMn : ∀ a ∈ Mn, a ∈ (getRay c s.heap q).adjacentRays
      ∧ (getRay c s.heap a).visitingStep ≠ s.step ∧ seenDiscrepancy c s a < -c.zerotol :=
    fun a ha => (m5 a).mp ha
  have hZn : ∀ a ∈ Zn, a ∈ (getRay c s.heap q).adjacentRays
      ∧ (getRay c s.heap a).visitingStep ≠ s.step
      ∧ -c.zerotol ≤ seenDiscrepancy c s a ∧ seenDiscrepancy c s a ≤ c.zerotol :=
    fun a ha => (m6 a).mp ha
  have hqueued : ∀ r ∈ E, (getRay c sw1.1.heap r).visitingStep = sw1.1.step →
      ¬ c.zerotol < (getRay c sw1.1.heap r).pivotDiscrepancy →
      r ∈ sw1.2.minusRays ∨ r ∈ sw1.2.zeroRays := by
    intro r hr hv hp
    rw [m1, m2, List.mem_append, List.mem_append]
    by_cases hv0 : (getRay c s.heap r).visitingStep = s.step
    · rw [(hvis r (hElt r hr) hv0).2] at hp
      rcases hinv.queued r hr hv0 hp with h | h
      · exact Or.inl (Or.inl h)
      · exact Or.inr (Or.inl h)
    · by_cases hrL : r ∈ (getRay c s.heap q).adjacentRays
      · rw [(hLs r hrL).2] at hp
        by_cases hlt : seenDiscrepancy c s r < -c.zerotol
        · exact Or.inl (Or.inr ((m5 r).mpr ⟨hrL, hv0, hlt⟩))
        · exact Or.inr (Or.inr ((m6 r).mpr ⟨hrL, hv0, by omega, by omega⟩))
      · rw [(hnL r (hElt r hr) hrL).1, hstep] at hv
        exact absurd hv hv0
  refine ⟨?_, e1, ⟨Mn, m1⟩, ⟨Zn, m2⟩⟩
  refine
    { heapLen := ?_, newRays := ?_, validE := hinv.validE, nodupM := ?_, nodupZ := ?_,
      classM := ?_, classZ := ?_, queued := hqueued, unvisited := ?_, doneQ := ?_,
      adjNodup := ?_, newAdj := ?_, newRay := ?_, doneM := ?_, doneZ := ?_, openAdj := ?_,
      assigned := ?_, assignee := ?_ }
  · rw [e3, e4, List.length_append, List.length_range', hh]
    omega
  · rw [e4, List.length_append, List.length_range']
    conv_lhs => rw [hinv.newRays, hh]
    exact range_succ_append _ _ _
  · rw [m1]
    refine List.nodup_append.mpr ⟨hinv.nodupM, m3, ?_⟩
    intro a h1 h2
    exact (hMn a h2).2.1 (hinv.classM a h1).2.1
  · rw [m2]
    refine List.nodup_append.mpr ⟨hinv.nodupZ, m4, ?_⟩
    intro a h1 h2
    exact (hZn a h2).2.1 (hinv.classZ a h1).2.1
  · intro r hr
    rw [m1, List.mem_append] at hr
    rw [hstep]
    rcases hr with h | h
    · obtain ⟨a, b, d⟩ := hinv.classM r h
      obtain ⟨v1, v2⟩ := hvis r (hElt r a) b
      exact ⟨a, v1, by rw [v2]; exact d⟩
    · obtain ⟨a, _, d⟩ := hMn r h
      exact ⟨(hL r a).2.1, (hLs r a).1, by rw [(hLs r a).2]; exact d⟩
  · intro r hr
    rw [m2, List.mem_append] at hr
    rw [hstep]
    rcases hr with h | h
    · obtain ⟨a, b, d1, d2⟩ := hinv.classZ r h
      obtain ⟨v1, v2⟩ := hvis r (hElt r a) b
      exact ⟨a, v1, by rw [v2]; exact d1, by rw [v2]; exact d2⟩
    · obtain ⟨a, _, d1, d2⟩ := hZn r h
      exact ⟨(hL r a).2.1, (hLs r a).1, by rw [(hLs r a).2]; exact d1,
        by rw [(hLs r a).2]; exact d2⟩
  · intro r hr hv
    rw [hstep] at hv ⊢
    have hrL : r ∉ (getRay c s.heap q).adjacentRays := fun h => hv (hLs r h).1
    obtain ⟨v1, v2⟩ := hnL r (hElt r hr) hrL
    rw [v1, v2]
    rw [v1] at hv
    exact hinv.unvisited r hr hv
  · intro r hr
    rw [m1, m2, List.mem_append, List.mem_append]
    rcases hr with h | h
    · rcases hinv.doneQ r h with h1 | h1
      · exact Or.inl (Or.inl h1)
      · exact Or.inr (Or.inl h1)
    · rw [h]
      rcases hq with h1 | h1
      · exact Or.inl (Or.inl h1)
      · exact Or.inr (Or.inl h1)
  · -- no repetition in the adjacency lists
    intro r hr
    rw [e4, List.mem_append] at hr
    by_cases hrq : r = q
    · rw [hrq]
      exact e2.nodup_iff.mpr (hLnd.filter _)
    · rcases hr with hr | hr | hr
      · rcases hG r (hElt r hr) hrq with h | ⟨n, n1, _, _, _, n5, h, _⟩
        · rw [h]
          exact hinv.adjNodup r (Or.inl hr)
        · rw [h]
          apply nodup_replaceFirst q n _ (hinv.adjNodup r (Or.inl hr))
          intro hn
          have hnd2 : ¬ done r := fun hd => hqueueSeen r (hinv.doneQ r hd) n5
          rcases (hinv.openAdj r hr hnd2 n hn).2.1 with h3 | h3
          · have := hElt n h3
            omega
          · have := (hNge n h3).2
            omega
      · have hrlt := (hNge r hr).2
        rcases hG r hrlt hrq with h | ⟨n, _, _, n3, _⟩
        · rw [h]
          exact hinv.adjNodup r (Or.inr hr)
        · exact absurd hr (hEN r (hL r n3).2.1)
      · obtain ⟨j, _, _, _, _, j5, _⟩ := p2 r (hnewN r hr).1 (hnewN r hr).2
        rw [j5]
        exact List.nodup_singleton j
  · -- the new rays
    intro n hn
    rw [e4, List.mem_append] at hn
    rcases hn with hn | hn
    · obtain ⟨a, a1, a2, a3, a4⟩ := hinv.newAdj n hn
      have hnlt := (hNge n hn).2
      have hnq : n ≠ q := fun h => hEN q hqE (h ▸ hn)
      have hnotL : n ∉ (getRay c s.heap q).adjacentRays := fun h => hEN n (hL n h).2.1 hn
      have haq : a ≠ q := fun h => hplusQ q (h ▸ a3) hq
      refine ⟨a, ?_, a2, hplus1 a (hElt a a2) a3, hGmem a n (hElt a a2) haq a4 hnq⟩
      rw [(e6 n hnlt).2.2.2.2.2.2 hnq hnotL]
      exact a1
    · obtain ⟨j, j1, j2, j3, j4, j5, _⟩ := p2 n (hnewN n hn).1 (hnewN n hn).2
      refine ⟨j, j5, (hL j j1).2.1, hplusL j j1 j3, ?_⟩
      rw [j4]
      exact mem_replaceFirst_of_mem q n _ (hLback j j1 j3)
  · intro n hn
    rw [e4, List.mem_append] at hn
    rw [hstep]
    rcases hn with hn | hn
    · have hnlt := (hNge n hn).2
      have hnotL : n ∉ (getRay c s.heap q).adjacentRays := fun h => hEN n (hL n h).2.1 hn
      obtain ⟨v1, v2⟩ := hnL n hnlt hnotL
      rw [v1, v2]
      exact hinv.newRay n hn
    · obtain ⟨j, _, _, _, _, _, j6, j7, _⟩ := p2 n (hnewN n hn).1 (hnewN n hn).2
      exact ⟨j6, j7⟩
  · -- the minus rays that are done
    intro r hr hd a ha
    have hrM : r ∈ w.minusRays := by
      rw [m1, List.mem_append] at hr
      rcases hr with h | h
      · exact h
      · exfalso
        have hunv := (hMn r h).2.1
        rcases hd with hd | hd
        · exact hunv (hQE r (hinv.doneQ r hd)).2.1
        · exact hunv (hd ▸ hqvis)
    by_cases hrq : r = q
    · subst hrq
      have haL := (List.mem_filter.mp (e2.mem_iff.mp ha))
      obtain ⟨haL1, haL2⟩ := haL
      have hp : c.zerotol < seenDiscrepancy c s a := of_decide_eq_true haL2
      have hm := (hinv.classM r hrM).2.2
      refine ⟨(hL a haL1).2.1, hplusL a haL1 hp, ?_⟩
      obtain ⟨n, n1, _, n3, _⟩ := p1 a haL1 hm hp
      rw [n3]
      exact not_mem_replaceFirst r n (by omega) _ (hinv.adjNodup a (Or.inl (hL a haL1).2.1))
    · have hd0 : done r := by
        rcases hd with hd | hd
        · exact hd
        · exact absurd hd hrq
      rw [hQ1 r (Or.inl hrM) hrq] at ha
      obtain ⟨b1, b2, b3⟩ := hinv.doneM r hrM hd0 a ha
      have haq : a ≠ q := fun h => hplusQ q (h ▸ b2) hq
      refine ⟨b1, hplus1 a (hElt a b1) b2, ?_⟩
      intro h
      exact b3 (hGold a r (hElt a b1) haq h (hElt r (hQE r (Or.inl hrM)).1))
  · -- the zero rays that are done
    intro r hr hd a ha
    have hrZ : r ∈ w.zeroRays := by
      rw [m2, List.mem_append] at hr
      rcases hr with h | h
      · exact h
      · exfalso
        have hunv := (hZn r h).2.1
        rcases hd with hd | hd
        · exact hunv (hQE r (hinv.doneQ r hd)).2.1
        · exact hunv (hd ▸ hqvis)
    by_cases hrq : r = q
    · subst hrq
      have haL := (List.mem_filter.mp (e2.mem_iff.mp ha))
      obtain ⟨haL1, haL2⟩ := haL
      have hp : c.zerotol < seenDiscrepancy c s a := of_decide_eq_true haL2
      have hm := (hinv.classZ r hrZ).2.2.1
      refine ⟨(hL a haL1).2.1, hplusL a haL1 hp, ?_⟩
      rw [p3 a haL1 (fun h => by omega)]
      exact hLback a haL1 hp
    · have hd0 : done r := by
        rcases hd with hd | hd
        · exact hd
        · exact absurd hd hrq
      rw [hQ1 r (Or.inr hrZ) hrq] at ha
      obtain ⟨b1, b2, b3⟩ := hinv.doneZ r hrZ hd0 a ha
      have haq : a ≠ q := fun h => hplusQ q (h ▸ b2) hq
      exact ⟨b1, hplus1 a (hElt a b1) b2, hGmem a r (hElt a b1) haq b3 hrq⟩
  · -- the rays that are not done
    intro r hr hd a ha
    have hd0 : ¬ done r := fun h => hd (Or.inl h)
    have hrq : r ≠ q := fun h => hd (Or.inr h)
    have hrlt := hElt r hr
    rw [e4, m1, m2]
    simp only [List.mem_append]
    rcases hG r hrlt hrq with h | ⟨n, n1, n2, n3, n4, n5, h, n7⟩
    · rw [h] at ha
      obtain ⟨o1, o2, o3⟩ := hinv.openAdj r hr hd0 a ha
      refine ⟨o1, ?_, ?_⟩
      · rcases o2 with h2 | h2
        · exact Or.inl h2
        · exact Or.inr (Or.inl h2)
      · by_cases haq : a = q
        · subst haq
          have hrL : r ∈ (getRay c s.heap a).adjacentRays := by
            rcases o3 with h3 | h3
            · exact h3
            · exact absurd h3.1 hnd
          by_cases hp : c.zerotol < seenDiscrepancy c s r
          · left
            apply e2.mem_iff.mpr
            exact List.mem_filter.mpr ⟨hrL, decide_eq_true hp⟩
          · right
            refine ⟨Or.inr rfl, ?_⟩
            have := hqueued r hr ((hLs r hrL).1.trans hstep.symm)
              (by rw [(hLs r hrL).2]; exact hp)
            rw [m1, m2, List.mem_append, List.mem_append] at this
            exact this
        · rcases o3 with h3 | h3
          · left
            have halt : a < s.heap.length := by
              rcases o2 with h2 | h2
              · exact hElt a h2
              · exact (hNge a h2).2
            exact hGmem a r halt haq h3 hrq
          · right
            refine ⟨Or.inl h3.1, ?_⟩
            rcases h3.2 with h4 | h4
            · exact Or.inl (Or.inl h4)
            · exact Or.inr (Or.inl h4)
    · rw [h] at ha
      have hnlt : ¬ (r ∈ w.minusRays ∨ r ∈ w.zeroRays) := fun hr2 => hqueueSeen r hr2 n5
      rcases mem_replaceFirst q n _ a ha with h2 | h2
      · have haq : a ≠ q := by
          intro haq
          rw [haq] at ha
          exact not_mem_replaceFirst q n (by omega) _ (hinv.adjNodup r (Or.inl hr)) ha
        obtain ⟨o1, o2, o3⟩ := hinv.openAdj r hr hd0 a h2
        refine ⟨o1, ?_, ?_⟩
        · rcases o2 with h3 | h3
          · exact Or.inl h3
          · exact Or.inr (Or.inl h3)
        · left
          rcases o3 with h3 | h3
          · have halt : a < s.heap.length := by
              rcases o2 with h4 | h4
              · exact hElt a h4
              · exact (hNge a h4).2
            exact hGmem a r halt haq h3 hrq
          · exact absurd h3.2 hnlt
      · subst h2
        refine ⟨by omega, Or.inr (Or.inr ?_), Or.inl ?_⟩
        · rw [List.mem_range'_1]
          omega
        · rw [n7]
          exact List.mem_singleton.mpr rfl
  · -- the assigned inequalities are violated
    intro r hr j hj
    by_cases hrlt : r < s.heap.length
    · obtain ⟨f1, f2, _⟩ := e6 r hrlt
      rw [f2] at hj
      rw [computeDiscrepancy_congr c _ _ j f1]
      exact hinv.assigned r hrlt j hj
    · obtain ⟨_, _, _, _, _, _, _, _, j8⟩ := p2 r (by omega) hr
      rw [j8] at hj
      cases hj
  · intro idx r hidx
    have ha : sw1.1.assigneeRays = s.assigneeRays := by rw [e1]
    rw [ha] at hidx
    obtain ⟨a1, a2⟩ := hinv.assignee idx r hidx
    refine ⟨a1, ?_⟩
    rw [(e6 r (hElt r a1)).2.1]
    exact a2

end DDM

namespace DDM

open Utils

theorem travInv_congr {S : Type} (c : Context S) (E : List Nat) (h0 : Nat) (s : State S)
    (M Z N : List Nat) (done done1 : Nat → Prop) (h : ∀ x, done x ↔ done1 x)
    (hinv : TravInv c E h0 s M Z N done) : TravInv c E h0 s M Z N done1 := by
  have : done = done1 := funext (fun x => propext (h x))
  rw [← this]
  exact hinv

theorem take_succ_getElem {α : Type} (v : List α) (i : Nat) (hi : i < v.length) :
    v.take (i + 1) = v.take i ++ [v[i]] := by
  rw [List.take_succ, List.getElem?_eq_getElem hi]
  rfl

theorem not_mem_take_of_nodup (v : List Nat) (i : Nat) (hi : i < v.length) (h : v.Nodup) :
    v[i] ∉ v.take i := by
  obtain ⟨hv, _⟩ := Vector.split_at v i hi
  rw [hv] at h
  intro hm
  have := (List.nodup_append.mp h).2.2
  exact this hm (List.mem_cons_self _ _)

/-- The traversal loop of `classifyRays` keeps the invariant of the
traversal; when it ends, every ray of `minusRays` and `zeroRays` is done. -/
theorem classifyLoop_travInv {S : Type} (c : Context S) (heps : 0 ≤ c.zerotol) (E : List Nat)
    (h0 : Nat) :
    ∀ (fuel mi zi : Nat) (sw sw3 : State S × WorkLists),
      TravInv c E h0 sw.1 sw.2.minusRays sw.2.zeroRays sw.2.newRays
        (fun x => x ∈ sw.2.minusRays.take mi ∨ x ∈ sw.2.zeroRays.take zi) →
      mi ≤ sw.2.minusRays.length → zi ≤ sw.2.zeroRays.length →
      classifyLoop c fuel mi zi sw = some sw3 →
      TravInv c E h0 sw3.1 sw3.2.minusRays sw3.2.zeroRays sw3.2.newRays
        (fun x => x ∈ sw3.2.minusRays ∨ x ∈ sw3.2.zeroRays)
      ∧ sw3.1 = { sw.1 with heap := sw3.1.heap } := by
  intro fuel
  have hend : ∀ (mi zi : Nat) (sw : State S × WorkLists),
      TravInv c E h0 sw.1 sw.2.minusRays sw.2.zeroRays sw.2.newRays
        (fun x => x ∈ sw.2.minusRays.take mi ∨ x ∈ sw.2.zeroRays.take zi) →
      ¬ mi < sw.2.minusRays.length → ¬ zi < sw.2.zeroRays.length →
      TravInv c E h0 sw.1 sw.2.minusRays sw.2.zeroRays sw.2.newRays
        (fun x => x ∈ sw.2.minusRays ∨ x ∈ sw.2.zeroRays) := by
    intro mi zi sw hinv h1 h2
    apply travInv_congr c E h0 sw.1 _ _ _ _ _ _ hinv
    intro x
    rw [List.take_of_length_le (by omega), List.take_of_length_le (by omega)]
  induction fuel with
  | zero =>
    intro mi zi sw sw3 hinv hmi hzi hc
    unfold classifyLoop at hc
    split_ifs at hc with h
    simp only [Option.some.injEq] at hc
    subst hc
    exact ⟨hend mi zi sw hinv (fun h1 => h (Or.inl h1)) (fun h1 => h (Or.inr h1)), rfl⟩
  | succ fuel ih =>
    intro mi zi sw sw3 hinv0 hmi0 hzi0 hc
    obtain ⟨s, w⟩ := sw
    have hinv : TravInv c E h0 s w.minusRays w.zeroRays w.newRays
        (fun x => x ∈ w.minusRays.take mi ∨ x ∈ w.zeroRays.take zi) := hinv0
    have hmi : mi ≤ w.minusRays.length := hmi0
    have hzi : zi ≤ w.zeroRays.length := hzi0
    clear hinv0 hmi0 hzi0
    unfold classifyLoop at hc
    simp only at hc
    by_cases h1 : mi < w.minusRays.length
    · rw [if_pos h1] at hc
      have hqe : w.minusRays.getD mi 0 = w.minusRays[mi] := List.getD_eq_getElem _ _ h1
      rw [hqe] at hc
      have hqM : w.minusRays[mi] ∈ w.minusRays := List.getElem_mem _
      have hnd : ¬ (w.minusRays[mi] ∈ w.minusRays.take mi
          ∨ w.minusRays[mi] ∈ w.zeroRays.take zi) := by
        intro h
        rcases h with h | h
        · exact not_mem_take_of_nodup _ mi h1 hinv.nodupM h
        · have a1 := (hinv.classM _ hqM).2.2
          have a2 := (hinv.classZ _ (List.mem_of_mem_take h)).2.2.1
          omega
      obtain ⟨t1, t2, ⟨Mn, t3⟩, ⟨Zn, t4⟩⟩ :=
        travInv_searchAdj c heps E h0 s w _ w.minusRays[mi] hinv (Or.inl hqM) hnd
      generalize searchAdj c w.minusRays[mi] (s, w) = sw1 at t1 t2 t3 t4 hc
      have hinv1 : TravInv c E h0 sw1.1 sw1.2.minusRays sw1.2.zeroRays sw1.2.newRays
          (fun x => x ∈ sw1.2.minusRays.take (mi + 1) ∨ x ∈ sw1.2.zeroRays.take zi) := by
        apply travInv_congr c E h0 sw1.1 _ _ _ _ _ _ t1
        intro x
        rw [t3, t4, List.take_append_of_le_length (by omega),
          List.take_append_of_le_length hzi, take_succ_getElem _ mi h1, List.mem_append,
          List.mem_singleton]
        tauto
      obtain ⟨r1, r2⟩ := ih (mi + 1) zi sw1 sw3 hinv1
        (by rw [t3, List.length_append]; omega) (by rw [t4, List.length_append]; omega) hc
      exact ⟨r1, r2.trans (state_frame_heap s sw1.1 _ t2)⟩
    · rw [if_neg h1] at hc
      by_cases h2 : zi < w.zeroRays.length
      · rw [if_pos h2] at hc
        have hqe : w.zeroRays.getD zi 0 = w.zeroRays[zi] := List.getD_eq_getElem _ _ h2
        rw [hqe] at hc
        have hqZ : w.zeroRays[zi] ∈ w.zeroRays := List.getElem_mem _
        have hnd : ¬ (w.zeroRays[zi] ∈ w.minusRays.take mi
            ∨ w.zeroRays[zi] ∈ w.zeroRays.take zi) := by
          intro h
          rcases h with h | h
          · have a1 := (hinv.classM _ (List.mem_of_mem_take h)).2.2
            have a2 := (hinv.classZ _ hqZ).2.2.1
            omega
          · exact not_mem_take_of_nodup _ zi h2 hinv.nodupZ h
        obtain ⟨t1, t2, ⟨Mn, t3⟩, ⟨Zn, t4⟩⟩ :=
          travInv_searchAdj c heps E h0 s w _ w.zeroRays[zi] hinv (Or.inr hqZ) hnd
        generalize searchAdj c w.zeroRays[zi] (s, w) = sw1 at t1 t2 t3 t4 hc
        have hmi2 : mi = w.minusRays.length := by
          have : mi ≤ w.minusRays.length := hmi
          omega
        have hinv1 : TravInv c E h0 sw1.1 sw1.2.minusRays sw1.2.zeroRays sw1.2.newRays
            (fun x => x ∈ sw1.2.minusRays.take mi ∨ x ∈ sw1.2.zeroRays.take (zi + 1)) := by
          apply travInv_congr c E h0 sw1.1 _ _ _ _ _ _ t1
          intro x
          rw [t3, t4, List.take_append_of_le_length hmi,
            List.take_append_of_le_length (by omega), take_succ_getElem _ zi h2,
            List.mem_append, List.mem_singleton]
          tauto
        obtain ⟨r1, r2⟩ := ih mi (zi + 1) sw1 sw3 hinv1
          (by rw [t3, List.length_append]; omega) (by rw [t4, List.length_append]; omega) hc
        exact ⟨r1, r2.trans (state_frame_heap s sw1.1 _ t2)⟩
      · rw [if_neg h2] at hc
        simp only [Option.some.injEq] at hc
        subst hc
        exact ⟨hend mi zi (s, w) hinv h1 h2, rfl⟩

end DDM

namespace DDM

open Utils

/-- The pivot chosen by `next` is an extreme ray whose discrepancy on the
pivot inequality is below `-zerotol`; `next` changes the step counter, the
pivot and the stored discrepancy of the pivot ray only. -/
theorem next_spec {S : Type} (c : Context S) (s s1 : State S) (hinv : SymInv c s)
    (hn : next c s = some s1) :
    s1.pivotRay ∈ s.extremeRays
    ∧ ∃ d : Int, d < -c.zerotol
      ∧ s1 = { s with
          step := s.step + 1, pivotRay := s1.pivotRay,
          pivotInequalityIdx := s1.pivotInequalityIdx,
          heap := s.heap.set s1.pivotRay
            { getRay c s.heap s1.pivotRay with pivotDiscrepancy := d } } := by
  unfold next at hn
  split_ifs at hn with hq
  · cases hf : s.extremeRays.find?
        (fun r => (getRay c s.heap r).assignedInequalities.length ≠ 0) with
    | none => rw [hf] at hn; cases hn
    | some pr =>
      rw [hf] at hn
      have hpr : pr ∈ s.extremeRays := List.mem_of_find?_eq_some hf
      simp only at hn
      split at hn
      · cases hn
      · rename_i i0 rest ha
        simp only [Option.some.injEq] at hn
        obtain ⟨pre1, post1, b1, b2, _, _⟩ := argminFold_spec
          (fun j => computeDiscrepancy c (getRay c s.heap pr) j) rest [] [] i0
          (fun j hj => absurd hj (List.not_mem_nil _))
          (fun j hj => absurd hj (List.not_mem_nil _))
        have hmem : (rest.foldl
            (fun (acc : Nat × Int) j =>
              if computeDiscrepancy c (getRay c s.heap pr) j < acc.2
              then (j, computeDiscrepancy c (getRay c s.heap pr) j) else acc)
            (i0, computeDiscrepancy c (getRay c s.heap pr) i0)).1
              ∈ (getRay c s.heap pr).assignedInequalities := by
          rw [ha]
          have h1 : i0 :: rest = [] ++ i0 :: [] ++ rest := by simp
          rw [h1, b1]
          simp
        have hd := hinv.assigned pr (hinv.valid pr hpr) _ hmem
        rw [← hn]
        refine ⟨hpr, _, ?_, rfl⟩
        rw [b2]
        exact hd
  · cases hsc : scanPivot c.ops.idxBits s.assigneeRays (s.assigneeRays.length + 1)
        s.pivotInequalityIdx with
    | none => rw [hsc] at hn; cases hn
    | some p =>
      obtain ⟨idx, pr⟩ := p
      rw [hsc] at hn
      simp only [Option.some.injEq] at hn
      have hget := scanPivot_spec _ _ _ _ _ _ hsc
      rw [List.get?_eq_getElem?] at hget
      obtain ⟨hpr, hidx⟩ := hinv.assignee idx pr hget
      have hd := hinv.assigned pr (hinv.valid pr hpr) idx hidx
      rw [← hn]
      exact ⟨hpr, _, hd, rfl⟩

/-- The traversal of `classifyRays` starts in a state that satisfies the
invariant of the traversal, with the pivot ray as the only entry of
`minusRays` and nothing done. -/
theorem classifyStart_travInv {S : Type} (c : Context S) (s : State S)
    (sw : State S × WorkLists) (hinv : SymInv c s) (hs : classifyStart c s = some sw) :
    TravInv c s.extremeRays s.heap.length sw.1 sw.2.minusRays sw.2.zeroRays sw.2.newRays
      (fun x => x ∈ sw.2.minusRays.take 0 ∨ x ∈ sw.2.zeroRays.take 0)
    ∧ sw.1.extremeRays = s.extremeRays ∧ sw.1.step = s.step + 1
    ∧ sw.1.assigneeRays = s.assigneeRays
    ∧ sw.1.heap.length = s.heap.length := by
  unfold classifyStart at hs
  cases hn : next c s with
  | none => rw [hn] at hs; cases hs
  | some s1 =>
    rw [hn] at hs
    simp only [Option.some.injEq] at hs
    obtain ⟨hp, d, hd, hs1⟩ := next_spec c s s1 hinv hn
    have hplt := hinv.valid _ hp
    generalize s1.pivotRay = p at hp hs1 hs hplt
    generalize s1.pivotInequalityIdx = piv at hs1
    subst hs1
    subst hs
    simp only
    have hlen1 : (s.heap.set p { getRay c s.heap p with pivotDiscrepancy := d }).length
        = s.heap.length := List.length_set _ _ _
    -- the rays of the start state
    have hp2 : ∀ (f : Ray S → Ray S) (j : Nat),
        getRay c ((s.heap.set p { getRay c s.heap p with pivotDiscrepancy := d }).set p
          (f (getRay c (s.heap.set p { getRay c s.heap p with pivotDiscrepancy := d }) p))) j
        = if j = p then f { getRay c s.heap p with pivotDiscrepancy := d }
          else getRay c s.heap j := by
      intro f j
      by_cases hj : j = p
      · rw [if_pos hj, hj, getRay_set_self c _ p _ (by rw [hlen1]; exact hplt),
          getRay_set_self c _ p _ hplt]
      · rw [if_neg hj, getRay_set_ne c _ p j _ hj, getRay_set_ne c _ p j _ hj]
    have hray := hp2 (fun r => { r with visitingStep := s.step + 1 })
    simp only at hray
    refine ⟨?_, trivial, trivial, trivial, by simp⟩
    apply travInv_congr c _ _ _ _ _ _ (fun _ => False)
    · intro x
      simp
    refine
      { heapLen := by simp, newRays := rfl, validE := hinv.valid,
        nodupM := List.nodup_singleton _, nodupZ := List.nodup_nil, classM := ?_,
        classZ := fun r hr => absurd hr (List.not_mem_nil _), queued := ?_, unvisited := ?_,
        doneQ := fun r hr => absurd hr id, adjNodup := ?_,
        newAdj := fun r hr => absurd hr (List.not_mem_nil _),
        newRay := fun r hr => absurd hr (List.not_mem_nil _),
        doneM := fun r _ hr => absurd hr id, doneZ := fun r _ hr => absurd hr id,
        openAdj := ?_, assigned := ?_, assignee := ?_ }
    · intro r hr
      rw [List.mem_singleton] at hr
      subst hr
      rw [hray, if_pos rfl]
      exact ⟨hp, rfl, hd⟩
    · intro r hr hv _
      rw [hray] at hv
      by_cases hrp : r = p
      · exact Or.inl (List.mem_singleton.mpr hrp)
      · rw [if_neg hrp] at hv
        have := hinv.vs r hr
        simp only at hv
        omega
    · intro r hr hv
      rw [hray] at hv ⊢
      by_cases hrp : r = p
      · rw [if_pos hrp] at hv
        exact absurd rfl hv
      · rw [if_neg hrp]
        have := hinv.vs r hr
        exact ⟨hinv.pd r hr, by simp only; omega⟩
    · intro r hr
      rcases hr with hr | hr
      · rw [hray]
        split_ifs with hrp
        · rw [← hrp]
          exact hinv.adjNodup r hr
        · exact hinv.adjNodup r hr
      · cases hr
    · intro r hr _ a ha
      have har : (getRay c s.heap r).adjacentRays
          = (if r = p then ({ getRay c s.heap p with
              pivotDiscrepancy := d, visitingStep := s.step + 1 } : Ray S)
            else getRay c s.heap r).adjacentRays := by
        split_ifs with hrp
        · rw [hrp]
        · rfl
      rw [hray, ← har] at ha
      obtain ⟨a1, a2, a3⟩ := hinv.adj r hr a ha
      refine ⟨a2, Or.inl a1, Or.inl ?_⟩
      rw [hray]
      split_ifs with hap
      · rw [← hap]
        exact a3
      · exact a3
    · intro r hr j hj
      rw [hray] at hj ⊢
      simp only [List.length_set] at hr
      split_ifs at hj ⊢ with hrp
      · rw [← hrp] at hj ⊢
        exact hinv.assigned r hr j hj
      · exact hinv.assigned r hr j hj
    · intro idx r hidx
      obtain ⟨a1, a2⟩ := hinv.assignee idx r hidx
      refine ⟨a1, ?_⟩
      rw [hray]
      split_ifs with hrp
      · rw [← hrp]
        exact a2
      · exact a2

end DDM

namespace DDM

open Utils

theorem partitionFrame_refl {S : Type} (c : Context S) (rays : List Nat) (s3 : State S)
    (h : ∀ r, r < s3.heap.length → ∀ j ∈ (getRay c s3.heap r).assignedInequalities,
      computeDiscrepancy c (getRay c s3.heap r) j < -c.zerotol) :
    PartitionFrame c rays s3 s3 :=
  ⟨rfl, rfl, rfl, fun _ => ⟨rfl, rfl, rfl, rfl⟩, fun _ _ => rfl, fun _ _ h => h, h⟩

/-- One call of `assignIne` keeps what `partitionInes` keeps. -/
theorem assignIne_partitionFrame {S : Type} (c : Context S) (rays : List Nat)
    (s3 t : State S) (touched : List Nat) (ineIdx : Nat)
    (hr : ∀ r ∈ rays, r < s3.heap.length)
    (hF : PartitionFrame c rays s3 t) (hG : AssigneeTrack c rays s3 t touched) :
    PartitionFrame c rays s3 (assignIne c t ineIdx rays)
    ∧ AssigneeTrack c rays s3 (assignIne c t ineIdx rays) (touched ++ [ineIdx]) := by
  obtain ⟨f1, f2, f3, f4, f5, f6, f7⟩ := hF
  cases hf : findViolator c t.heap ineIdx rays with
  | none =>
    obtain ⟨n1, n2, _, _, n5⟩ := assignIne_none_fields c t ineIdx rays hf
    have n6 : (assignIne c t ineIdx rays).step = t.step := by
      unfold assignIne
      rw [hf]
    refine ⟨⟨by rw [n1]; exact f1, n5.trans f2, n6.trans f3, by rw [n1]; exact f4,
      by rw [n1]; exact f5, by rw [n1]; exact f6, by rw [n1]; exact f7⟩, ?_⟩
    intro idx r hidx
    rw [n1]
    rw [n2] at hidx
    by_cases hi : idx = ineIdx
    · exfalso
      subst hi
      by_cases hlt : idx < t.assigneeRays.length
      · rw [List.getElem?_set_self hlt] at hidx
        simp at hidx
      · rw [List.getElem?_eq_none (by rw [List.length_set]; omega)] at hidx
        cases hidx
    · rw [List.getElem?_set_ne (fun h => hi h.symm)] at hidx
      obtain ⟨g1, g2⟩ := hG idx r hidx
      refine ⟨g1, ?_⟩
      rcases g2 with g2 | g2
      · exact Or.inl g2
      · exact Or.inr ⟨by simp [g2.1, hi], g2.2⟩
  | some v =>
    obtain ⟨before, after, hv1, _, hv3⟩ := (findViolator_eq_some c t.heap ineIdx rays v).mp hf
    have hvr : v ∈ rays := by
      rw [hv1]
      simp
    have hvlt : v < t.heap.length := by
      rw [f1]
      exact hr v hvr
    rw [assignIne_of_some c t ineIdx rays v hf]
    have hray : ∀ j, getRay c (t.heap.set v
        { getRay c t.heap v with
          assignedInequalities := (getRay c t.heap v).assignedInequalities ++ [ineIdx] }) j
        = if j = v then
            { getRay c t.heap v with
              assignedInequalities := (getRay c t.heap v).assignedInequalities ++ [ineIdx] }
          else getRay c t.heap j := by
      intro j
      by_cases hj : j = v
      · rw [if_pos hj, hj, getRay_set_self c _ v _ hvlt]
      · rw [if_neg hj, getRay_set_ne c _ v j _ hj]
    refine ⟨⟨by simp [f1], f2, f3, ?_, ?_, ?_, ?_⟩, ?_⟩
    · intro j
      simp only
      rw [hray]
      split_ifs with hj
      · rw [hj]
        exact f4 v
      · exact f4 j
    · intro j hj
      simp only
      rw [hray, if_neg (fun h => hj (by rw [h]; exact hvr))]
      exact f5 j hj
    · intro j x hx
      simp only
      rw [hray]
      split_ifs with hj
      · rw [hj] at hx
        exact List.mem_append_left _ (f6 v x hx)
      · exact f6 j x hx
    · intro r hrlt j hj
      simp only at hj ⊢
      rw [hray] at hj ⊢
      simp only [List.length_set] at hrlt
      split_ifs at hj ⊢ with hrv
      · rcases List.mem_append.mp hj with h | h
        · exact f7 v hvlt j h
        · rw [List.mem_singleton] at h
          rw [h]
          exact hv3
      · exact f7 r hrlt j hj
    · intro idx r hidx
      simp only at hidx ⊢
      rw [hray]
      by_cases hi : idx = ineIdx
      · subst hi
        by_cases hlt : idx < t.assigneeRays.length
        · rw [List.getElem?_set_self hlt] at hidx
          simp only [Option.some.injEq] at hidx
          subst hidx
          rw [if_pos rfl]
          exact ⟨List.mem_append_right _ (List.mem_singleton.mpr rfl), Or.inl hvr⟩
        · rw [List.getElem?_eq_none (by rw [List.length_set]; omega)] at hidx
          cases hidx
      · rw [List.getElem?_set_ne (fun h => hi h.symm)] at hidx
        obtain ⟨g1, g2⟩ := hG idx r hidx
        refine ⟨?_, ?_⟩
        · split_ifs with hrv
          · rw [hrv] at g1
            exact List.mem_append_left _ g1
          · exact g1
        · rcases g2 with g2 | g2
          · exact Or.inl g2
          · exact Or.inr ⟨by simp [g2.1, hi], g2.2⟩

theorem foldl_assignIne_partitionFrame {S : Type} (c : Context S) (rays : List Nat)
    (s3 : State S) (hr : ∀ r ∈ rays, r < s3.heap.length) :
    ∀ (inds : List Nat) (t : State S) (touched : List Nat),
      PartitionFrame c rays s3 t → AssigneeTrack c rays s3 t touched →
      PartitionFrame c rays s3 (inds.foldl (fun s2 ine => assignIne c s2 ine rays) t)
      ∧ AssigneeTrack c rays s3 (inds.foldl (fun s2 ine => assignIne c s2 ine rays) t)
          (touched ++ inds) := by
  intro inds
  induction inds with
  | nil =>
    intro t touched hF hG
    rw [List.append_nil]
    exact ⟨hF, hG⟩
  | cons i is ih =>
    intro t touched hF hG
    obtain ⟨a1, a2⟩ := assignIne_partitionFrame c rays s3 t touched i hr hF hG
    have := ih (assignIne c t i rays) (touched ++ [i]) a1 a2
    rw [List.append_assoc] at this
    exact this

/-- The effect of `partitionInes(minusRays, rays)` when no minus ray is in
`rays`: the inequalities handled are those assigned to the minus rays. -/
theorem partitionInes_partitionFrame {S : Type} (c : Context S) (rays : List Nat)
    (s3 : State S) (hr : ∀ r ∈ rays, r < s3.heap.length) :
    ∀ (minusRays : List Nat) (t : State S) (touched : List Nat),
      (∀ m ∈ minusRays, m ∉ rays) →
      PartitionFrame c rays s3 t → AssigneeTrack c rays s3 t touched →
      PartitionFrame c rays s3 (partitionInes c t minusRays rays)
      ∧ AssigneeTrack c rays s3 (partitionInes c t minusRays rays)
          (touched ++ minusRays.flatMap
            (fun m => (getRay c s3.heap m).assignedInequalities)) := by
  intro minusRays
  unfold partitionInes
  induction minusRays with
  | nil =>
    intro t touched _ hF hG
    simp only [List.foldl_nil, List.flatMap_nil, List.append_nil]
    exact ⟨hF, hG⟩
  | cons m ms ih =>
    intro t touched hm hF hG
    simp only [List.foldl_cons, List.flatMap_cons]
    have hmr : m ∉ rays := hm m (List.mem_cons_self _ _)
    have hasg : (getRay c t.heap m).assignedInequalities
        = (getRay c s3.heap m).assignedInequalities := hF.2.2.2.2.1 m hmr
    rw [hasg]
    obtain ⟨a1, a2⟩ := foldl_assignIne_partitionFrame c rays s3 hr
      (getRay c s3.heap m).assignedInequalities t touched hF hG
    have := ih _ _ (fun x hx => hm x (List.mem_cons_of_mem _ hx)) a1 a2
    rw [List.append_assoc] at this
    exact this

end DDM

namespace DDM

open Utils

/-- The loop that deletes the minus rays keeps, up to the order, exactly the
entries whose stored discrepancy is not below `-zerotol`. -/
theorem deleteMinusLoop_perm {S : Type} (c : Context S) (heap : List (Ray S)) :
    ∀ (fuel i : Nat) (ex : List Nat), ex.length ≤ i + fuel →
      (deleteMinusLoop c heap fuel i ex).Perm
        (ex.take i ++ (ex.drop i).filter
          (fun r => decide (¬ (getRay c heap r).pivotDiscrepancy < -c.zerotol))) := by
  intro fuel
  induction fuel with
  | zero =>
    intro i ex h
    unfold deleteMinusLoop
    rw [List.drop_eq_nil_of_le (by omega), List.take_of_length_le (by omega)]
    simp
  | succ fuel ih =>
    intro i ex h
    unfold deleteMinusLoop
    cases hget : ex.get? i with
    | none =>
      have hlen : ex.length ≤ i := by
        rw [List.get?_eq_getElem?] at hget
        exact List.getElem?_eq_none_iff.mp hget
      rw [List.drop_eq_nil_of_le hlen, List.take_of_length_le hlen]
      simp
    | some r =>
      rw [List.get?_eq_getElem?] at hget
      obtain ⟨hi, hri⟩ := List.getElem?_eq_some_iff.mp hget
      have hdrop : ex.drop i = r :: ex.drop (i + 1) := by
        rw [List.drop_eq_getElem_cons hi, hri]
      simp only
      rw [hdrop]
      by_cases hm : (getRay c heap r).pivotDiscrepancy < -c.zerotol
      · rw [if_pos hm, List.filter_cons_of_neg (by simp [hm])]
        obtain ⟨t1, t2, t3⟩ := Vector.erase_perm ex i hi
        have hlenE : (Vector.erase ex i).length = ex.length - 1 := by
          rw [t3.length_eq, List.length_append, List.length_take, List.length_drop]
          omega
        refine (ih i (Vector.erase ex i) (by rw [hlenE]; omega)).trans ?_
        rw [t1]
        exact List.Perm.append_left _ (t2.filter _)
      · rw [if_neg hm, List.filter_cons_of_pos (by simp [hm])]
        refine (ih (i + 1) ex (by omega)).trans ?_
        rw [take_succ_getElem ex i hi, hri, List.append_assoc]
        exact List.Perm.refl _

theorem deleteMinusLoop_mem {S : Type} (c : Context S) (heap : List (Ray S)) (ex : List Nat)
    (r : Nat) :
    r ∈ deleteMinusLoop c heap ex.length 0 ex
      ↔ r ∈ ex ∧ ¬ (getRay c heap r).pivotDiscrepancy < -c.zerotol := by
  rw [List.Perm.mem_iff (deleteMinusLoop_perm c heap ex.length 0 ex (by omega))]
  simp

theorem deleteMinusLoop_nodup {S : Type} (c : Context S) (heap : List (Ray S)) (ex : List Nat)
    (h : ex.Nodup) : (deleteMinusLoop c heap ex.length 0 ex).Nodup := by
  apply (deleteMinusLoop_perm c heap ex.length 0 ex (by omega)).nodup_iff.mpr
  simp only [List.take_zero, List.nil_append, List.drop_zero]
  exact h.filter _

end DDM

namespace DDM

open Utils

theorem sameRays_refl {S : Type} (c : Context S) (heap : List (Ray S)) : SameRays c heap heap :=
  ⟨rfl, fun _ => ⟨rfl, rfl, rfl, rfl⟩⟩

theorem sameRays_trans {S : Type} (c : Context S) (h1 h2 h3 : List (Ray S))
    (a : SameRays c h1 h2) (b : SameRays c h2 h3) : SameRays c h1 h3 :=
  ⟨b.1.trans a.1, fun j =>
    ⟨(b.2 j).1.trans (a.2 j).1, (b.2 j).2.1.trans (a.2 j).2.1,
      (b.2 j).2.2.1.trans (a.2 j).2.2.1, (b.2 j).2.2.2.trans (a.2 j).2.2.2⟩⟩

/-- The adjacency lists after `addEdge(a, b)` for two different rays of the
heap. -/
theorem addEdge_adjacent {S : Type} (c : Context S) (heap : List (Ray S)) (a b : Nat)
    (ha : a < heap.length) (hb : b < heap.length) (hab : a ≠ b) :
    SameRays c heap (addEdge c heap a b)
    ∧ ∀ j, (getRay c (addEdge c heap a b) j).adjacentRays
        = if j = a then (getRay c heap a).adjacentRays ++ [b]
          else if j = b then (getRay c heap b).adjacentRays ++ [a]
          else (getRay c heap j).adjacentRays := by
  have hb1 : b < (heap.set a
      { getRay c heap a with adjacentRays := (getRay c heap a).adjacentRays ++ [b] }).length := by
    rw [List.length_set]
    exact hb
  have hray : ∀ j, getRay c (addEdge c heap a b) j
      = if j = b then
          { getRay c heap b with adjacentRays := (getRay c heap b).adjacentRays ++ [a] }
        else if j = a then
          { getRay c heap a with adjacentRays := (getRay c heap a).adjacentRays ++ [b] }
        else getRay c heap j := by
    intro j
    unfold addEdge
    simp only
    by_cases hjb : j = b
    · rw [if_pos hjb, hjb, getRay_set_self c _ b _ hb1,
        getRay_set_ne c _ a b _ (fun h => hab h.symm)]
    · rw [if_neg hjb, getRay_set_ne c _ b j _ hjb]
      by_cases hja : j = a
      · rw [if_pos hja, hja, getRay_set_self c _ a _ ha]
      · rw [if_neg hja, getRay_set_ne c _ a j _ hja]
  refine ⟨⟨by unfold addEdge; simp, ?_⟩, ?_⟩
  · intro j
    rw [hray]
    split_ifs with h1 h2
    · rw [h1]
      exact ⟨rfl, rfl, rfl, rfl⟩
    · rw [h2]
      exact ⟨rfl, rfl, rfl, rfl⟩
    · exact ⟨rfl, rfl, rfl, rfl⟩
  · intro j
    rw [hray]
    by_cases hja : j = a
    · rw [if_pos hja, if_neg (fun h => hab (hja.symm.trans h)), if_pos hja]
    · rw [if_neg hja]
      split_ifs with h1
      · rfl
      · rfl

/-- Adding an edge between two different rays of `E` that are not adjacent
keeps the graph on `E`. -/
theorem addEdge_symAdj {S : Type} (c : Context S) (E : List Nat) (heap : List (Ray S))
    (a b : Nat) (h : SymAdj c E heap) (hv : ∀ r ∈ E, r < heap.length) (ha : a ∈ E)
    (hb : b ∈ E) (hab : a ≠ b) (hnew : b ∉ (getRay c heap a).adjacentRays) :
    SymAdj c E (addEdge c heap a b) := by
  obtain ⟨_, hadj⟩ := addEdge_adjacent c heap a b (hv a ha) (hv b hb) hab
  have hnew2 : a ∉ (getRay c heap b).adjacentRays := by
    intro h2
    exact hnew ((h b hb).2 a h2).2.2
  have hmono : ∀ x y, y ∈ (getRay c heap x).adjacentRays →
      y ∈ (getRay c (addEdge c heap a b) x).adjacentRays := by
    intro x y hy
    rw [hadj]
    split_ifs
    · subst x
      exact List.mem_append_left _ hy
    · subst x
      exact List.mem_append_left _ hy
    · exact hy
  intro r hr
  obtain ⟨n1, n2⟩ := h r hr
  rw [hadj]
  by_cases hra : r = a
  · subst hra
    rw [if_pos rfl]
    refine ⟨List.nodup_append.mpr ⟨n1, List.nodup_singleton _, ?_⟩, ?_⟩
    · intro x hx1 hx2
      rw [List.mem_singleton] at hx2
      subst hx2
      exact hnew hx1
    · intro x hx
      rcases List.mem_append.mp hx with h1 | h1
      · obtain ⟨m1, m2, m3⟩ := n2 x h1
        exact ⟨m1, m2, hmono x r m3⟩
      · rw [List.mem_singleton] at h1
        subst h1
        refine ⟨hb, fun h3 => hab h3.symm, ?_⟩
        rw [hadj, if_neg (fun h3 => hab h3.symm), if_pos rfl]
        exact List.mem_append_right _ (List.mem_singleton.mpr rfl)
  · rw [if_neg hra]
    by_cases hrb : r = b
    · subst hrb
      rw [if_pos rfl]
      refine ⟨List.nodup_append.mpr ⟨n1, List.nodup_singleton _, ?_⟩, ?_⟩
      · intro x hx1 hx2
        rw [List.mem_singleton] at hx2
        subst hx2
        exact hnew2 hx1
      · intro x hx
        rcases List.mem_append.mp hx with h1 | h1
        · obtain ⟨m1, m2, m3⟩ := n2 x h1
          exact ⟨m1, m2, hmono x r m3⟩
        · rw [List.mem_singleton] at h1
          subst h1
          refine ⟨ha, hab, ?_⟩
          rw [hadj, if_pos rfl]
          exact List.mem_append_right _ (List.mem_singleton.mpr rfl)
    · rw [if_neg hrb]
      refine ⟨n1, ?_⟩
      intro x hx
      obtain ⟨m1, m2, m3⟩ := n2 x hx
      exact ⟨m1, m2, hmono x r m3⟩

/-- The inner loop of `computeAdjacency`: the edges from `x` to candidates
that are pairwise different, in `T` and not yet adjacent to `x`. -/
theorem foldl_addEdge_symAdj {S : Type} (c : Context S) (E T : List Nat) (x : Nat)
    (hx : x ∈ E) (hxT : x ∉ T) (hTE : ∀ y ∈ T, y ∈ E) :
    ∀ (cands : List (AdjacencyCandidate S)) (heap : List (Ray S)),
      SymAdj c E heap → NoEdges c T heap → (∀ r ∈ E, r < heap.length) →
      (cands.map (fun cand => cand.ray)).Nodup →
      (∀ cand ∈ cands, cand.ray ∈ T ∧ cand.ray ∉ (getRay c heap x).adjacentRays) →
      SymAdj c E (cands.foldl (fun h1 cand => addEdge c h1 x cand.ray) heap)
      ∧ NoEdges c T (cands.foldl (fun h1 cand => addEdge c h1 x cand.ray) heap)
      ∧ SameRays c heap (cands.foldl (fun h1 cand => addEdge c h1 x cand.ray) heap) := by
  intro cands
  induction cands with
  | nil => intro heap h1 h2 _ _ _; exact ⟨h1, h2, sameRays_refl c heap⟩
  | cons cd cds ih =>
    intro heap h1 h2 hv hnd hc
    simp only [List.foldl_cons]
    obtain ⟨c1, c2⟩ := hc cd (List.mem_cons_self _ _)
    have hxy : x ≠ cd.ray := fun h => hxT (h ▸ c1)
    obtain ⟨s1, hadj⟩ := addEdge_adjacent c heap x cd.ray (hv x hx) (hv _ (hTE _ c1)) hxy
    have k1 := addEdge_symAdj c E heap x cd.ray h1 hv hx (hTE _ c1) hxy c2
    have k2 : NoEdges c T (addEdge c heap x cd.ray) := by
      intro a ha b hb hab
      rw [hadj] at hab
      split_ifs at hab with e1 e2
      · exact hxT (e1 ▸ hb)
      · rcases List.mem_append.mp hab with h3 | h3
        · exact h2 a ha b hb (e2 ▸ h3)
        · rw [List.mem_singleton] at h3
          exact hxT (h3 ▸ ha)
      · exact h2 a ha b hb hab
    simp only [List.map_cons, List.nodup_cons] at hnd
    obtain ⟨r1, r2, r3⟩ := ih (addEdge c heap x cd.ray) k1 k2
      (by intro r hr; rw [s1.1]; exact hv r hr) hnd.2 (by
        intro cand hcand
        obtain ⟨d1, d2⟩ := hc cand (List.mem_cons_of_mem _ hcand)
        refine ⟨d1, ?_⟩
        rw [hadj, if_pos rfl]
        intro h3
        rcases List.mem_append.mp h3 with h4 | h4
        · exact d2 h4
        · rw [List.mem_singleton] at h4
          exact hnd.1 (List.mem_map.mpr ⟨cand, hcand, h4⟩))
    exact ⟨r1, r2, sameRays_trans c _ _ _ s1 r3⟩

theorem erase_map_nodup {α β : Type} (f : α → β) (v : List α) (i : Nat) (hi : i < v.length)
    (h : (v.map f).Nodup) : ((Vector.erase v i).map f).Nodup := by
  obtain ⟨_, _, t3⟩ := Vector.erase_perm v i hi
  apply (t3.map f).nodup_iff.mpr
  have hsl : (v.take i ++ v.drop (i + 1)).Sublist (v.take i ++ v.drop i) :=
    List.Sublist.append_left (List.drop_sublist_drop_left _ (Nat.le_succ i)) _
  rw [List.take_append_drop] at hsl
  exact (hsl.map f).nodup h

theorem removeDominatedLoop_nodup {S : Type} (c : Context S) (heap : List (Ray S)) (ray : Nat)
    (rays : List Nat) :
    ∀ (fuel i : Nat) (cands : List (AdjacencyCandidate S)),
      (cands.map (fun cand => cand.ray)).Nodup →
      ((removeDominatedLoop c heap ray rays fuel i cands).map (fun cand => cand.ray)).Nodup := by
  intro fuel
  induction fuel with
  | zero => intro i cands h; exact h
  | succ n ih =>
    intro i cands h
    simp only [removeDominatedLoop]
    split
    · exact h
    · rename_i cand hget
      have hi : i < cands.length := by
        rw [List.get?_eq_getElem?] at hget
        exact (List.getElem?_eq_some_iff.mp hget).1
      split_ifs
      · exact ih _ _ (erase_map_nodup _ cands i hi h)
      · exact ih _ _ h

theorem testAdjacency_nodup {S : Type} (c : Context S) (heap : List (Ray S)) (rayIdx : Nat)
    (rays : List Nat) (cands : List (AdjacencyCandidate S))
    (h : (cands.map (fun cand => cand.ray)).Nodup) :
    ((testAdjacency c heap rayIdx rays cands).map (fun cand => cand.ray)).Nodup := by
  unfold testAdjacency
  simp only
  split_ifs
  · exact h
  · exact removeDominatedLoop_nodup c heap _ _ _ _ _ h
  · exact removeDominatedLoop_nodup c heap _ _ _ _ _ h
  · exact h

theorem filterMap_ray_sublist {S : Type} (f : Nat → Option (AdjacencyCandidate S))
    (hf : ∀ r cand, f r = some cand → cand.ray = r) :
    ∀ (l : List Nat), ((l.filterMap f).map (fun cand => cand.ray)).Sublist l := by
  intro l
  induction l with
  | nil => exact List.Sublist.refl _
  | cons x xs ih =>
    rw [List.filterMap_cons]
    cases hx : f x with
    | none => exact ih.cons _
    | some cand =>
      simp only [List.map_cons]
      rw [hf x cand hx]
      exact ih.cons₂ _

theorem findAdjacencyCandidates_sublist {S : Type} (c : Context S) (heap : List (Ray S))
    (rayIdx : Nat) (rays np : List Nat) :
    ((findAdjacencyCandidates c heap rayIdx rays np).map (fun cand => cand.ray)).Sublist
      (rays.drop (rayIdx + 1)) := by
  unfold findAdjacencyCandidates
  simp only
  split_ifs
  · exact List.nil_sublist _
  · apply filterMap_ray_sublist
    intro r cand h
    split_ifs at h
    · simp only [Option.some.injEq] at h
      rw [← h]

end DDM

namespace DDM

open Utils

theorem computeAdjacency_fold_symAdj {S : Type} (c : Context S) (E rays np : List Nat)
    (hrE : ∀ r ∈ rays, r ∈ E) (hnd : rays.Nodup) :
    ∀ (k i : Nat) (heap : List (Ray S)), i + k = rays.length →
      SymAdj c E heap → NoEdges c (rays.drop i) heap → (∀ r ∈ E, r < heap.length) →
      SymAdj c E ((List.range' i k).foldl
        (fun h i =>
          (testAdjacency c h i rays (findAdjacencyCandidates c h i rays np)).foldl
            (fun h1 cand => addEdge c h1 (rays.getD i 0) cand.ray) h) heap)
      ∧ SameRays c heap ((List.range' i k).foldl
        (fun h i =>
          (testAdjacency c h i rays (findAdjacencyCandidates c h i rays np)).foldl
            (fun h1 cand => addEdge c h1 (rays.getD i 0) cand.ray) h) heap) := by
  intro k
  induction k with
  | zero => intro i heap _ h _ _; exact ⟨h, sameRays_refl c heap⟩
  | succ k ih =>
    intro i heap hik h hno hv
    have hi : i < rays.length := by omega
    rw [List.range'_succ, List.foldl_cons]
    have hx : rays.getD i 0 = rays[i] := List.getD_eq_getElem _ _ hi
    have hdrop : rays.drop i = rays[i] :: rays.drop (i + 1) := List.drop_eq_getElem_cons hi
    have hndi : (rays.drop i).Nodup := (List.drop_sublist _ _).nodup hnd
    rw [hdrop] at hndi
    obtain ⟨hxT, hndT⟩ := List.nodup_cons.mp hndi
    have hTE : ∀ y ∈ rays.drop (i + 1), y ∈ E := fun y hy => hrE y (List.mem_of_mem_drop hy)
    have hnoT : NoEdges c (rays.drop (i + 1)) heap := by
      intro a ha b hb
      apply hno a _ b _
      · rw [hdrop]
        exact List.mem_cons_of_mem _ ha
      · rw [hdrop]
        exact List.mem_cons_of_mem _ hb
    have hsub := findAdjacencyCandidates_sublist c heap i rays np
    have hcnd : ((testAdjacency c heap i rays
        (findAdjacencyCandidates c heap i rays np)).map (fun cand => cand.ray)).Nodup :=
      testAdjacency_nodup c heap i rays _ (hsub.nodup hndT)
    have hcT : ∀ cand ∈ testAdjacency c heap i rays (findAdjacencyCandidates c heap i rays np),
        cand.ray ∈ rays.drop (i + 1)
        ∧ cand.ray ∉ (getRay c heap (rays.getD i 0)).adjacentRays := by
      intro cand hcand
      have h1 := testAdjacency_subset c heap i rays _ cand hcand
      have h2 : cand.ray ∈ rays.drop (i + 1) :=
        hsub.subset (List.mem_map.mpr ⟨cand, h1, rfl⟩)
      refine ⟨h2, ?_⟩
      rw [hx]
      apply hno
      · rw [hdrop]
        exact List.mem_cons_of_mem _ h2
      · rw [hdrop]
        exact List.mem_cons_self _ _
    rw [hx] at hcT ⊢
    obtain ⟨a1, a2, a3⟩ := foldl_addEdge_symAdj c E (rays.drop (i + 1)) rays[i]
      (hrE _ (List.getElem_mem _)) hxT hTE _ heap h hnoT hv hcnd hcT
    obtain ⟨b1, b2⟩ := ih (i + 1) _ (by omega) a1 a2 (by
      intro r hr
      rw [a3.1]
      exact hv r hr)
    exact ⟨b1, sameRays_trans c _ _ _ a3 b2⟩

/-- `computeAdjacency` on pairwise different rays of `E` without edges among
them keeps the graph on `E` and changes adjacency lists only. -/
theorem computeAdjacency_symAdj {S : Type} (c : Context S) (E rays np : List Nat)
    (heap : List (Ray S)) (hrE : ∀ r ∈ rays, r ∈ E) (hnd : rays.Nodup)
    (h : SymAdj c E heap) (hno : NoEdges c rays heap) (hv : ∀ r ∈ E, r < heap.length) :
    SymAdj c E (computeAdjacency c heap rays np)
    ∧ SameRays c heap (computeAdjacency c heap rays np) := by
  unfold computeAdjacency
  rw [List.range_eq_range']
  exact computeAdjacency_fold_symAdj c E rays np hrE hnd rays.length 0 heap (by omega) h
    (by rw [List.drop_zero]; exact hno) hv

end DDM

namespace DDM

open Utils

/-- After the traversal, with every ray of `minusRays` and `zeroRays` done:
the state made of the heap after `partitionInes` and `computeAdjacency` and
of the rays left by the deletion of the minus rays, followed by the new
rays, satisfies the invariant of the main loop. -/
theorem symInv_of_travInv {S : Type} (c : Context S) (heps : 0 ≤ c.zerotol) (E : List Nat)
    (h0 : Nat) (s3 s4 s6 : State S) (w : WorkLists) (np : List Nat) (hnd : E.Nodup)
    (hT : TravInv c E h0 s3 w.minusRays w.zeroRays w.newRays
      (fun x => x ∈ w.minusRays ∨ x ∈ w.zeroRays))
    (hF : PartitionFrame c (w.zeroRays ++ w.newRays) s3 s4)
    (hG : AssigneeTrack c (w.zeroRays ++ w.newRays) s3 s4
      (w.minusRays.flatMap (fun m => (getRay c s3.heap m).assignedInequalities)))
    (h6h : s6.heap = computeAdjacency c s4.heap (w.zeroRays ++ w.newRays) np)
    (h6e : s6.extremeRays = deleteMinusLoop c s4.heap E.length 0 E ++ w.newRays)
    (h6s : s6.step = s3.step) (h6a : s6.assigneeRays = s4.assigneeRays) :
    SymInv c s6 := by
  obtain ⟨f1, f2, f3, f4, f5, f6, f7⟩ := hF
  have hh := hT.heapLen
  have hElt : ∀ r ∈ E, r < s3.heap.length := by
    intro r hr
    have := hT.validE r hr
    omega
  have hNge : ∀ n ∈ w.newRays, h0 ≤ n ∧ n < s3.heap.length := by
    intro n hn
    rw [hT.newRays, List.mem_range'_1] at hn
    omega
  have hEN : ∀ r, r ∈ E → r ∈ w.newRays → False := by
    intro r h1 h2
    have := hT.validE r h1
    have := (hNge r h2).1
    omega
  have hplusQ : ∀ a, isPlus c s3 a → a ∉ w.minusRays ∧ a ∉ w.zeroRays := by
    intro a hp
    constructor
    · intro h
      have := (hT.classM a h).2.2
      have := hp.2
      omega
    · intro h
      have := (hT.classZ a h).2.2.2
      have := hp.2
      omega
  -- the rays that survive the deletion
  have halive : ∀ r ∈ E, (¬ (getRay c s4.heap r).pivotDiscrepancy < -c.zerotol ↔ r ∉ w.minusRays) := by
    intro r hr
    rw [(f4 r).2.2.1]
    constructor
    · intro h hm
      exact h (hT.classM r hm).2.2
    · intro hm hlt
      by_cases hv : (getRay c s3.heap r).visitingStep = s3.step
      · rcases hT.queued r hr hv (by omega) with h | h
        · exact hm h
        · have := (hT.classZ r h).2.2.1
          omega
      · have := (hT.unvisited r hr hv).1
        omega
  have hE6 : ∀ r, r ∈ s6.extremeRays ↔ (r ∈ E ∧ r ∉ w.minusRays) ∨ r ∈ w.newRays := by
    intro r
    rw [h6e, List.mem_append, deleteMinusLoop_mem]
    constructor
    · intro h
      rcases h with ⟨h1, h2⟩ | h
      · exact Or.inl ⟨h1, (halive r h1).mp h2⟩
      · exact Or.inr h
    · intro h
      rcases h with ⟨h1, h2⟩ | h
      · exact Or.inl ⟨h1, (halive r h1).mpr h2⟩
      · exact Or.inr h
  have hplusE6 : ∀ a, a ∈ E → isPlus c s3 a → a ∈ s6.extremeRays :=
    fun a ha hp => (hE6 a).mpr (Or.inl ⟨ha, (hplusQ a hp).1⟩)
  have hv6 : ∀ r ∈ s6.extremeRays, r < s4.heap.length := by
    intro r hr
    rw [f1]
    rcases (hE6 r).mp hr with h | h
    · exact hElt r h.1
    · exact (hNge r h).2
  -- the graph before `computeAdjacency`
  have hsym : SymAdj c s6.extremeRays s4.heap := by
    intro r hr
    rw [(f4 r).2.1]
    rcases (hE6 r).mp hr with ⟨hrE, hrM⟩ | hrN
    · refine ⟨hT.adjNodup r (Or.inl hrE), ?_⟩
      intro a ha
      rw [(f4 a).2.1]
      by_cases hrZ : r ∈ w.zeroRays
      · obtain ⟨a1, a2, a3⟩ := hT.doneZ r hrZ (Or.inr hrZ) a ha
        refine ⟨hplusE6 a a1 a2, ?_, a3⟩
        intro h
        exact (hplusQ a a2).2 (h ▸ hrZ)
      · have hnd2 : ¬ (r ∈ w.minusRays ∨ r ∈ w.zeroRays) := fun h => h.elim hrM hrZ
        obtain ⟨o1, o2, o3⟩ := hT.openAdj r hrE hnd2 a ha
        have hback : r ∈ (getRay c s3.heap a).adjacentRays := by
          rcases o3 with h | h
          · exact h
          · exact absurd h.2 hnd2
        refine ⟨?_, o1, hback⟩
        rcases o2 with h | h
        · apply (hE6 a).mpr
          left
          refine ⟨h, ?_⟩
          intro hm
          exact (hT.doneM a hm (Or.inl hm) r hback).2.2 ha
        · exact (hE6 a).mpr (Or.inr h)
    · obtain ⟨a, a1, a2, a3, a4⟩ := hT.newAdj r hrN
      refine ⟨hT.adjNodup r (Or.inr hrN), ?_⟩
      intro b hb
      rw [a1, List.mem_singleton] at hb
      subst hb
      rw [(f4 b).2.1]
      refine ⟨hplusE6 b a2 a3, ?_, a4⟩
      intro h
      exact hEN b a2 (h ▸ hrN)
  have hZE6 : ∀ r ∈ w.zeroRays ++ w.newRays, r ∈ s6.extremeRays := by
    intro r hr
    rcases List.mem_append.mp hr with h | h
    · apply (hE6 r).mpr
      left
      refine ⟨(hT.classZ r h).1, ?_⟩
      intro hm
      have := (hT.classM r hm).2.2
      have := (hT.classZ r h).2.2.1
      omega
    · exact (hE6 r).mpr (Or.inr h)
  have hnotZt : ∀ a, a ∈ E → isPlus c s3 a → a ∉ w.zeroRays ++ w.newRays := by
    intro a ha hp h
    rcases List.mem_append.mp h with h1 | h1
    · exact (hplusQ a hp).2 h1
    · exact hEN a ha h1
  have hno : NoEdges c (w.zeroRays ++ w.newRays) s4.heap := by
    intro a ha b hb hab
    rw [(f4 b).2.1] at hab
    rcases List.mem_append.mp hb with h | h
    · obtain ⟨a1, a2, _⟩ := hT.doneZ b h (Or.inr h) a hab
      exact hnotZt a a1 a2 ha
    · obtain ⟨x, x1, x2, x3, _⟩ := hT.newAdj b h
      rw [x1, List.mem_singleton] at hab
      subst hab
      exact hnotZt a x2 x3 ha
  have hZnd : (w.zeroRays ++ w.newRays).Nodup := by
    refine List.nodup_append.mpr ⟨hT.nodupZ, ?_, ?_⟩
    · rw [hT.newRays]
      exact List.nodup_range' _ _
    · intro a h1 h2
      exact hEN a (hT.classZ a h1).1 h2
  obtain ⟨g1, g2⟩ := computeAdjacency_symAdj c s6.extremeRays (w.zeroRays ++ w.newRays) np
    s4.heap hZE6 hZnd hsym hno hv6
  rw [← h6h] at g1 g2
  have hfield : ∀ j, (getRay c s6.heap j).coordinates = (getRay c s3.heap j).coordinates
      ∧ (getRay c s6.heap j).pivotDiscrepancy = (getRay c s3.heap j).pivotDiscrepancy
      ∧ (getRay c s6.heap j).visitingStep = (getRay c s3.heap j).visitingStep := by
    intro j
    obtain ⟨b1, _, b3, b4⟩ := g2.2 j
    obtain ⟨d1, _, d3, d4⟩ := f4 j
    exact ⟨b1.trans d1, b3.trans d3, b4.trans d4⟩
  refine
    { nodup := ?_, valid := ?_, adjNodup := fun r hr => (g1 r hr).1,
      adj := fun r hr => (g1 r hr).2, pd := ?_, vs := ?_, assigned := ?_, assignee := ?_ }
  · rw [h6e]
    refine List.nodup_append.mpr ⟨deleteMinusLoop_nodup c s4.heap E hnd, ?_, ?_⟩
    · rw [hT.newRays]
      exact List.nodup_range' _ _
    · intro a h1 h2
      exact hEN a ((deleteMinusLoop_mem c s4.heap E a).mp h1).1 h2
  · intro r hr
    rw [g2.1]
    exact hv6 r hr
  · intro r hr
    rw [(hfield r).2.1]
    rcases (hE6 r).mp hr with ⟨h1, h2⟩ | h
    · have := (halive r h1).mpr h2
      rw [(f4 r).2.2.1] at this
      omega
    · rw [(hT.newRay r h).1]
      omega
  · intro r hr
    rw [(hfield r).2.2, h6s]
    rcases (hE6 r).mp hr with ⟨h1, _⟩ | h
    · by_cases hv : (getRay c s3.heap r).visitingStep = s3.step
      · omega
      · have := (hT.unvisited r h1 hv).2
        omega
    · rw [(hT.newRay r h).2]
  · intro r hr j hj
    rw [g2.1] at hr
    rw [(g2.2 r).2.1] at hj
    rw [computeDiscrepancy_congr c _ _ j (g2.2 r).1]
    exact f7 r hr j hj
  · intro idx r hidx
    rw [h6a] at hidx
    obtain ⟨q1, q2⟩ := hG idx r hidx
    rw [(g2.2 r).2.1]
    refine ⟨?_, q1⟩
    rcases q2 with q2 | ⟨q2, q3⟩
    · exact hZE6 r q2
    · obtain ⟨t1, t2⟩ := hT.assignee idx r q3
      apply (hE6 r).mpr
      left
      refine ⟨t1, ?_⟩
      intro hm
      apply q2
      exact List.mem_flatMap.mpr ⟨r, hm, t2⟩

theorem classifyRays_eq_start {S : Type} (c : Context S) (s : State S) :
    classifyRays c s =
      match classifyStart c s with
      | none => none
      | some sw =>
        match classifyLoop c (sw.1.heap.length + 1) 0 0 sw with
        | none => none
        | some (s3, w) =>
          some ({ partitionInes c s3 w.minusRays (w.zeroRays ++ w.newRays) with
              extremeRays :=
                deleteMinusLoop c
                  (partitionInes c s3 w.minusRays (w.zeroRays ++ w.newRays)).heap
                  (partitionInes c s3 w.minusRays
                    (w.zeroRays ++ w.newRays)).extremeRays.length 0
                  (partitionInes c s3 w.minusRays (w.zeroRays ++ w.newRays)).extremeRays
                  ++ w.newRays },
            w.zeroRays ++ w.newRays) := by
  unfold classifyRays classifyStart
  cases next c s <;> rfl

/-- One execution of the body of the main loop keeps the invariant. -/
theorem loopBody_symInv {S : Type} (c : Context S) (heps : 0 ≤ c.zerotol) (s s6 : State S)
    (hinv : SymInv c s) (hl : loopBody c s = some s6) : SymInv c s6 := by
  unfold loopBody at hl
  rw [classifyRays_eq_start] at hl
  cases hs : classifyStart c s with
  | none => rw [hs] at hl; cases hl
  | some sw =>
    rw [hs] at hl
    simp only at hl
    cases hloop : classifyLoop c (sw.1.heap.length + 1) 0 0 sw with
    | none => rw [hloop] at hl; cases hl
    | some sw3 =>
      obtain ⟨s3, w⟩ := sw3
      rw [hloop] at hl
      simp only [Option.some.injEq] at hl
      obtain ⟨t1, t2, t3, t4, t5⟩ := classifyStart_travInv c s sw hinv hs
      obtain ⟨u1, u2⟩ := classifyLoop_travInv c heps s.extremeRays s.heap.length _ 0 0 sw
        (s3, w) t1 (Nat.zero_le _) (Nat.zero_le _) hloop
      have u1b : TravInv c s.extremeRays s.heap.length s3 w.minusRays w.zeroRays w.newRays
          (fun x => x ∈ w.minusRays ∨ x ∈ w.zeroRays) := u1
      have u2b : s3 = { sw.1 with heap := s3.heap } := u2
      have hE3 : s3.extremeRays = s.extremeRays := by rw [u2b]; exact t2
      have hElt : ∀ r ∈ w.zeroRays ++ w.newRays, r < s3.heap.length := by
        intro r hr
        have hh := u1b.heapLen
        rcases List.mem_append.mp hr with h | h
        · have := u1b.validE r (u1b.classZ r h).1
          omega
        · rw [u1b.newRays, List.mem_range'_1] at h
          omega
      have hMZ : ∀ m ∈ w.minusRays, m ∉ w.zeroRays ++ w.newRays := by
        intro m hm h
        rcases List.mem_append.mp h with h1 | h1
        · have := (u1b.classM m hm).2.2
          have := (u1b.classZ m h1).2.2.1
          omega
        · have := u1b.validE m (u1b.classM m hm).1
          rw [u1b.newRays, List.mem_range'_1] at h1
          omega
      obtain ⟨p1, p2⟩ := partitionInes_partitionFrame c (w.zeroRays ++ w.newRays) s3 hElt
        w.minusRays s3 [] hMZ (partitionFrame_refl c _ s3 u1b.assigned)
        (fun idx r h => ⟨(u1b.assignee idx r h).2, Or.inr ⟨List.not_mem_nil _, h⟩⟩)
      rw [List.nil_append] at p2
      have hE4 : (partitionInes c s3 w.minusRays (w.zeroRays ++ w.newRays)).extremeRays
          = s.extremeRays := p1.2.1.trans hE3
      apply symInv_of_travInv c heps s.extremeRays s.heap.length s3
        (partitionInes c s3 w.minusRays (w.zeroRays ++ w.newRays)) s6 w
        (partitionInes c s3 w.minusRays (w.zeroRays ++ w.newRays)).notProcessedInequalities
        hinv.nodup u1b p1 p2
      · rw [← hl]
      · rw [← hl]
        simp only
        rw [hE4]
      · rw [← hl]
        exact p1.2.2.1
      · rw [← hl]

end DDM

namespace DDM

open Utils

theorem assignIne_extremeRays {S : Type} (c : Context S) (s : State S) (ineIdx : Nat)
    (rays : List Nat) : (assignIne c s ineIdx rays).extremeRays = s.extremeRays := by
  unfold assignIne
  split <;> rfl

theorem foldl_assignIne_self_eq {S : Type} (c : Context S) :
    ∀ (inds : List Nat) (s : State S),
      inds.foldl (fun s2 ine => assignIne c s2 ine s2.extremeRays) s
        = inds.foldl (fun s2 ine => assignIne c s2 ine s.extremeRays) s := by
  intro inds
  induction inds with
  | nil => intro s; rfl
  | cons i is ih =>
    intro s
    simp only [List.foldl_cons]
    rw [ih, assignIne_extremeRays]

theorem getRay_initial {S : Type} (c : Context S) (f : Matrix) (perm : List Nat) (j : Nat) :
    (getRay c ((List.range c.rank).map (initialRay c f perm)) j).adjacentRays = []
    ∧ (getRay c ((List.range c.rank).map (initialRay c f perm)) j).assignedInequalities = []
    ∧ (getRay c ((List.range c.rank).map (initialRay c f perm)) j).pivotDiscrepancy = 0
    ∧ (getRay c ((List.range c.rank).map (initialRay c f perm)) j).visitingStep = 0 := by
  by_cases hj : j < c.rank
  · have : getRay c ((List.range c.rank).map (initialRay c f perm)) j
        = initialRay c f perm j := by
      apply getRay_eq_of_getElem?
      rw [List.getElem?_map, List.getElem?_range hj]
      rfl
    rw [this]
    exact ⟨rfl, rfl, rfl, rfl⟩
  · rw [getRay_of_ge c _ j (by simpa using hj)]
    exact ⟨rfl, rfl, rfl, rfl⟩

/-- The state after `makeInitialStep` satisfies the invariant of the main
loop. -/
theorem makeInitialStep_symInv {S : Type} (c : Context S) (heps : 0 ≤ c.zerotol) (f : Matrix)
    (perm : List Nat) : SymInv c (makeInitialStep c f perm) := by
  have hE : ∀ r ∈ List.range c.rank,
      r < ((List.range c.rank).map (initialRay c f perm)).length := by
    intro r hr
    simpa using hr
  obtain ⟨g1, g2⟩ := computeAdjacency_symAdj c (List.range c.rank) (List.range c.rank)
    (initialState c).notProcessedInequalities
    ((List.range c.rank).map (initialRay c f perm)) (fun r hr => hr) (List.nodup_range _)
    (by
      intro r _
      rw [(getRay_initial c f perm r).1]
      exact ⟨List.nodup_nil, fun a ha => absurd ha (List.not_mem_nil _)⟩)
    (by
      intro a _ b _
      rw [(getRay_initial c f perm b).1]
      exact List.not_mem_nil _)
    hE
  rw [makeInitialStep_rays, foldl_assignIne_self_eq]
  generalize ht0 : ({ initialState c with
      heap := computeAdjacency c ((List.range c.rank).map (initialRay c f perm))
        (List.range c.rank) (initialState c).notProcessedInequalities,
      extremeRays := List.range c.rank } : State S) = t0
  have h0h : t0.heap = computeAdjacency c ((List.range c.rank).map (initialRay c f perm))
      (List.range c.rank) (initialState c).notProcessedInequalities := by rw [← ht0]
  have h0e : t0.extremeRays = List.range c.rank := by rw [← ht0]
  have h0s : t0.step = 0 := by rw [← ht0]; rfl
  have h0a : t0.assigneeRays = List.replicate c.inequalityMatrix.nrows none := by
    rw [← ht0]
    rfl
  rw [← h0h] at g1 g2
  have hfld : ∀ j, (getRay c t0.heap j).assignedInequalities = []
      ∧ (getRay c t0.heap j).pivotDiscrepancy = 0
      ∧ (getRay c t0.heap j).visitingStep = 0 := by
    intro j
    obtain ⟨_, b2, b3, b4⟩ := g2.2 j
    obtain ⟨_, d2, d3, d4⟩ := getRay_initial c f perm j
    exact ⟨b2.trans d2, b3.trans d3, b4.trans d4⟩
  have hvalid : ∀ r ∈ t0.extremeRays, r < t0.heap.length := by
    intro r hr
    rw [g2.1]
    rw [h0e] at hr
    exact hE r hr
  obtain ⟨p1, p2⟩ := foldl_assignIne_partitionFrame c t0.extremeRays t0 hvalid
    (List.range c.inequalityMatrix.nrows) t0 []
    (partitionFrame_refl c _ t0 (by
      intro r _ j hj
      rw [(hfld r).1] at hj
      cases hj))
    (by
      intro idx r h
      rw [h0a] at h
      exfalso
      by_cases hi : idx < c.inequalityMatrix.nrows
      · rw [List.getElem?_replicate_of_lt hi] at h
        simp at h
      · rw [List.getElem?_eq_none (by simpa using hi)] at h
        cases h)
  generalize (List.range c.inequalityMatrix.nrows).foldl
    (fun s2 ine => assignIne c s2 ine t0.extremeRays) t0 = tf at p1 p2
  obtain ⟨f1, f2, f3, f4, f5, f6, f7⟩ := p1
  refine
    { nodup := ?_, valid := ?_, adjNodup := ?_, adj := ?_, pd := ?_, vs := ?_,
      assigned := f7, assignee := ?_ }
  · rw [f2, h0e]
    exact List.nodup_range _
  · intro r hr
    rw [f2] at hr
    rw [f1]
    exact hvalid r hr
  · intro r hr
    rw [f2, h0e] at hr
    rw [(f4 r).2.1]
    exact (g1 r hr).1
  · intro r hr a ha
    rw [f2, h0e] at hr ⊢
    rw [(f4 r).2.1] at ha
    rw [(f4 a).2.1]
    exact (g1 r hr).2 a ha
  · intro r _
    rw [(f4 r).2.2.1, (hfld r).2.1]
    omega
  · intro r _
    rw [(f4 r).2.2.2, (hfld r).2.2]
    exact Nat.zero_le _
  · intro idx r h
    obtain ⟨q1, q2⟩ := p2 idx r h
    rcases q2 with q2 | ⟨_, q3⟩
    · rw [f2]
      exact ⟨q2, q1⟩
    · exfalso
      rw [h0a] at q3
      by_cases hi : idx < c.inequalityMatrix.nrows
      · rw [List.getElem?_replicate_of_lt hi] at q3
        simp at q3
      · rw [List.getElem?_eq_none (by simpa using hi)] at q3
        cases q3

theorem iterations_symInv {S : Type} (c : Context S) (heps : 0 ≤ c.zerotol) :
    ∀ (k : Nat) (s s1 : State S), SymInv c s → iterations c k s = some s1 → SymInv c s1 := by
  intro k
  induction k with
  | zero =>
    intro s s1 h hi
    unfold iterations at hi
    simp only [Option.some.injEq] at hi
    rw [← hi]
    exact h
  | succ k ih =>
    intro s s1 h hi
    unfold iterations at hi
    cases hl : loopBody c s with
    | none => rw [hl] at hi; cases hi
    | some s2 =>
      rw [hl] at hi
      exact ih s2 s1 (loopBody_symInv c heps s s2 h hl) hi

end DDM

theorem foldl_add_eq_sum (g : Nat → Nat) : ∀ (E : List Nat) (a : Nat),
    E.foldl (fun n r => n + g r) a = a + (E.map g).sum := by
  intro E
  induction E with
  | nil => intro a; simp
  | cons x xs ih =>
    intro a
    simp only [List.foldl_cons, List.map_cons, List.sum_cons]
    rw [ih]
    omega

/-- In a graph given by adjacency lists without repetition on a list of
vertices without repetition, symmetric and without loops, the sum of the
lengths of the lists is even. -/
theorem even_degree_sum (E : List Nat) (adj : Nat → List Nat) (hE : E.Nodup)
    (hnd : ∀ r ∈ E, (adj r).Nodup)
    (hsym : ∀ r ∈ E, ∀ a ∈ adj r, a ∈ E ∧ a ≠ r ∧ r ∈ adj a) :
    (E.foldl (fun n r => n + (adj r).length) 0) % 2 = 0 := by
  classical
  rw [foldl_add_eq_sum, Nat.zero_add]
  have h1 : (E.map (fun r => (adj r).length)).sum
      = ∑ r in E.toFinset, (adj r).length := (List.sum_toFinset _ hE).symm
  have h2 : ∀ r ∈ E.toFinset,
      (adj r).length = (E.toFinset.filter (fun a => a ∈ adj r)).card := by
    intro r hr
    rw [List.mem_toFinset] at hr
    have : E.toFinset.filter (fun a => a ∈ adj r) = (adj r).toFinset := by
      ext a
      simp only [Finset.mem_filter, List.mem_toFinset]
      constructor
      · exact fun h => h.2
      · exact fun h => ⟨(hsym r hr a h).1, h⟩
    rw [this, List.toFinset_card_of_nodup (hnd r hr)]
  have h3 : ∑ r in E.toFinset, (adj r).length
      = ((E.toFinset ×ˢ E.toFinset).filter (fun p => p.2 ∈ adj p.1)).card := by
    rw [Finset.sum_congr rfl h2, Finset.card_filter, Finset.sum_product]
    apply Finset.sum_congr rfl
    intro r _
    rw [Finset.card_filter]
  rw [h1, h3]
  have h4 : (((E.toFinset ×ˢ E.toFinset).filter (fun p => p.2 ∈ adj p.1)).card : ZMod 2) = 0 := by
    rw [Finset.card_eq_sum_ones, Nat.cast_sum]
    apply Finset.sum_involution (fun p _ => (p.2, p.1))
    · intro p _
      decide
    · intro p hp _ h
      simp only [Finset.mem_filter, Finset.mem_product, List.mem_toFinset] at hp
      have := (hsym p.1 hp.1.1 p.2 hp.2).2.1
      apply this
      exact (congrArg Prod.fst h)
    · intro p hp
      simp only [Finset.mem_filter, Finset.mem_product, List.mem_toFinset] at hp ⊢
      exact ⟨⟨hp.1.2, hp.1.1⟩, (hsym p.1 hp.1.1 p.2 hp.2).2.2⟩
    · intro p _
      rfl
  have h5 := (ZMod.natCast_zmod_eq_zero_iff_dvd _ 2).mp h4
  omega

/-- C37: for a tolerance `zerotol ≥ 0` (any set representation, arithmetic
mode, order and adjacency test; `f`, `perm` and the rank arbitrary), in the
state after `makeInitialStep` (`k = 0`) and after every further execution of
the body of the main loop (`classifyRays` followed by `computeAdjacency`),
and so in every state that the main loop ends in: for all rays `r`, `a` of
`extremeRays`, `a` occurs in the adjacency list of `r` if and only if `r`
occurs in the adjacency list of `a`; no ray of `extremeRays` occurs in its
own list; every entry of the list of a ray of `extremeRays` is a ray of
`extremeRays`, that is, not a deleted one; neither `extremeRays` nor any of
these lists has a repetition; the sum of the lengths of the lists, as
`finalize` computes it, is even, and for rank above 2 it is twice the number
of edges that `finalize` reports. -/
theorem adjacency_symmetric {S : Type} (c : DDM.Context S) (heps : 0 ≤ c.zerotol)
    (f : Utils.Matrix) (perm : List Nat) (s : DDM.State S)
    (hs : (∃ k, DDM.iterations c k (DDM.makeInitialStep c f perm) = some s)
      ∨ (∃ fuel, DDM.mainLoop c fuel (DDM.makeInitialStep c f perm) = some s)) :
    (∀ r ∈ s.extremeRays, ∀ a ∈ s.extremeRays,
      (a ∈ (DDM.getRay c s.heap r).adjacentRays ↔ r ∈ (DDM.getRay c s.heap a).adjacentRays))
    ∧ (∀ r ∈ s.extremeRays, r ∉ (DDM.getRay c s.heap r).adjacentRays)
    ∧ (∀ r ∈ s.extremeRays, ∀ a ∈ (DDM.getRay c s.heap r).adjacentRays, a ∈ s.extremeRays)
    ∧ s.extremeRays.Nodup
    ∧ (∀ r ∈ s.extremeRays, (DDM.getRay c s.heap r).adjacentRays.Nodup)
    ∧ (s.extremeRays.foldl
        (fun n r => n + (DDM.getRay c s.heap r).adjacentRays.length) 0) % 2 = 0
    ∧ (∀ bas : Utils.Matrix, c.rank > 2 →
        2 * (DDM.finalize c bas s).numEdges
          = s.extremeRays.foldl
              (fun n r => n + (DDM.getRay c s.heap r).adjacentRays.length) 0) := by
  have hk : ∃ k, DDM.iterations c k (DDM.makeInitialStep c f perm) = some s := by
    rcases hs with h | ⟨fuel, h⟩
    · exact h
    · obtain ⟨k, _, hk⟩ := DDM.mainLoop_iterations c fuel _ s h
      exact ⟨k, hk⟩
  obtain ⟨k, hk⟩ := hk
  have hinv := DDM.iterations_symInv c heps k _ s (DDM.makeInitialStep_symInv c heps f perm) hk
  have heven : (s.extremeRays.foldl
      (fun n r => n + (DDM.getRay c s.heap r).adjacentRays.length) 0) % 2 = 0 :=
    even_degree_sum s.extremeRays (fun r => (DDM.getRay c s.heap r).adjacentRays)
      hinv.nodup hinv.adjNodup hinv.adj
  refine ⟨?_, ?_, ?_, hinv.nodup, hinv.adjNodup, heven, ?_⟩
  · intro r hr a ha
    exact ⟨fun h => (hinv.adj r hr a h).2.2, fun h => (hinv.adj a ha r h).2.2⟩
  · intro r hr h
    exact (hinv.adj r hr r h).2.1 rfl
  · intro r hr a ha
    exact (hinv.adj r hr a ha).1
  · intro bas hrank
    unfold DDM.finalize
    simp only [if_pos hrank]
    omega

set_option maxRecDepth 100000 in
/-- C37 at the cone `squareCone` (rank 3, zero tolerance 0): one execution of
the loop body from the state after `makeInitialStep` succeeds and leaves the
extreme rays 0, 2, 3, 4 with the adjacency lists `[3, 2]`, `[0, 4]`,
`[0, 4]`, `[2, 3]`: a 4-cycle, with 8 list entries for 4 edges. -/
theorem adjacency_symmetric_witness :
    0 ≤ (defaultContext squareCone).zerotol
    ∧ (DDM.iterations (defaultContext squareCone) 1 (defaultInitialState squareCone)).map
        (fun s => s.extremeRays.map
          (fun r => (r, (DDM.getRay (defaultContext squareCone) s.heap r).adjacentRays)))
      = some [(0, [3, 2]), (2, [0, 4]), (3, [0, 4]), (4, [2, 3])]
    ∧ ∃ s, DDM.iterations (defaultContext squareCone) 1 (defaultInitialState squareCone) = some s
      ∧ (∀ r ∈ s.extremeRays, ∀ a ∈ s.extremeRays,
          (a ∈ (DDM.getRay (defaultContext squareCone) s.heap r).adjacentRays
            ↔ r ∈ (DDM.getRay (defaultContext squareCone) s.heap a).adjacentRays))
      ∧ (s.extremeRays.foldl
          (fun n r => n + (DDM.getRay (defaultContext squareCone) s.heap r).adjacentRays.length)
          0) % 2 = 0 :=
  have h : (DDM.iterations (defaultContext squareCone) 1
      (defaultInitialState squareCone)).isSome = true := by decide
  ⟨by decide, by decide, _, (Option.some_get h).symm,
    (adjacency_symmetric (defaultContext squareCone) (by decide)
      (Utils.gauss Utils.Coeff.int squareCone squareCone.nrows true 0).f
      (Utils.gauss Utils.Coeff.int squareCone squareCone.nrows true 0).perm _
      (Or.inl ⟨1, (Option.some_get h).symm⟩)).1,
    (adjacency_symmetric (defaultContext squareCone) (by decide)
      (Utils.gauss Utils.Coeff.int squareCone squareCone.nrows true 0).f
      (Utils.gauss Utils.Coeff.int squareCone squareCone.nrows true 0).perm _
      (Or.inl ⟨1, (Option.some_get h).symm⟩)).2.2.2.2.2.1⟩

/-! ## The coefficient type `int`: values whose negation is representable -/

namespace Utils

theorem Coeff.fits_int_iff (x : Int) :
    Coeff.int.Fits x ↔ -2147483648 < x ∧ x < 2147483648 := by
  constructor
  · intro h
    have h1 := Coeff.wrap_int_bounds x
    have h2 := Coeff.wrap_int_bounds (-x)
    rw [h.1] at h1
    rw [h.2] at h2
    omega
  · intro h
    exact ⟨Coeff.wrap_of_bounds _ _ (by omega) (by omega),
      Coeff.wrap_of_bounds _ _ (by omega) (by omega)⟩

theorem Coeff.fits_exact (x : Int) : Coeff.exact.Fits x := ⟨rfl, rfl⟩

/-- On non-negative values below `2^31` the Euclid loop on `int` takes the
steps of the loop without overflow. -/
theorem gcdLoop_int : ∀ (fuel : Nat) (b r : Int), 0 ≤ r → r ≤ b → b < 2147483648 →
    gcdLoop Coeff.int fuel b r = gcdLoop Coeff.exact fuel b r := by
  intro fuel
  induction fuel with
  | zero => intro b r _ _ _; rfl
  | succ k ih =>
    intro b r h0 h1 h2
    simp only [gcdLoop, Coeff.sub_exact, Coeff.mul_exact, Coeff.div_exact]
    by_cases hr : r = 0
    · simp [hr]
    · rw [if_pos hr, if_pos hr]
      have hq : Int.tdiv b r = b / r := Int.tdiv_eq_ediv (by omega) h0
      have hq0 : 0 ≤ b / r := Int.ediv_nonneg (by omega) h0
      have hq1 : b / r * r ≤ b := Int.ediv_mul_le b hr
      have hq2 : b / r ≤ b := Int.ediv_le_self r (by omega)
      have hm : b - b / r * r = b % r := by
        have := Int.emod_add_ediv b r
        linarith [mul_comm (b / r) r]
      have hm0 := Int.emod_nonneg b hr
      have hm1 := Int.emod_lt_of_pos b (by omega : 0 < r)
      have hmul0 : 0 ≤ b / r * r := mul_nonneg hq0 h0
      have e1 : Coeff.int.div b r = b / r := by
        unfold Coeff.div
        rw [hq]
        exact Coeff.wrap_of_bounds _ _ (by omega) (by omega)
      have e2 : Coeff.int.mul (b / r) r = b / r * r := by
        unfold Coeff.mul
        exact Coeff.wrap_of_bounds _ _ (by omega) (by omega)
      have e3 : Coeff.int.sub b (b / r * r) = b - b / r * r := by
        unfold Coeff.sub
        exact Coeff.wrap_of_bounds _ _ (by omega) (by omega)
      rw [e1, e2, e3, hq, hm]
      exact ih r (b % r) hm0 (by omega) (by omega)

/-- On arguments other than the least value of `int` the function `gcd` on
`int` returns what it returns without overflow. -/
theorem gcd_int (a b : Int) (ha : -2147483648 < a ∧ a < 2147483648)
    (hb : -2147483648 < b ∧ b < 2147483648) :
    gcd Coeff.int a b = gcd Coeff.exact a b := by
  unfold gcd
  simp only [Coeff.sub_exact, Coeff.mul_exact, Coeff.div_exact, Coeff.neg_exact]
  have na : Coeff.int.neg a = -a := by
    unfold Coeff.neg
    exact Coeff.wrap_of_bounds _ _ (by omega) (by omega)
  have nb : Coeff.int.neg b = -b := by
    unfold Coeff.neg
    exact Coeff.wrap_of_bounds _ _ (by omega) (by omega)
  rw [na, nb]
  generalize hA : (if a < 0 then -a else a) = A
  generalize hB : (if b < 0 then -b else b) = B
  have hA0 : 0 ≤ A ∧ A < 2147483648 := by
    rw [← hA]
    split_ifs <;> omega
  have hB0 : 0 ≤ B ∧ B < 2147483648 := by
    rw [← hB]
    split_ifs <;> omega
  by_cases h1 : A = 0 ∧ B = 0
  · rw [if_pos h1, if_pos h1]
  · rw [if_neg h1, if_neg h1]
    by_cases h2 : A = 0
    · rw [if_pos h2, if_pos h2]
    · rw [if_neg h2, if_neg h2]
      by_cases h3 : B = 0
      · rw [if_pos h3, if_pos h3]
      · rw [if_neg h3, if_neg h3]
        have hq : Int.tdiv A B = A / B := Int.tdiv_eq_ediv hA0.1 hB0.1
        have hq0 : 0 ≤ A / B := Int.ediv_nonneg hA0.1 hB0.1
        have hq1 : A / B * B ≤ A := Int.ediv_mul_le A h3
        have hq2 : A / B ≤ A := Int.ediv_le_self B hA0.1
        have hm : A - A / B * B = A % B := by
          have := Int.emod_add_ediv A B
          linarith [mul_comm (A / B) B]
        have hm0 := Int.emod_nonneg A h3
        have hm1 := Int.emod_lt_of_pos A (by omega : 0 < B)
        have hmul0 : 0 ≤ A / B * B := mul_nonneg hq0 hB0.1
        have e1 : Coeff.int.div A B = A / B := by
          unfold Coeff.div
          rw [hq]
          exact Coeff.wrap_of_bounds _ _ (by omega) (by omega)
        have e2 : Coeff.int.mul (A / B) B = A / B * B := by
          unfold Coeff.mul
          exact Coeff.wrap_of_bounds _ _ (by omega) (by omega)
        have e3 : Coeff.int.sub A (A / B * B) = A - A / B * B := by
          unfold Coeff.sub
          exact Coeff.wrap_of_bounds _ _ (by omega) (by omega)
        rw [e1, e2, e3, hq, hm]
        exact gcdLoop_int _ B (A % B) hm0 (by omega) hB0.2

/-- The value of `gcd` without overflow is at most the absolute value of a
non-zero argument. -/
theorem gcd_exact_le (a b : Int) (hb : b ≠ 0) : gcd Coeff.exact a b ≤ |b| := by
  rw [gcd_eq, if_neg (fun h => hb h.2)]
  have h1 : (Int.gcd a b : Int) ∣ |b| := (dvd_abs _ _).mpr Int.gcd_dvd_right
  exact Int.le_of_dvd (abs_pos.mpr hb) h1

theorem gcdVecTail_int : ∀ (xs : List Int) (delta : Int), 0 < delta → delta < 2147483648 →
    (∀ x ∈ xs, -2147483648 < x ∧ x < 2147483648) →
    gcdVecTail Coeff.int delta xs = gcdVecTail Coeff.exact delta xs := by
  intro xs
  induction xs with
  | nil => intro delta _ _ _; rfl
  | cons x xs ih =>
    intro delta h0 h1 hx
    have hx0 := hx x (List.mem_cons_self _ _)
    have hxs : ∀ y ∈ xs, -2147483648 < y ∧ y < 2147483648 :=
      fun y hy => hx y (List.mem_cons_of_mem _ hy)
    simp only [gcdVecTail]
    rw [gcd_int delta x ⟨by omega, h1⟩ hx0]
    by_cases hx1 : x = 0
    · simp only [hx1, ne_eq, not_true_eq_false, if_false]
      exact ih delta h0 h1 hxs
    · rw [if_pos hx1, if_pos hx1]
      by_cases hg : gcd Coeff.exact delta x = 1
      · rw [if_pos hg, if_pos hg]
      · rw [if_neg hg, if_neg hg]
        have hle := gcd_exact_le delta x hx1
        have hab : |x| < 2147483648 := abs_lt.mpr ⟨by omega, hx0.2⟩
        exact ih _ (gcd_pos delta x) (by omega) hxs

/-- On vectors without the least value of `int` the vector form of `gcd` on
`int` returns what it returns without overflow. -/
theorem gcdVec_int : ∀ (v : List Int), (∀ x ∈ v, -2147483648 < x ∧ x < 2147483648) →
    gcdVec Coeff.int v = gcdVec Coeff.exact v := by
  intro v
  induction v with
  | nil => intro _; rfl
  | cons x xs ih =>
    intro hx
    have hx0 := hx x (List.mem_cons_self _ _)
    have hxs : ∀ y ∈ xs, -2147483648 < y ∧ y < 2147483648 :=
      fun y hy => hx y (List.mem_cons_of_mem _ hy)
    simp only [gcdVec, Coeff.neg_exact]
    have nx : Coeff.int.neg x = -x := by
      unfold Coeff.neg
      exact Coeff.wrap_of_bounds _ _ (by omega) (by omega)
    rw [nx]
    by_cases hx1 : x = 0
    · simp only [hx1, ne_eq, not_true_eq_false, if_false]
      exact ih hxs
    · rw [if_pos hx1, if_pos hx1]
      apply gcdVecTail_int _ _ _ _ hxs
      · split_ifs <;> omega
      · split_ifs <;> omega

/-- The quotient of a multiple of a positive number by that number is not
larger in absolute value. -/
theorem tdiv_bounds (x g : Int) (hg : 0 < g) (hd : g ∣ x) (M : Int) (h1 : -M < x) (h2 : x < M) :
    -M < Int.tdiv x g ∧ Int.tdiv x g < M := by
  have e := tdiv_mul_cancel_of_dvd x g hd
  generalize Int.tdiv x g = q at e
  by_cases hq : 0 ≤ q
  · have : q ≤ q * g := le_mul_of_one_le_right hq (by omega)
    constructor <;> omega
  · have : q * g ≤ q := mul_le_of_one_le_right (by omega) (by omega)
    constructor <;> omega

/-- On vectors without the least value of `int`, `normalizeIntVector` on `int`
returns what it returns without overflow. -/
theorem normalizeIntVector_int (v : List Int)
    (h : ∀ x ∈ v, -2147483648 < x ∧ x < 2147483648) :
    normalizeIntVector Coeff.int v = normalizeIntVector Coeff.exact v := by
  unfold normalizeIntVector
  rw [gcdVec_int v h]
  apply List.map_congr_left
  intro x hx
  have hb := tdiv_bounds x _ (gcdVec_pos v) (gcdVec_dvd v x hx) 2147483648 (h x hx).1 (h x hx).2
  unfold Coeff.div
  rw [Coeff.wrap_exact]
  exact Coeff.wrap_of_bounds _ _ (by omega) (by omega)

/-- For every coefficient type: on vectors of values with representable
negation `normalizeIntVector` returns what it returns without overflow. -/
theorem normalizeIntVector_fits (t : Coeff) (v : List Int) (h : ∀ x ∈ v, t.Fits x) :
    normalizeIntVector t v = normalizeIntVector Coeff.exact v := by
  cases t with
  | int => exact normalizeIntVector_int v (fun x hx => (Coeff.fits_int_iff x).mp (h x hx))
  | exact => rfl

/-- For every coefficient type: on values with representable negation `gcd`
returns what it returns without overflow. -/
theorem gcd_fits (t : Coeff) (a b : Int) (ha : t.Fits a) (hb : t.Fits b) :
    gcd t a b = gcd Coeff.exact a b := by
  cases t with
  | int => exact gcd_int a b ((Coeff.fits_int_iff a).mp ha) ((Coeff.fits_int_iff b).mp hb)
  | exact => rfl

/-- For every coefficient type: on vectors of values with representable
negation the vector form of `gcd` returns what it returns without overflow. -/
theorem gcdVec_fits (t : Coeff) (v : List Int) (h : ∀ x ∈ v, t.Fits x) :
    gcdVec t v = gcdVec Coeff.exact v := by
  cases t with
  | int => exact gcdVec_int v (fun x hx => (Coeff.fits_int_iff x).mp (h x hx))
  | exact => rfl

end Utils

/-! ## Statements that depend on the coefficient type -/

set_option maxRecDepth 100000 in
/-- C12, evaluated at failing inputs: on the coefficient type `int` the
statement `a = -a` leaves the least value `-2147483648` unchanged, so
`gcd(-2147483648, 6)` and `gcd(6, -2147483648)` are `-2` and not 2,
`gcd(-2147483648, 0)` and `gcd(0, -2147483648)` are `-2147483648` and not
`|x|`, and the vector form returns `-2` for `(-2147483648, 6)` and
`-2147483648` for the vector with the single entry `-2147483648`. -/
theorem gcd_least_int_negative :
    Utils.gcd Utils.Coeff.int (-2147483648) 6 = -2
    ∧ Utils.gcd Utils.Coeff.int 6 (-2147483648) = -2
    ∧ Utils.gcd Utils.Coeff.int (-2147483648) 0 = -2147483648
    ∧ Utils.gcd Utils.Coeff.int 0 (-2147483648) = -2147483648
    ∧ Utils.gcdVec Utils.Coeff.int [-2147483648, 6] = -2
    ∧ Utils.gcdVec Utils.Coeff.int [-2147483648] = -2147483648 := by
  decide

set_option maxRecDepth 100000 in
/-- C13, evaluated at a failing input: on the coefficient type `int`
`normalizeIntVector` turns `(-2147483648, 6)` into `(1073741824, -3)`: the
divisor is `-2`, not the positive gcd 2, and both signs are flipped. The
elimination of the variable 2 from the single inequality
`-2147483648 x + 6 y ≥ 0` in the variables `x, y, z` therefore returns
`1073741824 x - 3 y ≥ 0`, which the point `(-1, 0, 0)` of the input system
violates. -/
theorem normalizeIntVector_least_int_flips (test : Elimination.ChernikovTest)
    (ordering : Elimination.EliminationOrdering) (rnd : Nat → Nat) :
    Utils.normalizeIntVector Utils.Coeff.int [-2147483648, 6] = [1073741824, -3]
    ∧ Utils.gcdVec Utils.Coeff.int [-2147483648, 6] = -2
    ∧ Elimination.elimination Utils.Coeff.int ⟨test, ordering, true⟩ rnd
        ⟨3, [[-2147483648, 6, 0]]⟩ [2] = ⟨3, [[1073741824, -3, 0]]⟩
    ∧ (-2147483648 : Int) * (-1) + 6 * 0 + 0 * 0 ≥ 0
    ∧ (1073741824 : Int) * (-1) + (-3) * 0 + 0 * 0 < 0 := by
  refine ⟨by decide, by decide, ?_, by decide, by decide⟩
  rw [Elimination.elimination_rnd_singleton _ rnd (fun _ => 0)]
  cases test <;> cases ordering <;> decide

set_option maxRecDepth 100000 in
/-- C27, evaluated at a failing input: for the plus inequality
`p = (65536, 1)` and the minus inequality `m = (-65536, 65535)` on the
variable 0 the combination with the multipliers `p[0] = 65536` and
`-m[0] = 65536` is `(0, 2^32)`, whose normalization is `(0, 1)`; on the
coefficient type `int` the products wrap and `newInequality(p, m, 0)` has
the normal `(0, 0)`, which is not a positive combination of `p` and `m`.
The elimination of the variable 0 from the system of these two rows returns
the row `(0, 0)`. -/
theorem newInequality_overflow (test : Elimination.ChernikovTest)
    (ordering : Elimination.EliminationOrdering) (rnd : Nat → Nat) :
    (Elimination.newInequalityFromPair Utils.Coeff.int (Utils.VectorSet.ops 8) 2 true
        ⟨[65536, 1], [1]⟩ ⟨[-65536, 65535], [0]⟩ 0).normal = [0, 0]
    ∧ List.zipWith (fun pk mk => (65536 : Int) * mk - (-65536) * pk) [65536, 1] [-65536, 65535]
        = [0, 4294967296]
    ∧ Elimination.elimination Utils.Coeff.int ⟨test, ordering, true⟩ rnd
        ⟨2, [[65536, 1], [-65536, 65535]]⟩ [0] = ⟨2, [[0, 0]]⟩ := by
  refine ⟨by decide, by decide, ?_⟩
  rw [Elimination.elimination_rnd_singleton _ rnd (fun _ => 0)]
  cases test <;> cases ordering <;> decide

set_option maxRecDepth 100000 in
/-- C29, evaluated at a failing input: the elimination of the variable 0 from
`x + 65536 y + z ≥ 0, -65536 x + y ≥ 0` on the coefficient type `int` returns
the single row `(0, 1, 65536)` (the coefficient `1 + 2^32` of the combination
`row 1 + 65536 * row 0` wraps to 1). The point `(0, 65536, -2)` satisfies
both input rows and violates the returned row, so the returned row is not
implied by the input system and is no non-negative combination of its
rows. -/
theorem elimination_overflow_not_implied (test : Elimination.ChernikovTest)
    (ordering : Elimination.EliminationOrdering) (rnd : Nat → Nat) :
    Elimination.elimination Utils.Coeff.int ⟨test, ordering, true⟩ rnd
        ⟨3, [[1, 65536, 1], [-65536, 1, 0]]⟩ [0] = ⟨3, [[0, 1, 65536]]⟩
    ∧ (1 : Int) * 0 + 65536 * 65536 + 1 * (-2) ≥ 0
    ∧ (-65536 : Int) * 0 + 1 * 65536 + 0 * (-2) ≥ 0
    ∧ (0 : Int) * 0 + 1 * 65536 + 65536 * (-2) < 0 := by
  refine ⟨?_, by decide, by decide, by decide⟩
  rw [Elimination.elimination_rnd_singleton _ rnd (fun _ => 0)]
  cases test <;> cases ordering <;> decide

namespace DDM

open Utils

/-- Normalization of an extended vector whose entries have representable
negations and whose entries from position `n` on are the exact inner products
of the first `n` entries with the rows of a matrix: the vector is divided by a
positive `g`, the signs are kept, and when the first `n` entries are not all
zero, `g` is their gcd and the first `n` entries of the result have gcd 1. -/
theorem normalizeIntVector_coordinates (t : Coeff) (n : Nat) (a : Matrix) (v : List Int)
    (hfit : ∀ x ∈ v, t.Fits x)
    (hcache : ∀ i, n + i < v.length → v.getD (n + i) 0 = dot Coeff.exact n v (a.row i)) :
    ∃ g : Int, 0 < g
      ∧ (normalizeIntVector t v).length = v.length
      ∧ (∀ k, v.getD k 0 = (normalizeIntVector t v).getD k 0 * g)
      ∧ (normalizeIntVector t v).map Int.sign = v.map Int.sign
      ∧ ((∃ x ∈ v.take n, x ≠ 0) →
          g = (listGcd (v.take n) : Int) ∧ listGcd ((normalizeIntVector t v).take n) = 1) := by
  rw [normalizeIntVector_fits t v hfit]
  refine ⟨gcdVec Coeff.exact v, gcdVec_pos v, Elimination.length_normalizeIntVector v,
    fun k => (Elimination.getD_normalizeIntVector_mul v k).symm, sign_normalizeIntVector v, ?_⟩
  intro hnz
  have hdvd : ∀ x ∈ v.drop n, (listGcd (v.take n) : Int) ∣ x := by
    intro x hx
    obtain ⟨j, hj⟩ := List.mem_iff_getElem?.mp hx
    rw [List.getElem?_drop] at hj
    have hjl : n + j < v.length := by
      by_contra hc
      rw [List.getElem?_eq_none (by omega)] at hj
      cases hj
    have hx2 : x = v.getD (n + j) 0 := by
      rw [List.getD_eq_getElem?_getD, hj]
      rfl
    rw [hx2, hcache j hjl, dot_eq_sum]
    apply Finset.dvd_sum
    intro k hk
    have hk2 : k < n := Finset.mem_range.mp hk
    apply Dvd.dvd.mul_right
    apply listGcd_dvd
    rw [List.mem_iff_getElem?]
    refine ⟨k, ?_⟩
    rw [List.getElem?_take_of_lt hk2, List.getD_eq_getElem?_getD,
      List.getElem?_eq_getElem (by omega)]
    rfl
  have hg : gcdVec Coeff.exact v = gcdVec Coeff.exact (v.take n) := gcdVec_take v n hdvd
  have hnz2 : ¬ ∀ x ∈ v.take n, x = 0 := by
    obtain ⟨x, hx, hx0⟩ := hnz
    exact fun h => hx0 (h x hx)
  have ht : (normalizeIntVector Coeff.exact v).take n
      = normalizeIntVector Coeff.exact (v.take n) := by
    unfold normalizeIntVector
    rw [← List.map_take, ← hg]
  constructor
  · rw [hg, gcdVec_eq, if_neg hnz2]
  · rw [ht, listGcd_normalizeIntVector, if_neg hnz2]

end DDM

set_option maxRecDepth 100000 in
/-- C14, counterexample: in the run on `squareCone` the third initial ray,
made by `newRay(coords, disc, numInc)` from the row `(-1, -1, 1)` of `f`, is
`(-1, -1, 1)`, and the first iteration (pivot inequality 3, plus ray 2 with
discrepancy 2, minus ray 1 with discrepancy -1) makes by
`newRay(plus, minus, pivot)` the ray `(-1, 1, 1)`: in both the first non-zero
coordinate is negative. In the run on `skewQuadrant` the first initial ray is
`(0, 0)`, whose coordinates have no gcd 1. In the run on `steepCone` the block
`(1073741826, -2147483648)` written for the edge contains the least value of
`int` and the ray made is `(-536870913, 1073741824)`, with the sign of both
coordinates changed. In the run with plusplus on `cacheSystem` the cached
discrepancies of the first initial ray have wrapped and its coordinates
`(2152455, 1054527)` have the gcd 1173. -/
theorem newRay_first_nonzero_negative :
    (DDM.newRay (defaultContext squareCone)
        ((Utils.gauss Utils.Coeff.int squareCone squareCone.nrows true 0).f.row 2) []
        squareCone.nrows).coordinates = [-1, -1, 1]
    ∧ (defaultInitialState squareCone).heap.map (fun r => r.coordinates)
        = [[1, -1, 1], [0, 1, 0], [-1, -1, 1]]
    ∧ (DDM.iterations (defaultContext squareCone) 1 (defaultInitialState squareCone)).map
        (fun s => (s.pivotInequalityIdx,
          s.heap.map (fun r => (r.coordinates, r.pivotDiscrepancy)),
          (DDM.edgeRay (defaultContext squareCone) s.heap 2 1 3).coordinates))
      = some (3, [([1, -1, 1], 2), ([0, 1, 0], -1), ([-1, -1, 1], 2), ([1, 1, 1], 0),
          ([-1, 1, 1], 0)], [-1, 1, 1])
    ∧ (defaultInitialState skewQuadrant).heap.map (fun r => r.coordinates) = [[0, 0], [1, 2]]
    ∧ (DDM.iterations (defaultContext steepCone) 1 (defaultInitialState steepCone)).map
        (fun s => (DDM.newRayFromEdgeBlock (defaultContext steepCone) s.heap 0 1,
          (DDM.edgeRay (defaultContext steepCone) s.heap 0 1 2).coordinates))
      = some ([1073741826, -2147483648], [-536870913, 1073741824])
    ∧ (DDM.newRay (plusContext cacheSystem)
        ((Utils.gauss Utils.Coeff.int cacheSystem cacheSystem.nrows true 0).f.row 0)
        (DDM.computeDiscrepancies (plusContext cacheSystem)
          ((Utils.gauss Utils.Coeff.int cacheSystem cacheSystem.nrows true 0).f.row 0))
        cacheSystem.nrows).coordinates = [2152455, 1054527, 0, -654571180, -73403638]
    ∧ Utils.listGcd [2152455, 1054527] = 1173
    ∧ DDM.dot Utils.Coeff.exact 2 [2152455, 1054527] (cacheSystem.row 1) = 3640396116 := by
  decide

/-- C14, amended: in integer mode, for the block written by either `newRay`
overload (the `dim` coordinates followed, with plusplus, by the
discrepancies), if every written entry has a representable negation (on
`int`: none is the least value) and every written discrepancy is the exact
inner product of the written coordinates with its row of the inequality
matrix, then the ray holds the written entries divided by a positive integer
`g`, every entry keeping its sign (no sign is changed, so the first non-zero
coordinate is negative whenever the first non-zero written coordinate is),
and when the written coordinates are not all zero, `g` is the gcd of the
written coordinates and the coordinates of the ray have gcd 1. -/
theorem newRay_normalized {S : Type} (c : DDM.Context S) (hint : c.intArith = true)
    (coords disc : List Int) (numInc : Nat) (heap : List (DDM.Ray S))
    (plus minus pivotIneIdx : Nat) :
    ((∀ x ∈ DDM.newRayBlock c coords disc, c.arith.Fits x) →
      (∀ i, i < c.inequalityMatrix.nrows →
        c.dim + i < (DDM.newRayBlock c coords disc).length →
        (DDM.newRayBlock c coords disc).getD (c.dim + i) 0
          = DDM.dot Utils.Coeff.exact c.dim (DDM.newRayBlock c coords disc)
              (c.inequalityMatrix.row i)) →
      ∃ g : Int, 0 < g
        ∧ (DDM.newRay c coords disc numInc).coordinates.length
          = (DDM.newRayBlock c coords disc).length
        ∧ (∀ k, (DDM.newRayBlock c coords disc).getD k 0
            = (DDM.newRay c coords disc numInc).coordinates.getD k 0 * g)
        ∧ (DDM.newRay c coords disc numInc).coordinates.map Int.sign
          = (DDM.newRayBlock c coords disc).map Int.sign
        ∧ ((∃ x ∈ (DDM.newRayBlock c coords disc).take c.dim, x ≠ 0) →
            g = (Utils.listGcd ((DDM.newRayBlock c coords disc).take c.dim) : Int)
            ∧ Utils.listGcd ((DDM.newRay c coords disc numInc).coordinates.take c.dim) = 1))
    ∧ ((∀ x ∈ DDM.newRayFromEdgeBlock c heap plus minus, c.arith.Fits x) →
      (∀ i, i < c.inequalityMatrix.nrows →
        c.dim + i < (DDM.newRayFromEdgeBlock c heap plus minus).length →
        (DDM.newRayFromEdgeBlock c heap plus minus).getD (c.dim + i) 0
          = DDM.dot Utils.Coeff.exact c.dim (DDM.newRayFromEdgeBlock c heap plus minus)
              (c.inequalityMatrix.row i)) →
      ∃ g : Int, 0 < g
        ∧ (DDM.edgeRay c heap plus minus pivotIneIdx).coordinates.length
          = (DDM.newRayFromEdgeBlock c heap plus minus).length
        ∧ (∀ k, (DDM.newRayFromEdgeBlock c heap plus minus).getD k 0
            = (DDM.edgeRay c heap plus minus pivotIneIdx).coordinates.getD k 0 * g)
        ∧ (DDM.edgeRay c heap plus minus pivotIneIdx).coordinates.map Int.sign
          = (DDM.newRayFromEdgeBlock c heap plus minus).map Int.sign
        ∧ ((∃ x ∈ (DDM.newRayFromEdgeBlock c heap plus minus).take c.dim, x ≠ 0) →
            g = (Utils.listGcd ((DDM.newRayFromEdgeBlock c heap plus minus).take c.dim) : Int)
            ∧ Utils.listGcd
                ((DDM.edgeRay c heap plus minus pivotIneIdx).coordinates.take c.dim) = 1)) := by
  have hext : c.extendedDim ≤ c.dim + c.inequalityMatrix.nrows := by
    unfold DDM.Context.extendedDim
    split_ifs <;> omega
  have hl1 : (DDM.newRayBlock c coords disc).length ≤ c.extendedDim := by
    unfold DDM.newRayBlock
    rw [List.length_append, List.length_take, List.length_take]
    have := DDM.dim_le_extendedDim c
    omega
  have hl2 : (DDM.newRayFromEdgeBlock c heap plus minus).length ≤ c.extendedDim := by
    unfold DDM.newRayFromEdgeBlock
    rw [List.length_take]
    omega
  rw [DDM.newRay_coordinates, DDM.edgeRay_coordinates, DDM.normalizeRay_int c hint,
    DDM.normalizeRay_int c hint]
  constructor
  · intro hfit hcache
    exact DDM.normalizeIntVector_coordinates c.arith c.dim c.inequalityMatrix _ hfit
      (fun i hi => hcache i (by omega) hi)
  · intro hfit hcache
    exact DDM.normalizeIntVector_coordinates c.arith c.dim c.inequalityMatrix _ hfit
      (fun i hi => hcache i (by omega) hi)

set_option maxRecDepth 100000 in
/-- C14 in the run on `squareCone` with plusplus: the third initial ray is
made from the coordinates `(-1, -1, 1)` and their discrepancies
`(0, 2, 0, 2, 1)`, and the ray of the edge between the plus ray 2 and the
minus ray 1 of `squarePlusHeap` from the block `(-1, 1, 1, 0, 2, 2, 0, 1)`;
both blocks satisfy the two conditions, and in both rays the coordinates have
gcd 1 and a negative first coordinate. -/
theorem newRay_normalized_witness :
    (plusContext squareCone).intArith = true
    ∧ (plusContext squareCone).usePlusPlus = true
    ∧ (DDM.newRay (plusContext squareCone) [-1, -1, 1]
        (DDM.computeDiscrepancies (plusContext squareCone) [-1, -1, 1]) 5).coordinates
        = [-1, -1, 1, 0, 2, 0, 2, 1]
    ∧ (DDM.edgeRay (plusContext squareCone) squarePlusHeap 2 1 3).coordinates
        = [-1, 1, 1, 0, 2, 2, 0, 1]
    ∧ (∃ g : Int, 0 < g
        ∧ (DDM.newRay (plusContext squareCone) [-1, -1, 1]
            (DDM.computeDiscrepancies (plusContext squareCone) [-1, -1, 1]) 5).coordinates.length
          = (DDM.newRayBlock (plusContext squareCone) [-1, -1, 1]
              (DDM.computeDiscrepancies (plusContext squareCone) [-1, -1, 1])).length
        ∧ (∀ k, (DDM.newRayBlock (plusContext squareCone) [-1, -1, 1]
              (DDM.computeDiscrepancies (plusContext squareCone) [-1, -1, 1])).getD k 0
            = (DDM.newRay (plusContext squareCone) [-1, -1, 1]
                (DDM.computeDiscrepancies (plusContext squareCone) [-1, -1, 1])
                5).coordinates.getD k 0 * g)
        ∧ (DDM.newRay (plusContext squareCone) [-1, -1, 1]
            (DDM.computeDiscrepancies (plusContext squareCone) [-1, -1, 1]) 5).coordinates.map
              Int.sign
          = (DDM.newRayBlock (plusContext squareCone) [-1, -1, 1]
              (DDM.computeDiscrepancies (plusContext squareCone) [-1, -1, 1])).map Int.sign
        ∧ ((∃ x ∈ (DDM.newRayBlock (plusContext squareCone) [-1, -1, 1]
              (DDM.computeDiscrepancies (plusContext squareCone) [-1, -1, 1])).take
                (plusContext squareCone).dim, x ≠ 0) →
            g = (Utils.listGcd ((DDM.newRayBlock (plusContext squareCone) [-1, -1, 1]
              (DDM.computeDiscrepancies (plusContext squareCone) [-1, -1, 1])).take
                (plusContext squareCone).dim) : Int)
            ∧ Utils.listGcd ((DDM.newRay (plusContext squareCone) [-1, -1, 1]
                (DDM.computeDiscrepancies (plusContext squareCone) [-1, -1, 1])
                5).coordinates.take (plusContext squareCone).dim) = 1))
    ∧ (∃ g : Int, 0 < g
        ∧ (DDM.edgeRay (plusContext squareCone) squarePlusHeap 2 1 3).coordinates.length
          = (DDM.newRayFromEdgeBlock (plusContext squareCone) squarePlusHeap 2 1).length
        ∧ (∀ k, (DDM.newRayFromEdgeBlock (plusContext squareCone) squarePlusHeap 2 1).getD k 0
            = (DDM.edgeRay (plusContext squareCone) squarePlusHeap 2 1 3).coordinates.getD k 0
              * g)
        ∧ (DDM.edgeRay (plusContext squareCone) squarePlusHeap 2 1 3).coordinates.map Int.sign
          = (DDM.newRayFromEdgeBlock (plusContext squareCone) squarePlusHeap 2 1).map Int.sign
        ∧ ((∃ x ∈ (DDM.newRayFromEdgeBlock (plusContext squareCone) squarePlusHeap 2 1).take
              (plusContext squareCone).dim, x ≠ 0) →
            g = (Utils.listGcd ((DDM.newRayFromEdgeBlock (plusContext squareCone)
              squarePlusHeap 2 1).take (plusContext squareCone).dim) : Int)
            ∧ Utils.listGcd ((DDM.edgeRay (plusContext squareCone) squarePlusHeap 2 1
                3).coordinates.take (plusContext squareCone).dim) = 1)) :=
  ⟨rfl, rfl, by decide, by decide,
    (newRay_normalized (plusContext squareCone) rfl [-1, -1, 1]
      (DDM.computeDiscrepancies (plusContext squareCone) [-1, -1, 1]) 5 squarePlusHeap 2 1
      3).1 (by decide) (by decide),
    (newRay_normalized (plusContext squareCone) rfl [-1, -1, 1]
      (DDM.computeDiscrepancies (plusContext squareCone) [-1, -1, 1]) 5 squarePlusHeap 2 1
      3).2 (by decide) (by decide)⟩

namespace Utils

/-- The difference of two products in the coefficient type is the stored
value of the difference of the products. -/
theorem Coeff.sub_mul_mul (t : Coeff) (a b c d : Int) :
    t.sub (t.mul a b) (t.mul c d) = t.wrap (a * b - c * d) := by
  cases t with
  | int =>
    show (((a * b + 2147483648) % 4294967296 - 2147483648)
        - ((c * d + 2147483648) % 4294967296 - 2147483648) + 2147483648) % 4294967296
        - 2147483648
      = (a * b - c * d + 2147483648) % 4294967296 - 2147483648
    generalize a * b = x
    generalize c * d = y
    omega
  | exact => rfl

end Utils

/-- C30, counterexample: in the run on `sectorSystem` the first iteration has
the pivot inequality 2, the row `(1, -1)`, the plus ray `r+ = (1, 0)` with
`d+ = <r+, pivot> = 1` and the minus ray `r- = (0, 1)` with
`d- = <r-, pivot> = -1`; this is the heap `sectorHeap`. The block written by
`newRay(plus, minus, pivot)` is `(1, 1)` and the ray made is `(1, 1)`, while
`d- * r+ - d+ * r-` is `(-1, -1)`. -/
theorem newRay_block_sign :
    (DDM.getRay sectorContext sectorHeap 0).coordinates = [1, 0]
    ∧ (DDM.getRay sectorContext sectorHeap 0).pivotDiscrepancy = 1
    ∧ DDM.computeDiscrepancy sectorContext (DDM.getRay sectorContext sectorHeap 0) 2 = 1
    ∧ (DDM.getRay sectorContext sectorHeap 1).coordinates = [0, 1]
    ∧ (DDM.getRay sectorContext sectorHeap 1).pivotDiscrepancy = -1
    ∧ DDM.computeDiscrepancy sectorContext (DDM.getRay sectorContext sectorHeap 1) 2 = -1
    ∧ DDM.newRayFromEdgeBlock sectorContext sectorHeap 0 1 = [1, 1]
    ∧ (DDM.edgeRay sectorContext sectorHeap 0 1 2).coordinates = [1, 1]
    ∧ List.zipWith (fun rp rm => (-1 : Int) * rp - 1 * rm) [1, 0] [0, 1] = [-1, -1]
    ∧ (DDM.iterations (defaultContext sectorSystem) 1 (defaultInitialState sectorSystem)).map
        (fun s => (s.pivotInequalityIdx,
          s.heap.map (fun r => (r.coordinates, r.pivotDiscrepancy))))
      = some (2, [([1, 0], 1), ([0, 1], -1), ([1, 1], 0)]) := by
  decide

/-- C30, amended: the ray made by `newRay(plus, minus, pivot)` holds the
normalization of the block whose entry `k` is `d+ * r-[k] - d- * r+[k]`
evaluated in the coefficient type, that is the stored value of that integer;
whenever that integer is a value of the type, the entry is
`d+ * r-[k] - d- * r+[k]`, the negative of `d- * r+[k] - d+ * r-[k]`. -/
theorem newRay_block_formula {S : Type} (c : DDM.Context S) (heap : List (DDM.Ray S))
    (plus minus pivotIneIdx k : Nat) (hk : k < c.extendedDim)
    (hp : k < (DDM.getRay c heap plus).coordinates.length)
    (hm : k < (DDM.getRay c heap minus).coordinates.length) :
    (DDM.edgeRay c heap plus minus pivotIneIdx).coordinates
      = DDM.normalizeRay c (DDM.newRayFromEdgeBlock c heap plus minus)
    ∧ (DDM.newRayFromEdgeBlock c heap plus minus).getD k 0
      = c.arith.sub
          (c.arith.mul (DDM.getRay c heap plus).pivotDiscrepancy
            ((DDM.getRay c heap minus).coordinates.getD k 0))
          (c.arith.mul (DDM.getRay c heap minus).pivotDiscrepancy
            ((DDM.getRay c heap plus).coordinates.getD k 0))
    ∧ (DDM.newRayFromEdgeBlock c heap plus minus).getD k 0
      = c.arith.wrap ((DDM.getRay c heap plus).pivotDiscrepancy
          * (DDM.getRay c heap minus).coordinates.getD k 0
        - (DDM.getRay c heap minus).pivotDiscrepancy
          * (DDM.getRay c heap plus).coordinates.getD k 0)
    ∧ (c.arith.wrap ((DDM.getRay c heap plus).pivotDiscrepancy
          * (DDM.getRay c heap minus).coordinates.getD k 0
        - (DDM.getRay c heap minus).pivotDiscrepancy
          * (DDM.getRay c heap plus).coordinates.getD k 0)
        = (DDM.getRay c heap plus).pivotDiscrepancy
          * (DDM.getRay c heap minus).coordinates.getD k 0
        - (DDM.getRay c heap minus).pivotDiscrepancy
          * (DDM.getRay c heap plus).coordinates.getD k 0 →
      (DDM.newRayFromEdgeBlock c heap plus minus).getD k 0
        = (DDM.getRay c heap plus).pivotDiscrepancy
            * (DDM.getRay c heap minus).coordinates.getD k 0
          - (DDM.getRay c heap minus).pivotDiscrepancy
            * (DDM.getRay c heap plus).coordinates.getD k 0
      ∧ (DDM.newRayFromEdgeBlock c heap plus minus).getD k 0
        = -((DDM.getRay c heap minus).pivotDiscrepancy
            * (DDM.getRay c heap plus).coordinates.getD k 0
          - (DDM.getRay c heap plus).pivotDiscrepancy
            * (DDM.getRay c heap minus).coordinates.getD k 0)) := by
  have h : (DDM.newRayFromEdgeBlock c heap plus minus).getD k 0
      = c.arith.sub
          (c.arith.mul (DDM.getRay c heap plus).pivotDiscrepancy
            ((DDM.getRay c heap minus).coordinates.getD k 0))
          (c.arith.mul (DDM.getRay c heap minus).pivotDiscrepancy
            ((DDM.getRay c heap plus).coordinates.getD k 0)) := by
    unfold DDM.newRayFromEdgeBlock
    simp only [List.getD_eq_getElem?_getD]
    rw [List.getElem?_take_of_lt hk, List.getElem?_zipWith, List.getElem?_eq_getElem hp,
      List.getElem?_eq_getElem hm]
    rfl
  refine ⟨DDM.edgeRay_coordinates c heap plus minus pivotIneIdx, h, ?_, ?_⟩
  · rw [h, Utils.Coeff.sub_mul_mul]
  · intro hw
    rw [h, Utils.Coeff.sub_mul_mul, hw]
    exact ⟨rfl, by ring⟩

/-- C30 at the first iteration of the run on `sectorSystem` (the heap
`sectorHeap`, plus ray 0, minus ray 1, pivot 2): both entries of the written
block are `d+ * r-[k] - d- * r+[k]`, namely `1 * 0 - (-1) * 1 = 1` and
`1 * 1 - (-1) * 0 = 1`. -/
theorem newRay_block_formula_witness :
    0 < sectorContext.extendedDim
    ∧ 0 < (DDM.getRay sectorContext sectorHeap 0).coordinates.length
    ∧ 0 < (DDM.getRay sectorContext sectorHeap 1).coordinates.length
    ∧ (DDM.newRayFromEdgeBlock sectorContext sectorHeap 0 1).getD 0 0
      = (DDM.getRay sectorContext sectorHeap 0).pivotDiscrepancy
          * (DDM.getRay sectorContext sectorHeap 1).coordinates.getD 0 0
        - (DDM.getRay sectorContext sectorHeap 1).pivotDiscrepancy
          * (DDM.getRay sectorContext sectorHeap 0).coordinates.getD 0 0
    ∧ (DDM.newRayFromEdgeBlock sectorContext sectorHeap 0 1).getD 0 0 = 1 :=
  ⟨by decide, by decide, by decide,
    ((newRay_block_formula sectorContext sectorHeap 0 1 2 0 (by decide) (by decide)
      (by decide)).2.2.2 (by decide)).1,
    (((newRay_block_formula sectorContext sectorHeap 0 1 2 0 (by decide) (by decide)
      (by decide)).2.2.2 (by decide)).1).trans (by decide)⟩

set_option maxRecDepth 100000 in
/-- C6, evaluated at failing inputs: on the cone over the square `ddm` returns
the four rays for the pivoting orders maxindex, lexmin and lexmax as well
(with every adjacency test, set representation and plusplus setting, for
every fuel of at least one step), but the facet list is `[1, 3, 2, 4]` for
maxindex and `[0, 1, 3, 4]` for lexmin and lexmax: it contains the index 4,
which in the matrix as passed in is the row `z ≥ 0`, tight on none of the
four rays, and it lacks one of the indices `0, 1, 2, 3`. -/
theorem square_cone_facets_reordered (t : DDM.AdjacencyTest) (sr : DDM.SetRepresentation)
    (pp : Bool) (rnd : Nat → Nat) (fuel : Nat) :
    (DDM.ddm Utils.Coeff.int ⟨t, DDM.PivotingOrder.MaxIndex, sr, pp⟩ rnd (fuel + 1) squareCone
        true 0).map (fun o => (o.rays, o.facets))
      = some (⟨3, [[1, 1, 1], [1, -1, 1], [-1, -1, 1], [-1, 1, 1]]⟩, [1, 3, 2, 4])
    ∧ (DDM.ddm Utils.Coeff.int ⟨t, DDM.PivotingOrder.LexMin, sr, pp⟩ rnd (fuel + 1) squareCone
        true 0).map (fun o => (o.rays, o.facets))
      = some (⟨3, [[1, 1, 1], [1, -1, 1], [-1, -1, 1], [-1, 1, 1]]⟩, [0, 1, 3, 4])
    ∧ (DDM.ddm Utils.Coeff.int ⟨t, DDM.PivotingOrder.LexMax, sr, pp⟩ rnd (fuel + 1) squareCone
        true 0).map (fun o => (o.rays, o.facets))
      = some (⟨3, [[-1, -1, 1], [-1, 1, 1], [1, 1, 1], [1, -1, 1]]⟩, [0, 1, 3, 4])
    ∧ squareCone.row 4 = [0, 0, 1]
    ∧ [[1, 1, 1], [1, -1, 1], [-1, -1, 1], [-1, 1, 1]].map
        (fun r => DDM.dot Utils.Coeff.int 3 r (squareCone.row 4)) = [1, 1, 1, 1] := by
  refine ⟨?_, ?_, ?_, by decide, by decide⟩
  · rw [DDM.ddm_rnd _ rnd (fun _ => 0) _ _ _ _ (by simp), Nat.add_comm]
    apply DDM.ddm_map_fuel_add
    cases t <;> cases sr <;> cases pp <;> decide
  · rw [DDM.ddm_rnd _ rnd (fun _ => 0) _ _ _ _ (by simp), Nat.add_comm]
    apply DDM.ddm_map_fuel_add
    cases t <;> cases sr <;> cases pp <;> decide
  · rw [DDM.ddm_rnd _ rnd (fun _ => 0) _ _ _ _ (by simp), Nat.add_comm]
    apply DDM.ddm_map_fuel_add
    cases t <;> cases sr <;> cases pp <;> decide

set_option maxRecDepth 100000 in
/-- C32, evaluated at a failing input: in the run of `ddm` with the default
parameters on `steepCone` the first iteration has the pivot inequality 2, the
plus ray `r+ = (1, 0)` with `d+ = <r+, pivot> = 2^30` and the minus ray
`r- = (1, 2)` with `d- = <r-, pivot> = -2`, both computed without overflow.
The combination `d+ * r- - d- * r+` is `(2^30 + 2, 2^31)`; on `int` the
second entry wraps, `newRay(plus, minus, 2)` writes
`(1073741826, -2147483648)`, the divisor found by `gcd` is `-2`, and the ray
made is `(-536870913, 1073741824)`. It is `-1073741825 * r+ + 536870912 * r-`,
its inner product with the pivot row is not zero, and its inner product with
row 0, which both parents satisfy, is negative. The run ends with the rays
`(1, 0)`, `(1, 0)` and the facets `[1, 2]`, while the extreme rays of the cone
are `(1, 0)` and `(536870913, 1073741824)`; the run of `ddm` on the returned
rays, which `check` performs, returns three rows for these two facets. -/
theorem newRay_overflow_leaves_cone (rnd : Nat → Nat) (fuel : Nat) :
    (DDM.iterations (defaultContext steepCone) 1 (defaultInitialState steepCone)).map
        (fun s => (s.pivotInequalityIdx,
          s.heap.map (fun r => (r.coordinates, r.pivotDiscrepancy))))
      = some (2, [([1, 0], 1073741824), ([1, 2], -2), ([-536870913, 1073741824], 0)])
    ∧ (DDM.iterations (defaultContext steepCone) 1 (defaultInitialState steepCone)).map
        (fun s => (DDM.newRayFromEdgeBlock (defaultContext steepCone) s.heap 0 1,
          Utils.gcdVec Utils.Coeff.int
            (DDM.newRayFromEdgeBlock (defaultContext steepCone) s.heap 0 1),
          (DDM.edgeRay (defaultContext steepCone) s.heap 0 1 2).coordinates))
      = some ([1073741826, -2147483648], -2, [-536870913, 1073741824])
    ∧ DDM.dot Utils.Coeff.exact 2 [1, 0] (steepCone.row 2) = 1073741824
    ∧ DDM.dot Utils.Coeff.exact 2 [1, 2] (steepCone.row 2) = -2
    ∧ List.zipWith (fun m p => (1073741824 : Int) * m - (-2) * p) [1, 2] [1, 0]
        = [1073741826, 2147483648]
    ∧ List.zipWith (fun p m => (-1073741825 : Int) * p + 536870912 * m) [1, 0] [1, 2]
        = [-536870913, 1073741824]
    ∧ DDM.dot Utils.Coeff.exact 2 [-536870913, 1073741824] (steepCone.row 2)
        = -1152921506754330624
    ∧ DDM.dot Utils.Coeff.int 2 [-536870913, 1073741824] (steepCone.row 2) = -2147483648
    ∧ DDM.dot Utils.Coeff.exact 2 [1, 0] (steepCone.row 0) = 1073741826
    ∧ DDM.dot Utils.Coeff.exact 2 [1, 2] (steepCone.row 0) = 0
    ∧ DDM.dot Utils.Coeff.exact 2 [-536870913, 1073741824] (steepCone.row 0)
        = -1152921507828072450
    ∧ (DDM.ddm Utils.Coeff.int DDM.Parameters.default rnd (fuel + 2) steepCone true 0).map
        (fun o => (o.rays, o.facets)) = some (⟨2, [[1, 0], [1, 0]]⟩, [1, 2])
    ∧ (DDM.ddm Utils.Coeff.exact DDM.Parameters.default rnd (fuel + 2) steepCone true 0).map
        (fun o => (o.rays, o.facets))
      = some (⟨2, [[1, 0], [536870913, 1073741824]]⟩, [1, 2])
    ∧ (DDM.ddm Utils.Coeff.int DDM.Parameters.default rnd (fuel + 2) ⟨2, [[1, 0], [1, 0]]⟩
        true 0).map (fun o => o.rays) = some ⟨2, [[0, 1], [0, -1], [1, 0]]⟩ := by
  refine ⟨by decide, by decide, by decide, by decide, by decide, by decide, by decide,
    by decide, by decide, by decide, by decide, ?_, ?_, ?_⟩
  · rw [DDM.ddm_rnd _ rnd (fun _ => 0) _ _ _ _ (by decide), Nat.add_comm]
    exact DDM.ddm_map_fuel_add _ _ _ _ 2 fuel _ _ _ (by decide)
  · rw [DDM.ddm_rnd _ rnd (fun _ => 0) _ _ _ _ (by decide), Nat.add_comm]
    exact DDM.ddm_map_fuel_add _ _ _ _ 2 fuel _ _ _ (by decide)
  · rw [DDM.ddm_rnd _ rnd (fun _ => 0) _ _ _ _ (by decide), Nat.add_comm]
    exact DDM.ddm_map_fuel_add _ _ _ _ 2 fuel _ _ _ (by decide)

set_option maxRecDepth 100000 in
/-- C40, evaluated at a failing input: in the run of `ddm` with plusplus on
`cacheSystem` (integer mode on `int`) the ray made in the first iteration has
the coordinates `(-48644181, 198869349)` and the cached discrepancies
`(-439260810, 0, -145588652)`, while `computeDiscrepancy` returns
`(634481014, 0, 928153172)` for it: the cache differs on the rows 0 and 2, so
`computeDiscrepancy` prints its message. The first initial ray keeps the
coordinates `(2152455, 1054527)`, whose gcd is 1173: the extended vector was
divided by 1. -/
theorem cache_mismatch_overflow :
    (plusInitialState cacheSystem).heap.map (fun r => r.coordinates)
      = [[2152455, 1054527, 0, -654571180, -73403638], [-1609, 1173, 3598946, 726664, 0]]
    ∧ Utils.listGcd [2152455, 1054527] = 1173
    ∧ (DDM.iterations (plusContext cacheSystem) 1 (plusInitialState cacheSystem)).map
        (fun s => s.heap.map (fun r => (r.coordinates,
          (List.range 3).map (fun i => DDM.computeDiscrepancy (plusContext cacheSystem) r i))))
      = some [([2152455, 1054527, 0, -654571180, -73403638], [0, -654571180, -73403638]),
          ([-1609, 1173, 3598946, 726664, 0], [3598946, 726664, 0]),
          ([-48644181, 198869349, -439260810, 0, -145588652], [634481014, 0, 928153172])]
    ∧ (plusContext cacheSystem).usePlusPlus = true
    ∧ (plusContext cacheSystem).dim = 2 := by
  decide

